import Mathlib

/-!
# Event ingestion, classification and dial indexing (`DataDispenser`)

Shallow embedding of `src/src/DatasetManager/src/DataDispenser.cpp`.

Conventions of the embedding:

* a ROOT `double` is an exact rational (`Rat`); only comparisons are performed on it;
* a formula bound to the record source (`TTreeFormula`, `LeafForm`) is the function giving its
  value at every entry index; an empty formula string is `none`;
* a `LogThrow` is an `Except.error`; an access past the end of a `std::vector` and the lookup of
  a variable the event does not hold are errors too (`Fatal.outOfRange`, `Fatal.varNotFound`);
* loops are folds over `List.range`, a `break` is the end of a structural recursion.
-/

namespace DataDispenser

/-! ## Errors -/

/-- Ways in which the pipeline stops. -/
inductive Fatal where
  -- LogThrowIf(treeChain.GetEntries() == 0, "TChain is empty.")
  | tchainEmpty
  -- LogThrow("Negative nominal weight")
  | negativeNominalWeight
  -- LogThrow("DEV ERROR: not binned, not event-by-event?") in preAllocateMemory
  | devErrorNotBinned
  -- LogThrow("neither an event by event dial, nor a binned dial") in fillFunction
  | neitherEventByEventNorBinned
  -- a variable name or index the event buffer does not hold
  | varNotFound
  -- a sample event list indexed past its end
  | eventSlotOutOfRange
  -- an event-dial cache entry past the end of the cache
  | cacheEntryOutOfRange
  -- a dial slot past the end of the dial list of a cache entry
  | dialSlotOutOfRange
  -- any other list indexed past its end
  | outOfRange
  -- LogThrowIf(_parameters_.iThrow==-1, "<I_TOY> not set.") in parseStringParameters
  | toyIndexNotSet
deriving DecidableEq, Repr

/-! ## Generic helpers -/

/-- The `std::vector::resize(n, v)` operation: truncate, or pad with copies of `v`. -/
def resize {α : Type} (l : List α) (n : Nat) (v : α) : List α :=
  l.take n ++ List.replicate (n - l.length) v

/-- The `std::find_if` algorithm with a predicate that may throw: position of the first element satisfying
the predicate, `none` for the end iterator. -/
def findIf {α : Type} (p : α → Except Fatal Bool) : List α → Except Fatal (Option Nat)
  | [] => .ok none
  | a :: rest =>
    match p a with
    | .error e => .error e
    | .ok true => .ok (some 0)
    | .ok false =>
      match findIf p rest with
      | .error e => .error e
      | .ok none => .ok none
      | .ok (some i) => .ok (some (i + 1))

/-- A loop whose body may throw, collecting one result per element. -/
def mapExcept {α β : Type} (f : α → Except Fatal β) : List α → Except Fatal (List β)
  | [] => .ok []
  | a :: rest =>
    match f a with
    | .error e => .error e
    | .ok b =>
      match mapExcept f rest with
      | .error e => .error e
      | .ok bs => .ok (b :: bs)

/-- A loop whose body may throw, threading a state through the elements. -/
def foldlExcept {σ α : Type} (f : σ → α → Except Fatal σ) : σ → List α → Except Fatal σ
  | s, [] => .ok s
  | s, a :: rest =>
    match f s a with
    | .error e => .error e
    | .ok s1 => foldlExcept f s1 rest

/-- The `GenericToolbox::findElementIndex` helper: position of the first occurrence, `-1` when absent. -/
def findElementIndex (name : String) : List String → Int
  | [] => -1
  | a :: rest =>
    if a = name then 0
    else
      let i := findElementIndex name rest
      if i < 0 then -1 else i + 1

/-! ## Record source -/

/-- A `TTreeFormula` attached to the chain: its value on every entry. -/
abbrev TreeFormula := Nat → Rat

/-- An object held by a leaf: a plain object (identified by a number) or a `TClonesArray` of
such objects. -/
inductive TObject where
  | plain (id : Nat)
  | clonesArray (elems : List Nat)
deriving DecidableEq, Repr

/-- One variable slot of an event: its value as a double and, for object leaves, the object. -/
structure AnyType where
  asDouble : Rat
  object : Option TObject := none
deriving DecidableEq, Repr

/-- A leaf expression of the chain: the content it yields on every entry. -/
abbrev LeafForm := Nat → AnyType

/-! ## Events -/

/-- Modelled from the spec: the class `PhysicsEvent` is not part of the available sources.
"Event: a record holding a base weight, a nominal weight, a sample index, a bin index (or
unbound), a source-entry identifier, and a named ordered list of double-precision variable
values" (§3). A fresh event has unit weights and unbound (`-1`) indices. -/
structure PhysicsEvent where
  dataSetIndex : Int := -1
  entryIndex : Int := -1
  sampleIndex : Int := -1
  sampleBinIndex : Int := -1
  baseWeight : Rat := 1
  nominalWeight : Rat := 1
  eventWeight : Rat := 1
  commonVarNameList : List String := []
  varHolderList : List AnyType := []
deriving DecidableEq, Repr

namespace PhysicsEvent

/-- The call `allocateMemory(leafFormList)`: one holder per leaf form. -/
def allocateMemory (ev : PhysicsEvent) (leafFormList : List LeafForm) : PhysicsEvent :=
  { ev with varHolderList := leafFormList.map (fun _ => ({ asDouble := 0 } : AnyType)) }

/-- The call `copyData(leafFormList)` once the chain sits on entry `iEntry`. -/
def copyData (ev : PhysicsEvent) (leafFormList : List LeafForm) (iEntry : Nat) : PhysicsEvent :=
  { ev with varHolderList := leafFormList.map (fun lf => lf iEntry) }

/-- The call `getVarAsDouble(int index)`. -/
def getVarAsDoubleAt (ev : PhysicsEvent) (index : Int) : Except Fatal Rat :=
  if index < 0 then .error .varNotFound
  else
    match ev.varHolderList[index.toNat]? with
    | some v => .ok v.asDouble
    | none => .error .varNotFound

/-- The call `getVarAsDouble(const std::string&)`: the value of the named variable. -/
def getVarAsDouble (ev : PhysicsEvent) (name : String) : Except Fatal Rat :=
  ev.getVarAsDoubleAt (findElementIndex name ev.commonVarNameList)

/-- The call `getVariableAddress(name)` read as an object pointer. -/
def getVariableObject (ev : PhysicsEvent) (name : String) : Except Fatal TObject :=
  let index := findElementIndex name ev.commonVarNameList
  if index < 0 then .error .varNotFound
  else
    match ev.varHolderList[index.toNat]? with
    | some { asDouble := _, object := some o } => .ok o
    | _ => .error .varNotFound

/-- The call `setVariable(value, name)`: overwrite the named variable (nothing when the name is absent). -/
def setVariable (ev : PhysicsEvent) (value : Rat) (name : String) : PhysicsEvent :=
  let index := findElementIndex name ev.commonVarNameList
  if index < 0 then ev
  else { ev with varHolderList := ev.varHolderList.set index.toNat { asDouble := value } }

/-- The call `resetEventWeight()`: the event weight restarts from the base weight. -/
def resetEventWeight (ev : PhysicsEvent) : PhysicsEvent :=
  { ev with eventWeight := ev.baseWeight }

end PhysicsEvent

/-! ## Bins -/

/-- Modelled from the spec: the class `DataBin` is not part of the available sources.
"An ordered set of named variables each with an inclusive/exclusive edge pair; a degenerate bin
(no variables) always matches" (§3). Each item is (variable name, (low, high));
`eventVarIndexCache` is the list handed to `setEventVarIndexCache`. -/
structure DataBin where
  edges : List (String × (Rat × Rat)) := []
  eventVarIndexCache : List Int := []
deriving DecidableEq, Repr

namespace DataBin

/-- Names of the variables of the bin, in order. -/
def getVariableNameList (b : DataBin) : List String := b.edges.map (fun e => e.1)

/-- Edge pairs of the bin, in order. -/
def getEdgesList (b : DataBin) : List (Rat × Rat) := b.edges.map (fun e => e.2)

/-- Modelled from the spec: the body of `DataBin::isBetweenEdges` is not part of the available
sources. "Test `low <= value < high`" (§4.3). -/
def isBetweenEdges (edges : Rat × Rat) (value : Rat) : Bool :=
  decide (edges.1 ≤ value) && decide (value < edges.2)

end DataBin

/-- The lambda `isBinValid` of `fillFunction`, from variable `iVar` on: every variable of the
bin is looked up by name in the indexing buffer; the first one outside its edges ends the loop. -/
def isBinValidFrom (buf : PhysicsEvent) : List (String × (Rat × Rat)) → Except Fatal Bool
  | [] => .ok true
  | (name, e) :: rest =>
    match buf.getVarAsDouble name with
    | .error err => .error err
    | .ok v => if !DataBin.isBetweenEdges e v then .ok false else isBinValidFrom buf rest

/-- The lambda `isBinValid` of `fillFunction`. -/
def isBinValid (buf : PhysicsEvent) (b : DataBin) : Except Fatal Bool :=
  isBinValidFrom buf b.edges

/-- The lambda `isDial2Valid` of `fillFunction`, from edge `iVar` on: edge `iVar` is tested on
the variable at position `getEventVarIndexCache()[iVar]` of the indexing buffer. -/
def isDial2ValidFrom (buf : PhysicsEvent) : List (Rat × Rat) → List Int → Except Fatal Bool
  | [], _ => .ok true
  | _ :: _, [] => .error .outOfRange
  | e :: rest, i :: cache =>
    match buf.getVarAsDoubleAt i with
    | .error err => .error err
    | .ok v => if !DataBin.isBetweenEdges e v then .ok false else isDial2ValidFrom buf rest cache

/-- The lambda `isDial2Valid` of `fillFunction`. -/
def isDial2Valid (buf : PhysicsEvent) (d : DataBin) : Except Fatal Bool :=
  isDial2ValidFrom buf d.getEdgesList d.eventVarIndexCache

/-! ## Samples -/

/-- Modelled from the spec: the class `SampleElement` is not part of the available sources.
"A growable event container with a reserve/shrink contract" (§6). -/
structure SampleElement where
  eventList : List PhysicsEvent := []
deriving DecidableEq, Repr

namespace SampleElement

/-- Modelled from the spec: "reserve, for every sample's target container, exactly the counted
number of slots using a placeholder event as a size/layout template" (§4.5). -/
def reserveEventMemory (c : SampleElement) (nEvents : Nat) (eventBuffer : PhysicsEvent) :
    SampleElement :=
  { c with eventList := resize c.eventList (c.eventList.length + nEvents) eventBuffer }

/-- Modelled from the spec: "each sample's storage container is shrunk to its actual filled size"
(§4.7). -/
def shrinkEventList (c : SampleElement) (newTotalSize : Nat) : SampleElement :=
  { c with eventList := c.eventList.take newTotalSize }

end SampleElement

/-- Modelled from the spec: the class `FitSample` is not part of the available sources.
"Sample: a named classification target with a selection predicate (optional),
a binning definition, and two event containers" (§3). `selectionCuts` is the evaluator of the selection
string once the leaf overrides are applied (`none` for an empty string); `varSelectionFormula`
is the per-sample formula over the indexing buffer (`none` for an empty string). -/
structure FitSample where
  index : Int
  selectionCuts : Option TreeFormula := none
  varSelectionFormula : Option (PhysicsEvent → Rat) := none
  binning : List DataBin := []
  mcContainer : SampleElement := {}
  dataContainer : SampleElement := {}

namespace FitSample

/-- The container targeted by the load: `getMcContainer()` when `useMcContainer`, else
`getDataContainer()`. -/
def container (s : FitSample) (useMcContainer : Bool) : SampleElement :=
  if useMcContainer then s.mcContainer else s.dataContainer

/-- Write access to the targeted container. -/
def setContainer (s : FitSample) (useMcContainer : Bool) (c : SampleElement) : FitSample :=
  if useMcContainer then { s with mcContainer := c } else { s with dataContainer := c }

end FitSample

/-! ## Dial collections and the event-dial cache -/

/-- A correction built by the dial factory: the object it was built from and its
extrapolation flag. -/
structure DialBase where
  builtFrom : Option Nat
  allowExtrapolation : Bool := false
deriving DecidableEq, Repr

/-- Modelled from the spec: the class `DialCollection` is not part of the available sources.
"Dial Collection: a named group of correction sources, either binned (one correction per bin,
selected like a DataBin set) or per-event (one correction built directly from a per-event
field). Each collection has an optional apply condition" (§3). `makeDial` stands for
`DialBaseFactory::makeDial` on the collection's title, type and subtype: it receives the object
pointer (`none` for a null pointer) and yields the correction, or `none` for a null result.
`dialFreeSlot` is the counter behind `getNextDialFreeSlot()`; `applyConditionParNames` lists the
names `GetParName(iPar)` of the parameters of the apply-condition formula. -/
structure DialCollection where
  index : Int
  enabled : Bool := true
  binned : Bool := true
  applyConditionFormula : Option (PhysicsEvent → Rat) := none
  dialBinSet : List DataBin := []
  globalDialLeafName : String := ""
  makeDial : Option Nat → Option DialBase := fun _ => none
  allowDialExtrapolation : Bool := false
  dialBaseList : List (Option DialBase) := []
  dialFreeSlot : Nat := 0
  applyConditionParNames : List String := []

/-- One (collection index, interface index) pair of a cache entry; `-1` is `std::size_t(-1)`,
the value of a slot that was never written. -/
structure DialIndexEntry where
  collectionIndex : Int := -1
  interfaceIndex : Int := -1
deriving DecidableEq, Repr

/-- Modelled from the spec: the class `EventDialCache` is not part of the available sources.
"Event-Dial Cache Entry: for a given (sample index, event index), a fixed-capacity list of
(collection index, slot index) pairs" (§3). -/
structure IndexedEntry where
  sampleIndex : Int := -1
  eventIndex : Int := -1
  dials : List DialIndexEntry := []
deriving DecidableEq, Repr

/-- Modelled from the spec: the class `EventDialCache` is not part of the available sources.
The entries, "allocated once as a flat pre-sized structure" (§4.5), and the position of the next
entry to hand out. -/
structure EventDialCache where
  indexedCache : List IndexedEntry := []
  fillIndex : Nat := 0
deriving DecidableEq, Repr

namespace EventDialCache

/-- Modelled from the spec: "reserve Event-Dial Cache capacity for the total entry count times
the maximum possible per-event dial count; allocate this once as a flat pre-sized structure"
(§4.5). -/
def allocateCacheEntries (c : EventDialCache) (nEvent nDialsMaxPerEvent : Nat) : EventDialCache :=
  { c with indexedCache :=
      c.indexedCache ++ List.replicate nEvent { dials := List.replicate nDialsMaxPerEvent {} } }

/-- Modelled from the spec: "claiming a cache slot": the position of the next entry is handed
out and the counter moves on (§4.6). -/
def fetchNextCacheEntry (c : EventDialCache) : Nat × EventDialCache :=
  (c.fillIndex, { c with fillIndex := c.fillIndex + 1 })

end EventDialCache

/-! ## Variable transforms -/

/-- Modelled from the spec: the class `EventVarTransformLib` is not part of the available
sources. "Variable Transform: pure function from a subset of resolved variables to one named
output variable" (§3); `outputCache` is "the cached value produced during indexing" (§4.2) and
`nbEvaluations` the "evaluation counter" of §8: the number of times the function was computed. -/
structure EventVarTransform where
  index : Int := 0
  outputVariableName : String
  requestedVars : List String := []
  eval : PhysicsEvent → Rat
  outputCache : Rat := 0
  nbEvaluations : Nat := 0

namespace EventVarTransform

/-- The call `evalAndStore(event)`: compute the output on the event (one more evaluation), keep
it, write it to the event under the output name. -/
def evalAndStore (t : EventVarTransform) (ev : PhysicsEvent) : EventVarTransform × PhysicsEvent :=
  let out := t.eval ev
  ({ t with outputCache := out, nbEvaluations := t.nbEvaluations + 1 },
    ev.setVariable out t.outputVariableName)

/-- The call `storeCachedOutput(event)`: write the kept output to the event. -/
def storeCachedOutput (t : EventVarTransform) (ev : PhysicsEvent) : PhysicsEvent :=
  ev.setVariable t.outputCache t.outputVariableName

end EventVarTransform

/-! ## The dispenser -/

/-- What the dispenser reads and never writes during a load: `_parameters_`, the owner's flags,
the worker pool, the chain and the results of `parseStringParameters` and
`fetchRequestedLeaves`. `leafForm` is the chain's reading of a variable name (the override
dictionary applied); `getThreadBoundIndices` is
`GenericToolbox::ParallelWorker::getThreadBoundIndices(iThread, nThreads, nTotal)`. -/
structure Dispenser where
  nEntries : Nat
  nThreads : Nat := 1
  getThreadBoundIndices : Nat → Nat → Nat → Nat × Nat
  devSingleThreadEventSelection : Bool := false
  devSingleThreadEventLoaderAndIndexer : Bool := false
  dataSetIndex : Int := 0
  useMcContainer : Bool := false
  selectionCutFormula : Option TreeFormula := none
  nominalWeightFormula : Option TreeFormula := none
  dialIndexFormula : Option TreeFormula := none
  leafForm : String → LeafForm := fun _ _ => { asDouble := 0 }
  varsRequestedForIndexing : List String := []
  varsRequestedForStorage : List String := []
  eventVarTransformList : List EventVarTransform := []

/-- The members of `_cache_` written by the load, with the event-dial cache
(`_eventDialCacheRef_`, `none` for a null pointer). The container behind
`sampleEventListPtrToFill[iSample]` is the targeted container of `samplesToFillList[iSample]`. -/
structure Cache where
  samplesToFillList : List FitSample := []
  sampleNbOfEvents : List Nat := []
  sampleIndexOffsetList : List Nat := []
  eventIsInSamplesList : List (List Bool) := []
  dialCollectionsRefList : List DialCollection := []
  eventDialCacheRef : Option EventDialCache := none

namespace Cache

/-- The call `_cache_.clear()` at the start of `load`, followed by `buildSampleToFillList` and the
selection of the dial collections: the sample list and the collection list are taken as already
selected, the lists computed by the load are emptied. -/
def clear (c : Cache) : Cache :=
  { c with sampleNbOfEvents := [], sampleIndexOffsetList := [], eventIsInSamplesList := [] }

end Cache

/-! ## Selection pass (`doEventSelection`) -/

/-- The two buffers a selection thread owns: `perThreadEventIsInSamplesList[iThread]` and
`perThreadSampleNbOfEvents[iThread]`. -/
structure SelectionBuffers where
  eventIsInSamplesList : List (List Bool)
  sampleNbOfEvents : List Nat
deriving DecidableEq, Repr

/-- The assignment `table[iEntry][iSample] = false`. -/
def setFalse (table : List (List Bool)) (iEntry iSample : Nat) : List (List Bool) :=
  table.set iEntry ((table.getD iEntry []).set iSample false)

/-- The statement `counts[iSample] += n`. -/
def addCount (counts : List Nat) (iSample n : Nat) : List Nat :=
  counts.set iSample (counts.getD iSample 0 + n)

/-- The list `sampleCutIdxList`: for every sample to fill, its position and its selection formula
(`none` stands for the index `-1` of a sample without selection cut). -/
def sampleCutIdxList (samples : List FitSample) : List (Nat × Option TreeFormula) :=
  (List.range samples.length).map (fun iSample =>
    (iSample, match samples[iSample]? with
      | some sample => sample.selectionCuts
      | none => none))

/-- One turn of the loop over `sampleCutIdxList` for the entry `iEntry`. -/
def selectSample (iEntry : Nat) (b : SelectionBuffers) (sampleCutIdx : Nat × Option TreeFormula) :
    SelectionBuffers :=
  match sampleCutIdx.2 with
  | none => { b with sampleNbOfEvents := addCount b.sampleNbOfEvents sampleCutIdx.1 1 }
  | some cut =>
    if cut iEntry = 0 then
      { b with eventIsInSamplesList := setFalse b.eventIsInSamplesList iEntry sampleCutIdx.1 }
    else
      { b with sampleNbOfEvents := addCount b.sampleNbOfEvents sampleCutIdx.1 1 }

/-- One turn of the loop over the entries of a selection thread: the global cut first (a failing
entry is marked absent from every sample and the turn ends), then every sample cut. -/
def selectEntry (selectionCut : Option TreeFormula) (cuts : List (Nat × Option TreeFormula))
    (nSamples : Nat) (b : SelectionBuffers) (iEntry : Nat) : SelectionBuffers :=
  match selectionCut with
  | some cut =>
    if cut iEntry = 0 then
      let table := b.eventIsInSamplesList
      { b with eventIsInSamplesList :=
          List.foldl (fun t iSample => setFalse t iEntry iSample) table (List.range nSamples) }
    else cuts.foldl (selectSample iEntry) b
  | none => cuts.foldl (selectSample iEntry) b

/-- The lambda `selectionFct(iThread)` of `doEventSelection`, run by one of `nThreads` workers. -/
def selectionFct (d : Dispenser) (c : Cache) (nThreads iThread : Nat) :
    Except Fatal SelectionBuffers :=
  if d.nEntries = 0 then .error .tchainEmpty
  else
    let nSamples := c.samplesToFillList.length
    let bounds := d.getThreadBoundIndices iThread nThreads d.nEntries
    let buffers : SelectionBuffers :=
      { eventIsInSamplesList := resize [] d.nEntries (List.replicate nSamples true)
        sampleNbOfEvents := resize [] nSamples 0 }
    .ok ((List.range' bounds.1 (bounds.2 - bounds.1)).foldl
      (selectEntry d.selectionCutFormula (sampleCutIdxList c.samplesToFillList) nSamples) buffers)

/-- One turn of the loop "Merging thread results": the buffers of one thread are folded into
`_cache_.eventIsInSamplesList` and `_cache_.sampleNbOfEvents`. -/
def mergeThread (nSamples : Nat) (acc : SelectionBuffers) (th : SelectionBuffers) :
    SelectionBuffers :=
  let table :=
    if acc.eventIsInSamplesList.isEmpty then
      resize acc.eventIsInSamplesList th.eventIsInSamplesList.length (List.replicate nSamples true)
    else acc.eventIsInSamplesList
  { eventIsInSamplesList :=
      (List.range th.eventIsInSamplesList.length).foldl
        (fun t iEntry =>
          (List.range nSamples).foldl
            (fun t iSample =>
              if !((th.eventIsInSamplesList.getD iEntry []).getD iSample true) then
                setFalse t iEntry iSample
              else t)
            t)
        table
    sampleNbOfEvents :=
      (List.range nSamples).foldl
        (fun counts iSample => addCount counts iSample (th.sampleNbOfEvents.getD iSample 0))
        acc.sampleNbOfEvents }

/-- The number of workers of the selection pass: one in the single-thread mode
(`isDevSingleThreadEventSelection`), else that of the worker pool. -/
def selectionThreads (d : Dispenser) : Nat :=
  if d.devSingleThreadEventSelection then 1 else d.nThreads

/-- The method `DataDispenser::doEventSelection`: every worker runs `selectionFct` on its own
buffers (one worker in the single-thread mode), then the buffers are merged. -/
def doEventSelection (d : Dispenser) (c : Cache) : Except Fatal Cache :=
  let nThreads := selectionThreads d
  match mapExcept (selectionFct d c nThreads) (List.range nThreads) with
  | .error e => .error e
  | .ok perThread =>
    let nSamples := c.samplesToFillList.length
    let merged := perThread.foldl (mergeThread nSamples)
      { eventIsInSamplesList := c.eventIsInSamplesList
        sampleNbOfEvents := resize c.sampleNbOfEvents nSamples 0 }
    .ok { c with eventIsInSamplesList := merged.eventIsInSamplesList,
                 sampleNbOfEvents := merged.sampleNbOfEvents }

/-- The per-thread ranges `bounds 0, ..., bounds (nThreads - 1)` cut `[0, nTotal)` into
contiguous ranges, in order. -/
def ContiguousRanges (bounds : Nat → Nat × Nat) (nThreads nTotal : Nat) : Prop :=
  (bounds 0).1 = 0 ∧ (∀ i, i < nThreads → (bounds i).1 ≤ (bounds i).2) ∧
    (∀ i, i < nThreads - 1 → (bounds (i + 1)).1 = (bounds i).2) ∧
    (bounds (nThreads - 1)).2 = nTotal

instance (bounds : Nat → Nat × Nat) (nThreads nTotal : Nat) :
    Decidable (ContiguousRanges bounds nThreads nTotal) := by
  unfold ContiguousRanges; infer_instance

/-- Modelled from the spec: `GenericToolbox::ParallelWorker::getThreadBoundIndices` belongs to an
external library. "Ranges partitioned by index bounds, total entries divided as evenly as
possible across threads" (§4.4). -/
def evenThreadBounds (iThread nThreads nTotal : Nat) : Nat × Nat :=
  let nPerThread := nTotal / nThreads
  let nExtra := nTotal % nThreads
  let start := nPerThread * iThread + min iThread nExtra
  (start, start + nPerThread + (if iThread < nExtra then 1 else 0))

/-- A selection formula lets the entry through: there is no formula, or its value on the entry
is not zero. -/
def cutPasses (cut : Option TreeFormula) (iEntry : Nat) : Bool :=
  match cut with
  | none => true
  | some f => decide (f iEntry ≠ 0)

/-- The outcome of the selection as the claims word it: the entry passes the global cut (or there
is none) and the cut of the sample (or the sample has none). -/
def isSelected (d : Dispenser) (s : FitSample) (iEntry : Nat) : Bool :=
  cutPasses d.selectionCutFormula iEntry && cutPasses s.selectionCuts iEntry

/-- The outcome of the selection for the sample at position `iSample` of a list. -/
def isSelectedAt (d : Dispenser) (samples : List FitSample) (iEntry iSample : Nat) : Bool :=
  match samples[iSample]? with
  | some s => isSelected d s iEntry
  | none => cutPasses d.selectionCutFormula iEntry

/-- The table with `n` rows and `m` columns whose cell `(e, s)` is `F e s`. -/
def tabulate2 (n m : Nat) (F : Nat → Nat → Bool) : List (List Bool) :=
  (List.range n).map (fun e => (List.range m).map (F e))

/-- The membership table as the claims word it: one row per source entry, one column per sample
to fill, each cell telling whether the entry passes the global cut and the cut of the sample. -/
def selectedTable (d : Dispenser) (samples : List FitSample) : List (List Bool) :=
  tabulate2 d.nEntries samples.length (fun e s => isSelectedAt d samples e s)

/-- The per-sample counts as the claims word them: the number of source entries that pass the
global cut and the cut of the sample. -/
def selectedCounts (d : Dispenser) (samples : List FitSample) : List Nat :=
  (List.range samples.length).map (fun s =>
    (List.range d.nEntries).countP (fun e => isSelectedAt d samples e s))

/-- The entry at which thread `k` starts when the ranges are contiguous: the end of the range of
thread `k - 1`, and `0` for the first thread. -/
def rangeStart (bounds : Nat → Nat × Nat) : Nat → Nat
  | 0 => 0
  | k + 1 => (bounds k).2

/-! ## Pre-allocation (`preAllocateMemory`) -/

/-- The list `leafFormIndexingList` (and the leaf expressions of `preAllocateMemory`): one leaf
form per variable requested for indexing. -/
def leafFormIndexingList (d : Dispenser) : List LeafForm :=
  d.varsRequestedForIndexing.map d.leafForm

/-- The list `leafFormStorageList`: one leaf form per variable requested for storage. -/
def leafFormStorageList (d : Dispenser) : List LeafForm :=
  d.varsRequestedForStorage.map d.leafForm

/-- The event `eventPlaceholder` of `preAllocateMemory`. -/
def eventPlaceholder (d : Dispenser) : PhysicsEvent :=
  ({ dataSetIndex := d.dataSetIndex, commonVarNameList := d.varsRequestedForStorage } :
    PhysicsEvent).allocateMemory (leafFormStorageList d)

/-- One turn of the loop "Reserving event memory": the offset of the sample is the present size
of its container, which then grows by the counted number of events. A position without a
sample is left alone. -/
def reserveSample (d : Dispenser) (c : Cache) (iSample : Nat) : Cache :=
  match c.samplesToFillList[iSample]? with
  | none => c
  | some sample =>
    let container := sample.container d.useMcContainer
    let reserved :=
      container.reserveEventMemory (c.sampleNbOfEvents.getD iSample 0) (eventPlaceholder d)
    { c with
      sampleIndexOffsetList := c.sampleIndexOffsetList.set iSample container.eventList.length,
      samplesToFillList :=
        c.samplesToFillList.set iSample (sample.setContainer d.useMcContainer reserved) }

/-- One turn of the loop "Creating slots for event-by-event dials": a binned collection gets the
variable positions of its bins, a per-event collection gets one empty slot per entry, any other
collection is a fatal error. -/
def preAllocateDialCollection (d : Dispenser) (dc : DialCollection) : Except Fatal DialCollection :=
  if dc.binned then
    .ok { dc with dialBinSet := dc.dialBinSet.map (fun bin =>
      { bin with eventVarIndexCache :=
          bin.getVariableNameList.map (fun var => findElementIndex var d.varsRequestedForIndexing) }) }
  else if dc.globalDialLeafName ≠ "" then
    .ok { dc with dialBaseList := resize [] d.nEntries none }
  else .error .devErrorNotBinned

/-- The method `DataDispenser::preAllocateMemory`. -/
def preAllocateMemory (d : Dispenser) (c : Cache) : Except Fatal Cache :=
  let c0 : Cache :=
    { c with sampleIndexOffsetList := resize c.sampleIndexOffsetList c.samplesToFillList.length 0 }
  let c1 := (List.range c0.sampleNbOfEvents.length).foldl (reserveSample d) c0
  match c1.eventDialCacheRef with
  | none => .ok c1
  | some cache =>
    if c1.dialCollectionsRefList.isEmpty then
      .ok { c1 with eventDialCacheRef := some (cache.allocateCacheEntries d.nEntries 0) }
    else
      match mapExcept (preAllocateDialCollection d) c1.dialCollectionsRefList with
      | .error e => .error e
      | .ok collections =>
        .ok { c1 with
          dialCollectionsRefList := collections,
          eventDialCacheRef := some (cache.allocateCacheEntries d.nEntries collections.length) }

/-! ## Fill pass (`fillFunction`, `readAndFill`) -/

/-- What a fill thread owns: the indexing buffer and its copy of the transform list. -/
structure ThreadLocals where
  eventIndexingBuffer : PhysicsEvent
  eventVarTransformList : List EventVarTransform

/-- The list `varTransformForIndexingList`, as positions in the thread's transform list: the
transforms whose output is requested for indexing. -/
def varTransformForIndexingList (d : Dispenser) (transforms : List EventVarTransform) : List Nat :=
  (List.range transforms.length).filter (fun i =>
    match transforms[i]? with
    | some t => d.varsRequestedForIndexing.contains t.outputVariableName
    | none => false)

/-- The list `varTransformForStorageList`, as positions in the thread's transform list: the
transforms whose output is requested for storage. -/
def varTransformForStorageList (d : Dispenser) (transforms : List EventVarTransform) : List Nat :=
  (List.range transforms.length).filter (fun i =>
    match transforms[i]? with
    | some t => d.varsRequestedForStorage.contains t.outputVariableName
    | none => false)

/-- The loop "Propagate transformations for indexing": `evalAndStore` on the indexing buffer for
every transform of `varTransformForIndexingList`, in order. -/
def propagateIndexingTransforms (indices : List Nat) (tl : ThreadLocals) : ThreadLocals :=
  indices.foldl (fun tl i =>
    match tl.eventVarTransformList[i]? with
    | none => tl
    | some t =>
      let r := t.evalAndStore tl.eventIndexingBuffer
      { eventIndexingBuffer := r.2, eventVarTransformList := tl.eventVarTransformList.set i r.1 })
    tl

/-- The loop "Propagate transformation for storage": `storeCachedOutput` on the stored event for
every transform of `varTransformForStorageList`, in order. -/
def propagateStorageTransforms (indices : List Nat) (transforms : List EventVarTransform)
    (ev : PhysicsEvent) : PhysicsEvent :=
  indices.foldl (fun ev i =>
    match transforms[i]? with
    | none => ev
    | some t => t.storeCachedOutput ev)
    ev

/-- The test `evalFormula(formula) == 0` on an optional formula over the event (a null formula
never fails). -/
def formulaIsZero (formula : Option (PhysicsEvent → Rat)) (ev : PhysicsEvent) : Bool :=
  match formula with
  | some f => decide (f ev = 0)
  | none => false

/-- The conversion `int(dialIndexTreeFormula->EvalInstance())`, `0` without a formula. -/
def dialArrayIndex (d : Dispenser) (iEntry : Nat) : Int :=
  match d.dialIndexFormula with
  | none => 0
  | some f => Int.tdiv (f iEntry).num (f iEntry).den

/-- The element `TClonesArray::At(index)`, a null pointer outside the array. -/
def clonesArrayAt (elems : List Nat) (index : Int) : Option Nat :=
  if index < 0 then none else elems[index.toNat]?

/-- The variables of the dial loop for one stored event: its cache entry and `eventDialOffset`. -/
structure DialIndexing where
  entry : IndexedEntry
  eventDialOffset : Nat
deriving DecidableEq, Repr

/-- The three statements writing `dials[eventDialOffset]` and moving `eventDialOffset` on. -/
def writeDial (st : DialIndexing) (iCollection interfaceIndex : Int) : Except Fatal DialIndexing :=
  if st.eventDialOffset < st.entry.dials.length then
    let dial : DialIndexEntry := { collectionIndex := iCollection, interfaceIndex := interfaceIndex }
    let dials := st.entry.dials.set st.eventDialOffset dial
    .ok { entry := { st.entry with dials := dials }, eventDialOffset := st.eventDialOffset + 1 }
  else .error .dialSlotOutOfRange

/-- One turn of the loop over `dialCollectionsRefList` for a stored event. -/
def indexDialCollection (buf : PhysicsEvent) (arrayIndex : Int) (st : DialIndexing)
    (dc : DialCollection) : Except Fatal (DialIndexing × DialCollection) :=
  let iCollection := dc.index
  if !dc.enabled then .ok (st, dc)
  else if formulaIsZero dc.applyConditionFormula buf then .ok (st, dc)
  else if dc.binned then
    if dc.dialBaseList.length = 1 ∧ dc.dialBinSet.isEmpty then
      match writeDial st iCollection 0 with
      | .error e => .error e
      | .ok st1 => .ok (st1, dc)
    else
      match findIf (isDial2Valid buf) dc.dialBinSet with
      | .error e => .error e
      | .ok none => .ok (st, dc)
      | .ok (some iBin) =>
        match writeDial st iCollection iBin with
        | .error e => .error e
        | .ok st1 => .ok (st1, dc)
  else if dc.globalDialLeafName ≠ "" then
    match buf.getVariableObject dc.globalDialLeafName with
    | .error e => .error e
    | .ok obj =>
      let dialObjectPtr : Option Nat :=
        match obj with
        | .clonesArray elems => clonesArrayAt elems arrayIndex
        | .plain id => some id
      match dc.makeDial dialObjectPtr with
      | none => .ok (st, dc)
      | some dialBase =>
        let freeSlotDial := dc.dialFreeSlot
        if freeSlotDial < dc.dialBaseList.length then
          let stored : DialBase := { dialBase with allowExtrapolation := dc.allowDialExtrapolation }
          let dc1 : DialCollection :=
            { dc with
              dialFreeSlot := dc.dialFreeSlot + 1,
              dialBaseList := dc.dialBaseList.set freeSlotDial (some stored) }
          match writeDial st iCollection freeSlotDial with
          | .error e => .error e
          | .ok st1 => .ok (st1, dc1)
        else .error .outOfRange
  else .error .neitherEventByEventNorBinned

/-- The loop over `dialCollectionsRefList` for a stored event. -/
def indexDials (buf : PhysicsEvent) (arrayIndex : Int) :
    List DialCollection → DialIndexing → Except Fatal (DialIndexing × List DialCollection)
  | [], st => .ok (st, [])
  | dc :: rest, st =>
    match indexDialCollection buf arrayIndex st dc with
    | .error e => .error e
    | .ok (st1, dc1) =>
      match indexDials buf arrayIndex rest st1 with
      | .error e => .error e
      | .ok (st2, rest1) => .ok (st2, dc1 :: rest1)

/-- The event written at the claimed position: the slot is filled from the storage leaves, the
storage transforms put their cached outputs, then the entry index, the bin index and the weight
of the indexing buffer and the index of the sample are set. -/
def filledEvent (d : Dispenser) (iEntry : Nat) (sample : FitSample) (tl : ThreadLocals)
    (slot : PhysicsEvent) : PhysicsEvent :=
  let copied := slot.copyData (leafFormStorageList d) iEntry
  let stored := propagateStorageTransforms
    (varTransformForStorageList d tl.eventVarTransformList) tl.eventVarTransformList copied
  PhysicsEvent.resetEventWeight
    { stored with
      entryIndex := iEntry,
      sampleBinIndex := tl.eventIndexingBuffer.sampleBinIndex,
      baseWeight := tl.eventIndexingBuffer.baseWeight,
      nominalWeight := tl.eventIndexingBuffer.baseWeight,
      sampleIndex := sample.index }

/-- The part of the sample loop that follows a successful bin search: a position of the sample's
event list and a cache entry are claimed (under the mutex), the event at that position is
filled from the storage leaves and from the indexing buffer, then its dials are indexed. -/
def storeEvent (d : Dispenser) (iEntry iSample : Nat) (sample : FitSample) (tl : ThreadLocals)
    (c : Cache) : Except Fatal Cache :=
  match c.sampleIndexOffsetList[iSample]? with
  | none => .error .outOfRange
  | some sampleEventIndex =>
    let offsets := c.sampleIndexOffsetList.set iSample (sampleEventIndex + 1)
    let claimed := c.eventDialCacheRef.map (fun cache => cache.fetchNextCacheEntry)
    let container := sample.container d.useMcContainer
    match container.eventList[sampleEventIndex]? with
    | none => .error .eventSlotOutOfRange
    | some slot =>
      let ev := filledEvent d iEntry sample tl slot
      let filled : SampleElement :=
        { container with eventList := container.eventList.set sampleEventIndex ev }
      let c1 : Cache :=
        { c with
          sampleIndexOffsetList := offsets,
          samplesToFillList :=
            c.samplesToFillList.set iSample (sample.setContainer d.useMcContainer filled) }
      match claimed with
      | none => .ok c1
      | some (iCacheEntry, cache) =>
        match cache.indexedCache[iCacheEntry]? with
        | none => .error .cacheEntryOutOfRange
        | some entry =>
          let entry0 : IndexedEntry :=
            { entry with sampleIndex := sample.index, eventIndex := sampleEventIndex }
          match indexDials tl.eventIndexingBuffer (dialArrayIndex d iEntry)
              c.dialCollectionsRefList { entry := entry0, eventDialOffset := 0 } with
          | .error e => .error e
          | .ok (st, collections) =>
            let cache1 : EventDialCache :=
              { cache with indexedCache := cache.indexedCache.set iCacheEntry st.entry }
            .ok { c1 with dialCollectionsRefList := collections, eventDialCacheRef := some cache1 }

/-- The first statements of the sample loop body: the bin index of the indexing buffer is reset,
the buffer is filled from the indexing leaves of the entry, the indexing transforms are run. -/
def loadIndexingBuffer (d : Dispenser) (iEntry : Nat) (tl : ThreadLocals) : ThreadLocals :=
  let reset : PhysicsEvent := { tl.eventIndexingBuffer with sampleBinIndex := -1 }
  let tl0 : ThreadLocals :=
    { tl with eventIndexingBuffer := reset.copyData (leafFormIndexingList d) iEntry }
  propagateIndexingTransforms (varTransformForIndexingList d tl0.eventVarTransformList) tl0

/-- The statement `eventIndexingBuffer.setSampleBinIndex(iBin)` once the bin is found. -/
def setFoundBin (tl : ThreadLocals) (iBin : Nat) : ThreadLocals :=
  let found : PhysicsEvent := { tl.eventIndexingBuffer with sampleBinIndex := iBin }
  { tl with eventIndexingBuffer := found }

/-- The body of the sample loop for a sample the entry belongs to. The Boolean tells whether the
loop goes on with the next sample (`false` for the two `break` statements). -/
def fillSample (d : Dispenser) (iEntry iSample : Nat) (tl : ThreadLocals) (c : Cache) :
    Except Fatal (Bool × ThreadLocals × Cache) :=
  match c.samplesToFillList[iSample]? with
  | none => .error .outOfRange
  | some sample =>
    let tl1 := loadIndexingBuffer d iEntry tl
    if formulaIsZero sample.varSelectionFormula tl1.eventIndexingBuffer then .ok (false, tl1, c)
    else
      match findIf (isBinValid tl1.eventIndexingBuffer) sample.binning with
      | .error e => .error e
      | .ok none => .ok (false, tl1, c)
      | .ok (some iBin) =>
        let tl2 := setFoundBin tl1 iBin
        match storeEvent d iEntry iSample sample tl2 c with
        | .error e => .error e
        | .ok c1 => .ok (true, tl2, c1)

/-- The loop `for( iSample = 0 ; iSample < nSample ; iSample++ )` of `fillFunction` for the entry
`iEntry`, from the sample positions still to visit; `row` is `eventIsInSamplesList[iEntry]`. -/
def fillSamples (d : Dispenser) (iEntry : Nat) (row : List Bool) :
    List Nat → ThreadLocals × Cache → Except Fatal (ThreadLocals × Cache)
  | [], st => .ok st
  | iSample :: rest, st =>
    match row[iSample]? with
    | none => .error .outOfRange
    | some false => fillSamples d iEntry row rest st
    | some true =>
      match fillSample d iEntry iSample st.1 st.2 with
      | .error e => .error e
      | .ok (true, tl1, c1) => fillSamples d iEntry row rest (tl1, c1)
      | .ok (false, tl1, c1) => .ok (tl1, c1)

/-- One turn of the loop over the entries of a fill thread. -/
def fillEntry (d : Dispenser) (nSample : Nat) (st : ThreadLocals × Cache) (iEntry : Nat) :
    Except Fatal (ThreadLocals × Cache) :=
  match st.2.eventIsInSamplesList[iEntry]? with
  | none => .error .outOfRange
  | some row =>
    if !row.contains true then .ok st
    else
      match d.nominalWeightFormula with
      | none => fillSamples d iEntry row (List.range nSample) st
      | some weight =>
        let weighted : PhysicsEvent := { st.1.eventIndexingBuffer with baseWeight := weight iEntry }
        let tl1 : ThreadLocals := { st.1 with eventIndexingBuffer := weighted }
        if weight iEntry < 0 then .error .negativeNominalWeight
        else if weight iEntry = 0 then .ok (tl1, st.2)
        else fillSamples d iEntry row (List.range nSample) (tl1, st.2)

/-- The buffer `eventIndexingBuffer` as a fill thread builds it. -/
def eventIndexingBuffer (d : Dispenser) : PhysicsEvent :=
  ({ dataSetIndex := d.dataSetIndex, commonVarNameList := d.varsRequestedForIndexing } :
    PhysicsEvent).allocateMemory (leafFormIndexingList d)

/-- The method `DataDispenser::fillFunction(iThread)`; `-1` is the single-thread mode. -/
def fillFunction (d : Dispenser) (iThread : Int) (c : Cache) : Except Fatal Cache :=
  let nThreads := if iThread = -1 then 1 else d.nThreads
  let iThread0 := if iThread = -1 then 0 else iThread.toNat
  let tl : ThreadLocals :=
    { eventIndexingBuffer := eventIndexingBuffer d,
      eventVarTransformList := d.eventVarTransformList }
  let nSample := c.samplesToFillList.length
  let bounds := d.getThreadBoundIndices iThread0 nThreads d.nEntries
  match foldlExcept (fillEntry d nSample) (tl, c) (List.range' bounds.1 (bounds.2 - bounds.1)) with
  | .error e => .error e
  | .ok st => .ok st.2

/-- One turn of the loop "Shrinking lists". -/
def shrinkSample (d : Dispenser) (c : Cache) (iSample : Nat) : Cache :=
  match c.samplesToFillList[iSample]? with
  | none => c
  | some sample =>
    let shrunk := (sample.container d.useMcContainer).shrinkEventList
      (c.sampleIndexOffsetList.getD iSample 0)
    { c with
      samplesToFillList :=
        c.samplesToFillList.set iSample (sample.setContainer d.useMcContainer shrunk) }

/-- The first part of `readAndFill`, "Loading and indexing": every worker runs `fillFunction`, or
`fillFunction(-1)` is run in the single-thread mode. With several workers the threads are run one
after the other, in the order of their indices (one of the schedules the mutex allows). -/
def runFillThreads (d : Dispenser) (c : Cache) : Except Fatal Cache :=
  if !d.devSingleThreadEventLoaderAndIndexer && decide (d.nThreads > 1) then
    foldlExcept (fun c iThread => fillFunction d (Int.ofNat iThread) c) c (List.range d.nThreads)
  else fillFunction d (-1) c

/-- The method `DataDispenser::readAndFill`: the fill threads, then the loop "Shrinking lists". -/
def readAndFill (d : Dispenser) (c : Cache) : Except Fatal Cache :=
  match runFillThreads d c with
  | .error e => .error e
  | .ok c1 => .ok ((List.range c1.samplesToFillList.length).foldl (shrinkSample d) c1)

/-- The method `DataDispenser::load` for a dataset read from a tree: selection, pre-allocation,
fill. Nothing is done without a sample to fill. -/
def load (d : Dispenser) (c : Cache) : Except Fatal Cache :=
  let c0 := c.clear
  if c0.samplesToFillList.isEmpty then .ok c0
  else
    match doEventSelection d c0 with
    | .error e => .error e
    | .ok c1 =>
      match preAllocateMemory d c1 with
      | .error e => .error e
      | .ok c2 => readAndFill d c2

/-! ## String parameters (`parseStringParameters`) -/

/-- The search `std::string::find` at the start of a string: an occurrence of `sub` somewhere in
the characters. -/
def containsChars (sub : List Char) : List Char → Bool
  | [] => sub.isPrefixOf []
  | c :: rest => sub.isPrefixOf (c :: rest) || containsChars sub rest

/-- The helper `GenericToolbox::doesStringContainsSubstring`. -/
def doesStringContainsSubstring (str sub : String) : Bool :=
  containsChars sub.data str.data

/-- The loop of `GenericToolbox::replaceSubstringInsideInputString` on the characters still to
read: `skip` characters of an occurrence just replaced are passed over; an occurrence of
`lookFor` found at the reading position is replaced and the search resumes after it. -/
def replaceChars (lookFor replaceBy : List Char) : Nat → List Char → List Char
  | _, [] => []
  | skip + 1, _ :: rest => replaceChars lookFor replaceBy skip rest
  | 0, c :: rest =>
    if lookFor.isPrefixOf (c :: rest) then
      replaceBy ++ replaceChars lookFor replaceBy (lookFor.length - 1) rest
    else c :: replaceChars lookFor replaceBy 0 rest

/-- The helper `GenericToolbox::replaceSubstringInsideInputString`: every occurrence of
`lookFor`, found from left to right, is replaced by `replaceBy`. A leaf name is never empty: the
string is left alone for an empty `lookFor`. -/
def replaceSubstringInsideInputString (input lookFor replaceBy : String) : String :=
  if lookFor.data.isEmpty then input
  else String.mk (replaceChars lookFor.data replaceBy.data 0 input.data)

/-- The lookup `overrideLeafDict[key]` of a `std::map` given by its items in iteration order
(an empty string for an absent key). -/
def dictAt (dict : List (String × String)) (key : String) : String :=
  match dict.find? (fun item => item.1 == key) with
  | some item => item.2
  | none => ""

/-- The function `std::__unguarded_linear_insert` of the insertion sort: `val` moves towards the
front as long as it goes first of the element before it. The sorted range is given from its last
element to its first, and so is the result. -/
def unguardedLinearInsert {α : Type} (firstArgGoesFirst : α → α → Bool) (val : α) :
    List α → List α
  | [] => [val]
  | next :: before =>
    if firstArgGoesFirst val next then next :: unguardedLinearInsert firstArgGoesFirst val before
    else val :: next :: before

/-- One turn of `std::__insertion_sort`: an element that goes first of the first element of the
sorted range is moved to the front, any other is inserted from the back. The sorted range is given
from its last element to its first, and so is the result. -/
def insertionSortStep {α : Type} (firstArgGoesFirst : α → α → Bool) (sortedRev : List α)
    (val : α) : List α :=
  match sortedRev.getLast? with
  | none => [val]
  | some first =>
    if firstArgGoesFirst val first then sortedRev ++ [val]
    else unguardedLinearInsert firstArgGoesFirst val sortedRev

/-- The helper `GenericToolbox::sortVector(vector, firstArgGoesFirstFct)`, which belongs to an
external library and hands the comparator to `std::sort`. Modelled from the C++ standard library:
on the short lists met here (up to 16 elements) `std::sort` is the insertion sort
`std::__insertion_sort`. -/
def sortVector {α : Type} (firstArgGoesFirst : α → α → Bool) (vector : List α) : List α :=
  (vector.foldl (insertionSortStep firstArgGoesFirst) []).reverse

/-- The members of `_parameters_` and of the configuration read by `parseStringParameters`.
`overrideLeafDict` lists the items of the `std::map` in iteration order; `variablesTransform` is
the list under the configuration key of that name (`none` without the key). -/
structure Parameters where
  iThrow : Int := -1
  overrideLeafDict : List (String × String) := []
  dialIndexFormula : String := ""
  nominalWeightFormulaStr : String := ""
  selectionCutFormulaStr : String := ""
  variablesTransform : Option (List EventVarTransform) := none

/-- What `parseStringParameters` leaves in `_parameters_` and `_cache_`. -/
structure ParsedParameters where
  overrideLeafDict : List (String × String)
  varsToOverrideList : List String
  eventVarTransformList : List EventVarTransform
  dialIndexFormula : String
  nominalWeightFormulaStr : String
  selectionCutFormulaStr : String

/-- The lambda `replaceToyIndexFct` of `parseStringParameters`. -/
def replaceToyIndexFct (iThrow : Int) (formula : String) : Except Fatal String :=
  if doesStringContainsSubstring formula "<I_TOY>" then
    if iThrow = -1 then .error .toyIndexNotSet
    else .ok (replaceSubstringInsideInputString formula "<I_TOY>" (toString iThrow))
  else .ok formula

/-- The lambda `overrideLeavesNamesFct` of `parseStringParameters`: the names of
`varsToOverrideList` are replaced one after the other, in the order of the list. -/
def overrideLeavesNamesFct (varsToOverrideList : List String) (dict : List (String × String))
    (formula : String) : String :=
  varsToOverrideList.foldl
    (fun formula replaceEntry =>
      replaceSubstringInsideInputString formula replaceEntry (dictAt dict replaceEntry))
    formula

/-- The comparator handed to `sortVector` for the override names: the longest goes first. -/
def longestFirst (a b : String) : Bool := decide (a.length > b.length)

/-- The test `doesElementIsInVector(getOutputVariableName(), fetchRequestedVars())`: the
transform reads its own output. -/
def isSelfContained (t : EventVarTransform) : Bool :=
  t.requestedVars.contains t.outputVariableName

/-- The comparator handed to `sortVector` for the variable transforms. -/
def transformGoesFirst (a b : EventVarTransform) : Bool :=
  if a.requestedVars.contains a.outputVariableName then false
  else if b.requestedVars.contains a.outputVariableName then true
  else if a.index < b.index then true
  else false

/-- The loop reading the key `variablesTransform`, from the transform that gets `index` on:
`setIndex(index++)`. -/
def loadTransformsFrom (index : Nat) : List EventVarTransform → List EventVarTransform
  | [] => []
  | t :: rest => { t with index := (index : Int) } :: loadTransformsFrom (index + 1) rest

/-- The loop reading the key `variablesTransform`: every transform gets its position in the
declaration as index. -/
def loadTransforms (declared : List EventVarTransform) : List EventVarTransform :=
  loadTransformsFrom 0 declared

/-- The method `DataDispenser::parseStringParameters`. -/
def parseStringParameters (p : Parameters) : Except Fatal ParsedParameters :=
  match mapExcept (fun item => (replaceToyIndexFct p.iThrow item.2).map (fun v => (item.1, v)))
      p.overrideLeafDict with
  | .error e => .error e
  | .ok dict =>
    let varsToOverrideList := sortVector longestFirst (dict.map (fun item => item.1))
    let transforms :=
      match p.variablesTransform with
      | none => []
      | some declared => sortVector transformGoesFirst (loadTransforms declared)
    match replaceToyIndexFct p.iThrow p.dialIndexFormula with
    | .error e => .error e
    | .ok dialIndexFormula =>
      match replaceToyIndexFct p.iThrow p.nominalWeightFormulaStr with
      | .error e => .error e
      | .ok nominalWeightFormulaStr =>
        match replaceToyIndexFct p.iThrow p.selectionCutFormulaStr with
        | .error e => .error e
        | .ok selectionCutFormulaStr =>
          .ok { overrideLeafDict := dict,
                varsToOverrideList := varsToOverrideList,
                eventVarTransformList := transforms,
                dialIndexFormula :=
                  overrideLeavesNamesFct varsToOverrideList dict dialIndexFormula,
                nominalWeightFormulaStr :=
                  overrideLeavesNamesFct varsToOverrideList dict nominalWeightFormulaStr,
                selectionCutFormulaStr :=
                  overrideLeavesNamesFct varsToOverrideList dict selectionCutFormulaStr }

/-! ## Requested variables (`fetchRequestedLeaves`) -/

/-- The helper `GenericToolbox::addIfNotInVector`. -/
def addIfNotInVector (element : String) (vector : List String) : List String :=
  if vector.contains element then vector else vector ++ [element]

/-- The lists `_cache_.varsRequestedForIndexing` and `_cache_.varsRequestedForStorage`. -/
structure LeafRequests where
  varsRequestedForIndexing : List String := []
  varsRequestedForStorage : List String := []
deriving DecidableEq, Repr

namespace LeafRequests

/-- The call `_cache_.addVarRequestedForIndexing(var)`. -/
def addVarRequestedForIndexing (r : LeafRequests) (var : String) : LeafRequests :=
  { r with varsRequestedForIndexing := addIfNotInVector var r.varsRequestedForIndexing }

/-- Modelled from the spec: the body of `addVarRequestedForStorage` is not part of the available
sources. A variable requested for storage is read with the indexing leaves too: `fillFunction`
looks the storage leaves up among the leaf expressions added for indexing ("storage request",
§8 Scenario D). -/
def addVarRequestedForStorage (r : LeafRequests) (var : String) : LeafRequests :=
  ({ r with varsRequestedForStorage := addIfNotInVector var r.varsRequestedForStorage } :
    LeafRequests).addVarRequestedForIndexing var

end LeafRequests

/-- Modelled from the spec: the class `PlotGenerator` is not part of the available sources. It is
one of the "downstream consumers" whose requests go to storage (§4.5): `varsToPlot isData` stands
for `fetchListOfVarToPlot(isData)`, `splitVarNames` for `fetchListOfSplitVarNames()`. -/
structure PlotGenerator where
  varsToPlot : Bool → List String
  splitVarNames : List String := []

/-- The objects polled by `fetchRequestedLeaves`: the dial collections selected for the dataset,
the samples of the sample set, the plot generator (`none` for a null pointer), the additional
storage requests of the dataset and of the sample set, and the variable transforms. -/
structure LeafPolling where
  dialCollectionsRefList : List DialCollection := []
  fitSampleList : List FitSample := []
  plotGen : Option PlotGenerator := none
  useMcContainer : Bool := false
  additionalVarsStorage : List String := []
  additionalVariablesForStorage : List String := []
  eventVarTransformList : List EventVarTransform := []

/-- The requests of one dial collection: the parameters of its apply condition, its per-event
leaf name, the variables of its bins. -/
def dialCollectionRequests (indexRequests : List String) (dc : DialCollection) : List String :=
  let r1 :=
    match dc.applyConditionFormula with
    | some _ => dc.applyConditionParNames.foldl (fun r v => addIfNotInVector v r) indexRequests
    | none => indexRequests
  let r2 := if dc.globalDialLeafName ≠ "" then addIfNotInVector dc.globalDialLeafName r1 else r1
  dc.dialBinSet.foldl
    (fun r bin => bin.getVariableNameList.foldl (fun r v => addIfNotInVector v r) r) r2

/-- The block "sample binning": the variables of the bins of every sample of the sample set. -/
def sampleBinningRequests (samples : List FitSample) : List String :=
  samples.foldl
    (fun r sample =>
      sample.binning.foldl
        (fun r bin => bin.getVariableNameList.foldl (fun r v => addIfNotInVector v r) r) r)
    []

/-- The block "plotGen": the variables to plot and, for a load into the MC containers, the split
variables. -/
def plotGenRequests (pg : PlotGenerator) (useMcContainer : Bool) : List String :=
  let r1 := (pg.varsToPlot (!useMcContainer)).foldl (fun r v => addIfNotInVector v r) []
  if useMcContainer then pg.splitVarNames.foldl (fun r v => addIfNotInVector v r) r1 else r1

/-- The loop of the block "transforms inputs", which runs from the last transform to the first:
the requests `indexRequests` once the transforms of the list have been treated. A transform is
activated, and its inputs are requested, when its output is requested for indexing or is among the
requests gathered so far (from the transforms after it). -/
def transformRequests (varsRequestedForIndexing : List String) :
    List EventVarTransform → List String
  | [] => []
  | t :: after =>
    let indexRequests := transformRequests varsRequestedForIndexing after
    if varsRequestedForIndexing.contains t.outputVariableName
        || indexRequests.contains t.outputVariableName then
      t.requestedVars.foldl (fun r v => addIfNotInVector v r) indexRequests
    else indexRequests

/-- The test of the block "transforms inputs" when the loop reaches the transform at position
`iTrans`: its output is requested for indexing or is among the requests gathered from the
transforms after it. -/
def isActivated (varsRequestedForIndexing : List String) (transforms : List EventVarTransform)
    (iTrans : Nat) : Bool :=
  match transforms.drop iTrans with
  | [] => false
  | t :: after =>
    varsRequestedForIndexing.contains t.outputVariableName
      || (transformRequests varsRequestedForIndexing after).contains t.outputVariableName

/-- The requests gathered by `fetchRequestedLeaves` before the block "transforms inputs": dial
collections, sample binning, plot generator, additional storage requests. -/
def requestsBeforeTransforms (p : LeafPolling) : LeafRequests :=
  let r0 : LeafRequests := {}
  let r1 :=
    if p.dialCollectionsRefList.isEmpty then r0
    else (p.dialCollectionsRefList.foldl dialCollectionRequests []).foldl
      LeafRequests.addVarRequestedForIndexing r0
  let r2 := (sampleBinningRequests p.fitSampleList).foldl
    LeafRequests.addVarRequestedForIndexing r1
  let r3 :=
    match p.plotGen with
    | some pg => (plotGenRequests pg p.useMcContainer).foldl
        LeafRequests.addVarRequestedForStorage r2
    | none => r2
  let r4 := (p.additionalVarsStorage.foldl (fun r v => addIfNotInVector v r) []).foldl
    LeafRequests.addVarRequestedForStorage r3
  (p.additionalVariablesForStorage.foldl (fun r v => addIfNotInVector v r) []).foldl
    LeafRequests.addVarRequestedForStorage r4

/-- The method `DataDispenser::fetchRequestedLeaves`, up to the two lists of requested
variables (the translation of the variables into leaves is the `leafForm` of the dispenser). -/
def fetchRequestedLeaves (p : LeafPolling) : LeafRequests :=
  let r := requestsBeforeTransforms p
  if p.eventVarTransformList.isEmpty then r
  else (transformRequests r.varsRequestedForIndexing p.eventVarTransformList).foldl
    LeafRequests.addVarRequestedForIndexing r

/-! ## Notions the claims use -/

/-- The bin contains the values of the event: the event holds every variable of the bin and the
value lies between the edges of the bin for that variable. -/
def BinContains (buf : PhysicsEvent) (b : DataBin) : Prop :=
  ∀ name edges, (name, edges) ∈ b.edges →
    ∃ v, buf.getVarAsDouble name = .ok v ∧ edges.1 ≤ v ∧ v < edges.2

/-- The event at a position of the container a sample targets, `none` past the end or without
such a sample. -/
def eventAt (d : Dispenser) (c : Cache) (iSample iEvent : Nat) : Option PhysicsEvent :=
  match c.samplesToFillList[iSample]? with
  | some sample => (sample.container d.useMcContainer).eventList[iEvent]?
  | none => none

/-- The dial bin contains the values of the event: every edge pair of the bin has a cached
variable position, the event holds a value at that position and the value lies between the
edges. -/
def DialBinContains (buf : PhysicsEvent) (b : DataBin) : Prop :=
  ∀ (k : Nat) (edges : Rat × Rat), b.getEdgesList[k]? = some edges →
    ∃ (i : Int) (v : Rat), b.eventVarIndexCache[k]? = some i ∧
      buf.getVarAsDoubleAt i = .ok v ∧ edges.1 ≤ v ∧ v < edges.2

/-- The collection applies to the event: it is enabled and its apply condition is absent or
evaluates non-zero on the event. -/
def Applies (buf : PhysicsEvent) (dc : DialCollection) : Prop :=
  dc.enabled = true ∧
    (dc.applyConditionFormula = none ∨ ∃ f, dc.applyConditionFormula = some f ∧ f buf ≠ 0)

/-- The single unconditional case of a binned collection: one correction and an empty bin set. -/
def SingleUnconditional (dc : DialCollection) : Prop :=
  dc.dialBaseList.length = 1 ∧ dc.dialBinSet = []

/-- The interface index a collection yields for an event, as the claims word it (`none` when it
yields none): a collection that does not apply yields none; the single unconditional binned
collection yields `0`; any other binned collection yields the position of the first dial bin, in
declaration order, that contains the values of the event, and none when no bin contains them;
a per-event collection yields none or its next free slot. -/
def Yields (buf : PhysicsEvent) (dc : DialCollection) (y : Option Int) : Prop :=
  (¬ Applies buf dc → y = none) ∧
  (Applies buf dc → dc.binned = true → SingleUnconditional dc → y = some 0) ∧
  (Applies buf dc → dc.binned = true → ¬ SingleUnconditional dc →
    (∀ i, y = some i → ∃ (n : Nat) (bin : DataBin), i = n ∧ dc.dialBinSet[n]? = some bin ∧
      DialBinContains buf bin ∧
      ∀ (j : Nat) (b : DataBin), j < n → dc.dialBinSet[j]? = some b → ¬ DialBinContains buf b) ∧
    (y = none → ∀ b, b ∈ dc.dialBinSet → ¬ DialBinContains buf b)) ∧
  (Applies buf dc → dc.binned = false → y = none ∨ y = some (dc.dialFreeSlot : Int))

/-- The pairs of a cache entry as the claims word them: in the order of the collection list, one
pair (collection index, interface index) for every collection that yields an index. -/
inductive DialPairs (buf : PhysicsEvent) : List DialCollection → List DialIndexEntry → Prop where
  | nil : DialPairs buf [] []
  | skip (dc : DialCollection) (rest : List DialCollection) (pairs : List DialIndexEntry) :
      Yields buf dc none → DialPairs buf rest pairs → DialPairs buf (dc :: rest) pairs
  | pair (dc : DialCollection) (rest : List DialCollection) (pairs : List DialIndexEntry)
      (i : Int) :
      Yields buf dc (some i) → DialPairs buf rest pairs →
      DialPairs buf (dc :: rest)
        ({ collectionIndex := dc.index, interfaceIndex := i } :: pairs)

/-- The size of the event list of the container targeted for the sample at a position (`0`
without such a sample). -/
def containerSize (d : Dispenser) (c : Cache) (iSample : Nat) : Nat :=
  match c.samplesToFillList[iSample]? with
  | some sample => (sample.container d.useMcContainer).eventList.length
  | none => 0

/-- The value of `sampleIndexOffsetList[iSample]` (`0` past the end of the list). -/
def offsetOf (c : Cache) (iSample : Nat) : Nat := c.sampleIndexOffsetList.getD iSample 0

/-- The cell `eventIsInSamplesList[iEntry][iSample]` of a membership table (`false` outside the
table). -/
def cellOf (table : List (List Bool)) (iEntry iSample : Nat) : Bool :=
  match table[iEntry]? with
  | some row => row[iSample]? == some true
  | none => false

/-- The number of workers of the fill pass: that of the worker pool when it has several workers
and the single-thread mode (`isDevSingleThreadEventLoaderAndIndexer`) is off, else one. -/
def fillThreads (d : Dispenser) : Nat :=
  if !d.devSingleThreadEventLoaderAndIndexer && decide (d.nThreads > 1) then d.nThreads else 1

/-! ## Concrete inputs -/

/-- The double `0.5`. -/
def half : Rat := Rat.mk' 1 2 (by decide) (by decide)

/-- The double `1.5`. -/
def threeHalves : Rat := Rat.mk' 3 2 (by decide) (by decide)

/-- Scenario A: the leaf `x` of the four source entries. -/
def scenarioA_x (iEntry : Nat) : Rat :=
  [(-1 : Rat), half, threeHalves, threeHalves].getD iEntry 0

/-- Scenario A: a source of four entries read by one worker, `x` requested for indexing. -/
def scenarioA : Dispenser :=
  { nEntries := 4,
    getThreadBoundIndices := evenThreadBounds,
    leafForm := fun name iEntry =>
      if name = "x" then { asDouble := scenarioA_x iEntry } else { asDouble := 0 },
    varsRequestedForIndexing := ["x"] }

/-- Scenario A: the sample, with selection `x>0` and the bins `[0,1)` and `[1,2)` over `x`. -/
def scenarioA_sample : FitSample :=
  { index := 0,
    selectionCuts := some (fun iEntry => if scenarioA_x iEntry > 0 then 1 else 0),
    binning := [{ edges := [("x", (0, 1))] }, { edges := [("x", (1, 2))] }] }

/-- Scenario A: the cache before the load. -/
def scenarioA_cache : Cache := { samplesToFillList := [scenarioA_sample] }

/-- Scenario A read by a pool of `nThreads` workers. -/
def scenarioA_threads (nThreads : Nat) : Dispenser := { scenarioA with nThreads := nThreads }

/-- What a test reads back from the containers targeted by a load: for every sample to fill, the
entry index, the sample bin index and the base weight of its events, in storage order. -/
def storedEvents (d : Dispenser) (c : Cache) : List (List (Int × Int × Rat)) :=
  c.samplesToFillList.map (fun s =>
    (s.container d.useMcContainer).eventList.map (fun ev =>
      (ev.entryIndex, ev.sampleBinIndex, ev.baseWeight)))

/-- Two samples without selection cut over a source of one entry with `x = 0.5`: the single bin
`[10,20)` of the first sample does not hold the entry, the single bin `[0,1)` of the second
sample does. -/
def twoSamples_cache : Cache :=
  { samplesToFillList :=
      [{ index := 0, binning := [{ edges := [("x", (10, 20))] }] },
       { index := 1, binning := [{ edges := [("x", (0, 1))] }] }] }

/-- The two samples of `twoSamples_cache` in the other order. -/
def twoSamples_swapped : Cache :=
  { samplesToFillList :=
      [{ index := 1, binning := [{ edges := [("x", (0, 1))] }] },
       { index := 0, binning := [{ edges := [("x", (10, 20))] }] }] }

/-- A source of one entry with `x = 0.5`, read by one worker. -/
def oneEntry : Dispenser :=
  { nEntries := 1,
    getThreadBoundIndices := evenThreadBounds,
    leafForm := fun name _ => if name = "x" then { asDouble := half } else { asDouble := 0 },
    varsRequestedForIndexing := ["x"] }

/-- Two samples without selection cut, each with one bin without variable, and an empty event-dial
cache attached; there is no dial collection. -/
def sharedEntry_cache : Cache :=
  { samplesToFillList := [{ index := 0, binning := [{}] }, { index := 1, binning := [{}] }],
    eventDialCacheRef := some {} }

/-- The number of entries of the attached event-dial cache (`0` without a cache). -/
def cacheEntries (c : Cache) : Nat :=
  match c.eventDialCacheRef with
  | some cache => cache.indexedCache.length
  | none => 0

/-- The overlapping two-bin fixture: a sample whose bins `[0,2)` and `[1,3)` over `x` both hold
`x = 1.5`, with one reserved slot in its data container. -/
def overlap_cache : Cache :=
  { samplesToFillList :=
      [{ index := 0,
         binning := [{ edges := [("x", (0, 2))] }, { edges := [("x", (1, 3))] }],
         dataContainer := { eventList := [{}] } }],
    sampleNbOfEvents := [1],
    sampleIndexOffsetList := [0],
    eventIsInSamplesList := [[true]] }

/-- A source of one entry with `x = 1.5`, read by one worker. -/
def overlap : Dispenser :=
  { nEntries := 1,
    getThreadBoundIndices := evenThreadBounds,
    leafForm := fun name _ => if name = "x" then { asDouble := threeHalves } else { asDouble := 0 },
    varsRequestedForIndexing := ["x"] }

/-- The thread-local variables of a fill thread when it starts. -/
def threadLocals (d : Dispenser) : ThreadLocals :=
  { eventIndexingBuffer := eventIndexingBuffer d,
    eventVarTransformList := d.eventVarTransformList }

/-- The outcome of the sample loop body on the overlapping two-bin fixture. -/
def overlap_filled : Bool × ThreadLocals × Cache :=
  match fillSample overlap 0 0 (threadLocals overlap) overlap_cache with
  | .ok r => r
  | .error _ => (false, threadLocals overlap, overlap_cache)

/-- Scenario B: the nominal weight `w` of the three source entries. -/
def scenarioB_w (iEntry : Nat) : Rat := [(1 : Rat), 0, -1].getD iEntry 0

/-- Scenario B: a source of three entries read by one worker, with the nominal weight formula
`w`. -/
def scenarioB : Dispenser :=
  { nEntries := 3,
    getThreadBoundIndices := evenThreadBounds,
    nominalWeightFormula := some scenarioB_w }

/-- Scenario B: one sample without selection cut whose single bin has no variable. -/
def scenarioB_cache : Cache := { samplesToFillList := [{ index := 0, binning := [{}] }] }

/-- Scenario B: the cache when the fill starts, after the selection and the pre-allocation. -/
def scenarioB_ready : Cache :=
  match doEventSelection scenarioB scenarioB_cache.clear with
  | .error _ => scenarioB_cache
  | .ok c =>
    match preAllocateMemory scenarioB c with
    | .error _ => scenarioB_cache
    | .ok c1 => c1

/-- Scenario B: the state of the fill thread after the entries 0 and 1. -/
def scenarioB_afterTwo : ThreadLocals × Cache :=
  match foldlExcept (fillEntry scenarioB 1) (threadLocals scenarioB, scenarioB_ready) [0, 1] with
  | .error _ => (threadLocals scenarioB, scenarioB_ready)
  | .ok st => st

/-- A dial fixture: four binned collections over `x`. The first has one bin `[10,20)`, the second
the overlapping bins `[0,1)` and `[0,2)`, the third is the single unconditional case (one
correction, no bin), the fourth is disabled. -/
def dials_collections : List DialCollection :=
  [{ index := 0, dialBinSet := [{ edges := [("x", (10, 20))] }], dialBaseList := [none] },
   { index := 1,
     dialBinSet := [{ edges := [("x", (0, 1))] }, { edges := [("x", (0, 2))] }],
     dialBaseList := [none, none] },
   { index := 2, dialBaseList := [none] },
   { index := 3, enabled := false, dialBaseList := [none] }]

/-- The dial fixture: one sample whose single bin has no variable, the four collections and an
empty event-dial cache. -/
def dials_cache : Cache :=
  { samplesToFillList := [{ index := 0, binning := [{}] }],
    dialCollectionsRefList := dials_collections,
    eventDialCacheRef := some {} }

/-- The dial fixture: the cache when the fill starts, after the selection and the
pre-allocation on the source of one entry with `x = 0.5`. -/
def dials_ready : Cache :=
  match doEventSelection oneEntry dials_cache.clear with
  | .error _ => dials_cache
  | .ok c =>
    match preAllocateMemory oneEntry c with
    | .error _ => dials_cache
    | .ok c1 => c1

/-- The dial fixture: the thread-local variables once the bin of the entry is found. -/
def dials_locals : ThreadLocals :=
  setFoundBin (loadIndexingBuffer oneEntry 0 (threadLocals oneEntry)) 0

/-- The dial fixture: the sample when the fill starts, with its reserved slot. -/
def dials_sample : FitSample :=
  match dials_ready.samplesToFillList[0]? with
  | some sample => sample
  | none => { index := 0 }

/-- The dial fixture: the cache after the event of the entry is stored. -/
def dials_stored : Cache :=
  match storeEvent oneEntry 0 0 dials_sample dials_locals dials_ready with
  | .error _ => dials_ready
  | .ok c => c

/-- The dials of the first entry of the attached event-dial cache. -/
def firstEntryDials (c : Cache) : List DialIndexEntry :=
  match c.eventDialCacheRef with
  | some cache =>
    match cache.indexedCache[0]? with
    | some entry => entry.dials
    | none => []
  | none => []

/-- The dial fixture: the event-dial cache when the fill starts. -/
def dials_readyCache : EventDialCache :=
  match dials_ready.eventDialCacheRef with
  | some cache => cache
  | none => {}

/-- The capacity invariant of the fill pass: the membership table is `T`, the container of every
sample has `Z s` slots, the offset of the sample has not gone back below `O s`, and the offset
plus the `credit s` events that may still be stored in the sample stays within the slots. -/
def Capacity (d : Dispenser) (T : List (List Bool)) (Z O : Nat → Nat) (credit : Nat → Nat)
    (c : Cache) : Prop :=
  c.eventIsInSamplesList = T ∧ (∀ s, containerSize d c s = Z s) ∧ (∀ s, O s ≤ offsetOf c s) ∧
    ∀ s, offsetOf c s + credit s ≤ Z s

/-- Two override names, the shorter one a proper substring of the longer one, and a selection cut
made of exactly the longer one. -/
def overrides_params : Parameters :=
  { overrideLeafDict := [("thisIs", "u"), ("thisIsATest", "v")],
    selectionCutFormulaStr := "thisIsATest" }

/-- What `parseStringParameters` leaves for `overrides_params`. -/
def overrides_parsed : ParsedParameters :=
  match parseStringParameters overrides_params with
  | .ok r => r
  | .error _ =>
    { overrideLeafDict := [], varsToOverrideList := [], eventVarTransformList := [],
      dialIndexFormula := "", nominalWeightFormulaStr := "", selectionCutFormulaStr := "" }

/-- The order the transform list is sorted for: a transform that is not self-contained comes
before every transform that reads its output. -/
def ProducersFirst (l : List EventVarTransform) : Prop :=
  ∀ (i j : Nat) (a b : EventVarTransform), l[i]? = some a → l[j]? = some b →
    a.outputVariableName ∈ b.requestedVars → a.outputVariableName ∉ a.requestedVars → i < j

/-- Every self-contained transform of the list is where it was declared: it precedes exactly the
transforms declared after it and follows exactly those declared before it (the index of a
transform is its position in the declaration). -/
def SelfContainedInPlace (l : List EventVarTransform) : Prop :=
  ∀ (i j : Nat) (s t : EventVarTransform), l[i]? = some s → l[j]? = some t →
    isSelfContained s = true → (i < j ↔ s.index < t.index)

/-- Every self-contained transform of the list follows the transforms declared before it. -/
def SelfContainedAfterEarlier (l : List EventVarTransform) : Prop :=
  ∀ (i j : Nat) (s t : EventVarTransform), l[i]? = some s → l[j]? = some t →
    isSelfContained s = true → t.index < s.index → j < i

/-- A transform with the given output and inputs. -/
def transformOf (output : String) (inputs : List String) : EventVarTransform :=
  { outputVariableName := output, requestedVars := inputs, eval := fun _ => 0 }

/-- What a test reads back from a transform list: index and output of every transform. -/
def transformOrder (l : List EventVarTransform) : List (Int × String) :=
  l.map (fun t => (t.index, t.outputVariableName))

/-- Four transforms declared in the order `q`, `b`, `p`, `a`; `b` reads the output of `a`, the
others read the leaf `x`. -/
def chain_params : Parameters :=
  { variablesTransform := some
      [transformOf "q" ["x"], transformOf "b" ["a"], transformOf "p" ["x"],
        transformOf "a" ["x"]] }

/-- Two transforms declared in the order `y`, `z`; `y` reads its own output and the output of
`z`. -/
def selfContained_params : Parameters :=
  { variablesTransform := some [transformOf "y" ["y", "z"], transformOf "z" ["w"]] }

/-- The transform list `parseStringParameters` leaves (empty when it throws). -/
def parsedTransforms (p : Parameters) : List EventVarTransform :=
  match parseStringParameters p with
  | .ok r => r.eventVarTransformList
  | .error _ => []

/-- What `parseStringParameters` leaves (nothing when it throws). -/
def parsedOf (p : Parameters) : ParsedParameters :=
  match parseStringParameters p with
  | .ok r => r
  | .error _ =>
    { overrideLeafDict := [], varsToOverrideList := [], eventVarTransformList := [],
      dialIndexFormula := "", nominalWeightFormulaStr := "", selectionCutFormulaStr := "" }

/-- The transform list is ordered for the reverse loop of `fetchRequestedLeaves`: a transform
whose output is read by another transform stands before it. -/
def ProducersPrecede (transforms : List EventVarTransform) : Prop :=
  ∀ (i j : Nat) (a b : EventVarTransform), transforms[i]? = some a → transforms[j]? = some b →
    i ≠ j → a.outputVariableName ∈ b.requestedVars → i < j

/-- A polling fixture: one sample binned over `y`, and three transforms in the order `z` (from
the leaf `x`), `y` (from `z` and the leaf `w`), `k` (from the leaf `m`). -/
def pull_polling : LeafPolling :=
  { fitSampleList := [{ index := 0, binning := [{ edges := [("y", (0, 1))] }] }],
    eventVarTransformList :=
      [transformOf "z" ["x"], transformOf "y" ["z", "w"], transformOf "k" ["m"]] }

/-- A bin of a sample of the sample set names the variable. -/
def NamedBySampleBin (p : LeafPolling) (v : String) : Prop :=
  ∃ sample ∈ p.fitSampleList, ∃ bin ∈ sample.binning, v ∈ bin.getVariableNameList

/-- The dial collection names the variable: as a parameter of its apply condition, as its
per-event leaf, or as a variable of one of its bins. -/
def NamedByCollection (dc : DialCollection) (v : String) : Prop :=
  (dc.applyConditionFormula.isSome = true ∧ v ∈ dc.applyConditionParNames) ∨
    (dc.globalDialLeafName ≠ "" ∧ v = dc.globalDialLeafName) ∨
    ∃ bin ∈ dc.dialBinSet, v ∈ bin.getVariableNameList

/-- A dial collection selected for the dataset names the variable. -/
def NamedByDialCollection (p : LeafPolling) (v : String) : Prop :=
  ∃ dc ∈ p.dialCollectionsRefList, NamedByCollection dc v

/-- A storage request names the variable: the plot generator (variables to plot, and split
variables for a load into the MC containers), the dataset or the sample set. -/
def NamedByStorageRequest (p : LeafPolling) (v : String) : Prop :=
  (∃ pg, p.plotGen = some pg ∧
    (v ∈ pg.varsToPlot (!p.useMcContainer) ∨
      (p.useMcContainer = true ∧ v ∈ pg.splitVarNames))) ∨
    v ∈ p.additionalVarsStorage ∨ v ∈ p.additionalVariablesForStorage

/-- Scenario D: the function `f` of the transform `y = f(x)`, a step function of the variable
`x` of the event. -/
def scenarioD_f (ev : PhysicsEvent) : Rat :=
  match ev.getVarAsDouble "x" with
  | .ok v => if v < 1 then 1 else 3
  | .error _ => 0

/-- Scenario D: the transform `y = f(x)`. -/
def scenarioD_transform : EventVarTransform :=
  { outputVariableName := "y", requestedVars := ["x"], eval := scenarioD_f }

/-- Scenario D: what `fetchRequestedLeaves` polls, with one sample whose two bins `[0,2)` and
`[2,4)` are over the variable `binVar` (`y` when the binning consumes the transform, `x` when
no consumer of `y` is left). -/
def scenarioD_polling (binVar : String) : LeafPolling :=
  { fitSampleList :=
      [{ index := 0,
         binning := [{ edges := [(binVar, (0, 2))] }, { edges := [(binVar, (2, 4))] }] }],
    eventVarTransformList := [scenarioD_transform] }

/-- Scenario D: a source of two entries with `x = [0.5, 1.5]` read by one worker, with the
variables requested by `fetchRequestedLeaves`. -/
def scenarioD (binVar : String) : Dispenser :=
  { nEntries := 2,
    getThreadBoundIndices := evenThreadBounds,
    leafForm := fun name iEntry =>
      if name = "x" then { asDouble := [half, threeHalves].getD iEntry 0 }
      else { asDouble := 0 },
    varsRequestedForIndexing :=
      (fetchRequestedLeaves (scenarioD_polling binVar)).varsRequestedForIndexing,
    eventVarTransformList := [scenarioD_transform] }

/-- Scenario D: the cache when the fill starts, after the selection and the pre-allocation. -/
def scenarioD_ready (binVar : String) : Cache :=
  let c : Cache := { samplesToFillList := (scenarioD_polling binVar).fitSampleList }
  match doEventSelection (scenarioD binVar) c with
  | .error _ => c
  | .ok c1 =>
    match preAllocateMemory (scenarioD binVar) c1 with
    | .error _ => c
    | .ok c2 => c2

/-- Scenario D: the state of the fill thread after its loop over the two entries. -/
def scenarioD_filled (binVar : String) : ThreadLocals × Cache :=
  match foldlExcept (fillEntry (scenarioD binVar) 1)
      (threadLocals (scenarioD binVar), scenarioD_ready binVar) [0, 1] with
  | .error _ => (threadLocals (scenarioD binVar), scenarioD_ready binVar)
  | .ok st => st

/-- The evaluation counters of the transforms of a fill thread. -/
def evaluationCounters (tl : ThreadLocals) : List Nat :=
  tl.eventVarTransformList.map (fun t => t.nbEvaluations)

/-- The index `getIndex()` of the sample at a position of the list of samples to fill. -/
def sampleIndexAt (c : Cache) (iSample : Nat) : Option Int :=
  match c.samplesToFillList[iSample]? with
  | some sample => some sample.index
  | none => none

/-- Scenario C: the factory of the per-event collection, which builds a correction from the
object it is handed and none from a null pointer. -/
def scenarioC_makeDial (dialObjectPtr : Option Nat) : Option DialBase :=
  match dialObjectPtr with
  | some id => some { builtFrom := some id }
  | none => none

/-- Scenario C: a per-event collection reading the leaf `dial`, with the two slots that
`preAllocateMemory` creates for a source of two entries. -/
def scenarioC_collection : DialCollection :=
  { index := 0, binned := false, globalDialLeafName := "dial", makeDial := scenarioC_makeDial,
    dialBaseList := [none, none] }

/-- Scenario C: a source of two records, each holding a 2-element array under the leaf `dial`
(the objects 10, 11 and the objects 20, 21), with the dial index formula `idx = [0, 1]`. -/
def scenarioC : Dispenser :=
  { nEntries := 2,
    getThreadBoundIndices := evenThreadBounds,
    dialIndexFormula := some (fun iEntry => [(0 : Rat), 1].getD iEntry 0),
    leafForm := fun name iEntry =>
      if name = "dial" then
        { asDouble := 0,
          object := some (.clonesArray ([[10, 11], [20, 21]].getD iEntry [])) }
      else { asDouble := 0 },
    varsRequestedForIndexing := ["dial"] }

/-- Scenario C: one sample whose single bin has no variable, the per-event collection and an
empty event-dial cache. -/
def scenarioC_cache : Cache :=
  { samplesToFillList := [{ index := 0, binning := [{}] }],
    dialCollectionsRefList := [{ scenarioC_collection with dialBaseList := [] }],
    eventDialCacheRef := some {} }

/-- Scenario C: the indexing buffer of a fill thread on an entry. -/
def scenarioC_buffer (iEntry : Nat) : PhysicsEvent :=
  (loadIndexingBuffer scenarioC iEntry (threadLocals scenarioC)).eventIndexingBuffer

/-- What a test reads back from the event-dial cache: sample index, event index and dials of
every entry. -/
def cacheContent (c : Cache) : List (Int × Int × List DialIndexEntry) :=
  match c.eventDialCacheRef with
  | some cache => cache.indexedCache.map (fun e => (e.sampleIndex, e.eventIndex, e.dials))
  | none => []

/-- What a test reads back from the dial collections: the object every stored correction was
built from. -/
def correctionSources (c : Cache) : List (List (Option Nat)) :=
  c.dialCollectionsRefList.map (fun dc =>
    dc.dialBaseList.map (fun x =>
      match x with
      | some dialBase => dialBase.builtFrom
      | none => none))

/-- A source of three entries with `x = [0.5, 5, 1.5]`, read by one worker. -/
def gap : Dispenser :=
  { nEntries := 3,
    getThreadBoundIndices := evenThreadBounds,
    leafForm := fun name iEntry =>
      if name = "x" then { asDouble := [half, 5, threeHalves].getD iEntry 0 }
      else { asDouble := 0 },
    varsRequestedForIndexing := ["x"] }

/-- One sample without selection cut, with the bins `[0,1)` and `[1,2)` over `x`, whose data
container already holds one event (of entry index 7) before the load. -/
def gap_cache : Cache :=
  { samplesToFillList :=
      [{ index := 0,
         binning := [{ edges := [("x", (0, 1))] }, { edges := [("x", (1, 2))] }],
         dataContainer := { eventList := [{ entryIndex := 7 }] } }] }

/-- The cache after the load of `gap_cache` from `gap`. -/
def gap_loaded : Cache :=
  match load gap gap_cache with
  | .ok c => c
  | .error _ => gap_cache

/-- The cache of `gap_cache` after the selection and the pre-allocation. -/
def gap_ready : Cache :=
  match doEventSelection gap gap_cache.clear with
  | .error _ => gap_cache
  | .ok c =>
    match preAllocateMemory gap c with
    | .error _ => gap_cache
    | .ok c1 => c1

/-- The entry at a position of the attached event-dial cache (`none` past the end or without a
cache). -/
def cacheEntryAt (c : Cache) (k : Nat) : Option IndexedEntry :=
  match c.eventDialCacheRef with
  | some cache => cache.indexedCache[k]?
  | none => none

/-- The position of the next entry the attached event-dial cache hands out (`0` without a
cache): the entries claimed during a load are those from the position at its start up to the
position at its end. -/
def fillIndexOf (c : Cache) : Nat :=
  match c.eventDialCacheRef with
  | some cache => cache.fillIndex
  | none => 0

/-- Two samples of indices 3 and 5 without selection cut: the first has the bins `[0,1)` and
`[1,2)` over `x` and its data container already holds one event, the second has the single bin
`[1,2)`; an empty event-dial cache is attached. -/
def keys_cache : Cache :=
  { samplesToFillList :=
      [{ index := 3,
         binning := [{ edges := [("x", (0, 1))] }, { edges := [("x", (1, 2))] }],
         dataContainer := { eventList := [{ entryIndex := 7 }] } },
       { index := 5, binning := [{ edges := [("x", (1, 2))] }] }],
    eventDialCacheRef := some {} }

/-- The cache after the load of `keys_cache` from the three entries of `gap`. -/
def keys_loaded : Cache :=
  match load gap keys_cache with
  | .ok c => c
  | .error _ => keys_cache

/-- The thread-local variables of a fill thread that has just started, once the nominal weight
of the entry (when a formula is configured) is set on the indexing buffer. -/
def entryLocals (d : Dispenser) (iEntry : Nat) : ThreadLocals :=
  match d.nominalWeightFormula with
  | none => threadLocals d
  | some weight =>
    let weighted : PhysicsEvent :=
      { (threadLocals d).eventIndexingBuffer with baseWeight := weight iEntry }
    { threadLocals d with eventIndexingBuffer := weighted }

/-- The thread-local variables once the indexing buffer is loaded from the entry, on a thread
that has just started: they depend on the dispenser and on the entry alone. -/
def loadedLocals (d : Dispenser) (iEntry : Nat) : ThreadLocals :=
  loadIndexingBuffer d iEntry (entryLocals d iEntry)

/-- The event that the source entry `iEntry` yields for a sample, written over a slot: the
indexing buffer is loaded from the entry, the bin is the first bin of the sample that holds its
values, and the event is the slot filled from the storage leaves of the entry and from that
buffer. There is no event (`none`) when the variable selection of the sample rejects the entry,
when no bin holds its values, or when the bin search fails. -/
def builtEvent (d : Dispenser) (sample : FitSample) (slot : PhysicsEvent) (iEntry : Nat) :
    Option PhysicsEvent :=
  let tl := loadedLocals d iEntry
  if formulaIsZero sample.varSelectionFormula tl.eventIndexingBuffer then none
  else
    match findIf (isBinValid tl.eventIndexingBuffer) sample.binning with
    | .ok (some iBin) => some (filledEvent d iEntry sample (setFoundBin tl iBin) slot)
    | _ => none

/-- The event is the one built from the source entry `iEntry` for the sample, over the slot. -/
def BuiltFrom (d : Dispenser) (sample : FitSample) (slot ev : PhysicsEvent) (iEntry : Nat) :
    Prop :=
  builtEvent d sample slot iEntry = some ev

/-- The order invariant of the single-threaded fill pass: in every sample, every position from
`O s` up to the offset holds an event carrying the index of a source entry before `bound s`,
and the entry indices strictly increase along these positions. -/
def EntryOrder (d : Dispenser) (O : Nat → Nat) (bound : Nat → Nat) (c : Cache) : Prop :=
  (∀ (s i : Nat), O s ≤ i → i < offsetOf c s →
    ∃ (ev : PhysicsEvent) (iEntry : Nat), eventAt d c s i = some ev ∧
      ev.entryIndex = (iEntry : Int) ∧ iEntry < bound s) ∧
  (∀ (s i j : Nat) (ei ej : PhysicsEvent), O s ≤ i → i < j → j < offsetOf c s →
    eventAt d c s i = some ei → eventAt d c s j = some ej → ei.entryIndex < ej.entryIndex)

/-- Two transform lists agree on what an event is built from: same length and, position by
position, same output name and same function; on the positions satisfying `P`, same cached
output too. (The evaluation counters may differ.) -/
def TransformsAgree (P : Nat → Prop) (a b : List EventVarTransform) : Prop :=
  a.length = b.length ∧
  ∀ (i : Nat) (t t1 : EventVarTransform), a[i]? = some t → b[i]? = some t1 →
    t.outputVariableName = t1.outputVariableName ∧ t.eval = t1.eval ∧
    (P i → t.outputCache = t1.outputCache)

/-- What holds of the thread-local variables of a fill thread at any time: the indexing buffer is
the one the thread started with but for its bin index, its base weight (left alone without a
weight formula) and its values, and the transform list is the one of the dispenser but for the
evaluation counters and for the cached outputs of the transforms requested for indexing. -/
def LocalsOf (d : Dispenser) (tl : ThreadLocals) : Prop :=
  (∃ (bin : Int) (w : Rat) (vars : List AnyType),
    tl.eventIndexingBuffer
      = { eventIndexingBuffer d with sampleBinIndex := bin, baseWeight := w, varHolderList := vars }
    ∧ (d.nominalWeightFormula = none → w = (eventIndexingBuffer d).baseWeight)) ∧
  TransformsAgree (fun i => i ∉ varTransformForIndexingList d d.eventVarTransformList)
    tl.eventVarTransformList d.eventVarTransformList

/-- Two samples differ by their containers at most. -/
def SameSample (a b : FitSample) : Prop :=
  a.index = b.index ∧ a.varSelectionFormula = b.varSelectionFormula ∧ a.binning = b.binning

/-- A `double` as far as the tests on the nominal weight go: a number, or NaN. -/
inductive Double where
  | nan
  | num (value : Rat)
deriving DecidableEq, Repr

namespace Double

/-- The comparison `x == 0` of doubles: false on NaN. -/
def isZero : Double → Bool
  | nan => false
  | num value => decide (value = 0)

end Double

/-- The loop "Selecting dial collections..." of `fetchRequestedLeaves`: the collections of the
list that are valid for the dataset are appended to `dialCollectionsRefList`, in order;
`isDatasetValid` stands for the test `dialCollection.isDatasetValid(_owner_->getName())`. -/
def selectDialCollections (isDatasetValid : DialCollection → Bool)
    (dialCollectionList : List DialCollection) : List DialCollection :=
  dialCollectionList.foldl
    (fun refList dc => if isDatasetValid dc then refList ++ [dc] else refList) []

/-- The cache entries a call has appended to the attached event-dial cache: the entries of the
cache after the call past the number of entries before it. -/
def appendedCacheEntries (c c2 : Cache) : List IndexedEntry :=
  match c2.eventDialCacheRef with
  | some cache2 => cache2.indexedCache.drop (cacheEntries c)
  | none => []

/-- What a test reads back from `preAllocateMemory` after the selection pass: the capacity (the
length of the dial list) of every cache entry the call has appended. -/
def reservedCapacities (d : Dispenser) (c : Cache) : Except Fatal (List Nat) :=
  match doEventSelection d c.clear with
  | .error e => .error e
  | .ok c1 =>
    match preAllocateMemory d c1 with
    | .error e => .error e
    | .ok c2 => .ok ((appendedCacheEntries c1 c2).map (fun entry => entry.dials.length))

/-- The index fixture: two binned dial collections, the first with one bin over `w`, the second
with one bin over `y` and `x`; one sample with a bin over `x`. -/
def indices_polling : LeafPolling :=
  { dialCollectionsRefList :=
      [{ index := 0, dialBinSet := [{ edges := [("w", (0, 1))] }], dialBaseList := [none] },
       { index := 1, dialBinSet := [{ edges := [("y", (0, 1)), ("x", (0, 2))] }],
         dialBaseList := [none] }],
    fitSampleList := [{ index := 0, binning := [{ edges := [("x", (0, 10))] }] }] }

/-- The index fixture: a source of one entry whose list of variables requested for indexing is
the one `fetchRequestedLeaves` builds. -/
def indices_source : Dispenser :=
  { nEntries := 1,
    getThreadBoundIndices := evenThreadBounds,
    varsRequestedForIndexing := (fetchRequestedLeaves indices_polling).varsRequestedForIndexing }

/-- The index fixture: the cache before `preAllocateMemory`, with an empty event-dial cache. -/
def indices_cache : Cache :=
  { samplesToFillList := indices_polling.fitSampleList,
    dialCollectionsRefList := indices_polling.dialCollectionsRefList,
    eventDialCacheRef := some {} }

/-- The index fixture: the cache after `preAllocateMemory`. -/
def indices_ready : Cache :=
  match preAllocateMemory indices_source indices_cache with
  | .ok c => c
  | .error _ => indices_cache

/-- What a test reads back from the dial bins: the cached index list of every bin of every
collection. -/
def cachedIndices (c : Cache) : List (List (List Int)) :=
  c.dialCollectionsRefList.map (fun dc => dc.dialBinSet.map (fun bin => bin.eventVarIndexCache))

/-- Scenario A with a nominal-weight formula of values `[-1, 1, 1, 1]`: the weight is negative
on the entry that the selection `x>0` rejects. -/
def scenarioA_weighted : Dispenser :=
  { scenarioA with nominalWeightFormula := some (fun iEntry => [(-1 : Rat), 1, 1, 1].getD iEntry 0) }

/-- The bin list `getBinning().getBinsList()` of the sample at a position of the list of samples
to fill. -/
def binningAt (c : Cache) (iSample : Nat) : Option (List DataBin) :=
  match c.samplesToFillList[iSample]? with
  | some sample => some sample.binning
  | none => none

/-- Ways in which `loadFromHistContent` stops. -/
inductive HistFatal where
  -- LogThrowIf(_parameters_.useMcContainer, "Hist loader not implemented for MC containers")
  | notImplementedForMcContainers
  -- LogThrowIf(not doKeyExist(fromHistContent, "fromRootFile"), "No root file provided.")
  | noRootFileProvided
  -- LogThrowIf(not doesTFileIsValid(filePath)) and LogThrowIf(fHist == nullptr)
  | couldNotOpenFile
  -- LogThrowIf(not doKeyExist(fromHistContent, "sampleList"), "Could not find samplesList.")
  | couldNotFindSamplesList
  -- LogThrowIf(not doKeyExist(entry, "hist"), "No hist name provided for ...")
  | noHistNameProvided
  -- LogThrowIf(not doKeyExist(entry, "axis"), "No axis names provided for ...")
  | noAxisNamesProvided
  -- LogThrowIf(hist == nullptr, "Could not find THnD ...")
  | couldNotFindHist
deriving DecidableEq, Repr

/-- An entry of the `sampleList` of the `fromHistContent` configuration: its keys `hist` and
`axis` (`none` for an absent key). -/
structure HistSampleEntry where
  hist : Option String := none
  axis : Option (List String) := none
deriving DecidableEq, Repr

/-- The `fromHistContent` configuration and the file it points to. `fromRootFile` is the key of
that name (`none` when absent), `fileOpens` tells whether the file is valid and opens,
`sampleList` is the key of that name, read through `fetchMatchingEntry(sampleList, "name", ...)`:
the entry matching a sample, keyed here by the index of the sample (`none` for an empty match).
`get` is `fHist->Get<THnD>(histName)` followed by `GetBinContent(GetBin(target))`: the content
of the histogram at the bin holding the target (`none` for a null histogram).
`generateBinTarget` is `DataBin::generateBinTarget(axisNameList)`, a method that is not part of
the available sources. -/
structure HistContent where
  fromRootFile : Option String := none
  fileOpens : Bool := true
  sampleList : Option (Int → Option HistSampleEntry) := none
  get : String → Option (List Rat → Rat) := fun _ => none
  generateBinTarget : DataBin → List String → List Rat := fun _ _ => []

/-- The element access `v[i].f()`: the element at position `i` is replaced by its image. -/
def modifyAt {α : Type} (l : List α) (i : Nat) (f : α → α) : List α :=
  match l[i]? with
  | some a => l.set i (f a)
  | none => l

/-- Modelled from the spec: `DataBinSet::getBinVariables` is not part of the available sources.
The names of the variables of the bins, each once, in order of first appearance. -/
def getBinVariables (binning : List DataBin) : List String :=
  binning.foldl
    (fun r bin => bin.getVariableNameList.foldl (fun r v => addIfNotInVector v r) r) []

/-- One turn of the loop "claiming event memory" of `loadFromHistContent`: one event per bin is
reserved after the events the data container holds, the offset of the sample is the former size
of the container, and every reserved event gets `setSampleBinIndex(int(iEvent))`, with `iEvent`
its position in the event list. -/
def claimHistSample (d : Dispenser) (c : Cache) (iSample : Nat) : Cache :=
  match c.samplesToFillList[iSample]? with
  | none => c
  | some sample =>
    let binVariables := getBinVariables sample.binning
    let eventPlaceholder : PhysicsEvent :=
      { dataSetIndex := d.dataSetIndex, eventWeight := 0, commonVarNameList := binVariables,
        varHolderList := binVariables.map (fun _ => ({ asDouble := 0 } : AnyType)) }
    let nEvents := sample.binning.length
    let container := sample.dataContainer
    let offset := container.eventList.length
    let reserved := container.reserveEventMemory nEvents eventPlaceholder
    let indexed := (List.range' offset (reserved.eventList.length - offset)).foldl
      (fun l iEvent => modifyAt l iEvent (fun ev => { ev with sampleBinIndex := iEvent }))
      reserved.eventList
    { c with
      sampleNbOfEvents := c.sampleNbOfEvents.set iSample nEvents,
      sampleIndexOffsetList := c.sampleIndexOffsetList.set iSample offset,
      samplesToFillList :=
        c.samplesToFillList.set iSample { sample with dataContainer := { eventList := indexed } } }

/-- The body of the loop over the bins of a sample in `loadFromHistContent`: the event
`container->eventList[iBin]` gets the index of the sample, the target values as variables, the
content of the histogram as base weight, and its event weight is reset. -/
def fillHistBin (sample : FitSample) (axisNameList : List String) (hist : List Rat → Rat)
    (generateBinTarget : DataBin → List String → List Rat)
    (eventList : List PhysicsEvent) (iBin : Nat) : List PhysicsEvent :=
  match sample.binning[iBin]? with
  | none => eventList
  | some bin =>
    let target := generateBinTarget bin axisNameList
    modifyAt eventList iBin (fun ev =>
      let ev1 : PhysicsEvent := { ev with sampleIndex := sample.index }
      let ev2 := (target.zip axisNameList).foldl (fun ev tv => ev.setVariable tv.1 tv.2) ev1
      PhysicsEvent.resetEventWeight { ev2 with baseWeight := hist target })

/-- One turn of the loop over `samplesToFillList` that reads the histograms. A sample without
matching entry is skipped (`LogContinueIf`). -/
def fillHistSample (hc : HistContent) (sampleList : Int → Option HistSampleEntry)
    (c : Cache) (iSample : Nat) : Except HistFatal Cache :=
  match c.samplesToFillList[iSample]? with
  | none => .ok c
  | some sample =>
    match sampleList sample.index with
    | none => .ok c
    | some entry =>
      match entry.hist with
      | none => .error .noHistNameProvided
      | some histName =>
        match entry.axis with
        | none => .error .noAxisNamesProvided
        | some axisNameList =>
          match hc.get histName with
          | none => .error .couldNotFindHist
          | some hist =>
            let filled := (List.range sample.binning.length).foldl
              (fillHistBin sample axisNameList hist hc.generateBinTarget)
              sample.dataContainer.eventList
            .ok { c with
              samplesToFillList :=
                c.samplesToFillList.set iSample
                  { sample with dataContainer := { eventList := filled } } }

/-- A loop whose body may throw a `HistFatal`, threading a state through the elements. -/
def foldlHist {σ α : Type} (f : σ → α → Except HistFatal σ) : σ → List α → Except HistFatal σ
  | s, [] => .ok s
  | s, a :: rest =>
    match f s a with
    | .error e => .error e
    | .ok s1 => foldlHist f s1 rest

/-- The method `DataDispenser::loadFromHistContent`. -/
def loadFromHistContent (d : Dispenser) (hc : HistContent) (c : Cache) :
    Except HistFatal Cache :=
  if d.useMcContainer then .error .notImplementedForMcContainers
  else
    let nSamples := c.samplesToFillList.length
    let c0 : Cache :=
      { c with
        sampleNbOfEvents := resize c.sampleNbOfEvents nSamples 0,
        sampleIndexOffsetList := resize c.sampleIndexOffsetList nSamples 0 }
    let c1 := (List.range nSamples).foldl (claimHistSample d) c0
    match hc.fromRootFile with
    | none => .error .noRootFileProvided
    | some _ =>
      if !hc.fileOpens then .error .couldNotOpenFile
      else
        match hc.sampleList with
        | none => .error .couldNotFindSamplesList
        | some sampleList => foldlHist (fillHistSample hc sampleList) c1 (List.range nSamples)

/-- The histogram fixture: a file with the histogram `h` over the axis `x`, of content 10 at the
target 0 and 20 elsewhere, listed for the sample of index 0; the target of a bin is its low
edge on every axis. -/
def hist_content : HistContent :=
  { fromRootFile := some "hist.root",
    sampleList := some (fun index =>
      if index = 0 then some { hist := some "h", axis := some ["x"] } else none),
    get := fun name => if name = "h" then some (fun target => if target = [0] then 10 else 20)
      else none,
    generateBinTarget := fun bin axisNameList =>
      axisNameList.map (fun axis =>
        match bin.edges.find? (fun e => e.1 == axis) with
        | some e => e.2.1
        | none => 0) }

/-- The histogram fixture: a dataset read into the data containers. -/
def hist_source : Dispenser := { nEntries := 0, getThreadBoundIndices := evenThreadBounds }

/-- The histogram fixture: one sample of index 0 with the bins `[0,1)` and `[1,2)` over `x`,
whose data container holds `prior` events (of entry index 7) before the load. -/
def hist_cache (prior : Nat) : Cache :=
  { samplesToFillList :=
      [{ index := 0,
         binning := [{ edges := [("x", (0, 1))] }, { edges := [("x", (1, 2))] }],
         dataContainer := { eventList := List.replicate prior { entryIndex := 7 } } }] }

/-! # The propagator (`Propagator`)

Shallow embedding of the loops of `src/src/ErrorPropagator/src/Propagator.cpp` that split their
work between the worker threads.

Conventions: an `int` is an `Int`; the conversion `int(size)` wraps modulo `2^32`; an `int`
addition that leaves the range of `int` is undefined in C++ and is a fault here, like an access
past the end of a `std::vector` and a division by zero; a `while` loop runs on fuel and running
out of fuel is a fault too. -/

namespace Propagator

/-- Ways in which a loop of the propagator goes wrong. -/
inductive Fault where
  -- the loop is still running when the fuel is spent
  | outOfFuel
  -- a `std::vector` indexed outside its bounds
  | outOfRange
  -- an `int` addition that leaves the range of `int`
  | signedOverflow
  -- `iBin % nThreads` with `nThreads == 0`
  | divisionByZero
deriving DecidableEq, Repr

/-- The largest `int`. -/
def intMax : Int := 2147483647

/-- The conversion `int(v.size())` of a `size_t` to a 32-bit `int`. -/
def toInt (n : Nat) : Int := ((n : Int) + 2147483648) % 4294967296 - 2147483648

/-- The loop `while( i < n ){ v[i].f(); i += nThreads; }` common to `reweightSampleEvents` and
`updateDialResponses`, run on `fuel` turns at most. -/
def stridedLoop {α : Type} (f : α → α) (nThreads n : Int) :
    Nat → Int → List α → Except Fault (List α)
  | 0, i, v => if i < n then .error .outOfFuel else .ok v
  | fuel + 1, i, v =>
    if i < n then
      if i < 0 then .error .outOfRange
      else
        match v[i.toNat]? with
        | none => .error .outOfRange
        | some a =>
          if i + nThreads > intMax ∨ i + nThreads < -intMax - 1 then .error .signedOverflow
          else stridedLoop f nThreads n fuel (i + nThreads) (v.set i.toNat (f a))
    else .ok v

/-- A loop over a list whose body may fault, collecting one result per element. -/
def mapE {α β : Type} (f : α → Except Fault β) : List α → Except Fault (List β)
  | [] => .ok []
  | a :: rest =>
    match f a with
    | .error e => .error e
    | .ok b =>
      match mapE f rest with
      | .error e => .error e
      | .ok bs => .ok (b :: bs)

/-- A loop whose body may fault, threading a state through the elements. -/
def foldlE {σ α : Type} (f : σ → α → Except Fault σ) : σ → List α → Except Fault σ
  | s, [] => .ok s
  | s, a :: rest =>
    match f s a with
    | .error e => .error e
    | .ok s1 => foldlE f s1 rest

/-- The method `Propagator::reweightSampleEvents(iThread_)`. The sample set is the list of the MC
event lists of its samples (`sample.getMcContainer().eventList`), `reweightUsingDialCache` is
the method of that name of an event, `nbThreads` is `GlobalVariables::getNbThreads()`, and
`fuel` bounds the turns of the `while` loop of each sample. -/
def reweightSampleEvents {Ev : Type} (reweightUsingDialCache : Ev → Ev) (fuel : Nat)
    (nbThreads iThread_ : Int) (fitSampleList : List (List Ev)) :
    Except Fault (List (List Ev)) :=
  let nThreads := if iThread_ = -1 then 1 else nbThreads
  let iThread := if iThread_ = -1 then 0 else iThread_
  mapE (fun evList =>
    stridedLoop reweightUsingDialCache nThreads (toInt evList.length) fuel iThread evList)
    fitSampleList

/-- The method `Propagator::updateDialResponses(iThread_)` on the dial stack `_dialsStack_`;
`evalResponse` is the method of that name of a dial. The loop starts from `iDial{0}`. -/
def updateDialResponses {D : Type} (evalResponse : D → D) (fuel : Nat)
    (nbThreads iThread_ : Int) (dialsStack : List D) : Except Fault (List D) :=
  let nThreads := if iThread_ = -1 then 1 else nbThreads
  let iDial : Int := 0
  let nDials := toInt dialsStack.length
  stridedLoop evalResponse nThreads nDials fuel iDial dialsStack

/-- The job run by the worker pool: the function is called once for every thread index
`0, ..., nThreads - 1` (here one call after the other, in the order of the indices). -/
def runJob {σ : Type} (job : Int → σ → Except Fault σ) (nThreads : Nat) (s : σ) :
    Except Fault σ :=
  foldlE (fun s iThread => job (Int.ofNat iThread) s) s (List.range nThreads)

/-- The list in which the function has been applied once to the elements whose position
(counted from `start`) satisfies the test, and to no other. -/
def applyWhere {α : Type} (f : α → α) (test : Nat → Bool) : Nat → List α → List α
  | _, [] => []
  | start, a :: rest => (if test start then f a else a) :: applyWhere f test (start + 1) rest

/-! ## Response functions (`applyResponseFunctions`) -/

/-- The arithmetic of `double` as far as `applyResponseFunctions` uses it: the constants `0` and
`1`, the sum and the product of two doubles as the machine computes them (each result rounded),
the test `x == 0` and `TMath::Sqrt`. Nothing is assumed of these operations: what is proved of
the embedding holds for every arithmetic, the one of IEEE doubles included. -/
structure DoubleOps (α : Type) where
  zero : α
  one : α
  add : α → α → α
  mul : α → α → α
  isZero : α → Bool
  sqrt : α → α

/-- Modelled on the class `TH1D` of ROOT, which is not part of the sources: the contents and the
errors of the cells `0` (underflow), `1, ..., NbinsX` and `NbinsX + 1` (overflow). -/
structure TH1D (α : Type) where
  binContent : List α := []
  binError : List α := []
deriving DecidableEq, Repr

namespace TH1D

/-- The call `GetNbinsX()`. -/
def GetNbinsX {α : Type} (h : TH1D α) : Nat := h.binContent.length - 2

/-- The call `GetBinContent(bin)`: a bin past the last cell reads the last cell. -/
def GetBinContent {α : Type} (ops : DoubleOps α) (h : TH1D α) (bin : Nat) : α :=
  h.binContent.getD (min bin (h.binContent.length - 1)) ops.zero

/-- The call `SetBinContent(bin, content)` on a cell of the histogram. -/
def SetBinContent {α : Type} (h : TH1D α) (bin : Nat) (content : α) : TH1D α :=
  { h with binContent := h.binContent.set bin content }

/-- The call `SetBinError(bin, error)` on a cell of the histogram. -/
def SetBinError {α : Type} (h : TH1D α) (bin : Nat) (error : α) : TH1D α :=
  { h with binError := h.binError.set bin error }

end TH1D

/-- A fit parameter, seen through `getDistanceFromNominal()`; the class is not part of the
sources. -/
structure FitParameter (α : Type) where
  distanceFromNominal : α
deriving DecidableEq, Repr

/-- A sample of the sample set with what the propagator keeps for it: its MC histogram
(`sample.getMcContainer().histogram`), its nominal histogram
(`_nominalSamplesMcHistogram_[&sample]`) and its response functions, one per parameter
(`_responseFunctionsSamplesMcHistogram_[&sample]`). -/
structure RfSample (α : Type) where
  histogram : TH1D α
  nominalHistogram : TH1D α
  responseFunctions : List (TH1D α) := []
deriving DecidableEq, Repr

/-- The members of the propagator that `applyResponseFunctions` reads and writes. -/
structure RfState (α : Type) where
  fitSampleList : List (RfSample α)
  parameterSetsList : List (List (FitParameter α)) := []
deriving DecidableEq, Repr

/-- The test `iBin % GlobalVariables::getNbThreads() != iThread_` read as "the bin is one of
the thread": `%` is the remainder of the truncated division of C++. -/
def isThreadBin (nbThreads iThread_ : Int) (iBin : Nat) : Except Fault Bool :=
  if nbThreads = 0 then .error .divisionByZero
  else .ok (decide (Int.tmod (iBin : Int) nbThreads = iThread_))

/-- The loop `for( iBin = 1 ; iBin <= histBuffer->GetNbinsX() ; iBin++ )` whose body starts with
`if( iBin % nbThreads != iThread_ ) continue;`. -/
def forThreadBins {α : Type} (nbThreads iThread_ : Int) (body : Nat → TH1D α → TH1D α)
    (histBuffer : TH1D α) : Except Fault (TH1D α) :=
  foldlE (fun h iBin =>
    match isThreadBin nbThreads iThread_ iBin with
    | .error e => .error e
    | .ok false => .ok h
    | .ok true => .ok (body iBin h))
    histBuffer (List.range' 1 histBuffer.GetNbinsX)

/-- The first loop over the samples: the bins of the thread are set to the nominal content. -/
def resetToNominal {α : Type} (ops : DoubleOps α) (nbThreads iThread_ : Int)
    (sample : RfSample α) : Except Fault (RfSample α) :=
  match forThreadBins nbThreads iThread_
      (fun iBin h => h.SetBinContent iBin (sample.nominalHistogram.GetBinContent ops iBin))
      sample.histogram with
  | .error e => .error e
  | .ok h => .ok { sample with histogram := h }

/-- The loop over the samples for the parameter of flat index `iPar` at distance `xSigmaPar`:
the content of every bin of the thread is replaced by
`content * ( 1 + xSigmaPar * rf[iBin] )`, computed in that order. -/
def applyParameter {α : Type} (ops : DoubleOps α) (nbThreads iThread_ iPar : Int)
    (xSigmaPar : α) (sample : RfSample α) : Except Fault (RfSample α) :=
  if iPar < 0 then .error .outOfRange
  else
    match sample.responseFunctions[iPar.toNat]? with
    | none => .error .outOfRange
    | some rfHistBuffer =>
      match forThreadBins nbThreads iThread_
          (fun iBin h => h.SetBinContent iBin
            (ops.mul (h.GetBinContent ops iBin)
              (ops.add ops.one (ops.mul xSigmaPar (rfHistBuffer.GetBinContent ops iBin)))))
          sample.histogram with
      | .error e => .error e
      | .ok h => .ok { sample with histogram := h }

/-- The last loop over the samples: the error of the bins of the thread is the square root of
their content. -/
def setBinErrors {α : Type} (ops : DoubleOps α) (nbThreads iThread_ : Int)
    (sample : RfSample α) : Except Fault (RfSample α) :=
  match forThreadBins nbThreads iThread_
      (fun iBin h => h.SetBinError iBin (ops.sqrt (h.GetBinContent ops iBin)))
      sample.histogram with
  | .error e => .error e
  | .ok h => .ok { sample with histogram := h }

/-- The body of the loop over the parameters of a parameter set: `iPar++`, then the parameter
is skipped when its distance from nominal is zero, else applied to every sample. -/
def applyParameterStep {α : Type} (ops : DoubleOps α) (nbThreads iThread_ : Int)
    (st : Int × List (RfSample α)) (par : FitParameter α) :
    Except Fault (Int × List (RfSample α)) :=
  let iPar := st.1 + 1
  let xSigmaPar := par.distanceFromNominal
  if ops.isZero xSigmaPar then .ok (iPar, st.2)
  else
    match mapE (applyParameter ops nbThreads iThread_ iPar xSigmaPar) st.2 with
    | .error e => .error e
    | .ok samples => .ok (iPar, samples)

/-- The method `Propagator::applyResponseFunctions(iThread_)`; `nbThreads` is
`GlobalVariables::getNbThreads()`. -/
def applyResponseFunctions {α : Type} (ops : DoubleOps α) (nbThreads iThread_ : Int)
    (p : RfState α) : Except Fault (RfState α) :=
  match mapE (resetToNominal ops nbThreads iThread_) p.fitSampleList with
  | .error e => .error e
  | .ok samples1 =>
    match foldlE (fun st parSet => foldlE (applyParameterStep ops nbThreads iThread_) st parSet)
        ((-1 : Int), samples1) p.parameterSetsList with
    | .error e => .error e
    | .ok st2 =>
      match mapE (setBinErrors ops nbThreads iThread_) st2.2 with
      | .error e => .error e
      | .ok samples3 => .ok { p with fitSampleList := samples3 }

/-- The list in which the element at every position satisfying the test (positions counted from
`start`) has been replaced by its image under the function of the position, and no other. -/
def updateWhere {α : Type} (g : Nat → α → α) (test : Nat → Bool) : Nat → List α → List α
  | _, [] => []
  | start, a :: rest =>
    (if test start then g start a else a) :: updateWhere g test (start + 1) rest

/-- The stored response of bin `b` for the parameter of flat index `k` (`0` without such a
response function). -/
def storedResponse {α : Type} (ops : DoubleOps α) (sample : RfSample α) (k b : Nat) : α :=
  match sample.responseFunctions[k]? with
  | some rf => rf.GetBinContent ops b
  | none => ops.zero

/-- The content `content` of bin `b` multiplied in turn, in the arithmetic of the machine, by
`1 + x_p * rf_p[b]` for every parameter of the list (of flat indices `k, k + 1, ...`), in the
order of the list; a parameter with `x_p == 0` leaves the content as it is. -/
def responseProduct {α : Type} (ops : DoubleOps α) (sample : RfSample α) (b : Nat) :
    Nat → α → List (FitParameter α) → α
  | _, content, [] => content
  | k, content, par :: rest =>
    responseProduct ops sample b (k + 1)
      (if ops.isZero par.distanceFromNominal then content
       else ops.mul content
         (ops.add ops.one (ops.mul par.distanceFromNominal (storedResponse ops sample k b))))
      rest

/-- The content the claims give to bin `b` of the MC histogram of a sample: the nominal content
multiplied by the factors of all the parameters of all the parameter sets, in their order. -/
def expectedContent {α : Type} (ops : DoubleOps α) (p : RfState α) (sample : RfSample α)
    (b : Nat) : α :=
  responseProduct ops sample b 0 (sample.nominalHistogram.GetBinContent ops b)
    p.parameterSetsList.flatten

/-- The exact arithmetic of the rationals; `sqrt` stands for the square root. -/
def exactOps (sqrt : Rat → Rat) : DoubleOps Rat :=
  { zero := 0, one := 1, add := fun a b => a + b, mul := fun a b => a * b,
    isZero := fun a => decide (a = 0), sqrt := sqrt }

/-- The product, over the parameters of the list (of flat indices `k, k + 1, ...`), of
`1 + x_p * rf_p[b]`, in exact arithmetic. -/
def exactProduct (sqrt : Rat → Rat) (sample : RfSample Rat) (b : Nat) :
    Nat → List (FitParameter Rat) → Rat
  | _, [] => 1
  | k, par :: rest =>
    (1 + par.distanceFromNominal * storedResponse (exactOps sqrt) sample k b)
      * exactProduct sqrt sample b (k + 1) rest

/-- An arithmetic that rounds at every operation: fixed-point numbers with one decimal digit
(the integer `n` stands for `n / 10`), the product truncated to one digit. -/
def fixedPointOps : DoubleOps Int :=
  { zero := 0, one := 10, add := fun a b => a + b, mul := fun a b => Int.tdiv (a * b) 10,
    isZero := fun a => decide (a = 0), sqrt := fun a => a }

/-- The response-function fixture: one sample with three bins of nominal contents 10, 20, 30,
two parameters at the distances 2 and 0 from nominal, the first with the responses 1, 0, -1. -/
def rf_state : RfState Rat :=
  { fitSampleList :=
      [{ histogram := { binContent := [0, 7, 7, 7, 0], binError := [0, 0, 0, 0, 0] },
         nominalHistogram := { binContent := [0, 10, 20, 30, 0] },
         responseFunctions :=
           [{ binContent := [0, 1, 0, -1, 0] }, { binContent := [0, 5, 5, 5, 0] }] }],
    parameterSetsList := [[{ distanceFromNominal := 2 }], [{ distanceFromNominal := 0 }]] }

/-- A fixture in fixed-point arithmetic: one sample with one bin of nominal content 1.5 and two
parameters at the distance 0.5, each with the response 0.3. -/
def rf_fixed : RfState Int :=
  { fitSampleList :=
      [{ histogram := { binContent := [0, 0, 0], binError := [0, 0, 0] },
         nominalHistogram := { binContent := [0, 15, 0] },
         responseFunctions := [{ binContent := [0, 3, 0] }, { binContent := [0, 3, 0] }] }],
    parameterSetsList := [[{ distanceFromNominal := 5 }, { distanceFromNominal := 5 }]] }

/-- What a test reads back: the contents of the cells of the MC histogram of every sample. -/
def contents {α : Type} (p : RfState α) : List (List α) :=
  p.fitSampleList.map (fun s => s.histogram.binContent)

/-- The bins of a histogram that thread `t` of `n` handles: `1 <= b <= NbinsX` and
`b mod n = t`. -/
def threadBins {α : Type} (n t : Nat) (h : TH1D α) (b : Nat) : Bool :=
  decide (1 ≤ b ∧ b < 1 + h.GetNbinsX) && decide (b % n = t)

/-- The sample whose MC histogram has the given contents on the given bins, the other cells and
the errors being left alone. -/
def withContent {α : Type} (s : RfSample α) (test : Nat → Bool) (content : Nat → α) :
    RfSample α :=
  { s with histogram :=
      { binContent := updateWhere (fun b _ => content b) test 0 s.histogram.binContent,
        binError := s.histogram.binError } }

/-- The state in which, for every sample, the cells of the MC histogram that satisfy the test
hold the content the claims give and its square root as error, the other cells being left
alone. -/
def afterThreads {α : Type} (ops : DoubleOps α) (p : RfState α)
    (test : RfSample α → Nat → Bool) : RfState α :=
  { p with fitSampleList := p.fitSampleList.map (fun s =>
      { s with histogram :=
          { binContent :=
              updateWhere (fun b _ => expectedContent ops p s b) (test s) 0
                s.histogram.binContent,
            binError :=
              updateWhere (fun b _ => ops.sqrt (expectedContent ops p s b)) (test s) 0
                s.histogram.binError } }) }

end Propagator
/-! ## The claiming section of the fill pass under interleaving

Lines 1110 to 1116 of `DataDispenser::fillFunction`: a worker thread that has found a bin for the
current entry in a sample locks the global thread mutex, takes
`sampleEventIndex = sampleIndexOffsetList[iSample]++`, fetches the next entry of the event-dial
cache when a cache is attached, and unlocks. The threads are interleaved by a schedule, one
elementary action at a time; the read and the write of `x++` are two actions. -/

namespace Claiming

/-- Where a worker thread stands in the claiming section. -/
inductive Pc
  /-- Outside the section: before `lock()` of the next claim, or done. -/
  | outside
  /-- The thread owns the mutex and is about to read `sampleIndexOffsetList[iSample]`. -/
  | locked
  /-- The offset has been read into `sampleEventIndex`; the incremented value is not yet written. -/
  | offsetRead
  /-- The incremented offset has been written; the cache entry is not yet fetched. -/
  | offsetWritten
  /-- The fill index of the cache has been read; the incremented value is not yet written. -/
  | entryRead
  /-- Both values are claimed; the thread is about to unlock. -/
  | claimed
  deriving DecidableEq, Repr

/-- The locals of one worker thread. `pending` lists, in order, the sample indices for which the
thread will still reach the claiming section (one per entry and sample with a bin found). -/
structure Worker where
  pending : List Nat
  pc : Pc := Pc.outside
  iSample : Nat := 0
  sampleEventIndex : Nat := 0
  eventDialCacheEntry : Option Nat := none
  deriving DecidableEq, Repr

/-- One completed claim: the thread, the sample, the storage position and the cache entry. -/
structure Claim where
  iThread : Nat
  iSample : Nat
  sampleEventIndex : Nat
  eventDialCacheEntry : Option Nat
  deriving DecidableEq, Repr

/-- The shared state. Modelled from the spec: `std::mutex` (held by at most one thread, `lock()`
blocks while another thread holds it) and the fill index of `EventDialCache`, whose classes are
not part of the sources. `claims` is the history of the completed claims. -/
structure Shared where
  mutexOwner : Option Nat := none
  sampleIndexOffsetList : List Nat
  hasCache : Bool
  fillIndex : Nat := 0
  workers : List Worker
  claims : List Claim := []
  deriving DecidableEq, Repr

/-- One elementary action of thread `i`. A thread that does not exist, that has nothing left to
claim, or that waits for the mutex does nothing. The result is `none` when the thread reads
`sampleIndexOffsetList` out of range. -/
def step (i : Nat) (st : Shared) : Option Shared :=
  match st.workers[i]? with
  | none => some st
  | some w =>
    match w.pc with
    | Pc.outside =>
      match w.pending with
      | [] => some st
      | iSample :: _ =>
        -- GundamGlobals::getThreadMutex().lock();
        match st.mutexOwner with
        | some _ => some st
        | none =>
          some { st with
            mutexOwner := some i,
            workers := st.workers.set i { w with pc := Pc.locked, iSample := iSample } }
    | Pc.locked =>
      -- sampleEventIndex = _cache_.sampleIndexOffsetList[iSample]++;   (the read)
      match st.sampleIndexOffsetList[w.iSample]? with
      | none => none
      | some offset =>
        some { st with
          workers := st.workers.set i { w with pc := Pc.offsetRead, sampleEventIndex := offset } }
    | Pc.offsetRead =>
      -- sampleEventIndex = _cache_.sampleIndexOffsetList[iSample]++;   (the write)
      some { st with
        sampleIndexOffsetList := st.sampleIndexOffsetList.set w.iSample (w.sampleEventIndex + 1),
        workers := st.workers.set i { w with pc := Pc.offsetWritten } }
    | Pc.offsetWritten =>
      -- if(_eventDialCacheRef_ != nullptr) eventDialCacheEntry = ...->fetchNextCacheEntry();
      if st.hasCache then
        some { st with
          workers := st.workers.set i
            { w with pc := Pc.entryRead, eventDialCacheEntry := some st.fillIndex } }
      else
        some { st with workers := st.workers.set i { w with pc := Pc.claimed } }
    | Pc.entryRead =>
      some { st with
        fillIndex := w.eventDialCacheEntry.getD 0 + 1,
        workers := st.workers.set i { w with pc := Pc.claimed } }
    | Pc.claimed =>
      -- GundamGlobals::getThreadMutex().unlock();
      some { st with
        mutexOwner := none,
        workers := st.workers.set i { w with pc := Pc.outside, pending := w.pending.tail },
        claims := st.claims ++
          [{ iThread := i, iSample := w.iSample, sampleEventIndex := w.sampleEventIndex,
             eventDialCacheEntry := w.eventDialCacheEntry }] }

/-- The run of a schedule: the list of the threads that act, in order. -/
def run : List Nat → Shared → Option Shared
  | [], st => some st
  | i :: rest, st =>
    match step i st with
    | none => none
    | some st1 => run rest st1

/-- The state at the start of the fill pass: the mutex is free, every thread is outside the
section and nothing is claimed. -/
def start (sampleIndexOffsetList : List Nat) (hasCache : Bool) (fillIndex : Nat)
    (pending : List (List Nat)) : Shared :=
  { sampleIndexOffsetList := sampleIndexOffsetList, hasCache := hasCache, fillIndex := fillIndex,
    workers := pending.map (fun p => { pending := p }) }

/-- The storage positions claimed so far: the pairs of a sample and a position. -/
def positions (st : Shared) : List (Nat × Nat) :=
  st.claims.map (fun c => (c.iSample, c.sampleEventIndex))

/-- The cache entries claimed so far (`none`: the claim was made without a cache entry). -/
def cacheEntries (st : Shared) : List (Option Nat) :=
  st.claims.map (fun c => c.eventDialCacheEntry)

/-- At most one thread is inside the claiming section. -/
def OneInside (st : Shared) : Prop :=
  ∀ (j k : Nat) (wj wk : Worker), st.workers[j]? = some wj → st.workers[k]? = some wk →
    wj.pc ≠ Pc.outside → wk.pc ≠ Pc.outside → j = k

/-- A schedule of two threads in which the second asks for the mutex while the first holds it. -/
def claim_schedule : List Nat :=
  [0, 1, 0, 1, 0, 0, 1, 0, 1, 1, 0, 1, 1, 1, 0, 1, 0, 0, 0, 0, 0, 1, 1, 0, 0, 0, 0, 0, 0]

/-- What holds of a thread inside the section: its sample is in range; between the read and the
write of the offset its position is the offset; from the write on its position lies under the
offset and above every position claimed in the sample; its cache entry is the fill index between
the read and the write, and from the write on lies under the fill index and above every entry
claimed. -/
def InsideOk (st : Shared) (w : Worker) : Prop :=
  w.iSample < st.sampleIndexOffsetList.length ∧
  (w.pc = Pc.offsetRead → w.sampleEventIndex = st.sampleIndexOffsetList.getD w.iSample 0) ∧
  ((w.pc = Pc.offsetWritten ∨ w.pc = Pc.entryRead ∨ w.pc = Pc.claimed) →
    w.sampleEventIndex < st.sampleIndexOffsetList.getD w.iSample 0 ∧
    ∀ c ∈ st.claims, c.iSample = w.iSample → c.sampleEventIndex < w.sampleEventIndex) ∧
  (w.pc = Pc.entryRead → w.eventDialCacheEntry = some st.fillIndex) ∧
  (w.pc = Pc.claimed → st.hasCache = true →
    ∃ k, w.eventDialCacheEntry = some k ∧ k < st.fillIndex ∧
      ∀ c ∈ st.claims, ∀ k1, c.eventDialCacheEntry = some k1 → k1 < k)

/-- What holds of the threads: the samples they will claim in are in range, and a thread inside
the section owns the mutex. -/
def ThreadsOk (st : Shared) : Prop :=
  ∀ (j : Nat) (w : Worker), st.workers[j]? = some w →
    (∀ s ∈ w.pending, s < st.sampleIndexOffsetList.length) ∧
    (w.pc ≠ Pc.outside → st.mutexOwner = some j ∧ InsideOk st w)

/-- What holds of the completed claims: every position lies under the offset of its sample, every
cache entry under the fill index, and no position and no cache entry was claimed twice. -/
def ClaimsOk (st : Shared) : Prop :=
  (∀ c ∈ st.claims, c.sampleEventIndex < st.sampleIndexOffsetList.getD c.iSample 0) ∧
  (st.hasCache = true →
    ∀ c ∈ st.claims, ∃ k, c.eventDialCacheEntry = some k ∧ k < st.fillIndex) ∧
  (positions st).Nodup ∧
  (st.hasCache = true → (cacheEntries st).Nodup)

end Claiming
/-! ## Further fixtures -/

/-- Weights `1, 1, -1` of a source of three entries. -/
def shared_w (iEntry : Nat) : Rat := [(1 : Rat), 1, -1].getD iEntry 0

/-- A source of three entries read by one worker, with the nominal weight formula `shared_w`. -/
def sharedWeighted : Dispenser :=
  { nEntries := 3,
    getThreadBoundIndices := evenThreadBounds,
    nominalWeightFormula := some shared_w }

/-- The two samples of `sharedEntry_cache` when the fill of `sharedWeighted` starts, after the
selection and the pre-allocation: every entry belongs to both samples, three cache entries are
reserved. -/
def sharedWeighted_ready : Cache :=
  match doEventSelection sharedWeighted sharedEntry_cache.clear with
  | .error _ => sharedEntry_cache
  | .ok c =>
    match preAllocateMemory sharedWeighted c with
    | .error _ => sharedEntry_cache
    | .ok c1 => c1

theorem getElem?_map_range {α : Type} (n : Nat) (f : Nat → α) (i : Nat) :
    ((List.range n).map f)[i]? = if i < n then some (f i) else none := by
  by_cases h : i < n
  · simp [h, List.getElem?_range h]
  · simp [h]
    omega

theorem map_range_congr {α : Type} (n : Nat) (f g : Nat → α) (h : ∀ i, i < n → f i = g i) :
    (List.range n).map f = (List.range n).map g := by
  apply List.map_congr_left
  intro a ha
  exact h a (List.mem_range.mp ha)

theorem set_map_range {α : Type} (n : Nat) (f : Nat → α) (i : Nat) (a : α) :
    ((List.range n).map f).set i a = (List.range n).map (fun j => if j = i then a else f j) := by
  apply List.ext_getElem?
  intro j
  rw [List.getElem?_set, getElem?_map_range, getElem?_map_range]
  by_cases hj : j < n
  · by_cases hij : i = j
    · subst hij; simp [hj]
    · have : ¬ j = i := fun h => hij h.symm
      simp [hj, hij, this]
  · by_cases hij : i = j
    · subst hij; simp [hj]
    · simp [hj, hij]

theorem getD_map_range {α : Type} (n : Nat) (f : Nat → α) (i : Nat) (a : α) :
    ((List.range n).map f).getD i a = if i < n then f i else a := by
  rw [List.getD_eq_getElem?_getD, getElem?_map_range]
  by_cases h : i < n <;> simp [h]

theorem tabulate2_congr (n m : Nat) (F G : Nat → Nat → Bool)
    (h : ∀ e, e < n → ∀ s, s < m → F e s = G e s) : tabulate2 n m F = tabulate2 n m G := by
  unfold tabulate2
  apply map_range_congr
  intro e he
  apply map_range_congr
  intro s hs
  exact h e he s hs

theorem setFalse_tabulate2 (n m : Nat) (F : Nat → Nat → Bool) (e s : Nat) :
    setFalse (tabulate2 n m F) e s
      = tabulate2 n m (fun e' s' => if e' = e ∧ s' = s then false else F e' s') := by
  unfold setFalse tabulate2
  rw [getD_map_range, set_map_range]
  apply map_range_congr
  intro e' he'
  by_cases h : e' = e
  · subst h
    simp only [he', if_true, true_and]
    rw [set_map_range]
  · simp only [h, if_false, false_and]

theorem addCount_map_range (m : Nat) (g : Nat → Nat) (s k : Nat) :
    addCount ((List.range m).map g) s k
      = (List.range m).map (fun s' => if s' = s then g s + k else g s') := by
  unfold addCount
  rw [getD_map_range, set_map_range]
  apply map_range_congr
  intro s' hs'
  by_cases h : s' = s
  · subst h; simp [hs']
  · simp [h]

theorem all_range_single (m s : Nat) (q : Nat → Bool) :
    (List.range m).all (fun i => !decide (i = s) || q i) = if s < m then q s else true := by
  induction m with
  | zero => simp
  | succ k ih =>
    rw [List.range_succ, List.all_append, ih]
    by_cases h1 : s < k
    · have h2 : s < k + 1 := by omega
      have h3 : ¬ k = s := by omega
      simp [h1, h2, h3]
    · by_cases h2 : s = k
      · subst h2; simp
      · have h3 : ¬ s < k + 1 := by omega
        have h4 : ¬ k = s := fun h => h2 h.symm
        simp [h1, h3, h4]

theorem countP_range_single (m s : Nat) (q : Nat → Bool) :
    (List.range m).countP (fun i => decide (i = s) && q i)
      = if s < m then (if q s then 1 else 0) else 0 := by
  induction m with
  | zero => simp
  | succ k ih =>
    rw [List.range_succ, List.countP_append, ih]
    by_cases h1 : s < k
    · have h2 : s < k + 1 := by omega
      have h3 : ¬ k = s := by omega
      simp [h1, h2, h3, List.countP_cons]
    · by_cases h2 : s = k
      · subst h2
        by_cases hq : q s <;> simp [hq, List.countP_cons]
      · have h3 : ¬ s < k + 1 := by omega
        have h4 : ¬ k = s := fun h => h2 h.symm
        simp [h1, h3, h4, List.countP_cons]

theorem selectSample_tabulate (e n m : Nat) (F : Nat → Nat → Bool) (g : Nat → Nat)
    (p : Nat × Option TreeFormula) :
    selectSample e ⟨tabulate2 n m F, (List.range m).map g⟩ p
      = ⟨tabulate2 n m (fun e' s' => if e' = e ∧ s' = p.1 then F e' s' && cutPasses p.2 e
            else F e' s'),
          (List.range m).map (fun s' => if s' = p.1 then g s' + (if cutPasses p.2 e then 1 else 0)
            else g s')⟩ := by
  obtain ⟨i, cut⟩ := p
  cases cut with
  | none =>
    simp only [selectSample, cutPasses, addCount_map_range, Bool.and_true, if_true, ite_self]
    congr 1
    apply map_range_congr
    intro s' _
    by_cases h : s' = i
    · subst h; simp
    · simp [h]
  | some f =>
    by_cases hf : f e = 0
    · simp only [selectSample, hf, if_true, setFalse_tabulate2, cutPasses]
      congr 1
      · apply tabulate2_congr
        intro e' _ s' _
        by_cases h : e' = e ∧ s' = i
        · simp [h]
        · simp [h]
      · apply map_range_congr
        intro s' _
        simp
    · simp only [selectSample, hf, if_false, addCount_map_range, cutPasses]
      congr 1
      · apply tabulate2_congr
        intro e' _ s' _
        simp [hf]
      · apply map_range_congr
        intro s' _
        by_cases h : s' = i
        · subst h; simp [hf]
        · simp [h]

theorem foldl_selectSample_tabulate (e n m : Nat) (L : List (Nat × Option TreeFormula)) :
    ∀ (F : Nat → Nat → Bool) (g : Nat → Nat),
    L.foldl (selectSample e) ⟨tabulate2 n m F, (List.range m).map g⟩
      = ⟨tabulate2 n m (fun e' s' => if e' = e then
              F e' s' && L.all (fun p => !decide (p.1 = s') || cutPasses p.2 e)
            else F e' s'),
          (List.range m).map (fun s' =>
            g s' + L.countP (fun p => decide (p.1 = s') && cutPasses p.2 e))⟩ := by
  induction L with
  | nil =>
    intro F g
    simp
  | cons p L ih =>
    intro F g
    obtain ⟨i, cut⟩ := p
    rw [List.foldl_cons, selectSample_tabulate, ih]
    congr 1
    · apply tabulate2_congr
      intro e' _ s' _
      by_cases h1 : e' = e
      · by_cases h2 : s' = i
        · subst h2
          simp [h1, Bool.and_assoc]
        · have h3 : ¬ i = s' := fun h => h2 h.symm
          simp [h1, h2, h3]
      · simp [h1]
    · apply map_range_congr
      intro s' _
      by_cases h2 : s' = i
      · subst h2
        by_cases hc : cutPasses cut e
        · simp [hc, List.countP_cons]; omega
        · simp [hc, List.countP_cons]
      · have h3 : ¬ i = s' := fun h => h2 h.symm
        simp [h2, h3, List.countP_cons]


theorem foldl_setFalse_tabulate (e n m : Nat) (ss : List Nat) :
    ∀ (F : Nat → Nat → Bool),
    ss.foldl (fun t iSample => setFalse t e iSample) (tabulate2 n m F)
      = tabulate2 n m (fun e' s' => if e' = e ∧ s' ∈ ss then false else F e' s') := by
  induction ss with
  | nil => intro F; simp
  | cons s ss ih =>
    intro F
    rw [List.foldl_cons, setFalse_tabulate2, ih]
    apply tabulate2_congr
    intro e' _ s' _
    by_cases h1 : e' = e
    · by_cases h2 : s' = s
      · simp [h1, h2]
      · by_cases h3 : s' ∈ ss <;> simp [h1, h2, h3]
    · simp [h1]

theorem all_map_fn {α β : Type} (f : α → β) (P : β → Bool) (l : List α) :
    (l.map f).all P = l.all (fun a => P (f a)) := by
  induction l with
  | nil => rfl
  | cons a l ih => simp [ih]

theorem countP_map_fn {α β : Type} (f : α → β) (P : β → Bool) (l : List α) :
    (l.map f).countP P = l.countP (fun a => P (f a)) := by
  induction l with
  | nil => rfl
  | cons a l ih => simp [List.countP_cons, ih]

/-- The selection formula of the sample at a position, `none` past the end of the list. -/
theorem cutPasses_sampleAt (samples : List FitSample) (e s : Nat) :
    cutPasses (match samples[s]? with
      | some sample => sample.selectionCuts
      | none => none) e
    = match samples[s]? with
      | some smp => cutPasses smp.selectionCuts e
      | none => true := by
  cases samples[s]? <;> rfl

theorem sampleCutIdxList_all (samples : List FitSample) (e s : Nat) (hs : s < samples.length) :
    (sampleCutIdxList samples).all (fun p => !decide (p.1 = s) || cutPasses p.2 e)
      = match samples[s]? with
        | some smp => cutPasses smp.selectionCuts e
        | none => true := by
  unfold sampleCutIdxList
  rw [all_map_fn, ← cutPasses_sampleAt]
  have := all_range_single samples.length s (fun i => cutPasses (match samples[i]? with
      | some sample => sample.selectionCuts
      | none => none) e)
  simp only [hs, if_true] at this
  exact this

theorem sampleCutIdxList_countP (samples : List FitSample) (e s : Nat) (hs : s < samples.length) :
    (sampleCutIdxList samples).countP (fun p => decide (p.1 = s) && cutPasses p.2 e)
      = if (match samples[s]? with
        | some smp => cutPasses smp.selectionCuts e
        | none => true) then 1 else 0 := by
  unfold sampleCutIdxList
  rw [countP_map_fn, ← cutPasses_sampleAt]
  have := countP_range_single samples.length s (fun i => cutPasses (match samples[i]? with
      | some sample => sample.selectionCuts
      | none => none) e)
  simp only [hs, if_true] at this
  exact this

theorem isSelectedAt_eq (d : Dispenser) (samples : List FitSample) (e s : Nat) :
    isSelectedAt d samples e s
      = (cutPasses d.selectionCutFormula e && match samples[s]? with
        | some smp => cutPasses smp.selectionCuts e
        | none => true) := by
  unfold isSelectedAt isSelected
  cases samples[s]? <;> simp

theorem selectEntry_tabulate (d : Dispenser) (samples : List FitSample) (n e : Nat)
    (F : Nat → Nat → Bool) (g : Nat → Nat) :
    selectEntry d.selectionCutFormula (sampleCutIdxList samples) samples.length
        ⟨tabulate2 n samples.length F, (List.range samples.length).map g⟩ e
      = ⟨tabulate2 n samples.length (fun e' s' =>
            if e' = e then F e' s' && isSelectedAt d samples e s' else F e' s'),
          (List.range samples.length).map (fun s' =>
            g s' + (if isSelectedAt d samples e s' then 1 else 0))⟩ := by
  have hfold := foldl_selectSample_tabulate e n samples.length (sampleCutIdxList samples) F g
  have hnorm : (sampleCutIdxList samples).foldl (selectSample e)
        ⟨tabulate2 n samples.length F, (List.range samples.length).map g⟩
      = ⟨tabulate2 n samples.length (fun e' s' =>
            if e' = e then F e' s' && (match samples[s']? with
              | some smp => cutPasses smp.selectionCuts e
              | none => true) else F e' s'),
          (List.range samples.length).map (fun s' =>
            g s' + (if (match samples[s']? with
              | some smp => cutPasses smp.selectionCuts e
              | none => true) then 1 else 0))⟩ := by
    rw [hfold]
    congr 1
    · apply tabulate2_congr
      intro e' _ s' hs'
      rw [sampleCutIdxList_all samples e s' hs']
    · apply map_range_congr
      intro s' hs'
      rw [sampleCutIdxList_countP samples e s' hs']
  unfold selectEntry
  cases hg : d.selectionCutFormula with
  | none =>
    simp only [hnorm]
    congr 1
    · apply tabulate2_congr
      intro e' _ s' _
      rw [isSelectedAt_eq, hg]
      simp [cutPasses]
    · apply map_range_congr
      intro s' _
      rw [isSelectedAt_eq, hg]
      simp [cutPasses]
  | some cut =>
    by_cases hc : cut e = 0
    · simp only [hc, if_true, foldl_setFalse_tabulate]
      congr 1
      · apply tabulate2_congr
        intro e' _ s' hs'
        rw [isSelectedAt_eq, hg]
        simp [cutPasses, hc, hs']
      · apply map_range_congr
        intro s' _
        rw [isSelectedAt_eq, hg]
        simp [cutPasses, hc]
    · simp only [hc, if_false, hnorm]
      congr 1
      · apply tabulate2_congr
        intro e' _ s' _
        rw [isSelectedAt_eq, hg]
        simp [cutPasses, hc]
      · apply map_range_congr
        intro s' _
        rw [isSelectedAt_eq, hg]
        simp [cutPasses, hc]



theorem foldl_selectEntry_tabulate (d : Dispenser) (samples : List FitSample) (n len : Nat) :
    ∀ (lo : Nat) (F : Nat → Nat → Bool) (g : Nat → Nat),
    (List.range' lo len).foldl
        (selectEntry d.selectionCutFormula (sampleCutIdxList samples) samples.length)
        ⟨tabulate2 n samples.length F, (List.range samples.length).map g⟩
      = ⟨tabulate2 n samples.length (fun e' s' =>
            F e' s' && (!(decide (lo ≤ e') && decide (e' < lo + len))
              || isSelectedAt d samples e' s')),
          (List.range samples.length).map (fun s' =>
            g s' + (List.range' lo len).countP (fun e' => isSelectedAt d samples e' s'))⟩ := by
  induction len with
  | zero =>
    intro lo F g
    simp only [List.range'_zero, List.foldl_nil, List.countP_nil, Nat.add_zero]
    congr 1
    apply tabulate2_congr
    intro e' _ s' _
    by_cases h : lo ≤ e'
    · have h2 : ¬ e' < lo := by omega
      simp [h, h2]
    · simp [h]
  | succ k ih =>
    intro lo F g
    rw [List.range'_succ, List.foldl_cons, selectEntry_tabulate, ih]
    congr 1
    · apply tabulate2_congr
      intro e' _ s' _
      by_cases h1 : e' = lo
      · subst h1
        simp
      · by_cases h2 : lo ≤ e'
        · have h3 : lo + 1 ≤ e' := by omega
          have h4 : (e' < lo + 1 + k) = (e' < lo + (k + 1)) := by
            apply propext; constructor <;> intro h <;> omega
          simp [h1, h2, h3, h4]
        · have h3 : ¬ lo + 1 ≤ e' := by omega
          simp [h1, h2, h3]
    · apply map_range_congr
      intro s' _
      by_cases hc : isSelectedAt d samples lo s'
      · simp [hc, List.countP_cons]; omega
      · simp [hc, List.countP_cons]

theorem resize_nil {α : Type} (n : Nat) (v : α) : resize [] n v = (List.range n).map (fun _ => v) := by
  unfold resize
  simp

theorem replicate_true_eq (m : Nat) :
    List.replicate m true = (List.range m).map (fun _ => true) := by
  simp

/-- Closed form of the buffers of one selection thread. -/
theorem selectionFct_eq (d : Dispenser) (c : Cache) (nThreads iThread : Nat)
    (hn : d.nEntries ≠ 0) :
    selectionFct d c nThreads iThread
      = .ok ⟨tabulate2 d.nEntries c.samplesToFillList.length (fun e s =>
              !(decide ((d.getThreadBoundIndices iThread nThreads d.nEntries).1 ≤ e)
                && decide (e < (d.getThreadBoundIndices iThread nThreads d.nEntries).1
                  + ((d.getThreadBoundIndices iThread nThreads d.nEntries).2
                    - (d.getThreadBoundIndices iThread nThreads d.nEntries).1)))
              || isSelectedAt d c.samplesToFillList e s),
          (List.range c.samplesToFillList.length).map (fun s =>
            (List.range' (d.getThreadBoundIndices iThread nThreads d.nEntries).1
              ((d.getThreadBoundIndices iThread nThreads d.nEntries).2
                - (d.getThreadBoundIndices iThread nThreads d.nEntries).1)).countP
              (fun e => isSelectedAt d c.samplesToFillList e s))⟩ := by
  unfold selectionFct
  simp only [hn, if_false]
  have h1 : resize [] d.nEntries (List.replicate c.samplesToFillList.length true)
      = tabulate2 d.nEntries c.samplesToFillList.length (fun _ _ => true) := by
    rw [resize_nil, replicate_true_eq]; rfl
  have h2 : resize ([] : List Nat) c.samplesToFillList.length 0
      = (List.range c.samplesToFillList.length).map (fun _ => 0) := resize_nil _ _
  rw [h1, h2, foldl_selectEntry_tabulate]
  congr 2
  apply map_range_congr
  intro s _
  simp



theorem foldl_cond_setFalse_tabulate (e n m : Nat) (q : Nat → Bool) (ss : List Nat) :
    ∀ (F : Nat → Nat → Bool),
    ss.foldl (fun t s => if q s then setFalse t e s else t) (tabulate2 n m F)
      = tabulate2 n m (fun e' s' => if e' = e ∧ s' ∈ ss ∧ q s' = true then false else F e' s') := by
  induction ss with
  | nil => intro F; simp
  | cons s ss ih =>
    intro F
    rw [List.foldl_cons]
    by_cases hq : q s
    · rw [if_pos hq, setFalse_tabulate2, ih]
      apply tabulate2_congr
      intro e' _ s' _
      by_cases h1 : e' = e
      · by_cases h2 : s' = s
        · subst h2; simp [h1, hq]
        · simp [h1, h2]
      · simp [h1]
    · rw [if_neg hq, ih]
      apply tabulate2_congr
      intro e' _ s' _
      by_cases h1 : e' = e
      · by_cases h2 : s' = s
        · subst h2; simp [h1, hq]
        · simp [h1, h2]
      · simp [h1]

theorem foldl_foldl_cond_setFalse_tabulate (n m : Nat) (Q : Nat → Nat → Bool) (ss es : List Nat) :
    ∀ (F : Nat → Nat → Bool),
    es.foldl (fun t e => ss.foldl (fun t s => if Q e s then setFalse t e s else t) t)
        (tabulate2 n m F)
      = tabulate2 n m (fun e' s' =>
          if e' ∈ es ∧ s' ∈ ss ∧ Q e' s' = true then false else F e' s') := by
  induction es with
  | nil => intro F; simp
  | cons e es ih =>
    intro F
    rw [List.foldl_cons, foldl_cond_setFalse_tabulate, ih]
    apply tabulate2_congr
    intro e' _ s' _
    by_cases h1 : e' = e
    · subst h1
      by_cases h2 : s' ∈ ss ∧ Q e' s' = true
      · simp [h2]
      · by_cases h3 : e' ∈ es <;> simp [h2, h3]
    · simp [h1]

theorem getD_tabulate2 (n m : Nat) (B : Nat → Nat → Bool) (e s : Nat) (he : e < n) (hs : s < m) :
    ((tabulate2 n m B).getD e []).getD s true = B e s := by
  unfold tabulate2
  rw [getD_map_range]
  simp only [he, if_true]
  rw [getD_map_range]
  simp [hs]

theorem length_tabulate2 (n m : Nat) (B : Nat → Nat → Bool) : (tabulate2 n m B).length = n := by
  simp [tabulate2]

theorem foldl_addCount_range (m : Nat) (k : Nat → Nat) (j : Nat) :
    ∀ (g : Nat → Nat),
    (List.range j).foldl (fun counts s => addCount counts s (k s)) ((List.range m).map g)
      = (List.range m).map (fun s' => g s' + if s' < j then k s' else 0) := by
  induction j with
  | zero => intro g; simp
  | succ j ih =>
    intro g
    rw [List.range_succ, List.foldl_append, ih, List.foldl_cons, List.foldl_nil,
      addCount_map_range]
    apply map_range_congr
    intro s' _
    by_cases h1 : s' = j
    · subst h1; simp
    · by_cases h2 : s' < j
      · have h3 : s' < j + 1 := by omega
        simp [h1, h2, h3]
      · have h3 : ¬ s' < j + 1 := by omega
        simp [h1, h2, h3]

/-- Merging the buffers of a thread into tabulated accumulators: cells are combined by "and",
counts are added. The accumulated table is either still empty or already tabulated. -/
theorem mergeThread_tabulate (n m : Nat) (hn : 0 < n) (A B : Nat → Nat → Bool) (a b : Nat → Nat)
    (table : List (List Bool))
    (htable : (table = [] ∧ ∀ e s, A e s = true) ∨ table = tabulate2 n m A) :
    mergeThread m ⟨table, (List.range m).map a⟩ ⟨tabulate2 n m B, (List.range m).map b⟩
      = ⟨tabulate2 n m (fun e s => A e s && B e s), (List.range m).map (fun s => a s + b s)⟩ := by
  have hstart : (if table.isEmpty then
        resize table n (List.replicate m true) else table)
      = tabulate2 n m A := by
    rcases htable with ⟨h1, h2⟩ | h
    · subst h1
      simp only [List.isEmpty_nil, if_true, resize_nil, replicate_true_eq]
      apply tabulate2_congr
      intro e _ s _
      exact (h2 e s).symm
    · subst h
      have : (tabulate2 n m A).isEmpty = false := by
        cases hcase : tabulate2 n m A with
        | nil =>
          have := length_tabulate2 n m A
          rw [hcase] at this
          simp at this
          omega
        | cons x xs => rfl
      simp [this]
  unfold mergeThread
  simp only [length_tabulate2, hstart]
  congr 1
  · rw [foldl_foldl_cond_setFalse_tabulate]
    apply tabulate2_congr
    intro e he s hs
    rw [getD_tabulate2 n m B e s he hs]
    have h1 : e ∈ List.range n := List.mem_range.mpr he
    have h2 : s ∈ List.range m := List.mem_range.mpr hs
    cases hB : B e s <;> simp [h1, h2]
  · have := foldl_addCount_range m (fun s => ((List.range m).map b).getD s 0) m a
    rw [this]
    apply map_range_congr
    intro s hs
    rw [getD_map_range]
    simp [hs]

theorem mapExcept_ok {α β : Type} (f : α → Except Fatal β) (g : α → β) :
    ∀ (l : List α), (∀ a, a ∈ l → f a = .ok (g a)) → mapExcept f l = .ok (l.map g) := by
  intro l
  induction l with
  | nil => intro _; rfl
  | cons a l ih =>
    intro h
    have h1 := h a (List.mem_cons_self a l)
    have h2 := ih (fun x hx => h x (List.mem_cons_of_mem a hx))
    simp [mapExcept, h1, h2]



theorem rangeStart_eq (bounds : Nat → Nat × Nat) (T n : Nat) (h : ContiguousRanges bounds T n) :
    ∀ k, k < T → (bounds k).1 = rangeStart bounds k := by
  intro k hk
  cases k with
  | zero => exact h.1
  | succ k => exact h.2.2.1 k (by omega)

theorem rangeStart_le (bounds : Nat → Nat × Nat) (T n : Nat) (h : ContiguousRanges bounds T n) :
    ∀ k, k < T → rangeStart bounds k ≤ rangeStart bounds (k + 1) := by
  intro k hk
  have h1 := rangeStart_eq bounds T n h k hk
  have h2 := h.2.1 k hk
  show rangeStart bounds k ≤ (bounds k).2
  omega

theorem rangeStart_last (bounds : Nat → Nat × Nat) (T n : Nat) (h : ContiguousRanges bounds T n)
    (hT : 0 < T) : rangeStart bounds T = n := by
  cases T with
  | zero => omega
  | succ k => exact h.2.2.2

/-- Merging the buffers of the first `k` threads of a contiguous partition: the table holds the
selection outcome for the entries below the start of thread `k`, the counts are those of these
entries. -/
theorem foldl_mergeThread (d : Dispenser) (samples : List FitSample) (T : Nat)
    (bounds : Nat → Nat × Nat) (hn : 0 < d.nEntries)
    (hpart : ContiguousRanges bounds T d.nEntries) (thr : Nat → SelectionBuffers)
    (hthr : ∀ i, i < T → thr i
      = ⟨tabulate2 d.nEntries samples.length (fun e s =>
            !(decide ((bounds i).1 ≤ e) && decide (e < (bounds i).1 + ((bounds i).2 - (bounds i).1)))
            || isSelectedAt d samples e s),
          (List.range samples.length).map (fun s =>
            (List.range' (bounds i).1 ((bounds i).2 - (bounds i).1)).countP
              (fun e => isSelectedAt d samples e s))⟩) :
    ∀ k, k ≤ T →
    (List.range k).foldl (fun acc i => mergeThread samples.length acc (thr i))
        ⟨[], (List.range samples.length).map (fun _ => 0)⟩
      = ⟨if k = 0 then [] else tabulate2 d.nEntries samples.length (fun e s =>
            !(decide (e < rangeStart bounds k)) || isSelectedAt d samples e s),
          (List.range samples.length).map (fun s =>
            (List.range' 0 (rangeStart bounds k)).countP (fun e => isSelectedAt d samples e s))⟩ := by
  intro k
  induction k with
  | zero =>
    intro _
    simp [rangeStart]
  | succ k ih =>
    intro hk
    have hk' : k < T := by omega
    rw [List.range_succ, List.foldl_append, ih (by omega), List.foldl_cons, List.foldl_nil,
      hthr k hk']
    have hlo := rangeStart_eq bounds T d.nEntries hpart k hk'
    have hle := rangeStart_le bounds T d.nEntries hpart k hk'
    have hhi : (bounds k).2 = rangeStart bounds (k + 1) := rfl
    rw [mergeThread_tabulate d.nEntries samples.length hn
      (fun e s => !(decide (e < rangeStart bounds k)) || isSelectedAt d samples e s)]
    · simp only [Nat.succ_ne_zero, if_false]
      congr 1
      · apply tabulate2_congr
        intro e _ s _
        rw [hlo, hhi]
        by_cases h1 : e < rangeStart bounds k
        · have h2 : e < rangeStart bounds (k + 1) := by omega
          have h3 : ¬ rangeStart bounds k ≤ e := by omega
          simp [h1, h2, h3]
        · have h3 : rangeStart bounds k ≤ e := by omega
          have h4 : (e < rangeStart bounds k + (rangeStart bounds (k + 1) - rangeStart bounds k))
              = (e < rangeStart bounds (k + 1)) := by
            apply propext; constructor <;> intro h <;> omega
          simp [h1, h3, h4]
      · apply map_range_congr
        intro s _
        rw [hlo, hhi, ← List.countP_append]
        have := List.range'_append 0 (rangeStart bounds k)
          (rangeStart bounds (k + 1) - rangeStart bounds k) 1
        simp only [Nat.zero_add, Nat.one_mul] at this
        rw [this]
        congr 2
        omega
    · by_cases h0 : k = 0
      · left
        subst h0
        simp [rangeStart]
      · right
        simp [h0]



/-- Closed form of the selection pass on a cleared cache: whatever the number of workers, as long
as their ranges cut the entries into contiguous ranges, the cache ends with the membership table
and the counts of `selectedTable` and `selectedCounts`. -/
theorem doEventSelection_eq (d : Dispenser) (c : Cache) (hn : 0 < d.nEntries)
    (hT : 0 < selectionThreads d)
    (hpart : ContiguousRanges
      (fun i => d.getThreadBoundIndices i (selectionThreads d) d.nEntries)
      (selectionThreads d) d.nEntries)
    (htable : c.eventIsInSamplesList = []) (hcounts : c.sampleNbOfEvents = []) :
    doEventSelection d c
      = .ok { c with eventIsInSamplesList := selectedTable d c.samplesToFillList,
                     sampleNbOfEvents := selectedCounts d c.samplesToFillList } := by
  unfold doEventSelection
  have hne : d.nEntries ≠ 0 := by omega
  have hmap := mapExcept_ok (selectionFct d c (selectionThreads d)) _
    (List.range (selectionThreads d))
    (fun i _ => selectionFct_eq d c (selectionThreads d) i hne)
  simp only [hmap, htable, hcounts, resize_nil, List.foldl_map]
  have hfold := foldl_mergeThread d c.samplesToFillList (selectionThreads d)
    (fun i => d.getThreadBoundIndices i (selectionThreads d) d.nEntries) hn hpart _
    (fun i _ => rfl) (selectionThreads d) (Nat.le_refl _)
  rw [hfold]
  have hlast := rangeStart_last _ _ _ hpart hT
  have h0 : selectionThreads d ≠ 0 := by omega
  simp only [h0, if_false, hlast]
  congr 2
  · unfold selectedCounts
    simp only [List.range_eq_range']
  · unfold selectedTable
    apply tabulate2_congr
    intro e he s _
    simp [he]



theorem cutPasses_iff (cut : Option TreeFormula) (e : Nat) :
    cutPasses cut e = true ↔ (cut = none ∨ ∃ f, cut = some f ∧ f e ≠ 0) := by
  cases cut with
  | none => simp [cutPasses]
  | some f => simp [cutPasses]

/-- Claim C2. On the cache cleared by `load`, `doEventSelection` succeeds (the source is not empty,
the ranges of the workers cut the entries into contiguous ranges) and leaves a membership table
with one row per source entry and one column per sample to fill, whose cell `(e, s)` is true
exactly when the global selection formula is absent or non-zero on `e` and the selection formula
of sample `s` is absent or non-zero on `e`. The cell mentions the formula of no other sample. -/
theorem doEventSelection_membership (d : Dispenser) (c : Cache)
    (hn : 0 < d.nEntries) (hT : 0 < selectionThreads d)
    (hpart : ContiguousRanges
      (fun i => d.getThreadBoundIndices i (selectionThreads d) d.nEntries)
      (selectionThreads d) d.nEntries) :
    ∃ c', doEventSelection d c.clear = .ok c' ∧
      c'.eventIsInSamplesList.length = d.nEntries ∧
      ∀ e, e < d.nEntries → ∃ row, c'.eventIsInSamplesList[e]? = some row ∧
        row.length = c.samplesToFillList.length ∧
        ∀ (s : Nat) (sample : FitSample), c.samplesToFillList[s]? = some sample →
          ∃ b, row[s]? = some b ∧
            (b = true ↔
              (d.selectionCutFormula = none ∨ ∃ f, d.selectionCutFormula = some f ∧ f e ≠ 0) ∧
              (sample.selectionCuts = none ∨ ∃ f, sample.selectionCuts = some f ∧ f e ≠ 0)) := by
  refine ⟨_, doEventSelection_eq d c.clear hn hT hpart rfl rfl, ?_, ?_⟩
  · exact length_tabulate2 _ _ _
  · intro e he
    refine ⟨(List.range c.samplesToFillList.length).map
      (fun s => isSelectedAt d c.samplesToFillList e s), ?_, ?_, ?_⟩
    · show (selectedTable d c.samplesToFillList)[e]? = _
      unfold selectedTable tabulate2
      rw [getElem?_map_range]
      simp [he]
    · simp
    · intro s sample hs
      have hlt : s < c.samplesToFillList.length := by
        rcases List.getElem?_eq_some.mp hs with ⟨h, _⟩
        exact h
      refine ⟨isSelectedAt d c.samplesToFillList e s, ?_, ?_⟩
      · rw [getElem?_map_range]
        simp [hlt]
      · unfold isSelectedAt
        rw [hs]
        simp only [isSelected, Bool.and_eq_true, cutPasses_iff]

/-- Witness of `doEventSelection_membership`: Scenario A read by two workers. -/
theorem doEventSelection_membership_witness :
    (0 < (scenarioA_threads 2).nEntries ∧ 0 < selectionThreads (scenarioA_threads 2) ∧
      ContiguousRanges
        (fun i => (scenarioA_threads 2).getThreadBoundIndices i
          (selectionThreads (scenarioA_threads 2)) (scenarioA_threads 2).nEntries)
        (selectionThreads (scenarioA_threads 2)) (scenarioA_threads 2).nEntries) ∧
    ∃ c', doEventSelection (scenarioA_threads 2) scenarioA_cache.clear = .ok c' ∧
      c'.eventIsInSamplesList.length = 4 :=
  ⟨⟨by decide, by decide, by decide⟩,
    (doEventSelection_membership (scenarioA_threads 2) scenarioA_cache
      (by decide) (by decide) (by decide)).imp (fun _ h => ⟨h.1, h.2.1⟩)⟩

/-- Claim C3. For any two numbers of workers `T1, T2 ≥ 1` whose ranges cut the entries into
contiguous ranges, the selection pass run with `T1` workers, run with `T2` workers and run in the
single-thread mode end with the same cache: same per-sample counts, same membership table. -/
theorem doEventSelection_thread_independent (d : Dispenser) (c : Cache) (T1 T2 : Nat)
    (hn : 0 < d.nEntries) (hT1 : 1 ≤ T1) (hT2 : 1 ≤ T2)
    (hpart1 : ContiguousRanges (fun i => d.getThreadBoundIndices i T1 d.nEntries) T1 d.nEntries)
    (hpart2 : ContiguousRanges (fun i => d.getThreadBoundIndices i T2 d.nEntries) T2 d.nEntries)
    (hpartS : ContiguousRanges (fun i => d.getThreadBoundIndices i 1 d.nEntries) 1 d.nEntries) :
    ∃ c', doEventSelection
          { d with nThreads := T1, devSingleThreadEventSelection := false } c.clear = .ok c' ∧
      doEventSelection
          { d with nThreads := T2, devSingleThreadEventSelection := false } c.clear = .ok c' ∧
      doEventSelection { d with devSingleThreadEventSelection := true } c.clear = .ok c' ∧
      c'.sampleNbOfEvents = selectedCounts d c.samplesToFillList ∧
      c'.eventIsInSamplesList = selectedTable d c.samplesToFillList := by
  refine ⟨{ c.clear with eventIsInSamplesList := selectedTable d c.samplesToFillList,
                          sampleNbOfEvents := selectedCounts d c.samplesToFillList },
    ?_, ?_, ?_, rfl, rfl⟩
  · exact doEventSelection_eq { d with nThreads := T1, devSingleThreadEventSelection := false }
      c.clear hn hT1 hpart1 rfl rfl
  · exact doEventSelection_eq { d with nThreads := T2, devSingleThreadEventSelection := false }
      c.clear hn hT2 hpart2 rfl rfl
  · exact doEventSelection_eq { d with devSingleThreadEventSelection := true }
      c.clear hn (Nat.le_refl 1) hpartS rfl rfl

/-- Witness of `doEventSelection_thread_independent`: Scenario A with two and three workers. -/
theorem doEventSelection_thread_independent_witness :
    (0 < scenarioA.nEntries ∧ 1 ≤ 2 ∧ 1 ≤ 3 ∧
      ContiguousRanges (fun i => scenarioA.getThreadBoundIndices i 2 scenarioA.nEntries) 2
        scenarioA.nEntries ∧
      ContiguousRanges (fun i => scenarioA.getThreadBoundIndices i 3 scenarioA.nEntries) 3
        scenarioA.nEntries ∧
      ContiguousRanges (fun i => scenarioA.getThreadBoundIndices i 1 scenarioA.nEntries) 1
        scenarioA.nEntries) ∧
    ∃ c', doEventSelection
          { scenarioA with nThreads := 2, devSingleThreadEventSelection := false }
          scenarioA_cache.clear = .ok c' ∧
      doEventSelection
          { scenarioA with nThreads := 3, devSingleThreadEventSelection := false }
          scenarioA_cache.clear = .ok c' ∧
      c'.sampleNbOfEvents = [3] :=
  ⟨⟨by decide, by decide, by decide, by decide, by decide, by decide⟩,
    (doEventSelection_thread_independent scenarioA scenarioA_cache 2 3
      (by decide) (by decide) (by decide) (by decide) (by decide) (by decide)).imp
      (fun _ h => ⟨h.1, h.2.1, h.2.2.2.1.trans (by decide)⟩)⟩



/-- Claim C7 (Scenario A). With one sample of selection `x>0` and bins `[0,1)`, `[1,2)` over `x`,
and the entries `x = [-1, 0.5, 1.5, 1.5]`, the load succeeds, the selection pass counts 3 events
for the sample, and the container of the sample holds exactly the three events built from the
entries 1, 2, 3 (the entry with `x = -1` is rejected), with bin indices `[0, 1, 1]` in storage
order. -/
theorem scenarioA_load :
    (load scenarioA scenarioA_cache).map
        (fun c => (c.sampleNbOfEvents, c.eventIsInSamplesList, storedEvents scenarioA c))
      = .ok ([3], [[false], [true], [true], [true]], [[(1, 0, 1), (2, 1, 1), (3, 1, 1)]]) := by
  rfl

/-- Claim C1, evaluated on the code. One entry with `x = 0.5` and two samples without selection
cut: the entry belongs to both samples after the selection and the bin `[0,1)` of the second
sample holds its value, yet the load stores it in neither sample, because the search that fails
in the bin `[10,20)` of the first sample leaves the sample loop. With the two samples in the other
order the entry is stored in the sample with the bin `[0,1)`. -/
theorem load_leaves_sample_loop_on_failed_bin_search :
    (load oneEntry twoSamples_cache).map
        (fun c => (c.eventIsInSamplesList, storedEvents oneEntry c))
      = .ok ([[true, true]], [[], []]) ∧
    isBinValid ((eventIndexingBuffer oneEntry).copyData (leafFormIndexingList oneEntry) 0)
        { edges := [("x", (0, 1))] } = .ok true ∧
    (load oneEntry twoSamples_swapped).map
        (fun c => (c.eventIsInSamplesList, storedEvents oneEntry c))
      = .ok ([[true, true]], [[(0, 0, 1)], []]) := by
  refine ⟨?_, ?_, ?_⟩ <;> rfl

/-- Claim C5, evaluated on the code. One entry that two samples both accept, an event-dial cache
attached: `preAllocateMemory` reserves one cache entry (the entry count of the source), the fill
stores one event per sample (as the load without cache shows) and so asks for a second cache
entry, past the end of the cache. -/
theorem load_claims_more_cache_entries_than_reserved :
    (match doEventSelection oneEntry sharedEntry_cache.clear with
      | .ok c => Except.map cacheEntries (preAllocateMemory oneEntry c)
      | .error e => .error e) = .ok 1 ∧
    (load oneEntry { sharedEntry_cache with eventDialCacheRef := none }).map
        (fun c => storedEvents oneEntry c) = .ok [[(0, 0, 1)], [(0, 0, 1)]] ∧
    (load oneEntry sharedEntry_cache).map (fun c => storedEvents oneEntry c)
      = .error .cacheEntryOutOfRange := by
  refine ⟨?_, ?_, ?_⟩ <;> rfl



theorem findIf_some {α : Type} (p : α → Except Fatal Bool) :
    ∀ (l : List α) (i : Nat), findIf p l = .ok (some i) →
      ∃ a, l[i]? = some a ∧ p a = .ok true ∧
        ∀ (j : Nat) (b : α), j < i → l[j]? = some b → p b = .ok false := by
  intro l
  induction l with
  | nil => intro i h; simp [findIf] at h
  | cons a l ih =>
    intro i h
    unfold findIf at h
    cases hp : p a with
    | error e => simp [hp] at h
    | ok v =>
      cases v with
      | true =>
        simp only [hp] at h
        have hi : i = 0 := by
          injection h with h1
          injection h1 with h2
          exact h2.symm
        subst hi
        exact ⟨a, by simp, hp, fun j b hj _ => absurd hj (Nat.not_lt_zero j)⟩
      | false =>
        simp only [hp] at h
        cases hr : findIf p l with
        | error e => simp [hr] at h
        | ok o =>
          cases o with
          | none => simp [hr] at h
          | some k =>
            simp only [hr] at h
            have hi : i = k + 1 := by
              injection h with h1
              injection h1 with h2
              exact h2.symm
            subst hi
            obtain ⟨a', h1, h2, h3⟩ := ih k hr
            refine ⟨a', by simpa using h1, h2, ?_⟩
            intro j b hj hb
            cases j with
            | zero =>
              simp at hb
              subst hb
              exact hp
            | succ j =>
              simp at hb
              exact h3 j b (by omega) hb

theorem findIf_none {α : Type} (p : α → Except Fatal Bool) :
    ∀ (l : List α), findIf p l = .ok none → ∀ a, a ∈ l → p a = .ok false := by
  intro l
  induction l with
  | nil => intro _ a ha; simp at ha
  | cons x l ih =>
    intro h a ha
    unfold findIf at h
    cases hp : p x with
    | error e => simp [hp] at h
    | ok v =>
      cases v with
      | true => simp [hp] at h
      | false =>
        simp only [hp] at h
        cases hr : findIf p l with
        | error e => simp [hr] at h
        | ok o =>
          cases o with
          | some k => simp [hr] at h
          | none =>
            rcases List.mem_cons.mp ha with h1 | h1
            · subst h1; exact hp
            · exact ih hr a h1

theorem isBetweenEdges_iff (edges : Rat × Rat) (v : Rat) :
    DataBin.isBetweenEdges edges v = true ↔ edges.1 ≤ v ∧ v < edges.2 := by
  simp [DataBin.isBetweenEdges]

theorem isBinValidFrom_true (buf : PhysicsEvent) :
    ∀ (l : List (String × (Rat × Rat))), isBinValidFrom buf l = .ok true →
      ∀ name edges, (name, edges) ∈ l →
        ∃ v, buf.getVarAsDouble name = .ok v ∧ edges.1 ≤ v ∧ v < edges.2 := by
  intro l
  induction l with
  | nil => intro _ name edges hmem; simp at hmem
  | cons x l ih =>
    intro h name edges hmem
    obtain ⟨n0, e0⟩ := x
    unfold isBinValidFrom at h
    cases hv : buf.getVarAsDouble n0 with
    | error e => simp [hv] at h
    | ok v =>
      simp only [hv] at h
      by_cases hb : DataBin.isBetweenEdges e0 v = true
      · simp only [hb, Bool.not_true, Bool.false_eq_true, if_false] at h
        rcases List.mem_cons.mp hmem with h1 | h1
        · injection h1 with h2 h3
          subst h2; subst h3
          exact ⟨v, hv, (isBetweenEdges_iff _ _).mp hb⟩
        · exact ih h name edges h1
      · simp [hb] at h

theorem isBinValidFrom_false (buf : PhysicsEvent) :
    ∀ (l : List (String × (Rat × Rat))), isBinValidFrom buf l = .ok false →
      ∃ name edges v, (name, edges) ∈ l ∧ buf.getVarAsDouble name = .ok v ∧
        ¬ (edges.1 ≤ v ∧ v < edges.2) := by
  intro l
  induction l with
  | nil => intro h; simp [isBinValidFrom] at h
  | cons x l ih =>
    intro h
    obtain ⟨n0, e0⟩ := x
    unfold isBinValidFrom at h
    cases hv : buf.getVarAsDouble n0 with
    | error e => simp [hv] at h
    | ok v =>
      simp only [hv] at h
      by_cases hb : DataBin.isBetweenEdges e0 v = true
      · simp only [hb, Bool.not_true, Bool.false_eq_true, if_false] at h
        obtain ⟨name, edges, w, h1, h2, h3⟩ := ih h
        exact ⟨name, edges, w, List.mem_cons_of_mem _ h1, h2, h3⟩
      · refine ⟨n0, e0, v, List.mem_cons_self _ _, hv, ?_⟩
        intro hcontra
        exact hb ((isBetweenEdges_iff _ _).mpr hcontra)

/-- A successful `isBinValid` means that the bin contains the values of the event. -/
theorem isBinValid_true (buf : PhysicsEvent) (b : DataBin) (h : isBinValid buf b = .ok true) :
    BinContains buf b :=
  isBinValidFrom_true buf b.edges h

/-- A failed `isBinValid` means that the bin does not contain the values of the event. -/
theorem isBinValid_false (buf : PhysicsEvent) (b : DataBin) (h : isBinValid buf b = .ok false) :
    ¬ BinContains buf b := by
  intro hc
  obtain ⟨name, edges, v, h1, h2, h3⟩ := isBinValidFrom_false buf b.edges h
  obtain ⟨w, h4, h5⟩ := hc name edges h1
  rw [h2] at h4
  injection h4 with h6
  subst h6
  exact h3 h5



/-- What a successful `storeEvent` does to the cache: the offset of the sample moves on by one,
the event at the claimed position becomes the filled event; the table and the counts are left
alone. -/
theorem storeEvent_ok (d : Dispenser) (iEntry iSample : Nat) (sample : FitSample)
    (tl : ThreadLocals) (c c' : Cache) (h : storeEvent d iEntry iSample sample tl c = .ok c') :
    ∃ (idx : Nat) (slot : PhysicsEvent),
      c.sampleIndexOffsetList[iSample]? = some idx ∧
      (sample.container d.useMcContainer).eventList[idx]? = some slot ∧
      c'.sampleIndexOffsetList = c.sampleIndexOffsetList.set iSample (idx + 1) ∧
      c'.samplesToFillList = c.samplesToFillList.set iSample
        (sample.setContainer d.useMcContainer
          { eventList := (sample.container d.useMcContainer).eventList.set idx
              (filledEvent d iEntry sample tl slot) }) ∧
      c'.eventIsInSamplesList = c.eventIsInSamplesList ∧
      c'.sampleNbOfEvents = c.sampleNbOfEvents := by
  unfold storeEvent at h
  cases hidx : c.sampleIndexOffsetList[iSample]? with
  | none => simp [hidx] at h
  | some idx =>
    simp only [hidx] at h
    cases hslot : (sample.container d.useMcContainer).eventList[idx]? with
    | none => simp [hslot] at h
    | some slot =>
      simp only [hslot] at h
      refine ⟨idx, slot, rfl, hslot, ?_⟩
      cases hcache : c.eventDialCacheRef with
      | none =>
        simp only [hcache, Option.map_none'] at h
        injection h with h
        subst h
        exact ⟨rfl, rfl, rfl, rfl⟩
      | some cache =>
        simp only [hcache, Option.map_some'] at h
        cases hentry : (cache.fetchNextCacheEntry).2.indexedCache[(cache.fetchNextCacheEntry).1]? with
        | none =>
          simp only [EventDialCache.fetchNextCacheEntry] at hentry
          simp [EventDialCache.fetchNextCacheEntry, hentry] at h
        | some entry =>
          simp only [EventDialCache.fetchNextCacheEntry] at hentry
          simp only [EventDialCache.fetchNextCacheEntry, hentry] at h
          split at h
          · simp at h
          · injection h with h
            subst h
            exact ⟨rfl, rfl, rfl, rfl⟩



/-- A sample loop body that goes on to the next sample has found a bin and stored the event. -/
theorem fillSample_ok_true (d : Dispenser) (iEntry iSample : Nat) (tl tl' : ThreadLocals)
    (c c' : Cache) (h : fillSample d iEntry iSample tl c = .ok (true, tl', c')) :
    ∃ (sample : FitSample) (iBin : Nat),
      c.samplesToFillList[iSample]? = some sample ∧
      formulaIsZero sample.varSelectionFormula
        (loadIndexingBuffer d iEntry tl).eventIndexingBuffer = false ∧
      findIf (isBinValid (loadIndexingBuffer d iEntry tl).eventIndexingBuffer) sample.binning
        = .ok (some iBin) ∧
      tl' = setFoundBin (loadIndexingBuffer d iEntry tl) iBin ∧
      storeEvent d iEntry iSample sample tl' c = .ok c' := by
  unfold fillSample at h
  cases hs : c.samplesToFillList[iSample]? with
  | none => simp [hs] at h
  | some sample =>
    simp only [hs] at h
    cases hz : formulaIsZero sample.varSelectionFormula
        (loadIndexingBuffer d iEntry tl).eventIndexingBuffer with
    | true => simp [hz] at h
    | false =>
      simp only [hz, Bool.false_eq_true, if_false] at h
      cases hf : findIf (isBinValid (loadIndexingBuffer d iEntry tl).eventIndexingBuffer)
          sample.binning with
      | error e => simp [hf] at h
      | ok o =>
        cases o with
        | none => simp [hf] at h
        | some iBin =>
          simp only [hf] at h
          cases hst : storeEvent d iEntry iSample sample
              (setFoundBin (loadIndexingBuffer d iEntry tl) iBin) c with
          | error e => simp [hst] at h
          | ok c1 =>
            simp only [hst] at h
            injection h with h
            injection h with _ h
            injection h with h1 h2
            subst h1; subst h2
            exact ⟨sample, iBin, rfl, hz, hf, rfl, hst⟩

/-- A sample loop body that leaves the loop has stored nothing. -/
theorem fillSample_ok_false (d : Dispenser) (iEntry iSample : Nat) (tl tl' : ThreadLocals)
    (c c' : Cache) (h : fillSample d iEntry iSample tl c = .ok (false, tl', c')) :
    c' = c ∧ tl' = loadIndexingBuffer d iEntry tl := by
  unfold fillSample at h
  cases hs : c.samplesToFillList[iSample]? with
  | none => simp [hs] at h
  | some sample =>
    simp only [hs] at h
    cases hz : formulaIsZero sample.varSelectionFormula
        (loadIndexingBuffer d iEntry tl).eventIndexingBuffer with
    | true =>
      simp only [hz, if_true] at h
      injection h with h
      injection h with _ h
      injection h with h1 h2
      exact ⟨h2.symm, h1.symm⟩
    | false =>
      simp only [hz, Bool.false_eq_true, if_false] at h
      cases hf : findIf (isBinValid (loadIndexingBuffer d iEntry tl).eventIndexingBuffer)
          sample.binning with
      | error e => simp [hf] at h
      | ok o =>
        cases o with
        | none =>
          simp only [hf] at h
          injection h with h
          injection h with _ h
          injection h with h1 h2
          exact ⟨h2.symm, h1.symm⟩
        | some iBin =>
          simp only [hf] at h
          cases hst : storeEvent d iEntry iSample sample
              (setFoundBin (loadIndexingBuffer d iEntry tl) iBin) c with
          | error e => simp [hst] at h
          | ok c1 => simp [hst] at h

theorem container_setContainer (s : FitSample) (useMc : Bool) (x : SampleElement) :
    (s.setContainer useMc x).container useMc = x := by
  cases useMc <;> rfl

theorem eventAt_set (d : Dispenser) (c c' : Cache) (iSample idx : Nat) (sample : FitSample)
    (l : List PhysicsEvent) (ev : PhysicsEvent)
    (hs : c.samplesToFillList[iSample]? = some sample) (hidx : idx < l.length)
    (hc : c'.samplesToFillList = c.samplesToFillList.set iSample
      (sample.setContainer d.useMcContainer { eventList := l.set idx ev })) :
    eventAt d c' iSample idx = some ev := by
  have hlt : iSample < c.samplesToFillList.length := (List.getElem?_eq_some.mp hs).1
  unfold eventAt
  rw [hc, List.getElem?_set]
  simp only [hlt, if_true]
  rw [container_setContainer]
  simp [List.getElem?_set, hidx]

/-- Claim C6. Whenever the body of the sample loop stores an event (the only place where
`fillFunction` writes an event), the event written at the claimed position of the sample's
container carries the entry index and a sample bin index `iBin` such that bin `iBin` of the
sample's binning contains the values of the indexing buffer on every one of its variables, and no
bin declared before it does: of two overlapping bins the first-declared one is assigned. -/
theorem fillSample_first_matching_bin (d : Dispenser) (iEntry iSample : Nat) (tl : ThreadLocals)
    (c : Cache) (r : Bool × ThreadLocals × Cache)
    (h : fillSample d iEntry iSample tl c = .ok r) (hr : r.1 = true) :
    ∃ (sample : FitSample) (idx : Nat) (ev : PhysicsEvent) (iBin : Nat) (bin : DataBin),
      c.samplesToFillList[iSample]? = some sample ∧
      c.sampleIndexOffsetList[iSample]? = some idx ∧
      eventAt d r.2.2 iSample idx = some ev ∧
      ev.entryIndex = iEntry ∧ ev.sampleBinIndex = iBin ∧
      sample.binning[iBin]? = some bin ∧
      BinContains r.2.1.eventIndexingBuffer bin ∧
      ∀ (j : Nat) (b : DataBin), j < iBin → sample.binning[j]? = some b →
        ¬ BinContains r.2.1.eventIndexingBuffer b := by
  obtain ⟨b, tl', c'⟩ := r
  simp only at hr
  subst hr
  obtain ⟨sample, iBin, hs, _, hfind, htl, hstore⟩ := fillSample_ok_true d iEntry iSample tl tl' c c' h
  obtain ⟨idx, slot, hidx, hslot, _, hsamples, _, _⟩ :=
    storeEvent_ok d iEntry iSample sample tl' c c' hstore
  obtain ⟨bin, hbin, hvalid, hbefore⟩ := findIf_some _ _ _ hfind
  have hlt : idx < (sample.container d.useMcContainer).eventList.length :=
    (List.getElem?_eq_some.mp hslot).1
  refine ⟨sample, idx, filledEvent d iEntry sample tl' slot, iBin, bin, hs, hidx,
    eventAt_set d c c' iSample idx sample _ _ hs hlt hsamples, rfl, ?_, hbin, ?_, ?_⟩
  · subst htl
    rfl
  · subst htl
    exact (isBinValid_true (loadIndexingBuffer d iEntry tl).eventIndexingBuffer bin hvalid)
  · intro j b hj hb
    subst htl
    exact (isBinValid_false (loadIndexingBuffer d iEntry tl).eventIndexingBuffer b
      (hbefore j b hj hb))

/-- Witness of `fillSample_first_matching_bin`: the overlapping two-bin fixture, where both bins
hold `x = 1.5` and the first one is assigned. -/
theorem fillSample_first_matching_bin_witness :
    fillSample overlap 0 0 (threadLocals overlap) overlap_cache = .ok overlap_filled ∧
    overlap_filled.1 = true ∧
    storedEvents overlap overlap_filled.2.2 = [[(0, 0, 1)]] ∧
    isBinValid overlap_filled.2.1.eventIndexingBuffer { edges := [("x", (1, 3))] } = .ok true ∧
    ∃ (sample : FitSample) (idx : Nat) (ev : PhysicsEvent) (iBin : Nat) (bin : DataBin),
      overlap_cache.samplesToFillList[0]? = some sample ∧
      overlap_cache.sampleIndexOffsetList[0]? = some idx ∧
      eventAt overlap overlap_filled.2.2 0 idx = some ev ∧
      ev.entryIndex = 0 ∧ ev.sampleBinIndex = iBin ∧
      sample.binning[iBin]? = some bin ∧
      BinContains overlap_filled.2.1.eventIndexingBuffer bin ∧
      ∀ (j : Nat) (b : DataBin), j < iBin → sample.binning[j]? = some b →
        ¬ BinContains overlap_filled.2.1.eventIndexingBuffer b :=
  ⟨rfl, rfl, rfl, rfl,
    fillSample_first_matching_bin overlap 0 0 (threadLocals overlap) overlap_cache
      overlap_filled rfl rfl⟩



theorem foldl_propagate_baseWeight (indices : List Nat) :
    ∀ (tl : ThreadLocals),
      (propagateIndexingTransforms indices tl).eventIndexingBuffer.baseWeight
        = tl.eventIndexingBuffer.baseWeight := by
  induction indices with
  | nil => intro tl; rfl
  | cons i rest ih =>
    intro tl
    unfold propagateIndexingTransforms
    rw [List.foldl_cons]
    have := ih (match tl.eventVarTransformList[i]? with
      | none => tl
      | some t =>
        { eventIndexingBuffer := (t.evalAndStore tl.eventIndexingBuffer).2,
          eventVarTransformList := tl.eventVarTransformList.set i (t.evalAndStore tl.eventIndexingBuffer).1 })
    unfold propagateIndexingTransforms at this
    rw [this]
    cases tl.eventVarTransformList[i]? with
    | none => rfl
    | some t =>
      simp only [EventVarTransform.evalAndStore, PhysicsEvent.setVariable]
      split <;> rfl

/-- Loading the indexing buffer leaves its base weight alone. -/
theorem loadIndexingBuffer_baseWeight (d : Dispenser) (iEntry : Nat) (tl : ThreadLocals) :
    (loadIndexingBuffer d iEntry tl).eventIndexingBuffer.baseWeight
      = tl.eventIndexingBuffer.baseWeight := by
  unfold loadIndexingBuffer
  rw [foldl_propagate_baseWeight]
  rfl

/-- After a successful `storeEvent` every event of the targeted containers is either the event
that was there before or the filled event, written at the claimed position. -/
theorem eventAt_after_store (d : Dispenser) (c c' : Cache) (iSample idx : Nat)
    (sample : FitSample) (l : List PhysicsEvent) (ev0 : PhysicsEvent)
    (hs : c.samplesToFillList[iSample]? = some sample)
    (hl : l = (sample.container d.useMcContainer).eventList)
    (hc : c'.samplesToFillList = c.samplesToFillList.set iSample
      (sample.setContainer d.useMcContainer { eventList := l.set idx ev0 })) :
    ∀ (s i : Nat) (ev : PhysicsEvent), eventAt d c' s i = some ev →
      eventAt d c s i = some ev ∨ (s = iSample ∧ i = idx ∧ ev = ev0) := by
  intro s i ev h
  unfold eventAt at h ⊢
  rw [hc, List.getElem?_set] at h
  by_cases hsj : iSample = s
  · subst hsj
    have hlt : iSample < c.samplesToFillList.length := (List.getElem?_eq_some.mp hs).1
    simp only [hlt, if_true] at h
    rw [container_setContainer] at h
    simp only [List.getElem?_set] at h
    rw [hs]
    by_cases hi : idx = i
    · subst hi
      simp only [if_true] at h
      split at h
      · injection h with h
        exact Or.inr ⟨rfl, rfl, h.symm⟩
      · simp at h
    · simp only [hi, if_false] at h
      rw [hl] at h
      exact Or.inl h
  · simp only [hsj, if_false] at h
    exact Or.inl h



/-- Invariant rule for the sample loop: an invariant on the samples still to visit, kept by a
skipped sample and by a stored event, yields the postcondition when the loop ends or when a
sample leaves it. -/
theorem fillSamples_invariant (d : Dispenser) (iEntry : Nat) (row : List Bool)
    (Inv : List Nat → ThreadLocals × Cache → Prop) (Post : ThreadLocals × Cache → Prop)
    (hnil : ∀ st, Inv [] st → Post st)
    (hskip : ∀ j rest st, row[j]? = some false → Inv (j :: rest) st → Inv rest st)
    (hbreak : ∀ j rest tl c tl', row[j]? = some true → Inv (j :: rest) (tl, c) →
      fillSample d iEntry j tl c = .ok (false, tl', c) → Post (tl', c))
    (hstore : ∀ j rest tl c tl' c', row[j]? = some true → Inv (j :: rest) (tl, c) →
      fillSample d iEntry j tl c = .ok (true, tl', c') → Inv rest (tl', c')) :
    ∀ (L : List Nat) (st st' : ThreadLocals × Cache), Inv L st →
      fillSamples d iEntry row L st = .ok st' → Post st' := by
  intro L
  induction L with
  | nil =>
    intro st st' hinv h
    unfold fillSamples at h
    injection h with h
    subst h
    exact hnil st hinv
  | cons j rest ih =>
    intro st st' hinv h
    unfold fillSamples at h
    cases hrow : row[j]? with
    | none => simp [hrow] at h
    | some b =>
      cases b with
      | false =>
        simp only [hrow] at h
        exact ih st st' (hskip j rest st hrow hinv) h
      | true =>
        simp only [hrow] at h
        obtain ⟨tl, c⟩ := st
        cases hfs : fillSample d iEntry j tl c with
        | error e => simp [hfs] at h
        | ok r =>
          obtain ⟨b, tl1, c1⟩ := r
          cases b with
          | true =>
            simp only [hfs] at h
            exact ih (tl1, c1) st' (hstore j rest tl c tl1 c1 hrow hinv hfs) h
          | false =>
            simp only [hfs] at h
            injection h with h
            subst h
            have hc := (fillSample_ok_false d iEntry j tl tl1 c c1 hfs).1
            subst hc
            exact hbreak j rest tl c1 tl1 hrow hinv hfs

/-- Error rule for the sample loop: an error of the loop is `outOfRange` (a missing cell of the
membership row) or the error of a sample loop body run from a state satisfying the invariant. -/
theorem fillSamples_error (d : Dispenser) (iEntry : Nat) (row : List Bool)
    (Inv : List Nat → ThreadLocals × Cache → Prop) (Bad : Fatal → Prop)
    (hoor : ¬ Bad .outOfRange)
    (hskip : ∀ j rest st, row[j]? = some false → Inv (j :: rest) st → Inv rest st)
    (hstore : ∀ j rest tl c tl' c', row[j]? = some true → Inv (j :: rest) (tl, c) →
      fillSample d iEntry j tl c = .ok (true, tl', c') → Inv rest (tl', c'))
    (herr : ∀ j rest tl c e, row[j]? = some true → Inv (j :: rest) (tl, c) →
      fillSample d iEntry j tl c = .error e → ¬ Bad e) :
    ∀ (L : List Nat) (st : ThreadLocals × Cache) (e : Fatal), Inv L st →
      fillSamples d iEntry row L st = .error e → ¬ Bad e := by
  intro L
  induction L with
  | nil =>
    intro st e _ h
    unfold fillSamples at h
    simp at h
  | cons j rest ih =>
    intro st e hinv h
    unfold fillSamples at h
    cases hrow : row[j]? with
    | none =>
      simp only [hrow] at h
      injection h with h
      subst h
      exact hoor
    | some b =>
      cases b with
      | false =>
        simp only [hrow] at h
        exact ih st e (hskip j rest st hrow hinv) h
      | true =>
        simp only [hrow] at h
        obtain ⟨tl, c⟩ := st
        cases hfs : fillSample d iEntry j tl c with
        | error e' =>
          simp only [hfs] at h
          injection h with h
          subst h
          exact herr j rest tl c e' hrow hinv hfs
        | ok r =>
          obtain ⟨b, tl1, c1⟩ := r
          cases b with
          | true =>
            simp only [hfs] at h
            exact ih (tl1, c1) e (hstore j rest tl c tl1 c1 hrow hinv hfs) h
          | false =>
            simp [hfs] at h

/-- Invariant rule for a loop whose body may throw. -/
theorem foldlExcept_invariant {σ α : Type} (f : σ → α → Except Fatal σ)
    (Inv : List α → σ → Prop)
    (hstep : ∀ a rest s s', Inv (a :: rest) s → f s a = .ok s' → Inv rest s') :
    ∀ (l : List α) (s s' : σ), Inv l s → foldlExcept f s l = .ok s' → Inv [] s' := by
  intro l
  induction l with
  | nil =>
    intro s s' hinv h
    unfold foldlExcept at h
    injection h with h
    subst h
    exact hinv
  | cons a rest ih =>
    intro s s' hinv h
    unfold foldlExcept at h
    cases hf : f s a with
    | error e => simp [hf] at h
    | ok s1 =>
      simp only [hf] at h
      exact ih s1 s' (hstep a rest s s1 hinv hf) h

/-- Error rule for a loop whose body may throw. -/
theorem foldlExcept_error {σ α : Type} (f : σ → α → Except Fatal σ)
    (Inv : List α → σ → Prop) (Bad : Fatal → Prop)
    (hstep : ∀ a rest s s', Inv (a :: rest) s → f s a = .ok s' → Inv rest s')
    (herr : ∀ a rest s e, Inv (a :: rest) s → f s a = .error e → ¬ Bad e) :
    ∀ (l : List α) (s : σ) (e : Fatal), Inv l s → foldlExcept f s l = .error e → ¬ Bad e := by
  intro l
  induction l with
  | nil =>
    intro s e _ h
    unfold foldlExcept at h
    simp at h
  | cons a rest ih =>
    intro s e hinv h
    unfold foldlExcept at h
    cases hf : f s a with
    | error e' =>
      simp only [hf] at h
      injection h with h
      subst h
      exact herr a rest s e' hinv hf
    | ok s1 =>
      simp only [hf] at h
      exact ih s1 e (hstep a rest s s1 hinv hf) h



theorem filledEvent_fields (d : Dispenser) (iEntry : Nat) (sample : FitSample) (tl : ThreadLocals)
    (slot : PhysicsEvent) :
    (filledEvent d iEntry sample tl slot).entryIndex = iEntry ∧
    (filledEvent d iEntry sample tl slot).baseWeight = tl.eventIndexingBuffer.baseWeight ∧
    (filledEvent d iEntry sample tl slot).nominalWeight = tl.eventIndexingBuffer.baseWeight ∧
    (filledEvent d iEntry sample tl slot).sampleBinIndex = tl.eventIndexingBuffer.sampleBinIndex ∧
    (filledEvent d iEntry sample tl slot).sampleIndex = sample.index :=
  ⟨rfl, rfl, rfl, rfl, rfl⟩

/-- Claim C8. With a nominal-weight formula and an entry that belongs to at least one sample:
a negative weight makes the turn of the entry loop fail with the fatal "Negative nominal weight"
error; a weight of exactly zero ends the turn with the cache untouched (the entry is stored in no
sample and the loop goes on); with a positive weight every event that the turn writes (every
event of the targeted containers that was not there before) carries the entry index and has base
weight and nominal weight equal to the weight. -/
theorem fillEntry_nominal_weight (d : Dispenser) (nSample : Nat) (st : ThreadLocals × Cache)
    (iEntry : Nat) (row : List Bool) (weight : TreeFormula)
    (hrow : st.2.eventIsInSamplesList[iEntry]? = some row) (hin : row.contains true = true)
    (hw : d.nominalWeightFormula = some weight) :
    (weight iEntry < 0 → fillEntry d nSample st iEntry = .error .negativeNominalWeight) ∧
    (weight iEntry = 0 → ∃ tl', fillEntry d nSample st iEntry = .ok (tl', st.2)) ∧
    (0 < weight iEntry → ∀ st', fillEntry d nSample st iEntry = .ok st' →
      ∀ (iSample idx : Nat) (ev : PhysicsEvent), eventAt d st'.2 iSample idx = some ev →
        eventAt d st.2 iSample idx = some ev ∨
        (ev.entryIndex = iEntry ∧ ev.baseWeight = weight iEntry ∧
          ev.nominalWeight = weight iEntry)) := by
  have hin' : true ∈ row := by simpa using hin
  refine ⟨?_, ?_, ?_⟩
  · intro hneg
    unfold fillEntry
    simp [hrow, hin', hw, hneg]
  · intro hzero
    have hnot : ¬ weight iEntry < 0 := by rw [hzero]; exact lt_irrefl 0
    refine ⟨{ st.1 with eventIndexingBuffer :=
      { st.1.eventIndexingBuffer with baseWeight := weight iEntry } }, ?_⟩
    unfold fillEntry
    simp [hrow, hin', hw, hnot, hzero]
  · intro hpos st' h
    have hnot : ¬ weight iEntry < 0 := not_lt.mpr (le_of_lt hpos)
    have hne : ¬ weight iEntry = 0 := ne_of_gt hpos
    unfold fillEntry at h
    simp only [hrow, hin, hw, hnot, hne, Bool.not_true, Bool.false_eq_true, if_false] at h
    refine fillSamples_invariant d iEntry row
      (fun _ s => s.1.eventIndexingBuffer.baseWeight = weight iEntry ∧
        ∀ (iSample idx : Nat) (ev : PhysicsEvent), eventAt d s.2 iSample idx = some ev →
          eventAt d st.2 iSample idx = some ev ∨
          (ev.entryIndex = iEntry ∧ ev.baseWeight = weight iEntry ∧
            ev.nominalWeight = weight iEntry))
      (fun s => ∀ (iSample idx : Nat) (ev : PhysicsEvent), eventAt d s.2 iSample idx = some ev →
          eventAt d st.2 iSample idx = some ev ∨
          (ev.entryIndex = iEntry ∧ ev.baseWeight = weight iEntry ∧
            ev.nominalWeight = weight iEntry))
      ?_ ?_ ?_ ?_ (List.range nSample)
      ({ st.1 with eventIndexingBuffer :=
          { st.1.eventIndexingBuffer with baseWeight := weight iEntry } }, st.2)
      st' ⟨rfl, fun _ _ _ hev => Or.inl hev⟩ h
    · intro s hinv
      exact hinv.2
    · intro j rest s _ hinv
      exact hinv
    · intro j rest tl c tl' _ hinv _
      exact hinv.2
    · intro j rest tl c tl' c' _ hinv hfs
      obtain ⟨sample, iBin, hs, _, _, htl, hstore⟩ := fillSample_ok_true d iEntry j tl tl' c c' hfs
      have hbw : tl'.eventIndexingBuffer.baseWeight = weight iEntry := by
        rw [htl]
        show (loadIndexingBuffer d iEntry tl).eventIndexingBuffer.baseWeight = weight iEntry
        rw [loadIndexingBuffer_baseWeight]
        exact hinv.1
      refine ⟨hbw, ?_⟩
      obtain ⟨idx, slot, _, _, _, hsamples, _, _⟩ := storeEvent_ok d iEntry j sample tl' c c' hstore
      intro s i ev hev
      rcases eventAt_after_store d c c' j idx sample _ _ hs rfl hsamples s i ev hev with h1 | h1
      · exact hinv.2 s i ev h1
      · right
        obtain ⟨_, _, h2⟩ := h1
        subst h2
        exact ⟨rfl, hbw, hbw⟩

/-- Witness of `fillEntry_nominal_weight`, and Scenario B: with the weights `w = [1, 0, -1]` the
turns of the entries 0 and 1 leave one event, built from the entry 0 with weight 1, in the first
slot of the container (the entry 1 is skipped); in that state the turn of the entry 2 raises the
fatal error, and so does the whole load. -/
theorem fillEntry_nominal_weight_witness :
    (foldlExcept (fillEntry scenarioB 1) (threadLocals scenarioB, scenarioB_ready) [0, 1]
      = .ok scenarioB_afterTwo ∧
     scenarioB_afterTwo.2.sampleIndexOffsetList = [1] ∧
     (storedEvents scenarioB scenarioB_afterTwo.2).map (List.take 1) = [[(0, 0, 1)]] ∧
     Except.map (storedEvents scenarioB) (load scenarioB scenarioB_cache)
      = .error .negativeNominalWeight) ∧
    (scenarioB_afterTwo.2.eventIsInSamplesList[2]? = some [true] ∧
     [true].contains true = true ∧
     scenarioB.nominalWeightFormula = some scenarioB_w ∧
     scenarioB_w 2 < 0) ∧
    fillEntry scenarioB 1 scenarioB_afterTwo 2 = .error .negativeNominalWeight :=
  ⟨⟨rfl, rfl, rfl, rfl⟩, ⟨rfl, rfl, rfl, by decide⟩,
    (fillEntry_nominal_weight scenarioB 1 scenarioB_afterTwo 2 [true] scenarioB_w
      rfl rfl rfl).1 (by decide)⟩



theorem isDial2ValidFrom_true (buf : PhysicsEvent) :
    ∀ (es : List (Rat × Rat)) (cache : List Int), isDial2ValidFrom buf es cache = .ok true →
      ∀ (k : Nat) (edges : Rat × Rat), es[k]? = some edges →
        ∃ (i : Int) (v : Rat), cache[k]? = some i ∧
          buf.getVarAsDoubleAt i = .ok v ∧ edges.1 ≤ v ∧ v < edges.2 := by
  intro es
  induction es with
  | nil => intro cache _ k edges hk; simp at hk
  | cons e0 es ih =>
    intro cache h k edges hk
    cases cache with
    | nil => simp [isDial2ValidFrom] at h
    | cons i0 cache =>
      unfold isDial2ValidFrom at h
      cases hv : buf.getVarAsDoubleAt i0 with
      | error e => simp [hv] at h
      | ok v =>
        simp only [hv] at h
        by_cases hb : DataBin.isBetweenEdges e0 v = true
        · simp only [hb, Bool.not_true, Bool.false_eq_true, if_false] at h
          cases k with
          | zero =>
            simp at hk
            subst hk
            exact ⟨i0, v, by simp, hv, (isBetweenEdges_iff _ _).mp hb⟩
          | succ k =>
            simp at hk
            obtain ⟨i, w, h1, h2⟩ := ih cache h k edges hk
            exact ⟨i, w, by simpa using h1, h2⟩
        · simp [hb] at h

theorem isDial2ValidFrom_false (buf : PhysicsEvent) :
    ∀ (es : List (Rat × Rat)) (cache : List Int), isDial2ValidFrom buf es cache = .ok false →
      ∃ (k : Nat) (edges : Rat × Rat) (i : Int) (v : Rat), es[k]? = some edges ∧
        cache[k]? = some i ∧ buf.getVarAsDoubleAt i = .ok v ∧ ¬ (edges.1 ≤ v ∧ v < edges.2) := by
  intro es
  induction es with
  | nil => intro cache h; simp [isDial2ValidFrom] at h
  | cons e0 es ih =>
    intro cache h
    cases cache with
    | nil => simp [isDial2ValidFrom] at h
    | cons i0 cache =>
      unfold isDial2ValidFrom at h
      cases hv : buf.getVarAsDoubleAt i0 with
      | error e => simp [hv] at h
      | ok v =>
        simp only [hv] at h
        by_cases hb : DataBin.isBetweenEdges e0 v = true
        · simp only [hb, Bool.not_true, Bool.false_eq_true, if_false] at h
          obtain ⟨k, edges, i, w, h1, h2, h3, h4⟩ := ih cache h
          exact ⟨k + 1, edges, i, w, by simpa using h1, by simpa using h2, h3, h4⟩
        · refine ⟨0, e0, i0, v, by simp, by simp, hv, ?_⟩
          intro hcontra
          exact hb ((isBetweenEdges_iff _ _).mpr hcontra)

/-- A successful `isDial2Valid` means that the dial bin contains the values of the event. -/
theorem isDial2Valid_true (buf : PhysicsEvent) (b : DataBin) (h : isDial2Valid buf b = .ok true) :
    DialBinContains buf b :=
  isDial2ValidFrom_true buf b.getEdgesList b.eventVarIndexCache h

/-- A failed `isDial2Valid` means that the dial bin does not contain the values of the event. -/
theorem isDial2Valid_false (buf : PhysicsEvent) (b : DataBin)
    (h : isDial2Valid buf b = .ok false) : ¬ DialBinContains buf b := by
  intro hc
  obtain ⟨k, edges, i, v, h1, h2, h3, h4⟩ :=
    isDial2ValidFrom_false buf b.getEdgesList b.eventVarIndexCache h
  obtain ⟨i', w, h5, h6, h7⟩ := hc k edges h1
  rw [h2] at h5
  injection h5 with h5
  subst h5
  rw [h3] at h6
  injection h6 with h6
  subst h6
  exact h4 h7

theorem findIf_all_false {α : Type} (p : α → Except Fatal Bool) :
    ∀ (l : List α), (∀ a, a ∈ l → p a = .ok false) → findIf p l = .ok none := by
  intro l
  induction l with
  | nil => intro _; rfl
  | cons x l ih =>
    intro h
    unfold findIf
    rw [h x (List.mem_cons_self _ _), ih (fun a ha => h a (List.mem_cons_of_mem _ ha))]

theorem formulaIsZero_false_iff (formula : Option (PhysicsEvent → Rat)) (ev : PhysicsEvent) :
    formulaIsZero formula ev = false ↔
      (formula = none ∨ ∃ f, formula = some f ∧ f ev ≠ 0) := by
  cases formula with
  | none => simp [formulaIsZero]
  | some f => simp [formulaIsZero]



theorem writeDial_ok (st st' : DialIndexing) (iCollection interfaceIndex : Int)
    (h : writeDial st iCollection interfaceIndex = .ok st') :
    st.eventDialOffset < st.entry.dials.length ∧
    st'.eventDialOffset = st.eventDialOffset + 1 ∧
    st'.entry.dials = st.entry.dials.set st.eventDialOffset
      { collectionIndex := iCollection, interfaceIndex := interfaceIndex } ∧
    st'.entry.sampleIndex = st.entry.sampleIndex ∧
    st'.entry.eventIndex = st.entry.eventIndex := by
  unfold writeDial at h
  by_cases hlt : st.eventDialOffset < st.entry.dials.length
  · simp only [hlt, if_true] at h
    injection h with h
    subst h
    exact ⟨hlt, rfl, rfl, rfl, rfl⟩
  · simp [hlt] at h

theorem singleUnconditional_iff (dc : DialCollection) :
    (dc.dialBaseList.length = 1 ∧ dc.dialBinSet.isEmpty = true) ↔ SingleUnconditional dc := by
  unfold SingleUnconditional
  rw [List.isEmpty_iff]

theorem applies_iff (buf : PhysicsEvent) (dc : DialCollection) :
    Applies buf dc ↔ (dc.enabled = true ∧ formulaIsZero dc.applyConditionFormula buf = false) := by
  unfold Applies
  rw [formulaIsZero_false_iff]

/-- One turn of the dial loop: the collection yields an index or none, as `Yields` words it;
without an index the cache entry is left alone, with an index the pair is written at the
current offset. -/
theorem indexDialCollection_ok (buf : PhysicsEvent) (arrayIndex : Int) (st st' : DialIndexing)
    (dc dc' : DialCollection) (h : indexDialCollection buf arrayIndex st dc = .ok (st', dc')) :
    ∃ y, Yields buf dc y ∧ (y = none → st' = st) ∧
      (∀ i, y = some i → writeDial st dc.index i = .ok st') := by
  unfold indexDialCollection at h
  by_cases hen : dc.enabled = true
  · simp only [hen, Bool.not_true, Bool.false_eq_true, if_false] at h
    cases hz : formulaIsZero dc.applyConditionFormula buf with
    | true =>
      simp only [hz, if_true] at h
      injection h with h
      injection h with h1 h2
      have happ : ¬ Applies buf dc := by
        rw [applies_iff]; simp [hz]
      exact ⟨none, ⟨fun _ => rfl, fun ha => absurd ha happ, fun ha => absurd ha happ,
        fun ha => absurd ha happ⟩, fun _ => h1.symm, fun i hi => by simp at hi⟩
    | false =>
      have happ : Applies buf dc := (applies_iff buf dc).mpr ⟨hen, hz⟩
      simp only [hz, Bool.false_eq_true, if_false] at h
      by_cases hb : dc.binned = true
      · simp only [hb, if_true] at h
        by_cases hsingle : dc.dialBaseList.length = 1 ∧ dc.dialBinSet.isEmpty = true
        · simp only [hsingle, and_self, if_true] at h
          have hS := (singleUnconditional_iff dc).mp hsingle
          cases hw : writeDial st dc.index 0 with
          | error e => simp [hw] at h
          | ok st1 =>
            simp only [hw] at h
            injection h with h
            injection h with h1 h2
            subst h1
            refine ⟨some 0, ⟨fun hn => absurd happ hn, fun _ _ _ => rfl,
              fun _ _ hn => absurd hS hn, fun _ hnb => ?_⟩, fun hy => by simp at hy,
              fun i hi => ?_⟩
            · rw [hb] at hnb; simp at hnb
            · injection hi with hi
              subst hi
              exact hw
        · have hS : ¬ SingleUnconditional dc := fun hs =>
            hsingle ((singleUnconditional_iff dc).mpr hs)
          simp only [hsingle, if_false] at h
          cases hf : findIf (isDial2Valid buf) dc.dialBinSet with
          | error e => simp [hf] at h
          | ok o =>
            cases o with
            | none =>
              simp only [hf] at h
              injection h with h
              injection h with h1 h2
              refine ⟨none, ⟨fun _ => rfl, fun _ _ hs => absurd hs hS, fun _ _ _ => ⟨?_, ?_⟩,
                fun _ _ => Or.inl rfl⟩, fun _ => h1.symm, fun i hi => by simp at hi⟩
              · intro i hi; simp at hi
              · intro _ b hbmem
                exact isDial2Valid_false buf b (findIf_none _ _ hf b hbmem)
            | some n =>
              simp only [hf] at h
              cases hw : writeDial st dc.index n with
              | error e => simp [hw] at h
              | ok st1 =>
                simp only [hw] at h
                injection h with h
                injection h with h1 h2
                subst h1
                obtain ⟨bin, hbin, hvalid, hbefore⟩ := findIf_some _ _ _ hf
                refine ⟨some (n : Int), ⟨fun hn => absurd happ hn, fun _ _ hs => absurd hs hS,
                  fun _ _ _ => ⟨?_, ?_⟩, fun _ hnb => ?_⟩, fun hy => by simp at hy,
                  fun i hi => ?_⟩
                · intro i hi
                  injection hi with hi
                  exact ⟨n, bin, hi.symm, hbin, isDial2Valid_true buf bin hvalid,
                    fun j b hj hjb => isDial2Valid_false buf b (hbefore j b hj hjb)⟩
                · intro hy; simp at hy
                · rw [hb] at hnb; simp at hnb
                · injection hi with hi
                  subst hi
                  exact hw
      · have hb' : dc.binned = false := by
          cases hbb : dc.binned with
          | true => exact absurd hbb hb
          | false => rfl
        simp only [hb', Bool.false_eq_true, if_false] at h
        by_cases hleaf : dc.globalDialLeafName ≠ ""
        · rw [if_pos hleaf] at h
          cases hobj : buf.getVariableObject dc.globalDialLeafName with
          | error e => simp [hobj] at h
          | ok obj =>
            simp only [hobj] at h
            split at h
            · injection h with h
              injection h with h1 h2
              refine ⟨none, ⟨fun _ => rfl, fun _ hbt => ?_, fun _ hbt => ?_,
                fun _ _ => Or.inl rfl⟩, fun _ => h1.symm, fun i hi => by simp at hi⟩
              · rw [hb'] at hbt; simp at hbt
              · rw [hb'] at hbt; simp at hbt
            · by_cases hslot : dc.dialFreeSlot < dc.dialBaseList.length
              · simp only [hslot, if_true] at h
                cases hw : writeDial st dc.index dc.dialFreeSlot with
                | error e => simp [hw] at h
                | ok st1 =>
                  simp only [hw] at h
                  injection h with h
                  injection h with h1 h2
                  subst h1
                  refine ⟨some (dc.dialFreeSlot : Int), ⟨fun hn => absurd happ hn,
                    fun _ hbt => ?_, fun _ hbt => ?_, fun _ _ => Or.inr rfl⟩,
                    fun hy => by simp at hy, fun i hi => ?_⟩
                  · rw [hb'] at hbt; simp at hbt
                  · rw [hb'] at hbt; simp at hbt
                  · injection hi with hi
                    subst hi
                    exact hw
              · simp [hslot] at h
        · rw [if_neg hleaf] at h
          simp at h
  · have hen' : dc.enabled = false := by
      cases hee : dc.enabled with
      | true => exact absurd hee hen
      | false => rfl
    simp only [hen', Bool.not_false, if_true] at h
    injection h with h
    injection h with h1 h2
    have happ : ¬ Applies buf dc := by
      intro ha
      rw [ha.1] at hen'
      simp at hen'
    exact ⟨none, ⟨fun _ => rfl, fun ha => absurd ha happ, fun ha => absurd ha happ,
      fun ha => absurd ha happ⟩, fun _ => h1.symm, fun i hi => by simp at hi⟩



theorem take_succ_set {α : Type} (l : List α) (o : Nat) (p : α) (h : o < l.length) :
    (l.set o p).take (o + 1) = l.take o ++ [p] := by
  rw [List.set_eq_take_cons_drop p h, List.take_append_eq_append_take]
  have hmin : min o l.length = o := Nat.min_eq_left (Nat.le_of_lt h)
  simp [List.length_take, hmin, List.take_take]

/-- The dial loop from any offset: the pairs written are those of `DialPairs`, laid in the dial
list of the cache entry from the offset on; the rest of the entry is left alone. -/
theorem indexDials_ok (buf : PhysicsEvent) (arrayIndex : Int) :
    ∀ (cols cols' : List DialCollection) (st st' : DialIndexing),
      indexDials buf arrayIndex cols st = .ok (st', cols') →
      ∃ pairs, DialPairs buf cols pairs ∧
        st'.eventDialOffset = st.eventDialOffset + pairs.length ∧
        st'.entry.dials = st.entry.dials.take st.eventDialOffset ++ pairs
          ++ st.entry.dials.drop (st.eventDialOffset + pairs.length) ∧
        st'.entry.sampleIndex = st.entry.sampleIndex ∧
        st'.entry.eventIndex = st.entry.eventIndex ∧
        st'.eventDialOffset ≤ st.eventDialOffset + cols.length := by
  intro cols
  induction cols with
  | nil =>
    intro cols' st st' h
    unfold indexDials at h
    injection h with h
    injection h with h1 h2
    subst h1
    exact ⟨[], DialPairs.nil, rfl, by simp, rfl, rfl, Nat.le_refl _⟩
  | cons dc rest ih =>
    intro cols' st st' h
    unfold indexDials at h
    cases h1 : indexDialCollection buf arrayIndex st dc with
    | error e => simp [h1] at h
    | ok r1 =>
      obtain ⟨st1, dc1⟩ := r1
      simp only [h1] at h
      cases h2 : indexDials buf arrayIndex rest st1 with
      | error e => simp [h2] at h
      | ok r2 =>
        obtain ⟨st2, rest1⟩ := r2
        simp only [h2] at h
        injection h with h
        injection h with h3 h4
        subst h3
        obtain ⟨pairs, hp, hoff, hdials, hsi, hei, hle⟩ := ih rest1 st1 st2 h2
        obtain ⟨y, hy, hnone, hsome⟩ := indexDialCollection_ok buf arrayIndex st st1 dc dc1 h1
        cases y with
        | none =>
          have hst := hnone rfl
          subst hst
          exact ⟨pairs, DialPairs.skip dc rest pairs hy hp, hoff, hdials, hsi, hei,
            by simp only [List.length_cons]; omega⟩
        | some i =>
          obtain ⟨hlt, ho1, hd1, hs1, he1⟩ := writeDial_ok st st1 dc.index i (hsome i rfl)
          refine ⟨_, DialPairs.pair dc rest pairs i hy hp, ?_, ?_, hsi.trans hs1, hei.trans he1,
            ?_⟩
          · rw [hoff, ho1]; simp only [List.length_cons]; omega
          · rw [hdials, ho1, hd1, take_succ_set _ _ _ hlt,
              List.drop_set_of_lt _ _ (by omega)]
            simp only [List.length_cons, List.append_assoc, List.singleton_append]
            congr 3
            omega
          · rw [ho1] at hle
            simp only [List.length_cons]
            omega



/-- With a cache attached, a successful `storeEvent` claims the next entry of the cache, runs the
dial loop on it from offset `0` with the sample index and the event position set, and writes the
entry back. -/
theorem storeEvent_cache_entry (d : Dispenser) (iEntry iSample : Nat) (sample : FitSample)
    (tl : ThreadLocals) (c c' : Cache) (cache : EventDialCache)
    (h : storeEvent d iEntry iSample sample tl c = .ok c')
    (hcache : c.eventDialCacheRef = some cache) :
    ∃ (idx : Nat) (entry : IndexedEntry) (st : DialIndexing) (cols : List DialCollection),
      c.sampleIndexOffsetList[iSample]? = some idx ∧
      cache.indexedCache[cache.fillIndex]? = some entry ∧
      indexDials tl.eventIndexingBuffer (dialArrayIndex d iEntry) c.dialCollectionsRefList
        { entry := { entry with sampleIndex := sample.index, eventIndex := idx },
          eventDialOffset := 0 } = .ok (st, cols) ∧
      c'.dialCollectionsRefList = cols ∧
      c'.eventDialCacheRef = some
        { indexedCache := cache.indexedCache.set cache.fillIndex st.entry,
          fillIndex := cache.fillIndex + 1 } := by
  unfold storeEvent at h
  cases hidx : c.sampleIndexOffsetList[iSample]? with
  | none => simp [hidx] at h
  | some idx =>
    simp only [hidx] at h
    cases hslot : (sample.container d.useMcContainer).eventList[idx]? with
    | none => simp [hslot] at h
    | some slot =>
      simp only [hslot, hcache, Option.map_some', EventDialCache.fetchNextCacheEntry] at h
      cases hentry : cache.indexedCache[cache.fillIndex]? with
      | none => simp [hentry] at h
      | some entry =>
        simp only [hentry] at h
        split at h
        · simp at h
        · rename_i st cols hdial
          injection h with h
          subst h
          exact ⟨idx, entry, st, cols, rfl, rfl, hdial, rfl, rfl⟩



/-- Claim C9. When `storeEvent` stores an event with an event-dial cache attached, the dial list
of the cache entry claimed for the event starts with the pairs of `DialPairs`: in the order of the
dial-collection list, one pair (collection index, interface index) for every enabled collection
whose apply condition is absent or non-zero and that yields an index, the index of a binned
collection outside the single unconditional case being the position of the first dial bin, in
declaration order, that contains the values of the event; the slots after these pairs are those
of the entry as it was allocated. Moreover a binned collection that applies and none of whose
bins matches is transparent: the dial loop raises no error on it and goes on as if the collection
were not in the list. -/
theorem storeEvent_dial_pairs (d : Dispenser) (iEntry iSample : Nat) (sample : FitSample)
    (tl : ThreadLocals) (c c' : Cache) (cache : EventDialCache)
    (h : storeEvent d iEntry iSample sample tl c = .ok c')
    (hcache : c.eventDialCacheRef = some cache) :
    (∃ (entry entry' : IndexedEntry) (cache' : EventDialCache) (pairs : List DialIndexEntry),
      cache.indexedCache[cache.fillIndex]? = some entry ∧
      c'.eventDialCacheRef = some cache' ∧
      cache'.indexedCache[cache.fillIndex]? = some entry' ∧
      DialPairs tl.eventIndexingBuffer c.dialCollectionsRefList pairs ∧
      entry'.dials = pairs ++ entry.dials.drop pairs.length) ∧
    (∀ (dc : DialCollection) (rest : List DialCollection) (st : DialIndexing),
      Applies tl.eventIndexingBuffer dc → dc.binned = true → ¬ SingleUnconditional dc →
      (∀ b, b ∈ dc.dialBinSet → isDial2Valid tl.eventIndexingBuffer b = .ok false) →
      indexDials tl.eventIndexingBuffer (dialArrayIndex d iEntry) (dc :: rest) st
        = match indexDials tl.eventIndexingBuffer (dialArrayIndex d iEntry) rest st with
          | .ok (st', rest') => .ok (st', dc :: rest')
          | .error e => .error e) := by
  refine ⟨?_, ?_⟩
  · obtain ⟨idx, entry, st, cols, _, hentry, hdials, _, hc'⟩ :=
      storeEvent_cache_entry d iEntry iSample sample tl c c' cache h hcache
    obtain ⟨pairs, hp, _, hd, _, _, _⟩ := indexDials_ok _ _ _ _ _ _ hdials
    have hlt : cache.fillIndex < cache.indexedCache.length :=
      (List.getElem?_eq_some.mp hentry).1
    refine ⟨entry, st.entry, _, pairs, hentry, hc', ?_, hp, ?_⟩
    · simp [List.getElem?_set, hlt]
    · rw [hd]
      simp
  · intro dc rest st happ hb hS hall
    have hen := ((applies_iff _ _).mp happ).1
    have hz := ((applies_iff _ _).mp happ).2
    have hsingle : ¬ (dc.dialBaseList.length = 1 ∧ dc.dialBinSet.isEmpty = true) :=
      fun hs => hS ((singleUnconditional_iff dc).mp hs)
    have hfind := findIf_all_false (isDial2Valid tl.eventIndexingBuffer) dc.dialBinSet hall
    have hstep : indexDialCollection tl.eventIndexingBuffer (dialArrayIndex d iEntry) st dc
        = .ok (st, dc) := by
      unfold indexDialCollection
      simp only [hen, hz, hb, hsingle, hfind, Bool.not_true, Bool.false_eq_true, if_false,
        if_true]
    rw [indexDials, hstep]
    show (match indexDials tl.eventIndexingBuffer (dialArrayIndex d iEntry) rest st with
      | Except.error e => (Except.error e : Except Fatal (DialIndexing × List DialCollection))
      | Except.ok (st2, rest1) => Except.ok (st2, dc :: rest1)) = _
    cases indexDials tl.eventIndexingBuffer (dialArrayIndex d iEntry) rest st with
    | error e => rfl
    | ok r =>
      obtain ⟨a, b⟩ := r
      rfl

/-- Witness of `storeEvent_dial_pairs`: the dial fixture. The collection 0 has no matching bin,
the collection 1 yields its first bin, the collection 2 is the single unconditional case, the
collection 3 is disabled: the entry holds the pairs (1, 0) and (2, 0), then two unwritten
slots. -/
theorem storeEvent_dial_pairs_witness :
    (storeEvent oneEntry 0 0 dials_sample dials_locals dials_ready = .ok dials_stored ∧
      dials_ready.eventDialCacheRef = some dials_readyCache) ∧
    firstEntryDials dials_stored
      = [{ collectionIndex := 1, interfaceIndex := 0 },
         { collectionIndex := 2, interfaceIndex := 0 }, {}, {}] ∧
    ∃ (entry entry' : IndexedEntry) (cache' : EventDialCache) (pairs : List DialIndexEntry),
      dials_readyCache.indexedCache[dials_readyCache.fillIndex]? = some entry ∧
      dials_stored.eventDialCacheRef = some cache' ∧
      cache'.indexedCache[dials_readyCache.fillIndex]? = some entry' ∧
      DialPairs dials_locals.eventIndexingBuffer dials_ready.dialCollectionsRefList pairs ∧
      entry'.dials = pairs ++ entry.dials.drop pairs.length :=
  ⟨⟨rfl, rfl⟩, rfl,
    (storeEvent_dial_pairs oneEntry 0 0 dials_sample dials_locals dials_ready dials_stored
      dials_readyCache rfl rfl).1⟩

/-- Claim C10. For an enabled binned collection that applies to the event, holds a single
correction and whose bin set imposes no variable constraint (no bin at all, where the shortcut is
taken, or exactly one bin without variable, where the linear search is taken), the turn of the
dial loop is the writing of the pair (collection index, 0) at the current offset, in both cases:
with a free slot the entry receives exactly that one pair and the collection is left alone. -/
theorem indexDialCollection_unconstrained (buf : PhysicsEvent) (arrayIndex : Int)
    (st : DialIndexing) (dc : DialCollection) (happ : Applies buf dc) (hb : dc.binned = true)
    (hone : dc.dialBaseList.length = 1)
    (hbins : dc.dialBinSet = [] ∨
      ∃ cache, dc.dialBinSet = [{ edges := [], eventVarIndexCache := cache }]) :
    indexDialCollection buf arrayIndex st dc
      = (match writeDial st dc.index 0 with
        | .ok st1 => .ok (st1, dc)
        | .error e => .error e) ∧
    (st.eventDialOffset < st.entry.dials.length →
      ∃ st1, indexDialCollection buf arrayIndex st dc = .ok (st1, dc) ∧
        st1.eventDialOffset = st.eventDialOffset + 1 ∧
        st1.entry.dials = st.entry.dials.set st.eventDialOffset
          { collectionIndex := dc.index, interfaceIndex := 0 }) := by
  have hen := ((applies_iff _ _).mp happ).1
  have hz := ((applies_iff _ _).mp happ).2
  have heq : indexDialCollection buf arrayIndex st dc
      = (match writeDial st dc.index 0 with
        | .ok st1 => .ok (st1, dc)
        | .error e => .error e) := by
    rcases hbins with hnil | ⟨cache, hone_bin⟩
    · unfold indexDialCollection
      simp only [hen, hz, hb, hone, hnil, List.isEmpty_nil, and_self, Bool.not_true,
        Bool.false_eq_true, if_false, if_true]
      cases writeDial st dc.index 0 with
      | error e => rfl
      | ok r => rfl
    · unfold indexDialCollection
      have hfind : findIf (isDial2Valid buf) dc.dialBinSet = .ok (some 0) := by
        rw [hone_bin]
        rfl
      have hne : ¬ (dc.dialBaseList.length = 1 ∧ dc.dialBinSet.isEmpty = true) := by
        rw [hone_bin]
        simp
      simp only [hen, hz, hb, hne, hfind, Bool.not_true, Bool.false_eq_true, if_false, if_true,
        Nat.cast_zero]
      cases writeDial st dc.index 0 with
      | error e => rfl
      | ok r => rfl
  refine ⟨heq, ?_⟩
  intro hlt
  rw [heq]
  unfold writeDial
  simp only [hlt, if_true]
  exact ⟨_, rfl, rfl, rfl⟩

/-- Witness of `indexDialCollection_unconstrained`: the collection 2 of the dial fixture (no bin)
and the same collection with one bin without variable, on an entry with one free slot. -/
theorem indexDialCollection_unconstrained_witness :
    (Applies dials_locals.eventIndexingBuffer { index := 2, dialBaseList := [none] } ∧
      Applies dials_locals.eventIndexingBuffer
        { index := 2, dialBaseList := [none], dialBinSet := [{}] }) ∧
    (indexDialCollection dials_locals.eventIndexingBuffer 0
        { entry := { dials := [{}] }, eventDialOffset := 0 }
        { index := 2, dialBaseList := [none] }).map (fun r => r.1)
      = .ok { entry := { dials := [{ collectionIndex := 2, interfaceIndex := 0 }] },
              eventDialOffset := 1 } ∧
    (indexDialCollection dials_locals.eventIndexingBuffer 0
        { entry := { dials := [{}] }, eventDialOffset := 0 }
        { index := 2, dialBaseList := [none], dialBinSet := [{}] }).map (fun r => r.1)
      = .ok { entry := { dials := [{ collectionIndex := 2, interfaceIndex := 0 }] },
              eventDialOffset := 1 } :=
  ⟨⟨⟨rfl, Or.inl rfl⟩, ⟨rfl, Or.inl rfl⟩⟩,
    by
      rw [(indexDialCollection_unconstrained dials_locals.eventIndexingBuffer 0
        { entry := { dials := [{}] }, eventDialOffset := 0 }
        { index := 2, dialBaseList := [none] } ⟨rfl, Or.inl rfl⟩ rfl rfl (Or.inl rfl)).1]
      rfl,
    by
      rw [(indexDialCollection_unconstrained dials_locals.eventIndexingBuffer 0
        { entry := { dials := [{}] }, eventDialOffset := 0 }
        { index := 2, dialBaseList := [none], dialBinSet := [{}] } ⟨rfl, Or.inl rfl⟩ rfl rfl
        (Or.inr ⟨[], rfl⟩)).1]
      rfl⟩



theorem getVarAsDoubleAt_error (buf : PhysicsEvent) (i : Int) (e : Fatal)
    (h : buf.getVarAsDoubleAt i = .error e) : e = .varNotFound := by
  unfold PhysicsEvent.getVarAsDoubleAt at h
  split at h
  · injection h with h; exact h.symm
  · split at h
    · simp at h
    · injection h with h; exact h.symm

theorem isBinValidFrom_error (buf : PhysicsEvent) (e : Fatal) :
    ∀ (l : List (String × (Rat × Rat))), isBinValidFrom buf l = .error e → e = .varNotFound := by
  intro l
  induction l with
  | nil => intro h; simp [isBinValidFrom] at h
  | cons x l ih =>
    intro h
    obtain ⟨n0, e0⟩ := x
    unfold isBinValidFrom at h
    cases hv : buf.getVarAsDouble n0 with
    | error e' =>
      simp only [hv] at h
      injection h with h
      subst h
      exact getVarAsDoubleAt_error buf _ _ hv
    | ok v =>
      simp only [hv] at h
      split at h
      · simp at h
      · exact ih h

theorem isDial2ValidFrom_error (buf : PhysicsEvent) (e : Fatal) :
    ∀ (es : List (Rat × Rat)) (cache : List Int), isDial2ValidFrom buf es cache = .error e →
      e = .varNotFound ∨ e = .outOfRange := by
  intro es
  induction es with
  | nil => intro cache h; simp [isDial2ValidFrom] at h
  | cons e0 es ih =>
    intro cache h
    cases cache with
    | nil =>
      simp only [isDial2ValidFrom] at h
      injection h with h
      exact Or.inr h.symm
    | cons i0 cache =>
      unfold isDial2ValidFrom at h
      cases hv : buf.getVarAsDoubleAt i0 with
      | error e' =>
        simp only [hv] at h
        injection h with h
        subst h
        exact Or.inl (getVarAsDoubleAt_error buf _ _ hv)
      | ok v =>
        simp only [hv] at h
        split at h
        · simp at h
        · exact ih cache h

theorem findIf_error {α : Type} (p : α → Except Fatal Bool) (e : Fatal) :
    ∀ (l : List α), findIf p l = .error e → ∃ a, a ∈ l ∧ p a = .error e := by
  intro l
  induction l with
  | nil => intro h; simp [findIf] at h
  | cons x l ih =>
    intro h
    unfold findIf at h
    cases hp : p x with
    | error e' =>
      simp only [hp] at h
      injection h with h
      subst h
      exact ⟨x, List.mem_cons_self _ _, hp⟩
    | ok v =>
      cases v with
      | true => simp [hp] at h
      | false =>
        simp only [hp] at h
        cases hr : findIf p l with
        | error e' =>
          simp only [hr] at h
          injection h with h
          subst h
          obtain ⟨a, ha, hpa⟩ := ih hr
          exact ⟨a, List.mem_cons_of_mem _ ha, hpa⟩
        | ok o =>
          cases o <;> simp [hr] at h

theorem writeDial_error (st : DialIndexing) (iCollection interfaceIndex : Int) (e : Fatal)
    (h : writeDial st iCollection interfaceIndex = .error e) : e = .dialSlotOutOfRange := by
  unfold writeDial at h
  split at h
  · simp at h
  · injection h with h; exact h.symm

theorem getVariableObject_error (buf : PhysicsEvent) (name : String) (e : Fatal)
    (h : buf.getVariableObject name = .error e) : e = .varNotFound := by
  unfold PhysicsEvent.getVariableObject at h
  simp only at h
  split at h
  · injection h with h; exact h.symm
  · split at h
    · simp at h
    · injection h with h; exact h.symm

/-- The errors of one turn of the dial loop. -/
theorem indexDialCollection_error (buf : PhysicsEvent) (arrayIndex : Int) (st : DialIndexing)
    (dc : DialCollection) (e : Fatal) (h : indexDialCollection buf arrayIndex st dc = .error e) :
    e = .dialSlotOutOfRange ∨ e = .varNotFound ∨ e = .outOfRange ∨
      e = .neitherEventByEventNorBinned := by
  unfold indexDialCollection at h
  simp only at h
  split at h
  · simp at h
  · split at h
    · simp at h
    · split at h
      · split at h
        · split at h
          · injection h with h
            subst h
            rename_i e' hw
            exact Or.inl (writeDial_error _ _ _ _ hw)
          · simp at h
        · split at h
          · injection h with h
            subst h
            rename_i e' hf
            obtain ⟨b, _, hb⟩ := findIf_error _ _ _ hf
            rcases isDial2ValidFrom_error buf _ _ _ hb with h1 | h1
            · exact Or.inr (Or.inl h1)
            · exact Or.inr (Or.inr (Or.inl h1))
          · simp at h
          · split at h
            · injection h with h
              subst h
              rename_i e' hw
              exact Or.inl (writeDial_error _ _ _ _ hw)
            · simp at h
      · split at h
        · split at h
          · injection h with h
            subst h
            rename_i e' ho
            exact Or.inr (Or.inl (getVariableObject_error _ _ _ ho))
          · split at h
            · simp at h
            · split at h
              · split at h
                · injection h with h
                  subst h
                  rename_i e' hw
                  exact Or.inl (writeDial_error _ _ _ _ hw)
                · simp at h
              · injection h with h
                exact Or.inr (Or.inr (Or.inl h.symm))
        · injection h with h
          exact Or.inr (Or.inr (Or.inr h.symm))

/-- The errors of the dial loop. -/
theorem indexDials_error (buf : PhysicsEvent) (arrayIndex : Int) (e : Fatal) :
    ∀ (cols : List DialCollection) (st : DialIndexing),
      indexDials buf arrayIndex cols st = .error e →
      e = .dialSlotOutOfRange ∨ e = .varNotFound ∨ e = .outOfRange ∨
        e = .neitherEventByEventNorBinned := by
  intro cols
  induction cols with
  | nil => intro st h; simp [indexDials] at h
  | cons dc rest ih =>
    intro st h
    unfold indexDials at h
    cases h1 : indexDialCollection buf arrayIndex st dc with
    | error e' =>
      simp only [h1] at h
      injection h with h
      subst h
      exact indexDialCollection_error _ _ _ _ _ h1
    | ok r1 =>
      obtain ⟨st1, dc1⟩ := r1
      simp only [h1] at h
      cases h2 : indexDials buf arrayIndex rest st1 with
      | error e' =>
        simp only [h2] at h
        injection h with h
        subst h
        exact ih st1 h2
      | ok r2 =>
        obtain ⟨st2, rest1⟩ := r2
        simp [h2] at h



/-- The only way for `storeEvent` to index an event list past its end: the offset of the sample
has reached the size of its container. -/
theorem storeEvent_error_slot (d : Dispenser) (iEntry iSample : Nat) (sample : FitSample)
    (tl : ThreadLocals) (c : Cache)
    (h : storeEvent d iEntry iSample sample tl c = .error .eventSlotOutOfRange) :
    ∃ idx, c.sampleIndexOffsetList[iSample]? = some idx ∧
      (sample.container d.useMcContainer).eventList.length ≤ idx := by
  unfold storeEvent at h
  cases hidx : c.sampleIndexOffsetList[iSample]? with
  | none => simp [hidx] at h
  | some idx =>
    simp only [hidx] at h
    cases hslot : (sample.container d.useMcContainer).eventList[idx]? with
    | none =>
      exact ⟨idx, rfl, List.getElem?_eq_none_iff.mp hslot⟩
    | some slot =>
      simp only [hslot] at h
      cases hcache : c.eventDialCacheRef with
      | none => simp [hcache] at h
      | some cache =>
        simp only [hcache, Option.map_some', EventDialCache.fetchNextCacheEntry] at h
        cases hentry : cache.indexedCache[cache.fillIndex]? with
        | none => simp [hentry] at h
        | some entry =>
          simp only [hentry] at h
          split at h
          · rename_i e hdial
            injection h with h
            subst h
            rcases indexDials_error _ _ _ _ _ hdial with h1 | h1 | h1 | h1 <;> simp at h1
          · simp at h

/-- The only way for the sample loop body to index an event list past its end: the offset of the
sample has reached the size of its container. -/
theorem fillSample_error_slot (d : Dispenser) (iEntry iSample : Nat) (tl : ThreadLocals)
    (c : Cache) (h : fillSample d iEntry iSample tl c = .error .eventSlotOutOfRange) :
    containerSize d c iSample ≤ offsetOf c iSample := by
  unfold fillSample at h
  cases hs : c.samplesToFillList[iSample]? with
  | none => simp [hs] at h
  | some sample =>
    simp only [hs] at h
    split at h
    · simp at h
    · split at h
      · rename_i e hf
        injection h with h
        subst h
        obtain ⟨b, _, hb⟩ := findIf_error _ _ _ hf
        have := isBinValidFrom_error _ _ _ hb
        simp at this
      · simp at h
      · split at h
        · rename_i e hst
          injection h with h
          subst h
          obtain ⟨idx, hidx, hle⟩ := storeEvent_error_slot _ _ _ _ _ _ hst
          unfold containerSize offsetOf
          rw [hs, List.getD_eq_getElem?_getD, hidx]
          exact hle
        · simp at h

/-- What a stored event changes in the quantities of the capacity invariant: the sizes of the
containers, the membership table and the counts stay, the offset of the sample moves on by
one. -/
theorem fillSample_ok_frame (d : Dispenser) (iEntry iSample : Nat) (tl tl' : ThreadLocals)
    (c c' : Cache) (h : fillSample d iEntry iSample tl c = .ok (true, tl', c')) :
    (∀ s, containerSize d c' s = containerSize d c s) ∧
    (∀ s, offsetOf c' s = offsetOf c s + if s = iSample then 1 else 0) ∧
    c'.eventIsInSamplesList = c.eventIsInSamplesList ∧
    c'.sampleNbOfEvents = c.sampleNbOfEvents ∧
    c'.samplesToFillList.length = c.samplesToFillList.length := by
  obtain ⟨sample, iBin, hs, _, _, _, hstore⟩ := fillSample_ok_true d iEntry iSample tl tl' c c' h
  obtain ⟨idx, slot, hidx, hslot, hoff, hsamples, htable, hcounts⟩ :=
    storeEvent_ok d iEntry iSample sample tl' c c' hstore
  have hlt : iSample < c.samplesToFillList.length := (List.getElem?_eq_some.mp hs).1
  have hlt2 : iSample < c.sampleIndexOffsetList.length := (List.getElem?_eq_some.mp hidx).1
  refine ⟨?_, ?_, htable, hcounts, ?_⟩
  · intro s
    unfold containerSize
    rw [hsamples, List.getElem?_set]
    by_cases hsj : iSample = s
    · subst hsj
      simp only [hlt, if_true]
      rw [container_setContainer, hs]
      simp
    · simp only [hsj, if_false]
  · intro s
    unfold offsetOf
    rw [hoff, List.getD_eq_getElem?_getD, List.getD_eq_getElem?_getD, List.getElem?_set]
    by_cases hsj : iSample = s
    · subst hsj
      simp [hlt2, hidx]
    · have hsj' : ¬ s = iSample := fun h => hsj h.symm
      simp [hsj, hsj']
  · rw [hsamples]
    simp



theorem capacity_mono (d : Dispenser) (T : List (List Bool)) (Z O : Nat → Nat)
    (credit credit' : Nat → Nat) (c : Cache) (hle : ∀ s, credit' s ≤ credit s)
    (h : Capacity d T Z O credit c) : Capacity d T Z O credit' c :=
  ⟨h.1, h.2.1, h.2.2.1, fun s => Nat.le_trans (Nat.add_le_add_left (hle s) _) (h.2.2.2 s)⟩

/-- The sample loop keeps the capacity invariant: with one credit for every sample still to visit
whose cell of the membership row is true, on top of `R`, the loop never indexes an event list
past its end and ends with the credit `R`. -/
theorem fillSamples_capacity (d : Dispenser) (iEntry : Nat) (row : List Bool)
    (T : List (List Bool)) (Z O R : Nat → Nat) (L : List Nat) (st : ThreadLocals × Cache)
    (hcap : Capacity d T Z O
      (fun s => L.countP (fun j => decide (j = s) && (row[j]? == some true)) + R s) st.2) :
    (∀ e, fillSamples d iEntry row L st = .error e → e ≠ .eventSlotOutOfRange) ∧
    (∀ st', fillSamples d iEntry row L st = .ok st' → Capacity d T Z O R st'.2) := by
  have hskip : ∀ (j : Nat) (rest : List Nat) (s : ThreadLocals × Cache), row[j]? = some false →
      Capacity d T Z O
        (fun s => (j :: rest).countP (fun j => decide (j = s) && (row[j]? == some true)) + R s)
        s.2 →
      Capacity d T Z O
        (fun s => rest.countP (fun j => decide (j = s) && (row[j]? == some true)) + R s) s.2 := by
    intro j rest s hrow h
    refine capacity_mono d T Z O _ _ s.2 ?_ h
    intro s'
    simp [List.countP_cons, hrow]
  have hstore : ∀ (j : Nat) (rest : List Nat) (tl : ThreadLocals) (c : Cache)
      (tl' : ThreadLocals) (c' : Cache), row[j]? = some true →
      Capacity d T Z O
        (fun s => (j :: rest).countP (fun j => decide (j = s) && (row[j]? == some true)) + R s)
        c →
      fillSample d iEntry j tl c = .ok (true, tl', c') →
      Capacity d T Z O
        (fun s => rest.countP (fun j => decide (j = s) && (row[j]? == some true)) + R s) c' := by
    intro j rest tl c tl' c' hrow h hfs
    obtain ⟨hsize, hoff, htable, _, _⟩ := fillSample_ok_frame d iEntry j tl tl' c c' hfs
    refine ⟨htable.trans h.1, fun s => (hsize s).trans (h.2.1 s), ?_, ?_⟩
    · intro s
      rw [hoff s]
      exact Nat.le_trans (h.2.2.1 s) (Nat.le_add_right _ _)
    · intro s
      have := h.2.2.2 s
      rw [hoff s]
      simp only [List.countP_cons, hrow, beq_self_eq_true, Bool.and_true,
        decide_eq_true_eq] at this
      by_cases hsj : s = j
      · subst hsj
        simp only [if_true] at this ⊢
        omega
      · have hjs : ¬ j = s := fun h => hsj h.symm
        simp only [hsj, hjs, if_false] at this ⊢
        omega
  refine ⟨?_, ?_⟩
  · intro e he
    refine fillSamples_error d iEntry row
      (fun L s => Capacity d T Z O
        (fun s' => L.countP (fun j => decide (j = s') && (row[j]? == some true)) + R s') s.2)
      (fun e => e = .eventSlotOutOfRange) (by simp) hskip
      (fun j rest tl c tl' c' => hstore j rest tl c tl' c') ?_ L st e hcap he
    intro j rest tl c e' hrow h hfs hbad
    subst hbad
    have hle := fillSample_error_slot d iEntry j tl c hfs
    have h1 := h.2.2.2 j
    have h2 : containerSize d c j = Z j := h.2.1 j
    simp only [List.countP_cons, hrow, beq_self_eq_true, Bool.and_true, decide_True,
      if_true] at h1
    omega
  · intro st' hok
    refine fillSamples_invariant d iEntry row
      (fun L s => Capacity d T Z O
        (fun s' => L.countP (fun j => decide (j = s') && (row[j]? == some true)) + R s') s.2)
      (fun s => Capacity d T Z O R s.2) ?_ hskip ?_
      (fun j rest tl c tl' c' => hstore j rest tl c tl' c') L st st' hcap hok
    · intro s h
      refine capacity_mono d T Z O _ _ s.2 ?_ h
      intro s'
      simp
    · intro j rest tl c tl' _ h _
      refine capacity_mono d T Z O _ _ c ?_ h
      intro s'
      exact Nat.le_add_left _ _



/-- One turn of the entry loop keeps the capacity invariant: with one credit for every sample the
entry belongs to, on top of `R`, the turn never indexes an event list past its end and ends with
the credit `R`. -/
theorem fillEntry_capacity (d : Dispenser) (nSample : Nat) (T : List (List Bool))
    (Z O R : Nat → Nat) (st : ThreadLocals × Cache) (iEntry : Nat)
    (hcap : Capacity d T Z O (fun s => (if cellOf T iEntry s then 1 else 0) + R s) st.2) :
    (∀ e, fillEntry d nSample st iEntry = .error e → e ≠ .eventSlotOutOfRange) ∧
    (∀ st', fillEntry d nSample st iEntry = .ok st' → Capacity d T Z O R st'.2) := by
  have hdrop : Capacity d T Z O R st.2 :=
    capacity_mono d T Z O _ _ st.2 (fun s => Nat.le_add_left _ _) hcap
  have htable : st.2.eventIsInSamplesList = T := hcap.1
  unfold fillEntry
  rw [htable]
  cases hrow : T[iEntry]? with
  | none =>
    refine ⟨?_, ?_⟩
    · intro e he
      simp only at he
      injection he with he
      subst he
      simp
    · intro st' hok
      simp at hok
  | some row =>
    have hcredit : ∀ (tl : ThreadLocals), Capacity d T Z O
        (fun s => (List.range nSample).countP
          (fun j => decide (j = s) && (row[j]? == some true)) + R s) (tl, st.2).2 := by
      intro tl
      refine capacity_mono d T Z O _ _ st.2 ?_ hcap
      intro s
      rw [countP_range_single]
      unfold cellOf
      rw [hrow]
      by_cases h1 : s < nSample
      · simp only [h1, if_true]
        exact Nat.le_refl _
      · simp only [h1, if_false]
        omega
    simp only
    by_cases hskip : (!row.contains true) = true
    · simp only [hskip, if_true]
      refine ⟨?_, ?_⟩
      · intro e he
        simp at he
      · intro st' hok
        injection hok with hok
        subst hok
        exact hdrop
    · simp only [hskip, if_false]
      cases hw : d.nominalWeightFormula with
      | none =>
        simp only
        have := fillSamples_capacity d iEntry row T Z O R (List.range nSample) st (hcredit st.1)
        exact this
      | some weight =>
        simp only
        by_cases hneg : weight iEntry < 0
        · simp only [hneg, if_true]
          refine ⟨?_, ?_⟩
          · intro e he
            injection he with he
            subst he
            simp
          · intro st' hok
            simp at hok
        · simp only [hneg, if_false]
          by_cases hzero : weight iEntry = 0
          · simp only [hzero, if_true]
            refine ⟨?_, ?_⟩
            · intro e he
              simp at he
            · intro st' hok
              injection hok with hok
              subst hok
              exact hdrop
          · simp only [hzero, if_false]
            exact fillSamples_capacity d iEntry row T Z O R (List.range nSample) _ (hcredit _)

/-- A fill thread keeps the capacity invariant: with one credit for every cell of the membership
table that is true in its range of entries, on top of `R`, the thread never indexes an event
list past its end and ends with the credit `R`. -/
theorem fillFunction_capacity (d : Dispenser) (iThread : Int) (T : List (List Bool))
    (Z O R : Nat → Nat) (c : Cache) (entries : List Nat)
    (hentries : entries =
      List.range'
        (d.getThreadBoundIndices (if iThread = -1 then 0 else iThread.toNat)
          (if iThread = -1 then 1 else d.nThreads) d.nEntries).1
        ((d.getThreadBoundIndices (if iThread = -1 then 0 else iThread.toNat)
          (if iThread = -1 then 1 else d.nThreads) d.nEntries).2
          - (d.getThreadBoundIndices (if iThread = -1 then 0 else iThread.toNat)
            (if iThread = -1 then 1 else d.nThreads) d.nEntries).1))
    (hcap : Capacity d T Z O (fun s => entries.countP (fun e => cellOf T e s) + R s) c) :
    (∀ e, fillFunction d iThread c = .error e → e ≠ .eventSlotOutOfRange) ∧
    (∀ c', fillFunction d iThread c = .ok c' → Capacity d T Z O R c') := by
  have hstep : ∀ (a : Nat) (rest : List Nat) (s s' : ThreadLocals × Cache),
      Capacity d T Z O (fun x => (a :: rest).countP (fun e => cellOf T e x) + R x) s.2 →
      fillEntry d c.samplesToFillList.length s a = .ok s' →
      Capacity d T Z O (fun x => rest.countP (fun e => cellOf T e x) + R x) s'.2 := by
    intro a rest s s' h hok
    refine (fillEntry_capacity d _ T Z O
      (fun x => rest.countP (fun e => cellOf T e x) + R x) s a ?_).2 s' hok
    refine capacity_mono d T Z O _ _ s.2 ?_ h
    intro x
    simp only [List.countP_cons]
    omega
  have herr : ∀ (a : Nat) (rest : List Nat) (s : ThreadLocals × Cache) (e : Fatal),
      Capacity d T Z O (fun x => (a :: rest).countP (fun e => cellOf T e x) + R x) s.2 →
      fillEntry d c.samplesToFillList.length s a = .error e → ¬ e = .eventSlotOutOfRange := by
    intro a rest s e h he
    refine (fillEntry_capacity d _ T Z O
      (fun x => rest.countP (fun e => cellOf T e x) + R x) s a ?_).1 e he
    refine capacity_mono d T Z O _ _ s.2 ?_ h
    intro x
    simp only [List.countP_cons]
    omega
  unfold fillFunction
  simp only [← hentries]
  refine ⟨?_, ?_⟩
  · intro e he
    split at he
    · rename_i e' hfold
      injection he with he
      subst he
      exact foldlExcept_error (fillEntry d c.samplesToFillList.length)
        (fun E s => Capacity d T Z O (fun x => E.countP (fun e => cellOf T e x) + R x) s.2)
        (fun e => e = .eventSlotOutOfRange) hstep herr entries _ e' hcap hfold
    · simp at he
  · intro c' hok
    split at hok
    · simp at hok
    · rename_i st hfold
      injection hok with hok
      subst hok
      have := foldlExcept_invariant (fillEntry d c.samplesToFillList.length)
        (fun E s => Capacity d T Z O (fun x => E.countP (fun e => cellOf T e x) + R x) s.2)
        hstep entries _ st hcap hfold
      refine capacity_mono d T Z O _ _ st.2 ?_ this
      intro x
      simp



/-- Over a contiguous partition the per-thread counts add up to the count over the entries below
the start of the next thread. -/
theorem sum_countP_ranges (bounds : Nat → Nat × Nat) (T n : Nat)
    (hpart : ContiguousRanges bounds T n) (p : Nat → Bool) :
    ∀ k, k ≤ T →
      ((List.range k).map (fun i =>
        (List.range' (bounds i).1 ((bounds i).2 - (bounds i).1)).countP p)).sum
        = (List.range' 0 (rangeStart bounds k)).countP p := by
  intro k
  induction k with
  | zero => intro _; simp [rangeStart]
  | succ k ih =>
    intro hk
    have hk' : k < T := by omega
    rw [List.range_succ, List.map_append, List.sum_append, ih (by omega)]
    have hlo := rangeStart_eq bounds T n hpart k hk'
    have hle := rangeStart_le bounds T n hpart k hk'
    have hhi : (bounds k).2 = rangeStart bounds (k + 1) := rfl
    simp only [List.map_cons, List.map_nil, List.sum_cons, List.sum_nil, Nat.add_zero]
    rw [hlo, hhi, ← List.countP_append]
    have := List.range'_append 0 (rangeStart bounds k)
      (rangeStart bounds (k + 1) - rangeStart bounds k) 1
    simp only [Nat.zero_add, Nat.one_mul] at this
    rw [this]
    congr 2
    omega

/-- The fill threads keep the capacity invariant: when the ranges of the workers cut the entries
into contiguous ranges and every true cell of the membership table has its credit, no thread
indexes an event list past its end and the offsets end within the slots. -/
theorem runFillThreads_capacity (d : Dispenser) (T : List (List Bool)) (Z O : Nat → Nat)
    (c : Cache)
    (hpart : ContiguousRanges (fun i => d.getThreadBoundIndices i (fillThreads d) d.nEntries)
      (fillThreads d) d.nEntries)
    (hcap : Capacity d T Z O (fun s => (List.range d.nEntries).countP (fun e => cellOf T e s)) c) :
    (∀ e, runFillThreads d c = .error e → e ≠ .eventSlotOutOfRange) ∧
    (∀ c', runFillThreads d c = .ok c' → Capacity d T Z O (fun _ => 0) c') := by
  unfold runFillThreads
  by_cases hmulti : (!d.devSingleThreadEventLoaderAndIndexer && decide (d.nThreads > 1)) = true
  · have hT : fillThreads d = d.nThreads := by
      unfold fillThreads
      simp only [hmulti, if_true]
    rw [hT] at hpart
    simp only [hmulti, if_true]
    have hinit : Capacity d T Z O (fun s => ((List.range d.nThreads).map (fun i =>
        (List.range' (d.getThreadBoundIndices i d.nThreads d.nEntries).1
          ((d.getThreadBoundIndices i d.nThreads d.nEntries).2
            - (d.getThreadBoundIndices i d.nThreads d.nEntries).1)).countP
          (fun e => cellOf T e s))).sum) c := by
      refine capacity_mono d T Z O _ _ c ?_ hcap
      intro s
      have hsum := sum_countP_ranges _ d.nThreads d.nEntries hpart (fun e => cellOf T e s)
        d.nThreads (Nat.le_refl _)
      have hT0 : 0 < d.nThreads := by
        simp only [Bool.and_eq_true, decide_eq_true_eq] at hmulti
        omega
      rw [rangeStart_last _ _ _ hpart hT0] at hsum
      rw [hsum, List.range_eq_range']
    have hstep : ∀ (a : Nat) (rest : List Nat) (s s' : Cache),
        Capacity d T Z O (fun x => (((a :: rest).map (fun i =>
          (List.range' (d.getThreadBoundIndices i d.nThreads d.nEntries).1
            ((d.getThreadBoundIndices i d.nThreads d.nEntries).2
              - (d.getThreadBoundIndices i d.nThreads d.nEntries).1)).countP
            (fun e => cellOf T e x))).sum)) s →
        fillFunction d (Int.ofNat a) s = .ok s' →
        Capacity d T Z O (fun x => ((rest.map (fun i =>
          (List.range' (d.getThreadBoundIndices i d.nThreads d.nEntries).1
            ((d.getThreadBoundIndices i d.nThreads d.nEntries).2
              - (d.getThreadBoundIndices i d.nThreads d.nEntries).1)).countP
            (fun e => cellOf T e x))).sum)) s' := by
      intro a rest s s' h hok
      have hne : ¬ Int.ofNat a = -1 := by
        intro hcontra
        have : (0 : Int) ≤ Int.ofNat a := Int.ofNat_nonneg a
        omega
      refine (fillFunction_capacity d (Int.ofNat a) T Z O _ s _ rfl ?_).2 s' hok
      simp only [hne, if_false, Int.toNat_ofNat]
      simpa [List.map_cons, List.sum_cons] using h
    have herr : ∀ (a : Nat) (rest : List Nat) (s : Cache) (e : Fatal),
        Capacity d T Z O (fun x => (((a :: rest).map (fun i =>
          (List.range' (d.getThreadBoundIndices i d.nThreads d.nEntries).1
            ((d.getThreadBoundIndices i d.nThreads d.nEntries).2
              - (d.getThreadBoundIndices i d.nThreads d.nEntries).1)).countP
            (fun e => cellOf T e x))).sum)) s →
        fillFunction d (Int.ofNat a) s = .error e → ¬ e = .eventSlotOutOfRange := by
      intro a rest s e h he
      have hne : ¬ Int.ofNat a = -1 := by
        intro hcontra
        have : (0 : Int) ≤ Int.ofNat a := Int.ofNat_nonneg a
        omega
      refine (fillFunction_capacity d (Int.ofNat a) T Z O
        (fun x => ((rest.map (fun i =>
          (List.range' (d.getThreadBoundIndices i d.nThreads d.nEntries).1
            ((d.getThreadBoundIndices i d.nThreads d.nEntries).2
              - (d.getThreadBoundIndices i d.nThreads d.nEntries).1)).countP
            (fun e => cellOf T e x))).sum)) s _ rfl ?_).1 e he
      simp only [hne, if_false, Int.toNat_ofNat]
      simpa [List.map_cons, List.sum_cons] using h
    refine ⟨?_, ?_⟩
    · intro e he
      exact foldlExcept_error _
        (fun L s => Capacity d T Z O (fun x => ((L.map (fun i =>
          (List.range' (d.getThreadBoundIndices i d.nThreads d.nEntries).1
            ((d.getThreadBoundIndices i d.nThreads d.nEntries).2
              - (d.getThreadBoundIndices i d.nThreads d.nEntries).1)).countP
            (fun e => cellOf T e x))).sum)) s)
        (fun e => e = .eventSlotOutOfRange) hstep herr _ c e hinit he
    · intro c' hok
      have := foldlExcept_invariant _
        (fun L s => Capacity d T Z O (fun x => ((L.map (fun i =>
          (List.range' (d.getThreadBoundIndices i d.nThreads d.nEntries).1
            ((d.getThreadBoundIndices i d.nThreads d.nEntries).2
              - (d.getThreadBoundIndices i d.nThreads d.nEntries).1)).countP
            (fun e => cellOf T e x))).sum)) s)
        hstep _ c c' hinit hok
      simpa using this
  · have hT : fillThreads d = 1 := by
      unfold fillThreads
      rw [if_neg hmulti]
    rw [hT] at hpart
    rw [if_neg hmulti]
    have h1 : (d.getThreadBoundIndices 0 1 d.nEntries).1 = 0 := hpart.1
    have h2 : (d.getThreadBoundIndices 0 1 d.nEntries).2 = d.nEntries := hpart.2.2.2
    refine fillFunction_capacity d (-1) T Z O (fun _ => 0) c (List.range d.nEntries) ?_ ?_
    · simp only [if_true, h1, h2, Nat.sub_zero]
      exact List.range_eq_range' d.nEntries
    · simpa using hcap



theorem length_resize {α : Type} (l : List α) (n : Nat) (v : α) : (resize l n v).length = n := by
  unfold resize
  simp only [List.length_append, List.length_take, List.length_replicate]
  omega

theorem container_setContainer_other (s : FitSample) (useMc : Bool) (x : SampleElement) :
    (s.setContainer useMc x).binning = s.binning ∧ (s.setContainer useMc x).index = s.index := by
  cases useMc <;> exact ⟨rfl, rfl⟩

/-- The loop "Reserving event memory" over the first `k` samples: the offset of each of these
samples is the former size of its container, which has grown by the count of the sample; the
other samples and the other members of the cache are left alone. -/
theorem foldl_reserveSample (d : Dispenser) (c0 : Cache) :
    ∀ k, k ≤ c0.samplesToFillList.length →
      ((List.range k).foldl (reserveSample d) c0).eventIsInSamplesList = c0.eventIsInSamplesList ∧
      ((List.range k).foldl (reserveSample d) c0).sampleNbOfEvents = c0.sampleNbOfEvents ∧
      ((List.range k).foldl (reserveSample d) c0).dialCollectionsRefList
        = c0.dialCollectionsRefList ∧
      ((List.range k).foldl (reserveSample d) c0).eventDialCacheRef = c0.eventDialCacheRef ∧
      ((List.range k).foldl (reserveSample d) c0).samplesToFillList.length
        = c0.samplesToFillList.length ∧
      ((List.range k).foldl (reserveSample d) c0).sampleIndexOffsetList.length
        = c0.sampleIndexOffsetList.length ∧
      (∀ s, containerSize d ((List.range k).foldl (reserveSample d) c0) s
        = if s < k then containerSize d c0 s + c0.sampleNbOfEvents.getD s 0
          else containerSize d c0 s) ∧
      (∀ s, offsetOf ((List.range k).foldl (reserveSample d) c0) s
        = if s < k ∧ s < c0.sampleIndexOffsetList.length then containerSize d c0 s
          else offsetOf c0 s) ∧
      (∀ s, k ≤ s → ((List.range k).foldl (reserveSample d) c0).samplesToFillList[s]?
        = c0.samplesToFillList[s]?) := by
  intro k
  induction k with
  | zero =>
    intro _
    simp
  | succ k ih =>
    intro hk
    obtain ⟨h1, h2, h3, h4, h5, h6, h7, h8, h9⟩ := ih (by omega)
    rw [List.range_succ, List.foldl_append, List.foldl_cons, List.foldl_nil]
    generalize (List.range k).foldl (reserveSample d) c0 = ck at h1 h2 h3 h4 h5 h6 h7 h8 h9
    have hklt : k < c0.samplesToFillList.length := by omega
    obtain ⟨sample, hsample⟩ : ∃ sample, c0.samplesToFillList[k]? = some sample :=
      ⟨c0.samplesToFillList[k], List.getElem?_eq_getElem hklt⟩
    have hck : ck.samplesToFillList[k]? = some sample := (h9 k (Nat.le_refl k)).trans hsample
    have hklt' : k < ck.samplesToFillList.length := by omega
    unfold reserveSample
    simp only [hck]
    refine ⟨h1, h2, h3, h4, ?_, ?_, ?_, ?_, ?_⟩
    · simp [h5]
    · simp [h6]
    · intro s
      unfold containerSize
      simp only [List.getElem?_set]
      by_cases hsk : k = s
      · subst hsk
        simp only [hklt', if_true, Nat.lt_succ_self]
        rw [container_setContainer]
        simp only [SampleElement.reserveEventMemory, length_resize, h2, hsample]
      · have := h7 s
        unfold containerSize at this
        simp only [hsk, if_false]
        rw [this]
        by_cases hlt : s < k
        · have hlt' : s < k + 1 := by omega
          simp [hlt, hlt']
        · have hlt' : ¬ s < k + 1 := by omega
          simp [hlt, hlt']
    · intro s
      unfold offsetOf
      simp only [List.getD_eq_getElem?_getD, List.getElem?_set]
      by_cases hsk : k = s
      · subst hsk
        by_cases hlen : k < c0.sampleIndexOffsetList.length
        · have hlen' : k < ck.sampleIndexOffsetList.length := by omega
          simp only [hlen', hlen, if_true, Nat.lt_succ_self, and_self, Option.getD_some]
          unfold containerSize
          rw [hsample]
        · have hlen' : ¬ k < ck.sampleIndexOffsetList.length := by omega
          have := h8 k
          unfold offsetOf at this
          simp only [List.getD_eq_getElem?_getD] at this
          simp only [hlen', hlen, if_false, if_true, and_false, Option.getD_none]
          rw [List.getElem?_eq_none (by omega)]
          rfl
      · have := h8 s
        unfold offsetOf at this
        simp only [List.getD_eq_getElem?_getD] at this
        simp only [hsk, if_false]
        rw [this]
        by_cases hlt : s < k
        · have hlt' : s < k + 1 := by omega
          simp [hlt, hlt']
        · have hlt' : ¬ s < k + 1 := by omega
          simp [hlt, hlt']
    · intro s hs
      have hne : ¬ k = s := by omega
      simp only [List.getElem?_set, hne, if_false]
      exact h9 s (by omega)



theorem mapExcept_error {α β : Type} (f : α → Except Fatal β) (e : Fatal) :
    ∀ (l : List α), mapExcept f l = .error e → ∃ a, a ∈ l ∧ f a = .error e := by
  intro l
  induction l with
  | nil => intro h; simp [mapExcept] at h
  | cons x l ih =>
    intro h
    unfold mapExcept at h
    cases hf : f x with
    | error e' =>
      simp only [hf] at h
      injection h with h
      subst h
      exact ⟨x, List.mem_cons_self _ _, hf⟩
    | ok b =>
      simp only [hf] at h
      cases hr : mapExcept f l with
      | error e' =>
        simp only [hr] at h
        injection h with h
        subst h
        obtain ⟨a, ha, hfa⟩ := ih hr
        exact ⟨a, List.mem_cons_of_mem _ ha, hfa⟩
      | ok bs => simp [hr] at h

/-- The only error of `preAllocateMemory`: a collection that is neither binned nor per-event. -/
theorem preAllocateMemory_error (d : Dispenser) (c : Cache) (e : Fatal)
    (h : preAllocateMemory d c = .error e) : e = .devErrorNotBinned := by
  unfold preAllocateMemory at h
  simp only at h
  split at h
  · simp at h
  · split at h
    · simp at h
    · split at h
      · rename_i e' hmap
        injection h with h
        subst h
        obtain ⟨dc, _, hdc⟩ := mapExcept_error _ _ _ hmap
        unfold preAllocateDialCollection at hdc
        split at hdc
        · simp at hdc
        · split at hdc
          · simp at hdc
          · injection hdc with hdc
            exact hdc.symm
      · simp at h

/-- What `preAllocateMemory` does to the quantities of the capacity invariant, when there is one
count per sample: the offset of every sample becomes the size of its container, which then grows
by the count; the table and the counts are left alone. -/
theorem preAllocateMemory_ok (d : Dispenser) (c c2 : Cache)
    (hlen : c.sampleNbOfEvents.length = c.samplesToFillList.length)
    (h : preAllocateMemory d c = .ok c2) :
    c2.eventIsInSamplesList = c.eventIsInSamplesList ∧
    c2.sampleNbOfEvents = c.sampleNbOfEvents ∧
    c2.samplesToFillList.length = c.samplesToFillList.length ∧
    (∀ s, containerSize d c2 s = containerSize d c s + c.sampleNbOfEvents.getD s 0) ∧
    (∀ s, offsetOf c2 s = containerSize d c s) := by
  have hfold := foldl_reserveSample d
    { c with sampleIndexOffsetList := resize c.sampleIndexOffsetList c.samplesToFillList.length 0 }
    c.samplesToFillList.length (Nat.le_refl _)
  simp only [length_resize] at hfold
  obtain ⟨h1, h2, _, _, h5, _, h7, h8, _⟩ := hfold
  have hsize : ∀ s, containerSize d
      ((List.range c.samplesToFillList.length).foldl (reserveSample d)
        { c with sampleIndexOffsetList :=
            resize c.sampleIndexOffsetList c.samplesToFillList.length 0 }) s
      = containerSize d c s + c.sampleNbOfEvents.getD s 0 := by
    intro s
    rw [h7 s]
    by_cases hs : s < c.samplesToFillList.length
    · simp only [hs, if_true]
      rfl
    · simp only [hs, if_false]
      have : c.sampleNbOfEvents.getD s 0 = 0 := by
        rw [List.getD_eq_getElem?_getD, List.getElem?_eq_none (by omega)]
        rfl
      rw [this]
      rfl
  have hoff : ∀ s, offsetOf
      ((List.range c.samplesToFillList.length).foldl (reserveSample d)
        { c with sampleIndexOffsetList :=
            resize c.sampleIndexOffsetList c.samplesToFillList.length 0 }) s
      = containerSize d c s := by
    intro s
    rw [h8 s]
    by_cases hs : s < c.samplesToFillList.length
    · simp only [hs, and_self, if_true]
      rfl
    · simp only [hs, and_self, if_false]
      unfold offsetOf containerSize
      rw [List.getD_eq_getElem?_getD, List.getElem?_eq_none (by rw [length_resize]; omega),
        List.getElem?_eq_none (by omega)]
      rfl
  unfold preAllocateMemory at h
  simp only [hlen] at h
  split at h
  · injection h with h
    subst h
    exact ⟨h1, h2, h5, hsize, hoff⟩
  · split at h
    · injection h with h
      subst h
      exact ⟨h1, h2, h5, hsize, hoff⟩
    · split at h
      · simp at h
      · injection h with h
        subst h
        exact ⟨h1, h2, h5, hsize, hoff⟩

/-- The loop "Shrinking lists" over the first `k` samples: the container of each of these
samples is cut at the offset of the sample; the other samples and the other members of the cache
are left alone. -/
theorem foldl_shrinkSample (d : Dispenser) (c1 : Cache) :
    ∀ k, k ≤ c1.samplesToFillList.length →
      ((List.range k).foldl (shrinkSample d) c1).sampleNbOfEvents = c1.sampleNbOfEvents ∧
      ((List.range k).foldl (shrinkSample d) c1).sampleIndexOffsetList
        = c1.sampleIndexOffsetList ∧
      ((List.range k).foldl (shrinkSample d) c1).samplesToFillList.length
        = c1.samplesToFillList.length ∧
      (∀ s, containerSize d ((List.range k).foldl (shrinkSample d) c1) s
        = if s < k then min (offsetOf c1 s) (containerSize d c1 s) else containerSize d c1 s) ∧
      (∀ s, k ≤ s → ((List.range k).foldl (shrinkSample d) c1).samplesToFillList[s]?
        = c1.samplesToFillList[s]?) := by
  intro k
  induction k with
  | zero =>
    intro _
    simp
  | succ k ih =>
    intro hk
    obtain ⟨h1, h2, h3, h4, h5⟩ := ih (by omega)
    rw [List.range_succ, List.foldl_append, List.foldl_cons, List.foldl_nil]
    generalize (List.range k).foldl (shrinkSample d) c1 = ck at h1 h2 h3 h4 h5
    have hklt : k < c1.samplesToFillList.length := by omega
    obtain ⟨sample, hsample⟩ : ∃ sample, c1.samplesToFillList[k]? = some sample :=
      ⟨c1.samplesToFillList[k], List.getElem?_eq_getElem hklt⟩
    have hck : ck.samplesToFillList[k]? = some sample := (h5 k (Nat.le_refl k)).trans hsample
    have hklt' : k < ck.samplesToFillList.length := by omega
    unfold shrinkSample
    simp only [hck]
    refine ⟨h1, h2, ?_, ?_, ?_⟩
    · simp [h3]
    · intro s
      unfold containerSize
      simp only [List.getElem?_set]
      by_cases hsk : k = s
      · subst hsk
        simp only [hklt', if_true, Nat.lt_succ_self]
        rw [container_setContainer]
        simp only [SampleElement.shrinkEventList, List.length_take, hsample, h2]
        rfl
      · have := h4 s
        unfold containerSize at this
        simp only [hsk, if_false]
        rw [this]
        by_cases hlt : s < k
        · have hlt' : s < k + 1 := by omega
          simp only [hlt, hlt', if_true]
        · have hlt' : ¬ s < k + 1 := by omega
          simp only [hlt, hlt', if_false]
    · intro s hs
      have hne : ¬ k = s := by omega
      simp only [List.getElem?_set, hne, if_false]
      exact h5 s (by omega)



theorem cellOf_tabulate2 (n m : Nat) (F : Nat → Nat → Bool) (e s : Nat) :
    cellOf (tabulate2 n m F) e s = (decide (e < n) && decide (s < m) && F e s) := by
  unfold cellOf tabulate2
  rw [getElem?_map_range]
  by_cases he : e < n
  · simp only [he, if_true]
    rw [getElem?_map_range]
    by_cases hs : s < m
    · simp only [hs, if_true]
      cases F e s <;> simp
    · simp [hs]
  · simp [he]

/-- The true cells of the column of a sample in `selectedTable` are counted by
`selectedCounts`. -/
theorem countP_cellOf_selectedTable (d : Dispenser) (samples : List FitSample) (s : Nat) :
    (List.range d.nEntries).countP (fun e => cellOf (selectedTable d samples) e s)
      = (selectedCounts d samples).getD s 0 := by
  unfold selectedTable selectedCounts
  rw [getD_map_range]
  by_cases hs : s < samples.length
  · simp only [hs, if_true]
    apply List.countP_congr
    intro e he
    rw [cellOf_tabulate2]
    simp [List.mem_range.mp he, hs]
  · simp only [hs, if_false]
    rw [List.countP_eq_zero]
    intro e _
    rw [cellOf_tabulate2]
    simp [hs]

theorem mapExcept_ok_mem {α β : Type} (f : α → Except Fatal β) :
    ∀ (l : List α) (bs : List β), mapExcept f l = .ok bs → ∀ a, a ∈ l → ∃ b, f a = .ok b := by
  intro l
  induction l with
  | nil => intro _ _ a ha; simp at ha
  | cons x l ih =>
    intro bs h a ha
    unfold mapExcept at h
    cases hf : f x with
    | error e => simp [hf] at h
    | ok b =>
      simp only [hf] at h
      cases hr : mapExcept f l with
      | error e => simp [hr] at h
      | ok bs' =>
        rcases List.mem_cons.mp ha with h1 | h1
        · subst h1; exact ⟨b, hf⟩
        · exact ih bs' hr a h1

/-- The only error of the selection pass: an empty source. -/
theorem doEventSelection_error (d : Dispenser) (c : Cache) (e : Fatal)
    (h : doEventSelection d c = .error e) : e = .tchainEmpty := by
  unfold doEventSelection at h
  simp only at h
  split at h
  · rename_i e' hmap
    injection h with h
    subst h
    obtain ⟨i, _, hi⟩ := mapExcept_error _ _ _ hmap
    unfold selectionFct at hi
    split at hi
    · injection hi with hi
      exact hi.symm
    · simp at hi
  · simp at h

/-- A selection pass that succeeds with at least one worker has read a source that is not
empty. -/
theorem doEventSelection_ok_nEntries (d : Dispenser) (c c1 : Cache)
    (hT : 0 < selectionThreads d) (h : doEventSelection d c = .ok c1) : 0 < d.nEntries := by
  unfold doEventSelection at h
  simp only at h
  split at h
  · simp at h
  · rename_i perThread hmap
    have hmem : 0 ∈ List.range (selectionThreads d) := List.mem_range.mpr hT
    obtain ⟨b, hb⟩ := mapExcept_ok_mem _ _ _ hmap 0 hmem
    unfold selectionFct at hb
    by_cases hn : d.nEntries = 0
    · simp [hn] at hb
    · omega



/-- The sample loop leaves the counts of the selection alone. -/
theorem fillSamples_counts (d : Dispenser) (iEntry : Nat) (row : List Bool) (L : List Nat)
    (st st' : ThreadLocals × Cache) (h : fillSamples d iEntry row L st = .ok st') :
    st'.2.sampleNbOfEvents = st.2.sampleNbOfEvents := by
  refine fillSamples_invariant d iEntry row
    (fun _ s => s.2.sampleNbOfEvents = st.2.sampleNbOfEvents)
    (fun s => s.2.sampleNbOfEvents = st.2.sampleNbOfEvents)
    (fun _ hinv => hinv) (fun _ _ _ _ hinv => hinv) (fun _ _ _ _ _ _ hinv _ => hinv) ?_
    L st st' rfl h
  intro j rest tl c tl' c' _ hinv hfs
  obtain ⟨_, _, _, hcounts, _⟩ := fillSample_ok_frame d iEntry j tl tl' c c' hfs
  exact hcounts.trans hinv

/-- One turn of the entry loop leaves the counts of the selection alone. -/
theorem fillEntry_counts (d : Dispenser) (nSample : Nat) (st st' : ThreadLocals × Cache)
    (iEntry : Nat) (h : fillEntry d nSample st iEntry = .ok st') :
    st'.2.sampleNbOfEvents = st.2.sampleNbOfEvents := by
  unfold fillEntry at h
  cases hrow : st.2.eventIsInSamplesList[iEntry]? with
  | none => simp [hrow] at h
  | some row =>
    simp only [hrow] at h
    by_cases hskip : (!row.contains true) = true
    · rw [if_pos hskip] at h
      injection h with h
      subst h
      rfl
    · rw [if_neg hskip] at h
      cases hw : d.nominalWeightFormula with
      | none =>
        simp only [hw] at h
        exact fillSamples_counts d iEntry _ _ st st' h
      | some weight =>
        simp only [hw] at h
        by_cases hneg : weight iEntry < 0
        · rw [if_pos hneg] at h
          simp at h
        · rw [if_neg hneg] at h
          by_cases hzero : weight iEntry = 0
          · rw [if_pos hzero] at h
            injection h with h
            subst h
            rfl
          · rw [if_neg hzero] at h
            have := fillSamples_counts d iEntry _ _ _ st' h
            exact this

/-- A fill thread leaves the counts of the selection alone. -/
theorem fillFunction_counts (d : Dispenser) (iThread : Int) (c c' : Cache)
    (h : fillFunction d iThread c = .ok c') : c'.sampleNbOfEvents = c.sampleNbOfEvents := by
  unfold fillFunction at h
  simp only at h
  split at h
  · simp at h
  · rename_i st hfold
    injection h with h
    subst h
    exact foldlExcept_invariant (fillEntry d c.samplesToFillList.length)
      (fun _ s => s.2.sampleNbOfEvents = c.sampleNbOfEvents)
      (fun a _ s s' hinv hok => (fillEntry_counts d _ s s' a hok).trans hinv) _ _ st rfl hfold

/-- The fill threads leave the counts of the selection alone. -/
theorem runFillThreads_counts (d : Dispenser) (c c' : Cache)
    (h : runFillThreads d c = .ok c') : c'.sampleNbOfEvents = c.sampleNbOfEvents := by
  unfold runFillThreads at h
  split at h
  · exact foldlExcept_invariant (fun c iThread => fillFunction d (Int.ofNat iThread) c)
      (fun _ s => s.sampleNbOfEvents = c.sampleNbOfEvents)
      (fun a _ s s' hinv hok => (fillFunction_counts d _ s s' hok).trans hinv) _ _ c' rfl h
  · exact fillFunction_counts d (-1) c c' h



/-- Claim C4. When the ranges of the workers cut the entries into contiguous ranges (for the
selection pass and for the fill pass), a load never indexes the event list of a sample past its
end: every claimed position `sampleEventIndex` is below the size reserved by `preAllocateMemory`.
When the load succeeds with samples to fill, the selection pass has counted
`sampleNbOfEvents`, `preAllocateMemory` has reserved that many slots after the events already in
each container and has set the offset of the sample to the former size; and for every sample the
container ends with at least its former events and at most `sampleNbOfEvents[s]` more: the number
of events stored during the load never exceeds the count. -/
theorem load_capacity (d : Dispenser) (c : Cache) (hT : 0 < selectionThreads d)
    (hpartSel : ContiguousRanges
      (fun i => d.getThreadBoundIndices i (selectionThreads d) d.nEntries)
      (selectionThreads d) d.nEntries)
    (hpartFill : ContiguousRanges (fun i => d.getThreadBoundIndices i (fillThreads d) d.nEntries)
      (fillThreads d) d.nEntries) :
    load d c ≠ .error .eventSlotOutOfRange ∧
    ∀ c', load d c = .ok c' →
      (c.samplesToFillList ≠ [] → ∃ c1 c2, doEventSelection d c.clear = .ok c1 ∧
        preAllocateMemory d c1 = .ok c2 ∧ c'.sampleNbOfEvents = c1.sampleNbOfEvents ∧
        ∀ s, containerSize d c2 s = containerSize d c s + c1.sampleNbOfEvents.getD s 0 ∧
          offsetOf c2 s = containerSize d c s) ∧
      ∀ s, containerSize d c s ≤ containerSize d c' s ∧
        containerSize d c' s
          ≤ containerSize d c s + c'.sampleNbOfEvents.getD s 0 := by
  unfold load
  by_cases hempty : c.clear.samplesToFillList.isEmpty = true
  · simp only [hempty, if_true]
    refine ⟨by simp, ?_⟩
    intro c' hok
    injection hok with hok
    subst hok
    refine ⟨fun hne => absurd (List.isEmpty_iff.mp hempty) hne, fun s => ⟨Nat.le_refl _, ?_⟩⟩
    exact Nat.le_add_right _ _
  · rw [if_neg hempty]
    cases hsel : doEventSelection d c.clear with
    | error e =>
      have := doEventSelection_error d c.clear e hsel
      subst this
      exact ⟨by simp, fun c' hok => by simp at hok⟩
    | ok c1 =>
      have hn := doEventSelection_ok_nEntries d c.clear c1 hT hsel
      have hc1 := doEventSelection_eq d c.clear hn hT hpartSel rfl rfl
      rw [hsel] at hc1
      injection hc1 with hc1
      have hlen : c1.sampleNbOfEvents.length = c1.samplesToFillList.length := by
        rw [hc1]
        simp [selectedCounts]
      simp only
      cases hpre : preAllocateMemory d c1 with
      | error e =>
        have := preAllocateMemory_error d c1 e hpre
        subst this
        exact ⟨by simp, fun c' hok => by simp at hok⟩
      | ok c2 =>
        obtain ⟨p1, p2, p3, p4, p5⟩ := preAllocateMemory_ok d c1 c2 hlen hpre
        have hsizes : ∀ s, containerSize d c1 s = containerSize d c s := by
          intro s
          rw [hc1]
          rfl
        have hcap : Capacity d c2.eventIsInSamplesList
            (fun s => containerSize d c s + c1.sampleNbOfEvents.getD s 0)
            (fun s => containerSize d c s)
            (fun s => (List.range d.nEntries).countP
              (fun e => cellOf c2.eventIsInSamplesList e s)) c2 := by
          refine ⟨rfl, fun s => ?_, fun s => ?_, fun s => ?_⟩
          · rw [p4 s, hsizes s]
          · rw [p5 s, hsizes s]
          · have hcount := countP_cellOf_selectedTable d c.samplesToFillList s
            have h1 : c1.eventIsInSamplesList = selectedTable d c.samplesToFillList := by
              rw [hc1]; rfl
            have h2 : c1.sampleNbOfEvents = selectedCounts d c.samplesToFillList := by
              rw [hc1]; rfl
            simp only [p5 s, hsizes s, p1, h1, h2, hcount]
            exact Nat.le_refl _
        obtain ⟨herr, hok'⟩ := runFillThreads_capacity d _ _ _ c2 hpartFill hcap
        simp only
        unfold readAndFill
        cases hfill : runFillThreads d c2 with
        | error e =>
          refine ⟨?_, fun c' hok => by simp at hok⟩
          intro hcontra
          simp only at hcontra
          injection hcontra with hcontra
          exact herr e hfill hcontra
        | ok c3 =>
          obtain ⟨_, q2, q3, q4⟩ := hok' c3 hfill
          have q5 := runFillThreads_counts d c2 c3 hfill
          refine ⟨by simp, ?_⟩
          intro c' hok
          simp only at hok
          injection hok with hok
          obtain ⟨r1, _, _, r4, _⟩ :=
            foldl_shrinkSample d c3 c3.samplesToFillList.length (Nat.le_refl _)
          rw [hok] at r1 r4
          have hcounts : c'.sampleNbOfEvents = c1.sampleNbOfEvents :=
            r1.trans (q5.trans p2)
          refine ⟨fun _ => ⟨c1, c2, rfl, hpre, hcounts, fun s => ⟨?_, ?_⟩⟩, fun s => ?_⟩
          · rw [p4 s, hsizes s]
          · rw [p5 s, hsizes s]
          · have hz : containerSize d c3 s
                = containerSize d c s + c1.sampleNbOfEvents.getD s 0 := q2 s
            have ho : containerSize d c s ≤ offsetOf c3 s := q3 s
            have hb : offsetOf c3 s + 0 ≤ containerSize d c s + c1.sampleNbOfEvents.getD s 0 :=
              q4 s
            rw [r4 s, hcounts]
            by_cases hs : s < c3.samplesToFillList.length
            · simp only [hs, if_true]
              omega
            · simp only [hs, if_false]
              omega


/-- Witness of `load_capacity`: Scenario A read by two workers, for the selection and for the
fill. The three selected entries fill the three reserved slots. -/
theorem load_capacity_witness :
    (0 < selectionThreads (scenarioA_threads 2) ∧
      ContiguousRanges
        (fun i => (scenarioA_threads 2).getThreadBoundIndices i
          (selectionThreads (scenarioA_threads 2)) (scenarioA_threads 2).nEntries)
        (selectionThreads (scenarioA_threads 2)) (scenarioA_threads 2).nEntries ∧
      ContiguousRanges
        (fun i => (scenarioA_threads 2).getThreadBoundIndices i
          (fillThreads (scenarioA_threads 2)) (scenarioA_threads 2).nEntries)
        (fillThreads (scenarioA_threads 2)) (scenarioA_threads 2).nEntries) ∧
    (load (scenarioA_threads 2) scenarioA_cache).map
        (fun c => (c.sampleNbOfEvents, storedEvents (scenarioA_threads 2) c))
      = .ok ([3], [[(1, 0, 1), (2, 1, 1), (3, 1, 1)]]) ∧
    load (scenarioA_threads 2) scenarioA_cache ≠ .error .eventSlotOutOfRange :=
  ⟨⟨by decide, by decide, by decide⟩, rfl,
    (load_capacity (scenarioA_threads 2) scenarioA_cache (by decide) (by decide) (by decide)).1⟩


/-! ## Override names: helper lemmas -/

theorem containsChars_iff (sub : List Char) :
    ∀ l : List Char, containsChars sub l = true ↔ List.IsInfix sub l := by
  intro l
  induction l with
  | nil =>
    simp only [containsChars, List.isPrefixOf_iff_prefix]
    constructor
    · intro h; exact h.isInfix
    · intro h
      have := List.infix_nil.mp h
      subst this
      exact List.prefix_refl _
  | cons c rest ih =>
    simp only [containsChars, Bool.or_eq_true, List.isPrefixOf_iff_prefix, ih]
    exact List.infix_cons_iff.symm

theorem replaceChars_skip (lookFor replaceBy : List Char) :
    ∀ (l : List Char) (n : Nat), l.length ≤ n → replaceChars lookFor replaceBy n l = [] := by
  intro l
  induction l with
  | nil => intro n _; cases n <;> rfl
  | cons c rest ih =>
    intro n hn
    cases n with
    | zero => simp at hn
    | succ k =>
      simp only [replaceChars]
      exact ih k (by simpa using hn)

theorem replaceChars_absent (lookFor replaceBy : List Char) :
    ∀ l : List Char, ¬ List.IsInfix lookFor l → replaceChars lookFor replaceBy 0 l = l := by
  intro l
  induction l with
  | nil => intro _; rfl
  | cons c rest ih =>
    intro h
    have h1 : ¬ List.IsPrefix lookFor (c :: rest) := fun hp => h hp.isInfix
    have h2 : ¬ List.IsInfix lookFor rest := fun hi => h (List.infix_cons_iff.mpr (Or.inr hi))
    have h3 : lookFor.isPrefixOf (c :: rest) = false := by
      cases hb : lookFor.isPrefixOf (c :: rest) with
      | false => rfl
      | true => exact absurd (List.isPrefixOf_iff_prefix.mp hb) h1
    simp only [replaceChars, h3, ih h2]
    simp

theorem replaceChars_self (lookFor replaceBy : List Char) (h : lookFor ≠ []) :
    replaceChars lookFor replaceBy 0 lookFor = replaceBy := by
  cases lookFor with
  | nil => exact absurd rfl h
  | cons c rest =>
    have h3 : (c :: rest).isPrefixOf (c :: rest) = true :=
      List.isPrefixOf_iff_prefix.mpr (List.prefix_refl _)
    simp only [replaceChars, h3, if_true]
    rw [replaceChars_skip _ _ rest _ (by simp)]
    simp

/-- The name `sub` occurs in the string `str`. -/
theorem doesStringContainsSubstring_iff (str sub : String) :
    doesStringContainsSubstring str sub = true ↔ List.IsInfix sub.data str.data :=
  containsChars_iff sub.data str.data

theorem replaceSubstring_absent (input lookFor replaceBy : String)
    (h : ¬ List.IsInfix lookFor.data input.data) :
    replaceSubstringInsideInputString input lookFor replaceBy = input := by
  unfold replaceSubstringInsideInputString
  split
  · rfl
  · rw [replaceChars_absent _ _ _ h]

theorem replaceSubstring_self (lookFor replaceBy : String) (h : lookFor ≠ "") :
    replaceSubstringInsideInputString lookFor lookFor replaceBy = replaceBy := by
  have hne : lookFor.data ≠ [] := by
    intro hd
    apply h
    exact String.ext hd
  unfold replaceSubstringInsideInputString
  have : lookFor.data.isEmpty = false := by
    cases hd : lookFor.data with
    | nil => exact absurd hd hne
    | cons _ _ => rfl
  rw [this]
  simp only [Bool.false_eq_true, if_false]
  rw [replaceChars_self _ _ hne]

theorem overrideLeavesNamesFct_fixed (dict : List (String × String)) (r : String) :
    ∀ names : List String, (∀ k ∈ names, ¬ List.IsInfix k.data r.data) →
      overrideLeavesNamesFct names dict r = r := by
  intro names
  induction names with
  | nil => intro _; rfl
  | cons k rest ih =>
    intro h
    unfold overrideLeavesNamesFct
    simp only [List.foldl_cons]
    rw [replaceSubstring_absent _ _ _ (h k (List.mem_cons_self _ _))]
    exact ih (fun k' hk' => h k' (List.mem_cons_of_mem _ hk'))

theorem overrideLeavesNamesFct_exact (dict : List (String × String)) (L : String) :
    ∀ names : List String, L ∈ names → (∀ k ∈ names, k ≠ "") →
      List.Pairwise (fun a b => b.length ≤ a.length) names →
      (∀ k ∈ names, ¬ List.IsInfix k.data (dictAt dict L).data) →
      overrideLeavesNamesFct names dict L = dictAt dict L := by
  intro names
  induction names with
  | nil => intro h; simp at h
  | cons k rest ih =>
    intro hL hne hsorted hfree
    have hrest : ∀ k' ∈ rest, ¬ List.IsInfix k'.data (dictAt dict L).data :=
      fun k' hk' => hfree k' (List.mem_cons_of_mem _ hk')
    by_cases hk : k = L
    · subst hk
      show overrideLeavesNamesFct rest dict
        (replaceSubstringInsideInputString k k (dictAt dict k)) = dictAt dict k
      rw [replaceSubstring_self _ _ (hne k (List.mem_cons_self _ _))]
      exact overrideLeavesNamesFct_fixed dict _ rest hrest
    · have hLrest : L ∈ rest := by
        rcases List.mem_cons.mp hL with h | h
        · exact absurd h.symm hk
        · exact h
      have hlen : L.length ≤ k.length := (List.pairwise_cons.mp hsorted).1 L hLrest
      have habsent : ¬ List.IsInfix k.data L.data := by
        intro hi
        apply hk
        have hle := hi.length_le
        have heq : k.data.length = L.data.length := Nat.le_antisymm hle hlen
        exact String.ext (hi.eq_of_length heq)
      show overrideLeavesNamesFct rest dict
        (replaceSubstringInsideInputString L k (dictAt dict k)) = dictAt dict L
      rw [replaceSubstring_absent _ _ _ habsent]
      exact ih hLrest (fun k' hk' => hne k' (List.mem_cons_of_mem _ hk'))
        (List.pairwise_cons.mp hsorted).2 hrest

/-! ## The insertion sort: helper lemmas -/

theorem unguardedLinearInsert_perm {α : Type} (comp : α → α → Bool) (val : α) :
    ∀ l : List α, (unguardedLinearInsert comp val l).Perm (val :: l) := by
  intro l
  induction l with
  | nil => exact List.Perm.refl _
  | cons next before ih =>
    unfold unguardedLinearInsert
    split
    · exact ((List.Perm.cons next ih).trans (List.Perm.swap val next before))
    · exact List.Perm.refl _

theorem insertionSortStep_perm {α : Type} (comp : α → α → Bool) (l : List α) (val : α) :
    (insertionSortStep comp l val).Perm (val :: l) := by
  unfold insertionSortStep
  cases hlast : l.getLast? with
  | none =>
    have : l = [] := List.getLast?_eq_none_iff.mp hlast
    subst this
    exact List.Perm.refl _
  | some first =>
    simp only
    split
    · exact List.perm_append_singleton val l
    · exact unguardedLinearInsert_perm comp val l

theorem foldl_insertionSortStep_perm {α : Type} (comp : α → α → Bool) :
    ∀ (l acc : List α), (l.foldl (insertionSortStep comp) acc).Perm (acc ++ l) := by
  intro l
  induction l with
  | nil => intro acc; simp
  | cons a rest ih =>
    intro acc
    simp only [List.foldl_cons]
    refine (ih _).trans ?_
    refine ((insertionSortStep_perm comp acc a).append_right rest).trans ?_
    simpa using (@List.perm_middle _ a acc rest).symm

theorem sortVector_perm {α : Type} (comp : α → α → Bool) (l : List α) :
    (sortVector comp l).Perm l := by
  unfold sortVector
  refine (List.reverse_perm _).trans ?_
  simpa using foldl_insertionSortStep_perm comp l []

/-- With a comparator that ranks by a key (the greater key goes first), the insertion from the
back keeps a range sorted. -/
theorem unguardedLinearInsert_sorted {α : Type} (key : α → Nat) (val : α) :
    ∀ l : List α, List.Pairwise (fun a b => key a ≤ key b) l →
      List.Pairwise (fun a b => key a ≤ key b)
        (unguardedLinearInsert (fun a b => decide (key a > key b)) val l) := by
  intro l
  induction l with
  | nil => intro _; simp [unguardedLinearInsert]
  | cons next before ih =>
    intro h
    unfold unguardedLinearInsert
    by_cases hc : key val > key next
    · simp only [hc, decide_True, if_true]
      refine List.pairwise_cons.mpr ⟨?_, ih (List.pairwise_cons.mp h).2⟩
      intro b hb
      have hb' : b ∈ val :: before :=
        (unguardedLinearInsert_perm _ val before).subset hb
      rcases List.mem_cons.mp hb' with hb1 | hb1
      · subst hb1; omega
      · exact (List.pairwise_cons.mp h).1 b hb1
    · simp only [hc, decide_False, Bool.false_eq_true, if_false]
      refine List.pairwise_cons.mpr ⟨?_, h⟩
      intro b hb
      rcases List.mem_cons.mp hb with hb1 | hb1
      · subst hb1; omega
      · have := (List.pairwise_cons.mp h).1 b hb1
        omega

theorem insertionSortStep_sorted {α : Type} (key : α → Nat) (l : List α) (val : α)
    (h : List.Pairwise (fun a b => key a ≤ key b) l) :
    List.Pairwise (fun a b => key a ≤ key b)
      (insertionSortStep (fun a b => decide (key a > key b)) l val) := by
  unfold insertionSortStep
  cases hlast : l.getLast? with
  | none => simp
  | some first =>
    simp only
    by_cases hc : key val > key first
    · simp only [hc, decide_True, if_true]
      obtain ⟨ys, hys⟩ := List.getLast?_eq_some_iff.mp hlast
      subst hys
      refine List.pairwise_append.mpr ⟨h, by simp, ?_⟩
      intro a ha b hb
      have hb1 : b = val := by simpa using hb
      subst hb1
      rcases List.mem_append.mp ha with ha1 | ha1
      · have := (List.pairwise_append.mp h).2.2 a ha1 first (by simp)
        omega
      · have : a = first := by simpa using ha1
        subst this; omega
    · simp only [hc, decide_False, Bool.false_eq_true, if_false]
      exact unguardedLinearInsert_sorted key val l h

theorem foldl_insertionSortStep_sorted {α : Type} (key : α → Nat) :
    ∀ (l acc : List α), List.Pairwise (fun a b => key a ≤ key b) acc →
      List.Pairwise (fun a b => key a ≤ key b)
        (l.foldl (insertionSortStep (fun a b => decide (key a > key b))) acc) := by
  intro l
  induction l with
  | nil => intro acc h; exact h
  | cons a rest ih =>
    intro acc h
    exact ih _ (insertionSortStep_sorted key acc a h)

theorem sortVector_longestFirst_sorted (l : List String) :
    List.Pairwise (fun a b => b.length ≤ a.length) (sortVector longestFirst l) := by
  unfold sortVector
  rw [List.pairwise_reverse]
  exact foldl_insertionSortStep_sorted (fun s : String => s.length) l [] List.Pairwise.nil

theorem mapExcept_fst (g : String × String → Except Fatal (String × String))
    (hg : ∀ item b, g item = .ok b → b.1 = item.1) :
    ∀ (l dict : List (String × String)), mapExcept g l = .ok dict →
      dict.map (fun item => item.1) = l.map (fun item => item.1) := by
  intro l
  induction l with
  | nil =>
    intro dict h
    simp only [mapExcept, Except.ok.injEq] at h
    subst h; rfl
  | cons x rest ih =>
    intro dict h
    unfold mapExcept at h
    cases hf : g x with
    | error e => rw [hf] at h; simp at h
    | ok b =>
      rw [hf] at h
      cases hr : mapExcept g rest with
      | error e => rw [hr] at h; simp at h
      | ok bs =>
        rw [hr] at h
        simp only [Except.ok.injEq] at h
        subst h
        simp [ih bs hr, hg x b hf]

theorem mapExcept_keys (f : String → Except Fatal String) (l dict : List (String × String))
    (h : mapExcept (fun item => (f item.2).map (fun v => (item.1, v))) l = .ok dict) :
    dict.map (fun item => item.1) = l.map (fun item => item.1) := by
  refine mapExcept_fst _ ?_ l dict h
  intro item b hb
  cases hf : f item.2 with
  | error e => simp [hf, Except.map] at hb
  | ok v =>
    simp only [hf, Except.map, Except.ok.injEq] at hb
    subst hb; rfl

theorem replaceToyIndexFct_set (iThrow : Int) (formula : String) (h : iThrow ≠ -1) :
    replaceToyIndexFct iThrow formula = .ok
      (if doesStringContainsSubstring formula "<I_TOY>" then
        replaceSubstringInsideInputString formula "<I_TOY>" (toString iThrow)
      else formula) := by
  unfold replaceToyIndexFct
  split
  · rfl
  · rfl

theorem replaceToyIndexFct_absent (iThrow : Int) (formula : String)
    (h : ¬ List.IsInfix "<I_TOY>".data formula.data) :
    replaceToyIndexFct iThrow formula = .ok formula := by
  unfold replaceToyIndexFct
  have : doesStringContainsSubstring formula "<I_TOY>" = false := by
    cases hb : doesStringContainsSubstring formula "<I_TOY>" with
    | false => rfl
    | true => exact absurd ((doesStringContainsSubstring_iff _ _).mp hb) h
  rw [this]
  rfl

theorem parseStringParameters_ok (p : Parameters) (r : ParsedParameters)
    (h : parseStringParameters p = .ok r) :
    ∃ dI nW sC,
      replaceToyIndexFct p.iThrow p.dialIndexFormula = .ok dI ∧
      replaceToyIndexFct p.iThrow p.nominalWeightFormulaStr = .ok nW ∧
      replaceToyIndexFct p.iThrow p.selectionCutFormulaStr = .ok sC ∧
      r.overrideLeafDict.map (fun item => item.1) = p.overrideLeafDict.map (fun item => item.1) ∧
      r.varsToOverrideList
        = sortVector longestFirst (r.overrideLeafDict.map (fun item => item.1)) ∧
      r.eventVarTransformList =
        (match p.variablesTransform with
          | none => []
          | some declared => sortVector transformGoesFirst (loadTransforms declared)) ∧
      r.dialIndexFormula = overrideLeavesNamesFct r.varsToOverrideList r.overrideLeafDict dI ∧
      r.nominalWeightFormulaStr
        = overrideLeavesNamesFct r.varsToOverrideList r.overrideLeafDict nW ∧
      r.selectionCutFormulaStr
        = overrideLeavesNamesFct r.varsToOverrideList r.overrideLeafDict sC := by
  unfold parseStringParameters at h
  cases hd : mapExcept
      (fun item => (replaceToyIndexFct p.iThrow item.2).map (fun v => (item.1, v)))
      p.overrideLeafDict with
  | error e => simp [hd] at h
  | ok dict =>
    simp only [hd] at h
    cases h1 : replaceToyIndexFct p.iThrow p.dialIndexFormula with
    | error e => simp [h1] at h
    | ok dI =>
      simp only [h1] at h
      cases h2 : replaceToyIndexFct p.iThrow p.nominalWeightFormulaStr with
      | error e => simp [h2] at h
      | ok nW =>
        simp only [h2] at h
        cases h3 : replaceToyIndexFct p.iThrow p.selectionCutFormulaStr with
        | error e => simp [h3] at h
        | ok sC =>
          simp only [h3, Except.ok.injEq] at h
          subst h
          exact ⟨dI, nW, sC, rfl, rfl, rfl, mapExcept_keys _ _ _ hd, rfl, rfl, rfl, rfl, rfl⟩

theorem parseStringParameters_total (p : Parameters) (h : p.iThrow ≠ -1) :
    ∃ r, parseStringParameters p = .ok r := by
  unfold parseStringParameters
  have hd := mapExcept_ok
    (fun item : String × String =>
      (replaceToyIndexFct p.iThrow item.2).map (fun v => (item.1, v)))
    (fun item => (item.1,
      if doesStringContainsSubstring item.2 "<I_TOY>" then
        replaceSubstringInsideInputString item.2 "<I_TOY>" (toString p.iThrow)
      else item.2))
    p.overrideLeafDict
    (fun a _ => by simp only [replaceToyIndexFct_set _ _ h, Except.map])
  rw [hd]
  simp only [replaceToyIndexFct_set _ _ h]
  exact ⟨_, rfl⟩

theorem sublist_pair_of_pairwise {α : Type} (R : α → α → Prop) (a b : α) :
    ∀ l : List α, List.Pairwise R l → a ∈ l → b ∈ l → ¬ R b a → a ≠ b →
      List.Sublist [a, b] l := by
  intro l
  induction l with
  | nil => intro _ ha; simp at ha
  | cons x rest ih =>
    intro hp ha hb hR hne
    rcases List.mem_cons.mp ha with ha1 | ha1
    · subst ha1
      rcases List.mem_cons.mp hb with hb1 | hb1
      · exact absurd hb1.symm hne
      · exact List.Sublist.cons₂ _ (List.singleton_sublist.mpr hb1)
    · rcases List.mem_cons.mp hb with hb1 | hb1
      · subst hb1
        exact absurd ((List.pairwise_cons.mp hp).1 a ha1) hR
      · exact List.Sublist.cons _ (ih (List.pairwise_cons.mp hp).2 ha1 hb1 hR hne)

/-- Claim C13. When `parseStringParameters` returns, `varsToOverrideList` is a permutation of the
keys of `overrideLeafDict` in order of non-increasing length, and the override names are applied
to every formula in that order. So for two override names `S` and `L`, `S` a proper substring of
`L`, the name `L` is applied before `S`, and a formula made of exactly `L` (the dial index
formula, the nominal weight formula or the selection cut formula, free of the toy index tag) is
rewritten to the replacement configured for `L`, whenever that replacement holds no override
name. The method returns whenever the toy index is set. -/
theorem parseStringParameters_longest_first (p : Parameters) (r : ParsedParameters)
    (S L : String) (h : parseStringParameters p = .ok r)
    (hS : S ∈ r.varsToOverrideList) (hL : L ∈ r.varsToOverrideList)
    (hsub : List.IsInfix S.data L.data) (hproper : S ≠ L)
    (hnames : ∀ k ∈ r.varsToOverrideList, k ≠ "")
    (hfree : ∀ k ∈ r.varsToOverrideList,
      ¬ List.IsInfix k.data (dictAt r.overrideLeafDict L).data) :
    r.varsToOverrideList.Perm (p.overrideLeafDict.map (fun item => item.1)) ∧
    List.Pairwise (fun a b => b.length ≤ a.length) r.varsToOverrideList ∧
    List.Sublist [L, S] r.varsToOverrideList ∧
    overrideLeavesNamesFct r.varsToOverrideList r.overrideLeafDict L
      = dictAt r.overrideLeafDict L ∧
    (¬ List.IsInfix "<I_TOY>".data L.data →
      (p.dialIndexFormula = L → r.dialIndexFormula = dictAt r.overrideLeafDict L) ∧
      (p.nominalWeightFormulaStr = L →
        r.nominalWeightFormulaStr = dictAt r.overrideLeafDict L) ∧
      (p.selectionCutFormulaStr = L →
        r.selectionCutFormulaStr = dictAt r.overrideLeafDict L)) ∧
    (p.iThrow ≠ -1 → ∃ r', parseStringParameters p = .ok r') := by
  obtain ⟨dI, nW, sC, h1, h2, h3, hkeys, hlist, _, hdI, hnW, hsC⟩ :=
    parseStringParameters_ok p r h
  have hperm : r.varsToOverrideList.Perm (p.overrideLeafDict.map (fun item => item.1)) := by
    rw [hlist, ← hkeys]
    exact sortVector_perm _ _
  have hsorted : List.Pairwise (fun a b => b.length ≤ a.length) r.varsToOverrideList := by
    rw [hlist]
    exact sortVector_longestFirst_sorted _
  have hexact := overrideLeavesNamesFct_exact r.overrideLeafDict L r.varsToOverrideList hL
    hnames hsorted hfree
  have hshort : ¬ L.length ≤ S.length := by
    intro hle
    apply hproper
    exact String.ext (hsub.eq_of_length (Nat.le_antisymm hsub.length_le hle))
  have hbefore := sublist_pair_of_pairwise (fun a b : String => b.length ≤ a.length) L S
    r.varsToOverrideList hsorted hL hS hshort (Ne.symm hproper)
  refine ⟨hperm, hsorted, hbefore, hexact, ?_, parseStringParameters_total p⟩
  intro htoy
  refine ⟨?_, ?_, ?_⟩
  · intro hf
    rw [hf, replaceToyIndexFct_absent _ _ htoy] at h1
    cases h1
    rw [hdI]; exact hexact
  · intro hf
    rw [hf, replaceToyIndexFct_absent _ _ htoy] at h2
    cases h2
    rw [hnW]; exact hexact
  · intro hf
    rw [hf, replaceToyIndexFct_absent _ _ htoy] at h3
    cases h3
    rw [hsC]; exact hexact

/-- Witness of `parseStringParameters_longest_first`: with the override names `thisIs` and
`thisIsATest`, the longer name is applied first and the selection cut `thisIsATest` becomes the
replacement of the longer name; applied in the other order, the names would give `uATest`. -/
theorem parseStringParameters_longest_first_witness :
    (parseStringParameters overrides_params = .ok overrides_parsed ∧
      "thisIs" ∈ overrides_parsed.varsToOverrideList ∧
      "thisIsATest" ∈ overrides_parsed.varsToOverrideList ∧
      List.IsInfix "thisIs".data "thisIsATest".data ∧ "thisIs" ≠ "thisIsATest" ∧
      (∀ k ∈ overrides_parsed.varsToOverrideList, k ≠ "") ∧
      (∀ k ∈ overrides_parsed.varsToOverrideList,
        ¬ List.IsInfix k.data (dictAt overrides_parsed.overrideLeafDict "thisIsATest").data)) ∧
    overrides_parsed.varsToOverrideList = ["thisIsATest", "thisIs"] ∧
    overrides_parsed.selectionCutFormulaStr = "v" ∧
    overrideLeavesNamesFct ["thisIs", "thisIsATest"] overrides_parsed.overrideLeafDict
      "thisIsATest" = "uATest" :=
  have hsub : List.IsInfix "thisIs".data "thisIsATest".data := ⟨[], "ATest".data, rfl⟩
  have hfree : ∀ k ∈ overrides_parsed.varsToOverrideList,
      ¬ List.IsInfix k.data (dictAt overrides_parsed.overrideLeafDict "thisIsATest").data := by
    decide
  ⟨⟨rfl, by decide, by decide, hsub, by decide, by decide, hfree⟩,
    by decide,
    ((parseStringParameters_longest_first overrides_params overrides_parsed "thisIs"
      "thisIsATest" rfl (by decide) (by decide) hsub (by decide) (by decide) hfree).2.2.2.2.1
      (by decide)).2.2 rfl,
    by decide⟩

/-! ## Ordering of the variable transforms -/

/-- Claim C14, evaluated on the code. Four transforms declared in the order `q`, `b`, `p`, `a`,
none of them self-contained, where `b` reads the output of `a`: the comparator ranks `a` before
`b` (rule of the producer) and `b` before `a` (rule of the declaration), every neighbour of the
declared list is already in order for it, and the sorted list is the declared one, with the
consumer `b` before its producer `a`. -/
theorem parseStringParameters_leaves_consumer_before_producer :
    (parseStringParameters chain_params).map
        (fun r => transformOrder r.eventVarTransformList)
      = .ok [(0, "q"), (1, "b"), (2, "p"), (3, "a")] ∧
    ¬ ProducersFirst (parsedTransforms chain_params) ∧
    transformGoesFirst { transformOf "a" ["x"] with index := 3 }
      { transformOf "b" ["a"] with index := 1 } = true ∧
    transformGoesFirst { transformOf "b" ["a"] with index := 1 }
      { transformOf "a" ["x"] with index := 3 } = true ∧
    transformGoesFirst { transformOf "b" ["a"] with index := 1 }
      { transformOf "q" ["x"] with index := 0 } = false ∧
    transformGoesFirst { transformOf "p" ["x"] with index := 2 }
      { transformOf "b" ["a"] with index := 1 } = false ∧
    transformGoesFirst { transformOf "a" ["x"] with index := 3 }
      { transformOf "p" ["x"] with index := 2 } = false := by
  refine ⟨rfl, ?_, by decide, by decide, by decide, by decide, by decide⟩
  intro h
  have := h 3 1 _ _ (by rfl) (by rfl) (by decide) (by decide)
  omega

/-- Claim C15, refuted as stated. Two transforms declared in the order `y`, `z`, where `y` reads
its own output and the output of `z`: the sorted list is `z`, `y`. The self-contained transform
`y` no longer precedes `z`, which was declared after it. -/
theorem parseStringParameters_moves_producer_before_self_contained :
    (parseStringParameters selfContained_params).map
        (fun r => transformOrder r.eventVarTransformList)
      = .ok [(1, "z"), (0, "y")] ∧
    ¬ SelfContainedInPlace (parsedTransforms selfContained_params) := by
  refine ⟨rfl, ?_⟩
  intro h
  have := (h 1 0 _ _ (by rfl) (by rfl) (by decide)).mpr (by decide)
  omega

theorem transformGoesFirst_selfContained (s x : EventVarTransform)
    (h : isSelfContained s = true) : transformGoesFirst s x = false := by
  unfold isSelfContained at h
  unfold transformGoesFirst
  rw [if_pos h]

theorem not_selfContained_of_goesFirst (a b : EventVarTransform)
    (h : transformGoesFirst a b = true) : ¬ isSelfContained a = true := by
  intro hs
  rw [transformGoesFirst_selfContained a b hs] at h
  exact Bool.noConfusion h

theorem loadTransformsFrom_index :
    ∀ (l : List EventVarTransform) (k : Nat) (v : EventVarTransform),
      v ∈ loadTransformsFrom k l → (k : Int) ≤ v.index := by
  intro l
  induction l with
  | nil => intro k v hv; simp [loadTransformsFrom] at hv
  | cons t rest ih =>
    intro k v hv
    simp only [loadTransformsFrom, List.mem_cons] at hv
    rcases hv with hv | hv
    · subst hv; simp
    · have := ih (k + 1) v hv
      omega

theorem loadTransformsFrom_sorted :
    ∀ (l : List EventVarTransform) (k : Nat),
      List.Pairwise (fun a b : EventVarTransform => a.index < b.index)
        (loadTransformsFrom k l) := by
  intro l
  induction l with
  | nil => intro k; simp [loadTransformsFrom]
  | cons t rest ih =>
    intro k
    simp only [loadTransformsFrom]
    refine List.pairwise_cons.mpr ⟨?_, ih (k + 1)⟩
    intro b hb
    have := loadTransformsFrom_index rest (k + 1) b hb
    simp only
    omega

/-- The relation kept by the insertion sort of the transforms, on the range given from its last
element to its first: no self-contained transform stands after a transform of smaller index. -/
theorem unguardedLinearInsert_selfContained (val : EventVarTransform) :
    ∀ l : List EventVarTransform,
      List.Pairwise (fun u v : EventVarTransform =>
        ¬ (isSelfContained v = true ∧ u.index < v.index)) l →
      (∀ u ∈ l, u.index < val.index) →
      List.Pairwise (fun u v : EventVarTransform =>
        ¬ (isSelfContained v = true ∧ u.index < v.index))
        (unguardedLinearInsert transformGoesFirst val l) := by
  intro l
  induction l with
  | nil => intro _ _; simp [unguardedLinearInsert]
  | cons next before ih =>
    intro hp hb
    unfold unguardedLinearInsert
    by_cases hc : transformGoesFirst val next = true
    · rw [if_pos hc]
      refine List.pairwise_cons.mpr ⟨?_, ih (List.pairwise_cons.mp hp).2
        (fun u hu => hb u (List.mem_cons_of_mem _ hu))⟩
      intro b hb'
      have hb'' : b ∈ val :: before := (unguardedLinearInsert_perm _ val before).subset hb'
      rcases List.mem_cons.mp hb'' with h1 | h1
      · subst h1
        intro hcontra
        exact not_selfContained_of_goesFirst _ _ hc hcontra.1
      · exact (List.pairwise_cons.mp hp).1 b h1
    · rw [if_neg hc]
      refine List.pairwise_cons.mpr ⟨?_, hp⟩
      intro b hb'
      intro hcontra
      have := hb b hb'
      omega

theorem insertionSortStep_selfContained (l : List EventVarTransform) (val : EventVarTransform)
    (hp : List.Pairwise (fun u v : EventVarTransform =>
      ¬ (isSelfContained v = true ∧ u.index < v.index)) l)
    (hb : ∀ u ∈ l, u.index < val.index) :
    List.Pairwise (fun u v : EventVarTransform =>
      ¬ (isSelfContained v = true ∧ u.index < v.index))
      (insertionSortStep transformGoesFirst l val) := by
  unfold insertionSortStep
  cases hlast : l.getLast? with
  | none => simp
  | some first =>
    simp only
    by_cases hc : transformGoesFirst val first = true
    · rw [if_pos hc]
      refine List.pairwise_append.mpr ⟨hp, by simp, ?_⟩
      intro a _ b hb'
      have hb1 : b = val := by simpa using hb'
      subst hb1
      intro hcontra
      exact not_selfContained_of_goesFirst _ _ hc hcontra.1
    · rw [if_neg hc]
      exact unguardedLinearInsert_selfContained val l hp hb

theorem foldl_insertionSortStep_selfContained :
    ∀ (l acc : List EventVarTransform),
      List.Pairwise (fun u v : EventVarTransform =>
        ¬ (isSelfContained v = true ∧ u.index < v.index)) acc →
      List.Pairwise (fun a b : EventVarTransform => a.index < b.index) l →
      (∀ u ∈ acc, ∀ v ∈ l, u.index < v.index) →
      List.Pairwise (fun u v : EventVarTransform =>
        ¬ (isSelfContained v = true ∧ u.index < v.index))
        (l.foldl (insertionSortStep transformGoesFirst) acc) := by
  intro l
  induction l with
  | nil => intro acc h _ _; exact h
  | cons a rest ih =>
    intro acc hp hs hb
    simp only [List.foldl_cons]
    refine ih _ (insertionSortStep_selfContained acc a hp
      (fun u hu => hb u hu a (List.mem_cons_self _ _))) (List.pairwise_cons.mp hs).2 ?_
    intro u hu v hv
    have hu' : u ∈ a :: acc := (insertionSortStep_perm _ acc a).subset hu
    rcases List.mem_cons.mp hu' with h1 | h1
    · subst h1
      exact (List.pairwise_cons.mp hs).1 v hv
    · exact hb u h1 v (List.mem_cons_of_mem _ hv)

theorem sortVector_selfContained (declared : List EventVarTransform) :
    SelfContainedAfterEarlier (sortVector transformGoesFirst (loadTransforms declared)) := by
  have hfold := foldl_insertionSortStep_selfContained (loadTransforms declared) []
    List.Pairwise.nil (loadTransformsFrom_sorted declared 0) (fun u hu => by simp at hu)
  have hrev : List.Pairwise (fun a b : EventVarTransform =>
      ¬ (isSelfContained a = true ∧ b.index < a.index))
      (sortVector transformGoesFirst (loadTransforms declared)) := by
    unfold sortVector
    rw [List.pairwise_reverse]
    exact hfold
  intro i j s t hi hj hs hlt
  by_contra hji
  have hij : i ≤ j := Nat.le_of_not_lt hji
  rcases Nat.eq_or_lt_of_le hij with heq | hlt'
  · subst heq
    rw [hi] at hj
    cases hj
    omega
  · have hlen_j : j < (sortVector transformGoesFirst (loadTransforms declared)).length := by
      rcases List.getElem?_eq_some_iff.mp hj with ⟨hj', _⟩
      exact hj'
    have hlen_i : i < (sortVector transformGoesFirst (loadTransforms declared)).length :=
      Nat.lt_trans hlt' hlen_j
    have hgi := (List.getElem?_eq_some_iff.mp hi).2
    have hgj := (List.getElem?_eq_some_iff.mp hj).2
    have := (List.pairwise_iff_getElem.mp hrev) i j hlen_i hlen_j hlt'
    rw [hgi, hgj] at this
    exact this ⟨hs, hlt⟩

/-- Claim C15, amended. For a declaration of at most 16 transforms (the lengths at which
`std::sort` is the insertion sort that `sortVector` embeds): when `parseStringParameters`
returns, every self-contained transform of the sorted list still follows every transform that
was declared before it; the comparator never ranks a self-contained transform first, so the
ordering step moves it ahead of no transform. (A transform declared after it can be moved ahead
of it.) The sorted list is a permutation of the declared one, of the same length. -/
theorem parseStringParameters_self_contained (p : Parameters) (r : ParsedParameters)
    (h : parseStringParameters p = .ok r)
    (hshort : ∀ declared, p.variablesTransform = some declared → declared.length ≤ 16) :
    SelfContainedAfterEarlier r.eventVarTransformList ∧
    (∀ s x : EventVarTransform, isSelfContained s = true → transformGoesFirst s x = false) ∧
    (∀ declared, p.variablesTransform = some declared →
      r.eventVarTransformList.Perm (loadTransforms declared)) ∧
    r.eventVarTransformList.length ≤ 16 := by
  obtain ⟨_, _, _, _, _, _, _, _, hlist, _, _, _⟩ := parseStringParameters_ok p r h
  have hlen : ∀ (l : List EventVarTransform) (k : Nat),
      (loadTransformsFrom k l).length = l.length := by
    intro l
    induction l with
    | nil => intro _; rfl
    | cons t rest ih => intro k; simp [loadTransformsFrom, ih]
  refine ⟨?_, transformGoesFirst_selfContained, ?_, ?_⟩
  · rw [hlist]
    cases p.variablesTransform with
    | none =>
      intro i j s t hi
      simp at hi
    | some declared => exact sortVector_selfContained declared
  · intro declared hd
    rw [hlist, hd]
    exact sortVector_perm _ _
  · rw [hlist]
    cases hd : p.variablesTransform with
    | none => simp
    | some declared =>
      simp only
      rw [(sortVector_perm transformGoesFirst (loadTransforms declared)).length_eq]
      unfold loadTransforms
      rw [hlen]
      exact hshort declared hd

/-- Witness of `parseStringParameters_self_contained`: the two transforms `y` (self-contained)
and `z` (declared after `y`, read by `y`). -/
theorem parseStringParameters_self_contained_witness :
    (parseStringParameters selfContained_params = .ok (parsedOf selfContained_params) ∧
      ∀ declared, selfContained_params.variablesTransform = some declared →
        declared.length ≤ 16) ∧
    SelfContainedAfterEarlier (parsedOf selfContained_params).eventVarTransformList ∧
    transformOrder (parsedOf selfContained_params).eventVarTransformList
      = [(1, "z"), (0, "y")] :=
  have hshort : ∀ declared, selfContained_params.variablesTransform = some declared →
      declared.length ≤ 16 := by
    intro declared hd
    have hd2 : some [transformOf "y" ["y", "z"], transformOf "z" ["w"]] = some declared := hd
    cases hd2
    decide
  ⟨⟨rfl, hshort⟩,
    (parseStringParameters_self_contained selfContained_params (parsedOf selfContained_params)
      rfl hshort).1,
    by decide⟩

/-! ## Requested variables: helper lemmas -/

theorem mem_addIfNotInVector (v x : String) (l : List String) :
    v ∈ addIfNotInVector x l ↔ v ∈ l ∨ v = x := by
  unfold addIfNotInVector
  by_cases h : l.contains x = true
  · rw [if_pos h]
    constructor
    · exact Or.inl
    · rintro (h1 | h1)
      · exact h1
      · subst h1; simpa using h
  · rw [if_neg h]
    simp

theorem mem_foldl_addIfNotInVector (v : String) :
    ∀ (xs init : List String),
      v ∈ xs.foldl (fun r x => addIfNotInVector x r) init ↔ v ∈ init ∨ v ∈ xs := by
  intro xs
  induction xs with
  | nil => intro init; simp
  | cons x rest ih =>
    intro init
    simp only [List.foldl_cons, ih, mem_addIfNotInVector, List.mem_cons]
    constructor
    · rintro ((h | h) | h)
      · exact Or.inl h
      · exact Or.inr (Or.inl h)
      · exact Or.inr (Or.inr h)
    · rintro (h | h | h)
      · exact Or.inl (Or.inl h)
      · exact Or.inl (Or.inr h)
      · exact Or.inr h

theorem mem_foldl_addVarRequestedForIndexing (v : String) :
    ∀ (xs : List String) (r : LeafRequests),
      (v ∈ (xs.foldl LeafRequests.addVarRequestedForIndexing r).varsRequestedForIndexing
        ↔ v ∈ r.varsRequestedForIndexing ∨ v ∈ xs) ∧
      (xs.foldl LeafRequests.addVarRequestedForIndexing r).varsRequestedForStorage
        = r.varsRequestedForStorage := by
  intro xs
  induction xs with
  | nil => intro r; simp
  | cons x rest ih =>
    intro r
    simp only [List.foldl_cons]
    refine ⟨?_, ?_⟩
    · rw [(ih _).1]
      simp only [LeafRequests.addVarRequestedForIndexing, mem_addIfNotInVector, List.mem_cons]
      constructor
      · rintro ((h | h) | h)
        · exact Or.inl h
        · exact Or.inr (Or.inl h)
        · exact Or.inr (Or.inr h)
      · rintro (h | h | h)
        · exact Or.inl (Or.inl h)
        · exact Or.inl (Or.inr h)
        · exact Or.inr h
    · rw [(ih _).2]
      rfl

theorem mem_foldl_addVarRequestedForStorage (v : String) :
    ∀ (xs : List String) (r : LeafRequests),
      (v ∈ (xs.foldl LeafRequests.addVarRequestedForStorage r).varsRequestedForIndexing
        ↔ v ∈ r.varsRequestedForIndexing ∨ v ∈ xs) ∧
      (v ∈ (xs.foldl LeafRequests.addVarRequestedForStorage r).varsRequestedForStorage
        ↔ v ∈ r.varsRequestedForStorage ∨ v ∈ xs) := by
  intro xs
  induction xs with
  | nil => intro r; simp
  | cons x rest ih =>
    intro r
    simp only [List.foldl_cons]
    refine ⟨?_, ?_⟩
    · rw [(ih _).1]
      simp only [LeafRequests.addVarRequestedForStorage,
        LeafRequests.addVarRequestedForIndexing, mem_addIfNotInVector, List.mem_cons]
      constructor
      · rintro ((h | h) | h)
        · exact Or.inl h
        · exact Or.inr (Or.inl h)
        · exact Or.inr (Or.inr h)
      · rintro (h | h | h)
        · exact Or.inl (Or.inl h)
        · exact Or.inl (Or.inr h)
        · exact Or.inr h
    · rw [(ih _).2]
      simp only [LeafRequests.addVarRequestedForStorage,
        LeafRequests.addVarRequestedForIndexing, mem_addIfNotInVector, List.mem_cons]
      constructor
      · rintro ((h | h) | h)
        · exact Or.inl h
        · exact Or.inr (Or.inl h)
        · exact Or.inr (Or.inr h)
      · rintro (h | h | h)
        · exact Or.inl (Or.inl h)
        · exact Or.inl (Or.inr h)
        · exact Or.inr h

theorem isActivated_cons_succ (req : List String) (t : EventVarTransform)
    (rest : List EventVarTransform) (j : Nat) :
    isActivated req (t :: rest) (j + 1) = isActivated req rest j := rfl

theorem isActivated_zero (req : List String) (t : EventVarTransform)
    (rest : List EventVarTransform) :
    isActivated req (t :: rest) 0
      = (req.contains t.outputVariableName
          || (transformRequests req rest).contains t.outputVariableName) := rfl

/-- The requests gathered by the reverse loop are the inputs of the activated transforms. -/
theorem mem_transformRequests (req : List String) (v : String) :
    ∀ transforms : List EventVarTransform,
      v ∈ transformRequests req transforms ↔
        ∃ (j : Nat) (b : EventVarTransform), transforms[j]? = some b ∧
          isActivated req transforms j = true ∧ v ∈ b.requestedVars := by
  intro transforms
  induction transforms with
  | nil => simp [transformRequests]
  | cons t rest ih =>
    have hstep : v ∈ transformRequests req (t :: rest) ↔
        v ∈ transformRequests req rest ∨
          (isActivated req (t :: rest) 0 = true ∧ v ∈ t.requestedVars) := by
      rw [isActivated_zero]
      show v ∈ (if (req.contains t.outputVariableName
          || (transformRequests req rest).contains t.outputVariableName) = true then
            t.requestedVars.foldl (fun r v => addIfNotInVector v r) (transformRequests req rest)
          else transformRequests req rest) ↔ _
      by_cases hc : (req.contains t.outputVariableName
          || (transformRequests req rest).contains t.outputVariableName) = true
      · rw [if_pos hc, mem_foldl_addIfNotInVector]
        constructor
        · rintro (h | h)
          · exact Or.inl h
          · exact Or.inr ⟨hc, h⟩
        · rintro (h | ⟨_, h⟩)
          · exact Or.inl h
          · exact Or.inr h
      · rw [if_neg hc]
        constructor
        · exact Or.inl
        · rintro (h | ⟨h1, _⟩)
          · exact h
          · exact absurd h1 hc
    rw [hstep, ih]
    constructor
    · rintro (⟨j, b, hj, hact, hv⟩ | ⟨hact, hv⟩)
      · exact ⟨j + 1, b, by simpa using hj, by rw [isActivated_cons_succ]; exact hact, hv⟩
      · exact ⟨0, t, by simp, hact, hv⟩
    · rintro ⟨j, b, hj, hact, hv⟩
      cases j with
      | zero =>
        simp only [List.getElem?_cons_zero, Option.some.injEq] at hj
        subst hj
        exact Or.inr ⟨hact, hv⟩
      | succ k =>
        exact Or.inl ⟨k, b, by simpa using hj, by rw [isActivated_cons_succ] at hact; exact hact,
          hv⟩

theorem contains_string_iff (l : List String) (a : String) : l.contains a = true ↔ a ∈ l := by
  simp

theorem isActivated_drop (req : List String) (l : List EventVarTransform) (k j : Nat) :
    isActivated req (l.drop k) j = isActivated req l (k + j) := by
  unfold isActivated
  rw [List.drop_drop, Nat.add_comm]

theorem isActivated_at (req : List String) (l : List EventVarTransform) (i : Nat)
    (t : EventVarTransform) (h : l[i]? = some t) :
    isActivated req l i
      = (req.contains t.outputVariableName
          || (transformRequests req (l.drop (i + 1))).contains t.outputVariableName) := by
  obtain ⟨hi, ht⟩ := List.getElem?_eq_some_iff.mp h
  unfold isActivated
  rw [List.drop_eq_getElem_cons hi, ht]

/-- The test met by the reverse loop at a transform, read on the whole list: the output is
requested for indexing, or is an input of an activated transform placed after it. -/
theorem isActivated_iff_after (req : List String) (l : List EventVarTransform) (i : Nat)
    (t : EventVarTransform) (h : l[i]? = some t) :
    isActivated req l i = true ↔
      t.outputVariableName ∈ req ∨
        ∃ (j : Nat) (b : EventVarTransform), i < j ∧ l[j]? = some b ∧
          isActivated req l j = true ∧ t.outputVariableName ∈ b.requestedVars := by
  rw [isActivated_at req l i t h]
  simp only [Bool.or_eq_true, contains_string_iff, mem_transformRequests]
  constructor
  · rintro (h1 | ⟨j, b, hj, hact, hv⟩)
    · exact Or.inl h1
    · refine Or.inr ⟨i + 1 + j, b, by omega, ?_, ?_, hv⟩
      · rw [List.getElem?_drop] at hj; exact hj
      · rw [isActivated_drop] at hact; exact hact
  · rintro (h1 | ⟨j, b, hij, hj, hact, hv⟩)
    · exact Or.inl h1
    · obtain ⟨k, hk⟩ : ∃ k, j = i + 1 + k := ⟨j - (i + 1), by omega⟩
      subst hk
      refine Or.inr ⟨k, b, ?_, ?_, hv⟩
      · rw [List.getElem?_drop]; exact hj
      · rw [isActivated_drop]; exact hact

theorem mem_fetchRequestedLeaves (p : LeafPolling) (v : String) :
    v ∈ (fetchRequestedLeaves p).varsRequestedForIndexing ↔
      v ∈ (requestsBeforeTransforms p).varsRequestedForIndexing ∨
        v ∈ transformRequests (requestsBeforeTransforms p).varsRequestedForIndexing
          p.eventVarTransformList := by
  unfold fetchRequestedLeaves
  by_cases he : p.eventVarTransformList.isEmpty = true
  · simp only [he, if_true]
    have : p.eventVarTransformList = [] := by simpa using he
    rw [this]
    simp [transformRequests]
  · simp only [he, Bool.false_eq_true, if_false]
    exact (mem_foldl_addVarRequestedForIndexing v _ _).1

/-- Claim C17. With a transform list in which every producer stands before its consumers, the
block "transforms inputs" of `fetchRequestedLeaves` activates a transform exactly when its output
is requested for indexing directly (by the blocks before) or is an input of another activated
transform; the requests gathered by the block are exactly the inputs of the activated transforms,
and the variables requested for indexing after the block are those requested before it and these
inputs. So the inputs of an activated transform are all requested, and a variable that was not
requested before the block and is an input of no activated transform is not requested. -/
theorem fetchRequestedLeaves_activation (p : LeafPolling)
    (hordered : ProducersPrecede p.eventVarTransformList) :
    (∀ (i : Nat) (t : EventVarTransform), p.eventVarTransformList[i]? = some t →
      (isActivated (requestsBeforeTransforms p).varsRequestedForIndexing
          p.eventVarTransformList i = true ↔
        t.outputVariableName ∈ (requestsBeforeTransforms p).varsRequestedForIndexing ∨
          ∃ (j : Nat) (b : EventVarTransform), j ≠ i ∧ p.eventVarTransformList[j]? = some b ∧
            isActivated (requestsBeforeTransforms p).varsRequestedForIndexing
              p.eventVarTransformList j = true ∧
            t.outputVariableName ∈ b.requestedVars)) ∧
    (∀ v, v ∈ transformRequests (requestsBeforeTransforms p).varsRequestedForIndexing
        p.eventVarTransformList ↔
      ∃ (j : Nat) (b : EventVarTransform), p.eventVarTransformList[j]? = some b ∧
        isActivated (requestsBeforeTransforms p).varsRequestedForIndexing
          p.eventVarTransformList j = true ∧ v ∈ b.requestedVars) ∧
    (∀ v, v ∈ (fetchRequestedLeaves p).varsRequestedForIndexing ↔
      v ∈ (requestsBeforeTransforms p).varsRequestedForIndexing ∨
        ∃ (j : Nat) (b : EventVarTransform), p.eventVarTransformList[j]? = some b ∧
          isActivated (requestsBeforeTransforms p).varsRequestedForIndexing
            p.eventVarTransformList j = true ∧ v ∈ b.requestedVars) ∧
    (fetchRequestedLeaves p).varsRequestedForStorage
      = (requestsBeforeTransforms p).varsRequestedForStorage := by
  refine ⟨?_, ?_, ?_, ?_⟩
  · intro i t ht
    rw [isActivated_iff_after _ _ i t ht]
    constructor
    · rintro (h1 | ⟨j, b, hij, hj, hact, hv⟩)
      · exact Or.inl h1
      · exact Or.inr ⟨j, b, by omega, hj, hact, hv⟩
    · rintro (h1 | ⟨j, b, hne, hj, hact, hv⟩)
      · exact Or.inl h1
      · exact Or.inr ⟨j, b, hordered i j t b ht hj (Ne.symm hne) hv, hj, hact, hv⟩
  · intro v
    exact mem_transformRequests _ v _
  · intro v
    rw [mem_fetchRequestedLeaves, mem_transformRequests]
  · unfold fetchRequestedLeaves
    split
    · rfl
    · exact (mem_foldl_addVarRequestedForIndexing "" _ _).2

theorem pull_polling_ordered : ProducersPrecede pull_polling.eventVarTransformList := by
  intro i j a b hi hj hne hmem
  have hi' : i < 3 := (List.getElem?_eq_some_iff.mp hi).1
  have hj' : j < 3 := (List.getElem?_eq_some_iff.mp hj).1
  interval_cases i <;> interval_cases j <;>
    simp only [pull_polling, transformOf, List.getElem?_cons_zero, List.getElem?_cons_succ,
      Option.some.injEq] at hi hj <;>
    subst hi <;> subst hj <;>
    first
      | omega
      | exact absurd hmem (by decide)

/-- Witness of `fetchRequestedLeaves_activation`: the sample bins request `y`; the transforms
`y` and `z` are activated, the transform `k` is not; the block requests `z`, `w` and `x`, and
not the input `m` of `k`. -/
theorem fetchRequestedLeaves_activation_witness :
    ProducersPrecede pull_polling.eventVarTransformList ∧
    (requestsBeforeTransforms pull_polling).varsRequestedForIndexing = ["y"] ∧
    (List.range 3).map (isActivated ["y"] pull_polling.eventVarTransformList)
      = [true, true, false] ∧
    (fetchRequestedLeaves pull_polling).varsRequestedForIndexing = ["y", "z", "w", "x"] ∧
    ("m" ∈ (fetchRequestedLeaves pull_polling).varsRequestedForIndexing ↔
      "m" ∈ (requestsBeforeTransforms pull_polling).varsRequestedForIndexing ∨
        ∃ (j : Nat) (b : EventVarTransform), pull_polling.eventVarTransformList[j]? = some b ∧
          isActivated (requestsBeforeTransforms pull_polling).varsRequestedForIndexing
            pull_polling.eventVarTransformList j = true ∧ "m" ∈ b.requestedVars) :=
  ⟨pull_polling_ordered, by decide, by decide, by decide,
    (fetchRequestedLeaves_activation pull_polling pull_polling_ordered).2.2.1 "m"⟩

/-! ## Evaluation of the variable transforms -/

theorem propagateIndexingTransforms_count (indices : List Nat) :
    ∀ (tl : ThreadLocals) (i : Nat) (t : EventVarTransform),
      tl.eventVarTransformList[i]? = some t →
      ∃ t', (propagateIndexingTransforms indices tl).eventVarTransformList[i]? = some t' ∧
        t'.outputVariableName = t.outputVariableName ∧
        t'.nbEvaluations = t.nbEvaluations + indices.count i ∧
        (indices.count i = 0 → t' = t) := by
  induction indices with
  | nil =>
    intro tl i t ht
    exact ⟨t, ht, rfl, by simp, fun _ => rfl⟩
  | cons k rest ih =>
    intro tl i t ht
    unfold propagateIndexingTransforms
    simp only [List.foldl_cons]
    cases hk : tl.eventVarTransformList[k]? with
    | none =>
      have hne : k ≠ i := by
        intro h; subst h; rw [hk] at ht; cases ht
      obtain ⟨t', h1, h2, h3, h4⟩ := ih tl i t ht
      refine ⟨t', h1, h2, ?_, ?_⟩
      · rw [h3, List.count_cons_of_ne (Ne.symm hne)]
      · intro h0
        rw [List.count_cons_of_ne (Ne.symm hne)] at h0
        exact h4 h0
    | some tk =>
      simp only
      by_cases hki : k = i
      · subst hki
        have htk : tk = t := by
          rw [hk] at ht
          exact Option.some.inj ht
        subst htk
        have hlen : k < tl.eventVarTransformList.length :=
          (List.getElem?_eq_some_iff.mp hk).1
        obtain ⟨t', h1, h2, h3, _⟩ := ih
          (ThreadLocals.mk (tk.evalAndStore tl.eventIndexingBuffer).2
            (tl.eventVarTransformList.set k (tk.evalAndStore tl.eventIndexingBuffer).1))
          k (tk.evalAndStore tl.eventIndexingBuffer).1
          (by simp [hlen])
        refine ⟨t', h1, ?_, ?_, ?_⟩
        · rw [h2]; rfl
        · rw [h3, List.count_cons_self]
          show tk.nbEvaluations + 1 + _ = _
          omega
        · intro h0
          rw [List.count_cons_self] at h0
          omega
      · obtain ⟨t', h1, h2, h3, h4⟩ := ih
          (ThreadLocals.mk (tk.evalAndStore tl.eventIndexingBuffer).2
            (tl.eventVarTransformList.set k (tk.evalAndStore tl.eventIndexingBuffer).1))
          i t
          (by
            show (tl.eventVarTransformList.set k _)[i]? = some t
            rw [List.getElem?_set_ne hki]
            exact ht)
        refine ⟨t', h1, h2, ?_, ?_⟩
        · rw [h3, List.count_cons_of_ne (Ne.symm hki)]
        · intro h0
          rw [List.count_cons_of_ne (Ne.symm hki)] at h0
          exact h4 h0

theorem count_varTransformForIndexingList (d : Dispenser) (l : List EventVarTransform) (i : Nat)
    (t : EventVarTransform) (ht : l[i]? = some t) :
    (varTransformForIndexingList d l).count i
      = if t.outputVariableName ∈ d.varsRequestedForIndexing then 1 else 0 := by
  unfold varTransformForIndexingList
  have hnodup : ((List.range l.length).filter (fun i =>
      match l[i]? with
      | some t => d.varsRequestedForIndexing.contains t.outputVariableName
      | none => false)).Nodup := (List.nodup_range _).filter _
  rw [List.count_eq_of_nodup hnodup]
  have hlen : i < l.length := (List.getElem?_eq_some_iff.mp ht).1
  simp only [List.mem_filter, List.mem_range, hlen, ht, true_and, contains_string_iff]

/-- The first statements of the sample loop body evaluate a transform once when its output is
requested for indexing, and leave it alone otherwise. -/
theorem loadIndexingBuffer_evaluations (d : Dispenser) (iEntry : Nat) (tl : ThreadLocals)
    (i : Nat) (t : EventVarTransform) (ht : tl.eventVarTransformList[i]? = some t) :
    ∃ t', (loadIndexingBuffer d iEntry tl).eventVarTransformList[i]? = some t' ∧
      t'.outputVariableName = t.outputVariableName ∧
      t'.nbEvaluations = t.nbEvaluations
        + (if t.outputVariableName ∈ d.varsRequestedForIndexing then 1 else 0) ∧
      (t.outputVariableName ∉ d.varsRequestedForIndexing → t' = t) := by
  unfold loadIndexingBuffer
  have key := fun buf : PhysicsEvent => propagateIndexingTransforms_count
    (varTransformForIndexingList d tl.eventVarTransformList)
    (ThreadLocals.mk buf tl.eventVarTransformList) i t ht
  obtain ⟨t', h1, h2, h3, h4⟩ := key
    (PhysicsEvent.copyData ({ tl.eventIndexingBuffer with sampleBinIndex := -1 } : PhysicsEvent)
      (leafFormIndexingList d) iEntry)
  rw [count_varTransformForIndexingList d _ i t ht] at h3 h4
  refine ⟨t', h1, h2, h3, ?_⟩
  intro hnot
  exact h4 (by rw [if_neg hnot])

theorem fillSample_transforms (d : Dispenser) (iEntry iSample : Nat) (tl : ThreadLocals)
    (c : Cache) (r : Bool × ThreadLocals × Cache) (h : fillSample d iEntry iSample tl c = .ok r) :
    r.2.1.eventVarTransformList = (loadIndexingBuffer d iEntry tl).eventVarTransformList := by
  obtain ⟨b, tl', c'⟩ := r
  cases b with
  | true =>
    obtain ⟨_, iBin, _, _, _, htl, _⟩ := fillSample_ok_true d iEntry iSample tl tl' c c' h
    show tl'.eventVarTransformList = _
    rw [htl]
    rfl
  | false =>
    obtain ⟨_, htl⟩ := fillSample_ok_false d iEntry iSample tl tl' c c' h
    show tl'.eventVarTransformList = _
    rw [htl]

theorem fillSample_untouched (d : Dispenser) (iEntry iSample : Nat) (tl : ThreadLocals)
    (c : Cache) (r : Bool × ThreadLocals × Cache) (i : Nat) (t : EventVarTransform)
    (hnot : t.outputVariableName ∉ d.varsRequestedForIndexing)
    (ht : tl.eventVarTransformList[i]? = some t)
    (h : fillSample d iEntry iSample tl c = .ok r) :
    r.2.1.eventVarTransformList[i]? = some t := by
  rw [fillSample_transforms d iEntry iSample tl c r h]
  obtain ⟨t', h1, _, _, h4⟩ := loadIndexingBuffer_evaluations d iEntry tl i t ht
  rw [h1, h4 hnot]

theorem fillSamples_untouched (d : Dispenser) (iEntry : Nat) (row : List Bool) (i : Nat)
    (t : EventVarTransform) (hnot : t.outputVariableName ∉ d.varsRequestedForIndexing)
    (L : List Nat) (st st' : ThreadLocals × Cache)
    (ht : st.1.eventVarTransformList[i]? = some t)
    (h : fillSamples d iEntry row L st = .ok st') :
    st'.1.eventVarTransformList[i]? = some t := by
  refine fillSamples_invariant d iEntry row
    (fun _ s => s.1.eventVarTransformList[i]? = some t)
    (fun s => s.1.eventVarTransformList[i]? = some t)
    (fun _ hs => hs) (fun _ _ _ _ hs => hs) ?_ ?_ L st st' ht h
  · intro j rest tl c tl' _ hs hf
    exact fillSample_untouched d iEntry j tl c (false, tl', c) i t hnot hs hf
  · intro j rest tl c tl' c' _ hs hf
    exact fillSample_untouched d iEntry j tl c (true, tl', c') i t hnot hs hf

theorem fillEntry_untouched (d : Dispenser) (nSample : Nat) (i : Nat) (t : EventVarTransform)
    (hnot : t.outputVariableName ∉ d.varsRequestedForIndexing)
    (st st' : ThreadLocals × Cache) (iEntry : Nat)
    (ht : st.1.eventVarTransformList[i]? = some t)
    (h : fillEntry d nSample st iEntry = .ok st') :
    st'.1.eventVarTransformList[i]? = some t := by
  unfold fillEntry at h
  cases hrow : st.2.eventIsInSamplesList[iEntry]? with
  | none => simp [hrow] at h
  | some row =>
    simp only [hrow] at h
    by_cases hskip : (!row.contains true) = true
    · rw [if_pos hskip] at h
      cases h
      exact ht
    · rw [if_neg hskip] at h
      cases hw : d.nominalWeightFormula with
      | none =>
        simp only [hw] at h
        exact fillSamples_untouched d iEntry row i t hnot _ st st' ht h
      | some weight =>
        simp only [hw] at h
        by_cases hneg : weight iEntry < 0
        · rw [if_pos hneg] at h; cases h
        · rw [if_neg hneg] at h
          by_cases hzero : weight iEntry = 0
          · rw [if_pos hzero] at h
            cases h
            exact ht
          · rw [if_neg hzero] at h
            refine fillSamples_untouched d iEntry row i t hnot _ _ st' ?_ h
            exact ht

theorem entryLoop_untouched (d : Dispenser) (nSample : Nat) (i : Nat) (t : EventVarTransform)
    (hnot : t.outputVariableName ∉ d.varsRequestedForIndexing)
    (entries : List Nat) (st st' : ThreadLocals × Cache)
    (ht : st.1.eventVarTransformList[i]? = some t)
    (h : foldlExcept (fillEntry d nSample) st entries = .ok st') :
    st'.1.eventVarTransformList[i]? = some t :=
  foldlExcept_invariant (fillEntry d nSample)
    (fun _ s => s.1.eventVarTransformList[i]? = some t)
    (fun a _ s s' hs hf => fillEntry_untouched d nSample i t hnot s s' a hs hf)
    entries st st' ht h

/-! ## What is requested before the transform block -/

theorem mem_foldl_binVariables (v : String) :
    ∀ (bins : List DataBin) (init : List String),
      v ∈ bins.foldl
          (fun r bin => bin.getVariableNameList.foldl (fun r v => addIfNotInVector v r) r) init
        ↔ v ∈ init ∨ ∃ bin ∈ bins, v ∈ bin.getVariableNameList := by
  intro bins
  induction bins with
  | nil => intro init; simp
  | cons b rest ih =>
    intro init
    simp only [List.foldl_cons, ih, mem_foldl_addIfNotInVector, List.mem_cons]
    constructor
    · rintro ((h | h) | ⟨bin, hb, hv⟩)
      · exact Or.inl h
      · exact Or.inr ⟨b, Or.inl rfl, h⟩
      · exact Or.inr ⟨bin, Or.inr hb, hv⟩
    · rintro (h | ⟨bin, hb | hb, hv⟩)
      · exact Or.inl (Or.inl h)
      · subst hb; exact Or.inl (Or.inr hv)
      · exact Or.inr ⟨bin, hb, hv⟩

theorem mem_dialCollectionRequests (v : String) (init : List String) (dc : DialCollection) :
    v ∈ dialCollectionRequests init dc ↔ v ∈ init ∨ NamedByCollection dc v := by
  unfold dialCollectionRequests NamedByCollection
  simp only [mem_foldl_binVariables]
  cases hf : dc.applyConditionFormula with
  | none =>
    simp only [Option.isSome_none, Bool.false_eq_true, false_and, false_or]
    by_cases hl : dc.globalDialLeafName ≠ ""
    · simp only [hl, if_true, mem_addIfNotInVector, not_false_eq_true, true_and, ne_eq]
      tauto
    · simp only [hl, if_false, false_and, false_or]
  | some f =>
    simp only [Option.isSome_some, true_and]
    by_cases hl : dc.globalDialLeafName ≠ ""
    · simp only [hl, if_true, mem_addIfNotInVector, mem_foldl_addIfNotInVector,
        not_false_eq_true, true_and, ne_eq]
      tauto
    · simp only [hl, if_false, mem_foldl_addIfNotInVector, false_and, false_or]
      tauto

theorem mem_foldl_dialCollectionRequests (v : String) :
    ∀ (cols : List DialCollection) (init : List String),
      v ∈ cols.foldl dialCollectionRequests init
        ↔ v ∈ init ∨ ∃ dc ∈ cols, NamedByCollection dc v := by
  intro cols
  induction cols with
  | nil => intro init; simp
  | cons dc rest ih =>
    intro init
    simp only [List.foldl_cons, ih, mem_dialCollectionRequests, List.mem_cons]
    constructor
    · rintro ((h | h) | ⟨x, hx, hv⟩)
      · exact Or.inl h
      · exact Or.inr ⟨dc, Or.inl rfl, h⟩
      · exact Or.inr ⟨x, Or.inr hx, hv⟩
    · rintro (h | ⟨x, hx | hx, hv⟩)
      · exact Or.inl (Or.inl h)
      · subst hx; exact Or.inl (Or.inr hv)
      · exact Or.inr ⟨x, hx, hv⟩

theorem mem_foldl_sampleBinning (v : String) :
    ∀ (samples : List FitSample) (init : List String),
      v ∈ samples.foldl
          (fun r sample =>
            sample.binning.foldl
              (fun r bin => bin.getVariableNameList.foldl (fun r v => addIfNotInVector v r) r) r)
          init
        ↔ v ∈ init ∨ ∃ sample ∈ samples, ∃ bin ∈ sample.binning, v ∈ bin.getVariableNameList := by
  intro samples
  induction samples with
  | nil => intro init; simp
  | cons s rest ih =>
    intro init
    simp only [List.foldl_cons, ih, mem_foldl_binVariables, List.mem_cons]
    constructor
    · rintro ((h | h) | ⟨x, hx, hv⟩)
      · exact Or.inl h
      · exact Or.inr ⟨s, Or.inl rfl, h⟩
      · exact Or.inr ⟨x, Or.inr hx, hv⟩
    · rintro (h | ⟨x, hx | hx, hv⟩)
      · exact Or.inl (Or.inl h)
      · subst hx; exact Or.inl (Or.inr hv)
      · exact Or.inr ⟨x, hx, hv⟩

theorem mem_plotGenRequests (v : String) (pg : PlotGenerator) (useMc : Bool) :
    v ∈ plotGenRequests pg useMc ↔
      v ∈ pg.varsToPlot (!useMc) ∨ (useMc = true ∧ v ∈ pg.splitVarNames) := by
  unfold plotGenRequests
  cases useMc with
  | true => simp [mem_foldl_addIfNotInVector]
  | false => simp [mem_foldl_addIfNotInVector]

/-- The variables requested for indexing before the transform block are those named by a dial
collection, by a sample bin or by a storage request. -/
theorem mem_requestsBeforeTransforms (p : LeafPolling) (v : String) :
    v ∈ (requestsBeforeTransforms p).varsRequestedForIndexing ↔
      NamedByDialCollection p v ∨ NamedBySampleBin p v ∨ NamedByStorageRequest p v := by
  have hstore : ∀ (xs : List String) (r : LeafRequests),
      (v ∈ ((xs.foldl (fun r v => addIfNotInVector v r) []).foldl
          LeafRequests.addVarRequestedForStorage r).varsRequestedForIndexing ↔
        v ∈ r.varsRequestedForIndexing ∨ v ∈ xs) := by
    intro xs r
    rw [(mem_foldl_addVarRequestedForStorage v _ _).1, mem_foldl_addIfNotInVector]
    simp
  have hsample : ∀ r : LeafRequests,
      (v ∈ ((sampleBinningRequests p.fitSampleList).foldl
          LeafRequests.addVarRequestedForIndexing r).varsRequestedForIndexing ↔
        v ∈ r.varsRequestedForIndexing ∨ NamedBySampleBin p v) := by
    intro r
    rw [(mem_foldl_addVarRequestedForIndexing v _ _).1]
    unfold sampleBinningRequests NamedBySampleBin
    rw [mem_foldl_sampleBinning]
    simp
  have hdial : (v ∈ (if p.dialCollectionsRefList.isEmpty = true then ({} : LeafRequests)
      else (p.dialCollectionsRefList.foldl dialCollectionRequests []).foldl
        LeafRequests.addVarRequestedForIndexing {}).varsRequestedForIndexing ↔
      NamedByDialCollection p v) := by
    unfold NamedByDialCollection
    by_cases he : p.dialCollectionsRefList.isEmpty = true
    · rw [if_pos he]
      have : p.dialCollectionsRefList = [] := by simpa using he
      rw [this]
      simp
    · rw [if_neg he, (mem_foldl_addVarRequestedForIndexing v _ _).1,
        mem_foldl_dialCollectionRequests]
      simp
  simp only [requestsBeforeTransforms]
  rw [hstore, hstore]
  unfold NamedByStorageRequest
  cases hpg : p.plotGen with
  | none =>
    rw [hsample, hdial]
    constructor
    · rintro (((h | h) | h) | h)
      · exact Or.inl h
      · exact Or.inr (Or.inl h)
      · exact Or.inr (Or.inr (Or.inr (Or.inl h)))
      · exact Or.inr (Or.inr (Or.inr (Or.inr h)))
    · rintro (h | h | ⟨pg', hpg', _⟩ | h | h)
      · exact Or.inl (Or.inl (Or.inl h))
      · exact Or.inl (Or.inl (Or.inr h))
      · cases hpg'
      · exact Or.inl (Or.inr h)
      · exact Or.inr h
  | some pg =>
    rw [(mem_foldl_addVarRequestedForStorage v _ _).1, hsample, hdial, mem_plotGenRequests]
    constructor
    · rintro ((((h | h) | h) | h) | h)
      · exact Or.inl h
      · exact Or.inr (Or.inl h)
      · exact Or.inr (Or.inr (Or.inl ⟨pg, rfl, h⟩))
      · exact Or.inr (Or.inr (Or.inr (Or.inl h)))
      · exact Or.inr (Or.inr (Or.inr (Or.inr h)))
    · rintro (h | h | ⟨pg', hpg', h⟩ | h | h)
      · exact Or.inl (Or.inl (Or.inl (Or.inl h)))
      · exact Or.inl (Or.inl (Or.inl (Or.inr h)))
      · cases hpg'
        exact Or.inl (Or.inl (Or.inr h))
      · exact Or.inl (Or.inr h)
      · exact Or.inr h

theorem fillSample_evaluations (d : Dispenser) (iEntry iSample : Nat) (tl : ThreadLocals)
    (c : Cache) (r : Bool × ThreadLocals × Cache) (k : Nat) (t0 : EventVarTransform)
    (ht : tl.eventVarTransformList[k]? = some t0)
    (h : fillSample d iEntry iSample tl c = .ok r) :
    ∃ t', r.2.1.eventVarTransformList[k]? = some t' ∧
      t'.outputVariableName = t0.outputVariableName ∧
      t'.nbEvaluations = t0.nbEvaluations
        + (if t0.outputVariableName ∈ d.varsRequestedForIndexing then 1 else 0) := by
  rw [fillSample_transforms d iEntry iSample tl c r h]
  obtain ⟨t', h1, h2, h3, _⟩ := loadIndexingBuffer_evaluations d iEntry tl k t0 ht
  exact ⟨t', h1, h2, h3⟩

/-- Claim C16. Every turn of the sample loop that reaches an event evaluates a transform
(`evalAndStore`, counted by `nbEvaluations`) once when its output name is in the list of
variables requested for indexing, and not at all otherwise. When no sample bin, dial collection,
storage request or activated transform names the output `y` of the transform `t`, then `y` is not
in the list built by `fetchRequestedLeaves`, and over the whole loop of a fill thread on any
entries the transform is left as it was: it is evaluated zero times. -/
theorem fillFunction_transform_evaluations (d : Dispenser) (p : LeafPolling) (nSample i : Nat)
    (t : EventVarTransform)
    (hreq : d.varsRequestedForIndexing = (fetchRequestedLeaves p).varsRequestedForIndexing)
    (hbin : ¬ NamedBySampleBin p t.outputVariableName)
    (hdial : ¬ NamedByDialCollection p t.outputVariableName)
    (hstore : ¬ NamedByStorageRequest p t.outputVariableName)
    (hact : ∀ (j : Nat) (b : EventVarTransform), p.eventVarTransformList[j]? = some b →
      isActivated (requestsBeforeTransforms p).varsRequestedForIndexing
        p.eventVarTransformList j = true → t.outputVariableName ∉ b.requestedVars) :
    (∀ (iEntry iSample k : Nat) (tl : ThreadLocals) (c : Cache) (r : Bool × ThreadLocals × Cache)
        (t0 : EventVarTransform), tl.eventVarTransformList[k]? = some t0 →
      fillSample d iEntry iSample tl c = .ok r →
      ∃ t', r.2.1.eventVarTransformList[k]? = some t' ∧
        t'.outputVariableName = t0.outputVariableName ∧
        t'.nbEvaluations = t0.nbEvaluations
          + (if t0.outputVariableName ∈ d.varsRequestedForIndexing then 1 else 0)) ∧
    t.outputVariableName ∉ d.varsRequestedForIndexing ∧
    (∀ (entries : List Nat) (st st' : ThreadLocals × Cache),
      st.1.eventVarTransformList[i]? = some t →
      foldlExcept (fillEntry d nSample) st entries = .ok st' →
      st'.1.eventVarTransformList[i]? = some t) := by
  have hnot : t.outputVariableName ∉ d.varsRequestedForIndexing := by
    rw [hreq, mem_fetchRequestedLeaves, mem_requestsBeforeTransforms, mem_transformRequests]
    rintro ((h | h | h) | ⟨j, b, hj, hactj, hv⟩)
    · exact hdial h
    · exact hbin h
    · exact hstore h
    · exact hact j b hj hactj hv
  refine ⟨?_, hnot, ?_⟩
  · intro iEntry iSample k tl c r t0 ht h
    exact fillSample_evaluations d iEntry iSample tl c r k t0 ht h
  · intro entries st st' ht h
    exact entryLoop_untouched d nSample i t hnot entries st st' ht h

theorem scenarioD_noActivatedReader :
    ∀ (j : Nat) (b : EventVarTransform),
      (scenarioD_polling "x").eventVarTransformList[j]? = some b →
      isActivated (requestsBeforeTransforms (scenarioD_polling "x")).varsRequestedForIndexing
        (scenarioD_polling "x").eventVarTransformList j = true →
      scenarioD_transform.outputVariableName ∉ b.requestedVars := by
  intro j b hj hact
  have hj' : j < 1 := (List.getElem?_eq_some_iff.mp hj).1
  have hj0 : j = 0 := by omega
  subst hj0
  exact absurd hact (by decide)

/-- Witness of `fillFunction_transform_evaluations`, and Scenario D. With the binning over `y`
the transform `y = f(x)` is requested and is evaluated once for each of the two events; with
the binning over `x` nothing names `y`, the list of requested variables is `[x]` and the counter
of the transform stays at zero over the fill. -/
theorem fillFunction_transform_evaluations_witness :
    ((scenarioD "x").varsRequestedForIndexing
        = (fetchRequestedLeaves (scenarioD_polling "x")).varsRequestedForIndexing ∧
      ¬ NamedBySampleBin (scenarioD_polling "x") scenarioD_transform.outputVariableName ∧
      ¬ NamedByDialCollection (scenarioD_polling "x") scenarioD_transform.outputVariableName ∧
      ¬ NamedByStorageRequest (scenarioD_polling "x") scenarioD_transform.outputVariableName) ∧
    (foldlExcept (fillEntry (scenarioD "x") 1)
        (threadLocals (scenarioD "x"), scenarioD_ready "x") [0, 1]
        = .ok (scenarioD_filled "x") ∧
      (scenarioD_filled "x").1.eventVarTransformList[0]? = some scenarioD_transform ∧
      evaluationCounters (scenarioD_filled "x").1 = [0] ∧
      storedEvents (scenarioD "x") (scenarioD_filled "x").2 = [[(0, 0, 1), (1, 0, 1)]]) ∧
    (foldlExcept (fillEntry (scenarioD "y") 1)
        (threadLocals (scenarioD "y"), scenarioD_ready "y") [0, 1]
        = .ok (scenarioD_filled "y") ∧
      evaluationCounters (scenarioD_filled "y").1 = [2] ∧
      storedEvents (scenarioD "y") (scenarioD_filled "y").2 = [[(0, 0, 1), (1, 1, 1)]]) :=
  have hbin : ¬ NamedBySampleBin (scenarioD_polling "x")
      scenarioD_transform.outputVariableName := by
    unfold NamedBySampleBin; decide
  have hdial : ¬ NamedByDialCollection (scenarioD_polling "x")
      scenarioD_transform.outputVariableName := by
    rintro ⟨dc, hdc, _⟩
    exact absurd hdc (by simp [scenarioD_polling])
  have hstore : ¬ NamedByStorageRequest (scenarioD_polling "x")
      scenarioD_transform.outputVariableName := by
    rintro (⟨pg, hpg, _⟩ | h | h)
    · exact Option.noConfusion hpg
    · exact absurd h (by decide)
    · exact absurd h (by decide)
  ⟨⟨rfl, hbin, hdial, hstore⟩,
    ⟨rfl,
      (fillFunction_transform_evaluations (scenarioD "x") (scenarioD_polling "x") 1 0
        scenarioD_transform rfl hbin hdial hstore scenarioD_noActivatedReader).2.2 [0, 1]
        (threadLocals (scenarioD "x"), scenarioD_ready "x") (scenarioD_filled "x") rfl rfl,
      by decide, by decide⟩,
    ⟨rfl, by decide, by decide⟩⟩

/-! ## One successful store, seen from the containers and from the cache -/

theorem eventAt_store_other (d : Dispenser) (c c' : Cache) (iSample idx : Nat)
    (sample : FitSample) (l : List PhysicsEvent) (ev0 : PhysicsEvent)
    (hs : c.samplesToFillList[iSample]? = some sample)
    (hl : l = (sample.container d.useMcContainer).eventList)
    (hc : c'.samplesToFillList = c.samplesToFillList.set iSample
      (sample.setContainer d.useMcContainer { eventList := l.set idx ev0 })) :
    ∀ (s i : Nat), ¬ (s = iSample ∧ i = idx) → eventAt d c' s i = eventAt d c s i := by
  intro s i hne
  unfold eventAt
  rw [hc, List.getElem?_set]
  by_cases hsj : iSample = s
  · subst hsj
    have hlt : iSample < c.samplesToFillList.length := (List.getElem?_eq_some.mp hs).1
    simp only [hlt, if_true]
    rw [container_setContainer, hs]
    have hi : idx ≠ i := fun h => hne ⟨rfl, h.symm⟩
    simp only [List.getElem?_set_ne hi, hl]
  · simp only [hsj, if_false]

theorem sampleIndex_store (c c' : Cache) (iSample : Nat) (sample : FitSample) (useMc : Bool)
    (x : SampleElement) (hs : c.samplesToFillList[iSample]? = some sample)
    (hc : c'.samplesToFillList = c.samplesToFillList.set iSample (sample.setContainer useMc x)) :
    ∀ s : Nat, sampleIndexAt c' s = sampleIndexAt c s := by
  intro s
  unfold sampleIndexAt
  rw [hc, List.getElem?_set]
  by_cases hsj : iSample = s
  · subst hsj
    have hlt : iSample < c.samplesToFillList.length := (List.getElem?_eq_some.mp hs).1
    simp only [hlt, if_true, hs]
    cases useMc <;> rfl
  · simp only [hsj, if_false]

theorem storeEvent_noCache (d : Dispenser) (iEntry iSample : Nat) (sample : FitSample)
    (tl : ThreadLocals) (c c' : Cache) (h : storeEvent d iEntry iSample sample tl c = .ok c')
    (hcache : c.eventDialCacheRef = none) :
    c'.eventDialCacheRef = none ∧ c'.dialCollectionsRefList = c.dialCollectionsRefList := by
  unfold storeEvent at h
  cases hoff : c.sampleIndexOffsetList[iSample]? with
  | none => simp [hoff] at h
  | some idx =>
    simp only [hoff] at h
    cases hslot : (sample.container d.useMcContainer).eventList[idx]? with
    | none => simp [hslot] at h
    | some slot =>
      simp only [hslot, hcache, Option.map_none'] at h
      cases h
      exact ⟨rfl, rfl⟩

/-- What a successful turn of the sample loop does to the containers. -/
theorem fillSample_store (d : Dispenser) (iEntry iSample : Nat) (tl tl' : ThreadLocals)
    (c c' : Cache) (h : fillSample d iEntry iSample tl c = .ok (true, tl', c')) :
    ∃ (sample : FitSample) (idx : Nat) (slot : PhysicsEvent),
      c.samplesToFillList[iSample]? = some sample ∧
      storeEvent d iEntry iSample sample tl' c = .ok c' ∧
      c.sampleIndexOffsetList[iSample]? = some idx ∧
      offsetOf c iSample = idx ∧ idx < containerSize d c iSample ∧
      eventAt d c iSample idx = some slot ∧
      eventAt d c' iSample idx = some (filledEvent d iEntry sample tl' slot) ∧
      (∀ (s i : Nat), ¬ (s = iSample ∧ i = idx) → eventAt d c' s i = eventAt d c s i) ∧
      (∀ s, offsetOf c' s = offsetOf c s + if s = iSample then 1 else 0) ∧
      (∀ s, containerSize d c' s = containerSize d c s) ∧
      (∀ s, sampleIndexAt c' s = sampleIndexAt c s) ∧
      c'.eventIsInSamplesList = c.eventIsInSamplesList ∧
      c'.sampleNbOfEvents = c.sampleNbOfEvents := by
  obtain ⟨sample, iBin, hs, _, _, _, hstore⟩ := fillSample_ok_true d iEntry iSample tl tl' c c' h
  obtain ⟨idx, slot, hoff, hslot, _, hsamples, htable, hcounts⟩ :=
    storeEvent_ok d iEntry iSample sample tl' c c' hstore
  obtain ⟨hsize, hoffs, _, _, _⟩ := fillSample_ok_frame d iEntry iSample tl tl' c c' h
  have hidx : idx < (sample.container d.useMcContainer).eventList.length :=
    (List.getElem?_eq_some.mp hslot).1
  refine ⟨sample, idx, slot, hs, hstore, hoff, ?_, ?_, ?_, ?_, ?_, hoffs, hsize, ?_, htable,
    hcounts⟩
  · unfold offsetOf
    rw [List.getD_eq_getElem?_getD, hoff]
    rfl
  · unfold containerSize
    rw [hs]
    exact hidx
  · unfold eventAt
    rw [hs]
    exact hslot
  · exact eventAt_set d c c' iSample idx sample _ _ hs hidx hsamples
  · exact eventAt_store_other d c c' iSample idx sample _ _ hs rfl hsamples
  · exact sampleIndex_store c c' iSample sample d.useMcContainer _ hs hsamples

/-! ## Invariants of the fill pass -/

/-- A property of the cache kept by every successful turn of the sample loop is kept by the
loops of `fillFunction`; an error that no turn of the sample loop raises under the property, and
that is neither the out-of-range error nor the negative weight, is not raised. -/
theorem fillEntry_rule (d : Dispenser) (nSample : Nat) (P : Cache → Prop) (Bad : Fatal → Prop)
    (hoor : ¬ Bad .outOfRange) (hneg : ¬ Bad .negativeNominalWeight)
    (hstep : ∀ iEntry iSample tl tl' c c', P c →
      fillSample d iEntry iSample tl c = .ok (true, tl', c') → P c')
    (herr : ∀ iEntry iSample tl c e, P c → fillSample d iEntry iSample tl c = .error e → ¬ Bad e)
    (st : ThreadLocals × Cache) (iEntry : Nat) (hP : P st.2) :
    (∀ st', fillEntry d nSample st iEntry = .ok st' → P st'.2) ∧
    (∀ e, fillEntry d nSample st iEntry = .error e → ¬ Bad e) := by
  have hsamples : ∀ (row : List Bool) (L : List Nat) (s : ThreadLocals × Cache), P s.2 →
      (∀ s', fillSamples d iEntry row L s = .ok s' → P s'.2) ∧
      (∀ e, fillSamples d iEntry row L s = .error e → ¬ Bad e) := by
    intro row L s hs
    refine ⟨?_, ?_⟩
    · intro s' h
      exact fillSamples_invariant d iEntry row (fun _ x => P x.2) (fun x => P x.2)
        (fun _ hx => hx) (fun _ _ _ _ hx => hx)
        (fun _ _ _ _ _ _ hx _ => hx)
        (fun j _ tl c tl' c' _ hx hf => hstep iEntry j tl tl' c c' hx hf) L s s' hs h
    · intro e h
      exact fillSamples_error d iEntry row (fun _ x => P x.2) Bad hoor
        (fun _ _ _ _ hx => hx)
        (fun j _ tl c tl' c' _ hx hf => hstep iEntry j tl tl' c c' hx hf)
        (fun j _ tl c e _ hx hf => herr iEntry j tl c e hx hf) L s e hs h
  unfold fillEntry
  cases hrow : st.2.eventIsInSamplesList[iEntry]? with
  | none =>
    refine ⟨fun st' h => by simp at h, fun e h => ?_⟩
    simp only [Except.error.injEq] at h
    subst h
    exact hoor
  | some row =>
    simp only
    by_cases hskip : (!row.contains true) = true
    · rw [if_pos hskip]
      refine ⟨fun st' h => ?_, fun e h => by simp at h⟩
      simp only [Except.ok.injEq] at h
      subst h
      exact hP
    · rw [if_neg hskip]
      cases hw : d.nominalWeightFormula with
      | none => exact hsamples row _ st hP
      | some weight =>
        simp only
        by_cases hn : weight iEntry < 0
        · rw [if_pos hn]
          refine ⟨fun st' h => by simp at h, fun e h => ?_⟩
          simp only [Except.error.injEq] at h
          subst h
          exact hneg
        · rw [if_neg hn]
          by_cases hz : weight iEntry = 0
          · rw [if_pos hz]
            refine ⟨fun st' h => ?_, fun e h => by simp at h⟩
            simp only [Except.ok.injEq] at h
            subst h
            exact hP
          · rw [if_neg hz]
            exact hsamples row _ _ hP

theorem fillFunction_rule (d : Dispenser) (P : Cache → Prop) (Bad : Fatal → Prop)
    (hoor : ¬ Bad .outOfRange) (hneg : ¬ Bad .negativeNominalWeight)
    (hstep : ∀ iEntry iSample tl tl' c c', P c →
      fillSample d iEntry iSample tl c = .ok (true, tl', c') → P c')
    (herr : ∀ iEntry iSample tl c e, P c → fillSample d iEntry iSample tl c = .error e → ¬ Bad e)
    (iThread : Int) (c : Cache) (hP : P c) :
    (∀ c', fillFunction d iThread c = .ok c' → P c') ∧
    (∀ e, fillFunction d iThread c = .error e → ¬ Bad e) := by
  have hloop : ∀ (nSample : Nat) (entries : List Nat) (st : ThreadLocals × Cache), P st.2 →
      (∀ st', foldlExcept (fillEntry d nSample) st entries = .ok st' → P st'.2) ∧
      (∀ e, foldlExcept (fillEntry d nSample) st entries = .error e → ¬ Bad e) := by
    intro nSample entries st hst
    refine ⟨?_, ?_⟩
    · intro st' h
      exact foldlExcept_invariant (fillEntry d nSample) (fun _ x => P x.2)
        (fun a _ s s' hs hf =>
          (fillEntry_rule d nSample P Bad hoor hneg hstep herr s a hs).1 s' hf)
        entries st st' hst h
    · intro e h
      exact foldlExcept_error (fillEntry d nSample) (fun _ x => P x.2) Bad
        (fun a _ s s' hs hf =>
          (fillEntry_rule d nSample P Bad hoor hneg hstep herr s a hs).1 s' hf)
        (fun a _ s e hs hf =>
          (fillEntry_rule d nSample P Bad hoor hneg hstep herr s a hs).2 e hf)
        entries st e hst h
  unfold fillFunction
  simp only
  refine ⟨?_, ?_⟩
  · intro c' h
    split at h
    · simp at h
    · rename_i st hst
      simp only [Except.ok.injEq] at h
      subst h
      exact (hloop _ _ _ hP).1 st hst
  · intro e h
    split at h
    · rename_i e' hst
      simp only [Except.error.injEq] at h
      subst h
      exact (hloop _ _ _ hP).2 e' hst
    · simp at h

theorem runFillThreads_rule (d : Dispenser) (P : Cache → Prop) (Bad : Fatal → Prop)
    (hoor : ¬ Bad .outOfRange) (hneg : ¬ Bad .negativeNominalWeight)
    (hstep : ∀ iEntry iSample tl tl' c c', P c →
      fillSample d iEntry iSample tl c = .ok (true, tl', c') → P c')
    (herr : ∀ iEntry iSample tl c e, P c → fillSample d iEntry iSample tl c = .error e → ¬ Bad e)
    (c : Cache) (hP : P c) :
    (∀ c', runFillThreads d c = .ok c' → P c') ∧
    (∀ e, runFillThreads d c = .error e → ¬ Bad e) := by
  unfold runFillThreads
  split
  · refine ⟨?_, ?_⟩
    · intro c' h
      exact foldlExcept_invariant (fun c iThread => fillFunction d (Int.ofNat iThread) c)
        (fun _ x => P x)
        (fun a _ s s' hs hf =>
          (fillFunction_rule d P Bad hoor hneg hstep herr (Int.ofNat a) s hs).1 s' hf)
        _ c c' hP h
    · intro e h
      exact foldlExcept_error (fun c iThread => fillFunction d (Int.ofNat iThread) c)
        (fun _ x => P x) Bad
        (fun a _ s s' hs hf =>
          (fillFunction_rule d P Bad hoor hneg hstep herr (Int.ofNat a) s hs).1 s' hf)
        (fun a _ s e hs hf =>
          (fillFunction_rule d P Bad hoor hneg hstep herr (Int.ofNat a) s hs).2 e hf)
        _ c e hP h
  · exact fillFunction_rule d P Bad hoor hneg hstep herr (-1) c hP

/-! ## Collections that are neither binned nor event-by-event -/

theorem foldl_reserveSample_frame (d : Dispenser) (c0 : Cache) :
    ∀ k, ((List.range k).foldl (reserveSample d) c0).dialCollectionsRefList
        = c0.dialCollectionsRefList ∧
      ((List.range k).foldl (reserveSample d) c0).eventDialCacheRef = c0.eventDialCacheRef := by
  intro k
  induction k with
  | zero => exact ⟨rfl, rfl⟩
  | succ n ih =>
    rw [List.range_succ, List.foldl_append]
    simp only [List.foldl_cons, List.foldl_nil]
    unfold reserveSample
    split
    · exact ih
    · exact ih

theorem mapExcept_ok_image {α β : Type} (f : α → Except Fatal β) :
    ∀ (l : List α) (bs : List β), mapExcept f l = .ok bs →
      ∀ b ∈ bs, ∃ a ∈ l, f a = .ok b := by
  intro l
  induction l with
  | nil =>
    intro bs h b hb
    simp only [mapExcept, Except.ok.injEq] at h
    subst h
    simp at hb
  | cons x rest ih =>
    intro bs h b hb
    unfold mapExcept at h
    cases hx : f x with
    | error e => rw [hx] at h; simp at h
    | ok y =>
      rw [hx] at h
      cases hr : mapExcept f rest with
      | error e => rw [hr] at h; simp at h
      | ok ys =>
        rw [hr] at h
        simp only [Except.ok.injEq] at h
        subst h
        rcases List.mem_cons.mp hb with h1 | h1
        · subst h1
          exact ⟨x, List.mem_cons_self _ _, hx⟩
        · obtain ⟨a, ha, hfa⟩ := ih ys hr b h1
          exact ⟨a, List.mem_cons_of_mem _ ha, hfa⟩

theorem doEventSelection_frame (d : Dispenser) (c c1 : Cache)
    (h : doEventSelection d c = .ok c1) :
    c1.samplesToFillList = c.samplesToFillList ∧
    c1.dialCollectionsRefList = c.dialCollectionsRefList ∧
    c1.eventDialCacheRef = c.eventDialCacheRef ∧
    c1.sampleIndexOffsetList = c.sampleIndexOffsetList := by
  unfold doEventSelection at h
  simp only at h
  split at h
  · simp at h
  · simp only [Except.ok.injEq] at h
    rw [← h]
    exact ⟨rfl, rfl, rfl, rfl⟩

/-- Claim C12. For an enabled collection that is not binned and has a per-event leaf name, whose
leaf holds an array-like object (`TClonesArray`) on the event, whose apply condition is absent or
non-zero and whose factory returns a correction for the array element at the dial array index,
the turn of the dial loop claims the next free slot of the collection's own correction list,
stores there the correction built from that array element (with the extrapolation flag of the
collection), and writes the one pair (collection index, slot) at the current offset of the
cache entry. The dial array index is `int(dialIndexFormula)` evaluated on the source entry of
the event, and `0` when no dial index formula is configured. -/
theorem indexDialCollection_event_by_event (d : Dispenser) (iEntry : Nat) (buf : PhysicsEvent)
    (st : DialIndexing) (dc : DialCollection) (elems : List Nat) (dialBase : DialBase)
    (happ : Applies buf dc) (hb : dc.binned = false) (hl : dc.globalDialLeafName ≠ "")
    (hobj : buf.getVariableObject dc.globalDialLeafName = .ok (.clonesArray elems))
    (hmake : dc.makeDial (clonesArrayAt elems (dialArrayIndex d iEntry)) = some dialBase)
    (hslot : dc.dialFreeSlot < dc.dialBaseList.length)
    (hroom : st.eventDialOffset < st.entry.dials.length) :
    (∃ (st' : DialIndexing) (dc' : DialCollection),
      indexDialCollection buf (dialArrayIndex d iEntry) st dc = .ok (st', dc') ∧
      st'.eventDialOffset = st.eventDialOffset + 1 ∧
      st'.entry.dials = st.entry.dials.set st.eventDialOffset
        { collectionIndex := dc.index, interfaceIndex := (dc.dialFreeSlot : Int) } ∧
      dc'.dialFreeSlot = dc.dialFreeSlot + 1 ∧
      dc'.dialBaseList = dc.dialBaseList.set dc.dialFreeSlot
        (some { dialBase with allowExtrapolation := dc.allowDialExtrapolation })) ∧
    (d.dialIndexFormula = none → dialArrayIndex d iEntry = 0) ∧
    (∀ f, d.dialIndexFormula = some f →
      dialArrayIndex d iEntry = Int.tdiv (f iEntry).num (f iEntry).den) := by
  refine ⟨?_, ?_, ?_⟩
  · have hen : (!dc.enabled) = false := by rw [happ.1]; rfl
    have hz : formulaIsZero dc.applyConditionFormula buf = false := by
      rcases happ.2 with h | ⟨f, hf, hne⟩
      · rw [h]; rfl
      · rw [hf]
        unfold formulaIsZero
        simp only [decide_eq_false_iff_not]
        exact hne
    have hw : writeDial st dc.index (dc.dialFreeSlot : Int) = .ok
        (DialIndexing.mk
          (IndexedEntry.mk st.entry.sampleIndex st.entry.eventIndex
            (st.entry.dials.set st.eventDialOffset
              { collectionIndex := dc.index, interfaceIndex := (dc.dialFreeSlot : Int) }))
          (st.eventDialOffset + 1)) := by
      unfold writeDial
      rw [if_pos hroom]
    refine ⟨DialIndexing.mk
        (IndexedEntry.mk st.entry.sampleIndex st.entry.eventIndex
          (st.entry.dials.set st.eventDialOffset
            { collectionIndex := dc.index, interfaceIndex := (dc.dialFreeSlot : Int) }))
        (st.eventDialOffset + 1),
      { dc with
        dialFreeSlot := dc.dialFreeSlot + 1,
        dialBaseList := dc.dialBaseList.set dc.dialFreeSlot
          (some (DialBase.mk dialBase.builtFrom dc.allowDialExtrapolation)) },
      ?_, rfl, rfl, rfl, rfl⟩
    unfold indexDialCollection
    simp only [hen, hz, hb, hobj, hmake, Bool.false_eq_true, if_false, if_pos hl, if_pos hslot, hw]
  · intro h
    unfold dialArrayIndex
    rw [h]
  · intro f h
    unfold dialArrayIndex
    rw [h]

/-- Witness of `indexDialCollection_event_by_event`, and Scenario C: with `idx = [0, 1]` over
two records each holding a 2-element array, the load gives each of the two stored events one
dial slot; the correction in the slot of the first event is built from the element 0 of its array
(the object 10), that of the second event from the element 1 of its array (the object 21). -/
theorem indexDialCollection_event_by_event_witness :
    (Applies (scenarioC_buffer 1) scenarioC_collection ∧
      scenarioC_collection.binned = false ∧ scenarioC_collection.globalDialLeafName ≠ "" ∧
      (scenarioC_buffer 1).getVariableObject scenarioC_collection.globalDialLeafName
        = .ok (.clonesArray [20, 21]) ∧
      scenarioC_collection.makeDial (clonesArrayAt [20, 21] (dialArrayIndex scenarioC 1))
        = some { builtFrom := some 21 }) ∧
    (∃ (st' : DialIndexing) (dc' : DialCollection),
      indexDialCollection (scenarioC_buffer 1) (dialArrayIndex scenarioC 1)
        { entry := { dials := [{}] }, eventDialOffset := 0 } scenarioC_collection
        = .ok (st', dc') ∧
      st'.eventDialOffset = 1 ∧
      st'.entry.dials = [{ collectionIndex := 0, interfaceIndex := 0 }] ∧
      dc'.dialFreeSlot = 1 ∧
      dc'.dialBaseList = [some { builtFrom := some 21 }, none]) ∧
    (load scenarioC scenarioC_cache).map cacheContent
      = .ok [(0, 0, [{ collectionIndex := 0, interfaceIndex := 0 }]),
             (0, 1, [{ collectionIndex := 0, interfaceIndex := 1 }])] ∧
    (load scenarioC scenarioC_cache).map correctionSources = .ok [[some 10, some 21]] :=
  have happ : Applies (scenarioC_buffer 1) scenarioC_collection := ⟨rfl, Or.inl rfl⟩
  have hl : scenarioC_collection.globalDialLeafName ≠ "" := by decide
  ⟨⟨happ, rfl, hl, rfl, rfl⟩,
    (indexDialCollection_event_by_event scenarioC 1 (scenarioC_buffer 1)
      { entry := { dials := [{}] }, eventDialOffset := 0 } scenarioC_collection [20, 21]
      { builtFrom := some 21 } happ rfl hl rfl rfl (by decide) (by decide)).1,
    rfl, rfl⟩

/-! ## The stages of a load -/

theorem length_addCount (counts : List Nat) (i n : Nat) :
    (addCount counts i n).length = counts.length := by
  unfold addCount
  simp

theorem mergeThread_counts_length (nSamples : Nat) (acc th : SelectionBuffers) :
    (mergeThread nSamples acc th).sampleNbOfEvents.length = acc.sampleNbOfEvents.length := by
  unfold mergeThread
  simp only
  generalize acc.sampleNbOfEvents = counts
  induction (List.range nSamples) generalizing counts with
  | nil => rfl
  | cons x rest ih =>
    simp only [List.foldl_cons]
    rw [ih, length_addCount]

theorem foldl_mergeThread_counts_length (nSamples : Nat) :
    ∀ (perThread : List SelectionBuffers) (acc : SelectionBuffers),
      (perThread.foldl (mergeThread nSamples) acc).sampleNbOfEvents.length
        = acc.sampleNbOfEvents.length := by
  intro perThread
  induction perThread with
  | nil => intro acc; rfl
  | cons th rest ih =>
    intro acc
    simp only [List.foldl_cons]
    rw [ih, mergeThread_counts_length]

theorem doEventSelection_counts_length (d : Dispenser) (c c1 : Cache)
    (h : doEventSelection d c = .ok c1) :
    c1.sampleNbOfEvents.length = c.samplesToFillList.length := by
  unfold doEventSelection at h
  simp only at h
  split at h
  · simp at h
  · simp only [Except.ok.injEq] at h
    rw [← h]
    show (List.foldl (mergeThread c.samplesToFillList.length) _ _).sampleNbOfEvents.length = _
    rw [foldl_mergeThread_counts_length]
    exact length_resize _ _ _

/-- A load that returns with samples to fill went through the four stages. -/
theorem load_stages (d : Dispenser) (c c' : Cache) (hsamples : c.samplesToFillList ≠ [])
    (h : load d c = .ok c') :
    ∃ c1 c2 c3, doEventSelection d c.clear = .ok c1 ∧ preAllocateMemory d c1 = .ok c2 ∧
      runFillThreads d c2 = .ok c3 ∧
      c' = (List.range c3.samplesToFillList.length).foldl (shrinkSample d) c3 := by
  have hne : c.clear.samplesToFillList.isEmpty = false := by
    show c.samplesToFillList.isEmpty = false
    cases hl : c.samplesToFillList with
    | nil => exact absurd hl hsamples
    | cons _ _ => rfl
  unfold load at h
  simp only [hne, Bool.false_eq_true, if_false] at h
  cases h1 : doEventSelection d c.clear with
  | error e => rw [h1] at h; simp at h
  | ok c1 =>
    rw [h1] at h
    simp only at h
    cases h2 : preAllocateMemory d c1 with
    | error e => rw [h2] at h; simp at h
    | ok c2 =>
      rw [h2] at h
      simp only at h
      unfold readAndFill at h
      cases h3 : runFillThreads d c2 with
      | error e => rw [h3] at h; simp at h
      | ok c3 =>
        rw [h3] at h
        simp only [Except.ok.injEq] at h
        exact ⟨c1, c2, c3, rfl, h2, h3, h.symm⟩

theorem getElem?_resize_lt {α : Type} (l : List α) (n i : Nat) (v : α) (hi : i < l.length)
    (hn : l.length ≤ n) : (resize l n v)[i]? = l[i]? := by
  unfold resize
  rw [List.take_of_length_le hn, List.getElem?_append_left hi]

theorem eventAt_congr (d : Dispenser) (c c' : Cache) (s : Nat)
    (h : c'.samplesToFillList[s]? = c.samplesToFillList[s]?) (i : Nat) :
    eventAt d c' s i = eventAt d c s i := by
  unfold eventAt
  rw [h]

theorem sampleIndexAt_congr (c c' : Cache) (s : Nat)
    (h : c'.samplesToFillList[s]? = c.samplesToFillList[s]?) :
    sampleIndexAt c' s = sampleIndexAt c s := by
  unfold sampleIndexAt
  rw [h]

theorem setContainer_index (sample : FitSample) (useMc : Bool) (x : SampleElement) :
    (sample.setContainer useMc x).index = sample.index := by
  cases useMc <;> rfl

/-- The loop "Reserving event memory" keeps the events already in the containers and the
indices of the samples. -/
theorem foldl_reserveSample_events (d : Dispenser) (c0 : Cache) :
    ∀ k, k ≤ c0.samplesToFillList.length →
      (∀ s i, i < containerSize d c0 s →
        eventAt d ((List.range k).foldl (reserveSample d) c0) s i = eventAt d c0 s i) ∧
      (∀ s, sampleIndexAt ((List.range k).foldl (reserveSample d) c0) s = sampleIndexAt c0 s) := by
  intro k
  induction k with
  | zero => intro _; exact ⟨fun _ _ _ => rfl, fun _ => rfl⟩
  | succ k ih =>
    intro hk
    obtain ⟨h1, h2⟩ := ih (by omega)
    obtain ⟨_, _, _, _, _, _, _, _, h5⟩ := foldl_reserveSample d c0 k (by omega)
    rw [List.range_succ, List.foldl_append, List.foldl_cons, List.foldl_nil]
    generalize (List.range k).foldl (reserveSample d) c0 = ck at h1 h2 h5
    have hklt : k < c0.samplesToFillList.length := by omega
    obtain ⟨sample, hsample⟩ : ∃ sample, c0.samplesToFillList[k]? = some sample :=
      ⟨c0.samplesToFillList[k], List.getElem?_eq_getElem hklt⟩
    have hck : ck.samplesToFillList[k]? = some sample := (h5 k (Nat.le_refl k)).trans hsample
    have hklt' : k < ck.samplesToFillList.length := (List.getElem?_eq_some.mp hck).1
    unfold reserveSample
    simp only [hck]
    refine ⟨?_, ?_⟩
    · intro s i hi
      rw [← h1 s i hi]
      unfold eventAt
      simp only [List.getElem?_set]
      by_cases hsk : k = s
      · subst hsk
        simp only [hklt', if_true, hck]
        rw [container_setContainer]
        simp only [SampleElement.reserveEventMemory]
        have hi' : i < (sample.container d.useMcContainer).eventList.length := by
          unfold containerSize at hi
          rw [hsample] at hi
          exact hi
        exact getElem?_resize_lt _ _ _ _ hi' (Nat.le_add_right _ _)
      · simp only [hsk, if_false]
    · intro s
      rw [← h2 s]
      unfold sampleIndexAt
      simp only [List.getElem?_set]
      by_cases hsk : k = s
      · subst hsk
        simp only [hklt', if_true, hck]
        rw [setContainer_index]
      · simp only [hsk, if_false]

/-- What `preAllocateMemory` keeps: the events already in the containers, the indices of the
samples, and the position of the next entry of the event-dial cache. -/
theorem preAllocateMemory_events (d : Dispenser) (c c2 : Cache)
    (hlen : c.sampleNbOfEvents.length = c.samplesToFillList.length)
    (h : preAllocateMemory d c = .ok c2) :
    (∀ s i, i < containerSize d c s → eventAt d c2 s i = eventAt d c s i) ∧
    (∀ s, sampleIndexAt c2 s = sampleIndexAt c s) ∧
    (c.eventDialCacheRef = none → c2.eventDialCacheRef = none) ∧
    (∀ cache, c.eventDialCacheRef = some cache →
      ∃ cache2, c2.eventDialCacheRef = some cache2 ∧ cache2.fillIndex = cache.fillIndex) := by
  unfold preAllocateMemory at h
  simp only at h
  have hev := foldl_reserveSample_events d
    { c with sampleIndexOffsetList :=
        resize c.sampleIndexOffsetList c.samplesToFillList.length 0 }
    c.sampleNbOfEvents.length (Nat.le_of_eq hlen)
  have hframe := foldl_reserveSample_frame d
    { c with sampleIndexOffsetList :=
        resize c.sampleIndexOffsetList c.samplesToFillList.length 0 }
    c.sampleNbOfEvents.length
  generalize List.foldl (reserveSample d) _ (List.range c.sampleNbOfEvents.length) = c1
    at h hev hframe
  have hcr : c1.eventDialCacheRef = c.eventDialCacheRef := hframe.2
  have hev1 : ∀ s i, i < containerSize d c s → eventAt d c1 s i = eventAt d c s i := hev.1
  have hidx1 : ∀ s, sampleIndexAt c1 s = sampleIndexAt c s := hev.2
  cases hcache : c1.eventDialCacheRef with
  | none =>
    rw [hcache] at h
    simp only [Except.ok.injEq] at h
    subst h
    refine ⟨hev1, hidx1, fun _ => hcache, fun cache hc => ?_⟩
    rw [← hcr, hcache] at hc
    cases hc
  | some cache1 =>
    rw [hcache] at h
    simp only at h
    have hcache' : c.eventDialCacheRef = some cache1 := by rw [← hcr]; exact hcache
    split at h
    · simp only [Except.ok.injEq] at h
      subst h
      refine ⟨hev1, hidx1, fun hn => ?_, fun cache hc => ?_⟩
      · rw [hcache'] at hn; cases hn
      · rw [hcache'] at hc
        cases hc
        exact ⟨_, rfl, rfl⟩
    · split at h
      · simp at h
      · simp only [Except.ok.injEq] at h
        subst h
        refine ⟨hev1, hidx1, fun hn => ?_, fun cache hc => ?_⟩
        · rw [hcache'] at hn; cases hn
        · rw [hcache'] at hc
          cases hc
          exact ⟨_, rfl, rfl⟩

/-- The loop "Shrinking lists" keeps, in every container, the events before the offset of the
sample and drops the others; nothing else changes. -/
theorem foldl_shrinkSample_events (d : Dispenser) (c1 : Cache) :
    ∀ k, k ≤ c1.samplesToFillList.length →
      (∀ s i, eventAt d ((List.range k).foldl (shrinkSample d) c1) s i
        = if s < k then (if i < offsetOf c1 s then eventAt d c1 s i else none)
          else eventAt d c1 s i) ∧
      (∀ s, sampleIndexAt ((List.range k).foldl (shrinkSample d) c1) s = sampleIndexAt c1 s) ∧
      ((List.range k).foldl (shrinkSample d) c1).eventDialCacheRef = c1.eventDialCacheRef ∧
      ((List.range k).foldl (shrinkSample d) c1).dialCollectionsRefList
        = c1.dialCollectionsRefList := by
  intro k
  induction k with
  | zero => intro _; exact ⟨fun _ _ => by simp, fun _ => rfl, rfl, rfl⟩
  | succ k ih =>
    intro hk
    obtain ⟨h1, h2, h3, h4⟩ := ih (by omega)
    obtain ⟨_, q2, _, _, q5⟩ := foldl_shrinkSample d c1 k (by omega)
    rw [List.range_succ, List.foldl_append, List.foldl_cons, List.foldl_nil]
    generalize (List.range k).foldl (shrinkSample d) c1 = ck at h1 h2 h3 h4 q2 q5
    have hklt : k < c1.samplesToFillList.length := by omega
    obtain ⟨sample, hsample⟩ : ∃ sample, c1.samplesToFillList[k]? = some sample :=
      ⟨c1.samplesToFillList[k], List.getElem?_eq_getElem hklt⟩
    have hck : ck.samplesToFillList[k]? = some sample := (q5 k (Nat.le_refl k)).trans hsample
    have hklt' : k < ck.samplesToFillList.length := (List.getElem?_eq_some.mp hck).1
    unfold shrinkSample
    simp only [hck]
    refine ⟨?_, ?_, h3, h4⟩
    · intro s i
      by_cases hsk : k = s
      · subst hsk
        unfold eventAt
        simp only [List.getElem?_set, hklt', if_true, Nat.lt_succ_self, hsample]
        rw [container_setContainer]
        simp only [SampleElement.shrinkEventList, q2]
        unfold offsetOf
        by_cases hi : i < c1.sampleIndexOffsetList.getD k 0
        · rw [if_pos hi, List.getElem?_take_of_lt hi]
        · rw [if_neg hi, List.getElem?_take_eq_none (Nat.le_of_not_lt hi)]
      · have hprev := h1 s i
        unfold eventAt at hprev ⊢
        simp only [List.getElem?_set, hsk, if_false]
        rw [hprev]
        by_cases hlt : s < k
        · have hlt' : s < k + 1 := by omega
          simp only [hlt, hlt', if_true]
        · have hlt' : ¬ s < k + 1 := by omega
          simp only [hlt, hlt', if_false]
    · intro s
      rw [← h2 s]
      unfold sampleIndexAt
      simp only [List.getElem?_set]
      by_cases hsk : k = s
      · subst hsk
        simp only [hklt', if_true, hck]
        rw [setContainer_index]
      · simp only [hsk, if_false]

/-- What the fill threads keep in the containers: the sizes, the events before the offsets they
started from, the indices of the samples; the offsets only move on, within the sizes. -/
theorem runFillThreads_containers (d : Dispenser) (c2 c3 : Cache)
    (h0 : ∀ s, offsetOf c2 s ≤ containerSize d c2 s) (h : runFillThreads d c2 = .ok c3) :
    (∀ s, containerSize d c3 s = containerSize d c2 s) ∧
    (∀ s, offsetOf c2 s ≤ offsetOf c3 s ∧ offsetOf c3 s ≤ containerSize d c3 s) ∧
    (∀ s i, i < offsetOf c2 s → eventAt d c3 s i = eventAt d c2 s i) ∧
    (∀ s, sampleIndexAt c3 s = sampleIndexAt c2 s) ∧
    c3.samplesToFillList.length = c2.samplesToFillList.length := by
  refine (runFillThreads_rule d
    (fun c => (∀ s, containerSize d c s = containerSize d c2 s) ∧
      (∀ s, offsetOf c2 s ≤ offsetOf c s ∧ offsetOf c s ≤ containerSize d c s) ∧
      (∀ s i, i < offsetOf c2 s → eventAt d c s i = eventAt d c2 s i) ∧
      (∀ s, sampleIndexAt c s = sampleIndexAt c2 s) ∧
      c.samplesToFillList.length = c2.samplesToFillList.length)
    (fun _ => False) (fun hf => hf) (fun hf => hf) ?_ ?_ c2
    ⟨fun _ => rfl, fun s => ⟨Nat.le_refl _, h0 s⟩, fun _ _ _ => rfl, fun _ => rfl, rfl⟩).1 c3 h
  · intro iEntry iSample tl tl' c c' ⟨p1, p2, p3, p4, p5⟩ hf
    obtain ⟨sample, idx, slot, _, _, _, hoff, hidx, _, _, hother, hoffs, hsize, hsi, _, _⟩ :=
      fillSample_store d iEntry iSample tl tl' c c' hf
    obtain ⟨_, _, _, _, hlen⟩ := fillSample_ok_frame d iEntry iSample tl tl' c c' hf
    refine ⟨fun s => (hsize s).trans (p1 s), fun s => ?_, fun s i hi => ?_,
      fun s => (hsi s).trans (p4 s), hlen.trans p5⟩
    · rw [hoffs s, hsize s]
      by_cases hs : s = iSample
      · subst hs
        rw [if_pos rfl]
        have := (p2 s).1
        omega
      · rw [if_neg hs]
        exact ⟨by have := (p2 s).1; omega, by have := (p2 s).2; omega⟩
    · rw [← p3 s i hi]
      apply hother
      rintro ⟨hs, hi'⟩
      subst hs
      have := (p2 s).1
      omega
  · intro _ _ _ _ _ _ _ hf
    exact hf

/-- Claim C19. When a load with samples to fill returns, then for every sample: before the fill
the offset of the sample is the size of its container before the load and `preAllocateMemory` has
reserved the counted number of slots after it; every stored event moves the offset on by one, so
the offset after the fill less the offset before it is the number of events stored; the event
list after `readAndFill` has the size before the load plus that number, holds up to its end the
events the fill left there (those present before the load, unchanged, then the stored ones) and
nothing after: the reserved slots that were not used are removed and no stored event is. -/
theorem load_shrinks_to_stored (d : Dispenser) (c c' : Cache)
    (hsamples : c.samplesToFillList ≠ []) (h : load d c = .ok c') :
    ∃ c1 c2 c3, doEventSelection d c.clear = .ok c1 ∧ preAllocateMemory d c1 = .ok c2 ∧
      runFillThreads d c2 = .ok c3 ∧
      (∀ iEntry iSample tl tl' x x', fillSample d iEntry iSample tl x = .ok (true, tl', x') →
        ∀ s, offsetOf x' s = offsetOf x s + if s = iSample then 1 else 0) ∧
      ∀ s,
        offsetOf c2 s = containerSize d c s ∧
        containerSize d c2 s = containerSize d c s + c1.sampleNbOfEvents.getD s 0 ∧
        offsetOf c2 s ≤ offsetOf c3 s ∧
        containerSize d c' s = containerSize d c s + (offsetOf c3 s - offsetOf c2 s) ∧
        containerSize d c' s ≤ containerSize d c2 s ∧
        (∀ i, i < containerSize d c' s → eventAt d c' s i = eventAt d c3 s i) ∧
        (∀ i, i < containerSize d c s → eventAt d c' s i = eventAt d c s i) ∧
        (∀ i, containerSize d c' s ≤ i → eventAt d c' s i = none) := by
  obtain ⟨c1, c2, c3, h1, h2, h3, hc'⟩ := load_stages d c c' hsamples h
  obtain ⟨f1, _, _, _⟩ := doEventSelection_frame d c.clear c1 h1
  have hlen : c1.sampleNbOfEvents.length = c1.samplesToFillList.length := by
    rw [doEventSelection_counts_length d c.clear c1 h1, f1]
  obtain ⟨_, _, p3, p4, p5⟩ := preAllocateMemory_ok d c1 c2 hlen h2
  obtain ⟨e1, _, _, _⟩ := preAllocateMemory_events d c1 c2 hlen h2
  have hsize1 : ∀ s, containerSize d c1 s = containerSize d c s := by
    intro s
    unfold containerSize
    rw [f1]
    rfl
  have hev1 : ∀ s i, eventAt d c1 s i = eventAt d c s i := by
    intro s i
    unfold eventAt
    rw [f1]
    rfl
  have h0 : ∀ s, offsetOf c2 s ≤ containerSize d c2 s := by
    intro s
    rw [p4 s, p5 s]
    exact Nat.le_add_right _ _
  obtain ⟨q1, q2, q3, _, q5⟩ := runFillThreads_containers d c2 c3 h0 h3
  obtain ⟨_, _, _, r4, _⟩ := foldl_shrinkSample d c3 c3.samplesToFillList.length (Nat.le_refl _)
  obtain ⟨r5, _, _, _⟩ :=
    foldl_shrinkSample_events d c3 c3.samplesToFillList.length (Nat.le_refl _)
  rw [← hc'] at r4 r5
  have hsize' : ∀ s, containerSize d c' s = offsetOf c3 s := by
    intro s
    rw [r4 s]
    by_cases hs : s < c3.samplesToFillList.length
    · rw [if_pos hs]
      exact Nat.min_eq_left (q2 s).2
    · rw [if_neg hs]
      have hz : containerSize d c3 s = 0 := by
        unfold containerSize
        rw [List.getElem?_eq_none (Nat.le_of_not_lt hs)]
      have := (q2 s).2
      omega
  have hev' : ∀ s i, i < offsetOf c3 s → eventAt d c' s i = eventAt d c3 s i := by
    intro s i hi
    rw [r5 s i]
    by_cases hs : s < c3.samplesToFillList.length
    · rw [if_pos hs, if_pos hi]
    · rw [if_neg hs]
  have hnone : ∀ s i, offsetOf c3 s ≤ i → eventAt d c' s i = none := by
    intro s i hi
    rw [r5 s i]
    by_cases hs : s < c3.samplesToFillList.length
    · rw [if_pos hs, if_neg (Nat.not_lt.mpr hi)]
    · rw [if_neg hs]
      unfold eventAt
      rw [List.getElem?_eq_none (Nat.le_of_not_lt hs)]
  refine ⟨c1, c2, c3, h1, h2, h3, ?_, fun s => ?_⟩
  · intro iEntry iSample tl tl' x x' hf
    exact (fillSample_ok_frame d iEntry iSample tl tl' x x' hf).2.1
  · have hO : offsetOf c2 s = containerSize d c s := by rw [p5 s, hsize1 s]
    refine ⟨hO, by rw [p4 s, hsize1 s], (q2 s).1, ?_, ?_, ?_, ?_, ?_⟩
    · rw [hsize' s]
      have := (q2 s).1
      omega
    · rw [hsize' s, ← q1 s]
      exact (q2 s).2
    · intro i hi
      rw [hsize' s] at hi
      exact hev' s i hi
    · intro i hi
      have hi2 : i < offsetOf c2 s := by rw [hO]; exact hi
      have hi3 : i < offsetOf c3 s := Nat.lt_of_lt_of_le hi2 (q2 s).1
      rw [hev' s i hi3, q3 s i hi2, e1 s i (by rw [hsize1 s]; exact hi), hev1 s i]
    · intro i hi
      rw [hsize' s] at hi
      exact hnone s i hi

/-- Witness of `load_shrinks_to_stored`: three entries pass the (absent) selection of a sample
that already holds one event, so three slots are reserved after it; the entry with `x = 5` has
no bin and is not stored; after the load the container holds the former event and the two stored
events, and the unused slot is gone. -/
theorem load_shrinks_to_stored_witness :
    (gap_cache.samplesToFillList ≠ [] ∧ load gap gap_cache = .ok gap_loaded) ∧
    containerSize gap gap_cache 0 = 1 ∧ containerSize gap gap_ready 0 = 4 ∧
    storedEvents gap gap_loaded = [[(7, -1, 1), (0, 0, 1), (2, 1, 1)]] ∧
    ∃ c1 c2 c3, doEventSelection gap gap_cache.clear = .ok c1 ∧
      preAllocateMemory gap c1 = .ok c2 ∧ runFillThreads gap c2 = .ok c3 ∧
      containerSize gap gap_loaded 0
        = containerSize gap gap_cache 0 + (offsetOf c3 0 - offsetOf c2 0) :=
  ⟨⟨List.cons_ne_nil _ _, rfl⟩, by decide, by decide, by decide,
    match load_shrinks_to_stored gap gap_cache gap_loaded (List.cons_ne_nil _ _) rfl with
    | ⟨c1, c2, c3, h1, h2, h3, _, hs⟩ => ⟨c1, c2, c3, h1, h2, h3, (hs 0).2.2.2.1⟩⟩

/-! ## The keys of the claimed cache entries -/

/-- What a successful turn of the sample loop does to an attached event-dial cache: the next
entry is claimed and gets the index of the sample and the position of the stored event. -/
theorem fillSample_cache_key (d : Dispenser) (iEntry iSample : Nat) (tl tl' : ThreadLocals)
    (x x' : Cache) (hc : x.eventDialCacheRef ≠ none)
    (h : fillSample d iEntry iSample tl x = .ok (true, tl', x')) :
    ∃ (sample : FitSample) (slot : PhysicsEvent) (entry : IndexedEntry),
      x.samplesToFillList[iSample]? = some sample ∧
      eventAt d x' iSample (offsetOf x iSample) = some (filledEvent d iEntry sample tl' slot) ∧
      x'.eventDialCacheRef ≠ none ∧
      fillIndexOf x' = fillIndexOf x + 1 ∧
      cacheEntryAt x' (fillIndexOf x) = some entry ∧
      entry.sampleIndex = sample.index ∧
      entry.eventIndex = ((offsetOf x iSample : Nat) : Int) ∧
      ∀ k, k ≠ fillIndexOf x → cacheEntryAt x' k = cacheEntryAt x k := by
  obtain ⟨sample, idx, slot, hs, hstore, hoff, hoffD, _, _, hev, _⟩ :=
    fillSample_store d iEntry iSample tl tl' x x' h
  cases hcache : x.eventDialCacheRef with
  | none => exact absurd hcache hc
  | some cache =>
    obtain ⟨idx1, entry, st, cols, hidx1, hentry, hdial, _, hc'⟩ :=
      storeEvent_cache_entry d iEntry iSample sample tl' x x' cache hstore hcache
    obtain ⟨_, _, _, _, hsi, hei, _⟩ := indexDials_ok _ _ _ _ _ _ hdial
    rw [hoff] at hidx1
    cases hidx1
    have hlt : cache.fillIndex < cache.indexedCache.length := (List.getElem?_eq_some.mp hentry).1
    refine ⟨sample, slot, st.entry, hs, ?_, ?_, ?_, ?_, hsi, ?_, ?_⟩
    · rw [hoffD]; exact hev
    · rw [hc']; exact Option.some_ne_none _
    · unfold fillIndexOf
      rw [hc', hcache]
    · unfold fillIndexOf cacheEntryAt
      rw [hc', hcache]
      simp only [List.getElem?_set, hlt, if_true]
    · rw [hei, hoffD]
    · intro k hk
      unfold fillIndexOf at hk
      rw [hcache] at hk
      unfold cacheEntryAt
      rw [hc', hcache]
      simp only
      rw [List.getElem?_set_ne (fun hh => hk hh.symm)]

/-- The invariant of the fill pass on the claimed cache entries: a cache stays attached, the
samples keep their indices, the offsets only move on, every entry claimed since the start `c2`
carries the index of a sample and a position of its container between the offset at the start
and the present offset, where an event with that sample index lies, and no two of these entries
carry the same pair. -/
theorem runFillThreads_cache_keys (d : Dispenser) (c2 c3 : Cache)
    (hc : c2.eventDialCacheRef ≠ none)
    (hdistinct : ∀ s t i, sampleIndexAt c2 s = some i → sampleIndexAt c2 t = some i → s = t)
    (h : runFillThreads d c2 = .ok c3) :
    c3.eventDialCacheRef ≠ none ∧ fillIndexOf c2 ≤ fillIndexOf c3 ∧
    (∀ s, sampleIndexAt c3 s = sampleIndexAt c2 s) ∧
    (∀ s, offsetOf c2 s ≤ offsetOf c3 s) ∧
    (∀ k, fillIndexOf c2 ≤ k → k < fillIndexOf c3 →
      ∃ (entry : IndexedEntry) (s i : Nat) (ev : PhysicsEvent),
        cacheEntryAt c3 k = some entry ∧ sampleIndexAt c3 s = some entry.sampleIndex ∧
        entry.eventIndex = (i : Int) ∧ offsetOf c2 s ≤ i ∧ i < offsetOf c3 s ∧
        eventAt d c3 s i = some ev ∧ ev.sampleIndex = entry.sampleIndex) ∧
    (∀ k1 k2 e1 e2, fillIndexOf c2 ≤ k1 → k1 < fillIndexOf c3 →
      fillIndexOf c2 ≤ k2 → k2 < fillIndexOf c3 →
      cacheEntryAt c3 k1 = some e1 → cacheEntryAt c3 k2 = some e2 →
      e1.sampleIndex = e2.sampleIndex → e1.eventIndex = e2.eventIndex → k1 = k2) := by
  refine (runFillThreads_rule d
    (fun c => c.eventDialCacheRef ≠ none ∧ fillIndexOf c2 ≤ fillIndexOf c ∧
      (∀ s, sampleIndexAt c s = sampleIndexAt c2 s) ∧
      (∀ s, offsetOf c2 s ≤ offsetOf c s) ∧
      (∀ k, fillIndexOf c2 ≤ k → k < fillIndexOf c →
        ∃ (entry : IndexedEntry) (s i : Nat) (ev : PhysicsEvent),
          cacheEntryAt c k = some entry ∧ sampleIndexAt c s = some entry.sampleIndex ∧
          entry.eventIndex = (i : Int) ∧ offsetOf c2 s ≤ i ∧ i < offsetOf c s ∧
          eventAt d c s i = some ev ∧ ev.sampleIndex = entry.sampleIndex) ∧
      (∀ k1 k2 e1 e2, fillIndexOf c2 ≤ k1 → k1 < fillIndexOf c →
        fillIndexOf c2 ≤ k2 → k2 < fillIndexOf c →
        cacheEntryAt c k1 = some e1 → cacheEntryAt c k2 = some e2 →
        e1.sampleIndex = e2.sampleIndex → e1.eventIndex = e2.eventIndex → k1 = k2))
    (fun _ => False) (fun hf => hf) (fun hf => hf) ?_ ?_ c2
    ⟨hc, Nat.le_refl _, fun _ => rfl, fun _ => Nat.le_refl _,
      fun k h1 h2 => absurd h2 (Nat.not_lt.mpr h1),
      fun k1 _ _ _ h1 h2 _ _ _ _ _ _ => absurd h2 (Nat.not_lt.mpr h1)⟩).1 c3 h
  · intro iEntry iSample tl tl' x x' ⟨p0, p1, p2, p3, p4, p5⟩ hf
    obtain ⟨sample, slot, entry, hs, hev, hc', hfill, hentry, hsi, hei, hother⟩ :=
      fillSample_cache_key d iEntry iSample tl tl' x x' p0 hf
    obtain ⟨_, idx, _, _, _, _, hoffD, _, _, _, hevother, hoffs, _, hidx, _, _⟩ :=
      fillSample_store d iEntry iSample tl tl' x x' hf
    subst hoffD
    have hsampleAt : sampleIndexAt x iSample = some sample.index := by
      unfold sampleIndexAt
      rw [hs]
    -- an entry claimed before has another key than the new one
    have hnew : ∀ k e, fillIndexOf c2 ≤ k → k < fillIndexOf x → cacheEntryAt x k = some e →
        e.sampleIndex = entry.sampleIndex → e.eventIndex = entry.eventIndex → False := by
      intro k e hk1 hk2 hke h1 h2
      obtain ⟨e0, s, i, ev, q1, q2, q3, q4, q5, _, _⟩ := p4 k hk1 hk2
      rw [hke] at q1
      cases q1
      have hst : s = iSample := by
        apply hdistinct s iSample e.sampleIndex
        · rw [← p2 s]; exact q2
        · rw [← p2 iSample, hsampleAt, h1, hsi]
      subst hst
      rw [q3, hei] at h2
      have : i = offsetOf x s := Int.ofNat.inj h2
      omega
    refine ⟨hc', by omega, fun s => (hidx s).trans (p2 s), fun s => ?_, ?_, ?_⟩
    · rw [hoffs s]
      have := p3 s
      omega
    · intro k hk1 hk2
      by_cases hk : k = fillIndexOf x
      · subst hk
        refine ⟨entry, iSample, offsetOf x iSample, _, hentry, ?_, hei, p3 iSample, ?_, hev, ?_⟩
        · rw [hidx iSample, hsampleAt, hsi]
        · rw [hoffs iSample, if_pos rfl]
          exact Nat.lt_succ_self _
        · rw [hsi]
          rfl
      · obtain ⟨e0, s, i, ev, q1, q2, q3, q4, q5, q6, q7⟩ := p4 k hk1 (by omega)
        refine ⟨e0, s, i, ev, ?_, ?_, q3, q4, ?_, ?_, q7⟩
        · rw [hother k hk]; exact q1
        · rw [hidx s]; exact q2
        · rw [hoffs s]; omega
        · rw [hevother s i ?_]
          · exact q6
          · rintro ⟨h1, h2⟩
            subst h1
            omega
    · intro k1 k2 e1 e2 a1 a2 b1 b2 he1 he2 hs12 hi12
      by_cases hk1 : k1 = fillIndexOf x
      · by_cases hk2 : k2 = fillIndexOf x
        · rw [hk1, hk2]
        · exfalso
          subst hk1
          rw [hentry] at he1
          cases he1
          rw [hother k2 hk2] at he2
          exact hnew k2 e2 b1 (by omega) he2 hs12.symm hi12.symm
      · by_cases hk2 : k2 = fillIndexOf x
        · exfalso
          subst hk2
          rw [hentry] at he2
          cases he2
          rw [hother k1 hk1] at he1
          exact hnew k1 e1 a1 (by omega) he1 hs12 hi12
        · rw [hother k1 hk1] at he1
          rw [hother k2 hk2] at he2
          exact p5 k1 k2 e1 e2 a1 (by omega) b1 (by omega) he1 he2 hs12 hi12
  · intro _ _ _ _ _ _ _ hf
    exact hf

/-- Claim C20. With a cache attached, a successful turn of the sample loop stores the event at
the offset of the sample in the container of the sample and claims the next cache entry, which
then carries the index of that sample and that position; no other entry changes. When a load
with a cache attached and samples of distinct indices returns, every cache entry claimed during
the load (from the fill position at the start up to the fill position at the end) carries the
index of a sample to fill and a position of the container of that sample, not below its size
before the load, where an event with that sample index lies; and no two entries claimed during
the load carry the same pair (sample index, event index). -/
theorem load_cache_keys (d : Dispenser) (c c' : Cache)
    (hsamples : c.samplesToFillList ≠ []) (hcache : c.eventDialCacheRef ≠ none)
    (hdistinct : ∀ s t i, sampleIndexAt c s = some i → sampleIndexAt c t = some i → s = t)
    (h : load d c = .ok c') :
    (∀ iEntry iSample tl tl' x x', x.eventDialCacheRef ≠ none →
      fillSample d iEntry iSample tl x = .ok (true, tl', x') →
      ∃ (sample : FitSample) (slot : PhysicsEvent) (entry : IndexedEntry),
        x.samplesToFillList[iSample]? = some sample ∧
        eventAt d x' iSample (offsetOf x iSample) = some (filledEvent d iEntry sample tl' slot) ∧
        fillIndexOf x' = fillIndexOf x + 1 ∧
        cacheEntryAt x' (fillIndexOf x) = some entry ∧
        entry.sampleIndex = sample.index ∧
        entry.eventIndex = ((offsetOf x iSample : Nat) : Int) ∧
        ∀ k, k ≠ fillIndexOf x → cacheEntryAt x' k = cacheEntryAt x k) ∧
    fillIndexOf c ≤ fillIndexOf c' ∧
    (∀ k, fillIndexOf c ≤ k → k < fillIndexOf c' →
      ∃ (entry : IndexedEntry) (s i : Nat) (ev : PhysicsEvent),
        cacheEntryAt c' k = some entry ∧ sampleIndexAt c' s = some entry.sampleIndex ∧
        entry.eventIndex = (i : Int) ∧ containerSize d c s ≤ i ∧
        eventAt d c' s i = some ev ∧ ev.sampleIndex = entry.sampleIndex) ∧
    (∀ k1 k2 e1 e2, fillIndexOf c ≤ k1 → k1 < fillIndexOf c' →
      fillIndexOf c ≤ k2 → k2 < fillIndexOf c' →
      cacheEntryAt c' k1 = some e1 → cacheEntryAt c' k2 = some e2 →
      e1.sampleIndex = e2.sampleIndex → e1.eventIndex = e2.eventIndex → k1 = k2) := by
  obtain ⟨c1, c2, c3, h1, h2, h3, hc'⟩ := load_stages d c c' hsamples h
  obtain ⟨f1, _, f3, _⟩ := doEventSelection_frame d c.clear c1 h1
  have hlen : c1.sampleNbOfEvents.length = c1.samplesToFillList.length := by
    rw [doEventSelection_counts_length d c.clear c1 h1, f1]
  obtain ⟨_, _, _, _, p5⟩ := preAllocateMemory_ok d c1 c2 hlen h2
  obtain ⟨_, e2, _, e4⟩ := preAllocateMemory_events d c1 c2 hlen h2
  have hcr1 : c1.eventDialCacheRef = c.eventDialCacheRef := f3
  have hsize1 : ∀ s, containerSize d c1 s = containerSize d c s := by
    intro s
    unfold containerSize
    rw [f1]
    rfl
  have hidx2 : ∀ s, sampleIndexAt c2 s = sampleIndexAt c s := by
    intro s
    rw [e2 s]
    unfold sampleIndexAt
    rw [f1]
    rfl
  have hO : ∀ s, offsetOf c2 s = containerSize d c s := fun s => by rw [p5 s, hsize1 s]
  obtain ⟨cache0, hcache0⟩ : ∃ cache0, c.eventDialCacheRef = some cache0 := by
    cases hx : c.eventDialCacheRef with
    | none => exact absurd hx hcache
    | some cache0 => exact ⟨cache0, rfl⟩
  obtain ⟨cache2, hcache2, hfill2⟩ := e4 cache0 (hcr1.trans hcache0)
  have hF : fillIndexOf c2 = fillIndexOf c := by
    unfold fillIndexOf
    rw [hcache2, hcache0]
    exact hfill2
  have hc2 : c2.eventDialCacheRef ≠ none := by rw [hcache2]; exact Option.some_ne_none _
  obtain ⟨_, q1, q2, _, q4, q5⟩ := runFillThreads_cache_keys d c2 c3 hc2
    (fun s t i hs ht => hdistinct s t i (by rw [← hidx2 s]; exact hs) (by rw [← hidx2 t]; exact ht))
    h3
  obtain ⟨r1, r2, r3, _⟩ :=
    foldl_shrinkSample_events d c3 c3.samplesToFillList.length (Nat.le_refl _)
  rw [← hc'] at r1 r2 r3
  have hF' : fillIndexOf c' = fillIndexOf c3 := by
    unfold fillIndexOf
    rw [r3]
  have hE : ∀ k, cacheEntryAt c' k = cacheEntryAt c3 k := by
    intro k
    unfold cacheEntryAt
    rw [r3]
  rw [hF] at q1 q4 q5
  refine ⟨?_, by rw [hF']; exact q1, ?_, ?_⟩
  · intro iEntry iSample tl tl' x x' hx hf
    obtain ⟨sample, slot, entry, a1, a2, _, a4, a5, a6, a7, a8⟩ :=
      fillSample_cache_key d iEntry iSample tl tl' x x' hx hf
    exact ⟨sample, slot, entry, a1, a2, a4, a5, a6, a7, a8⟩
  · intro k hk1 hk2
    rw [hF'] at hk2
    obtain ⟨entry, s, i, ev, b1, b2, b3, b4, b5, b6, b7⟩ := q4 k hk1 hk2
    refine ⟨entry, s, i, ev, (hE k).trans b1, (r2 s).trans b2, b3, by rw [← hO s]; exact b4, ?_,
      b7⟩
    rw [r1 s i]
    by_cases hs : s < c3.samplesToFillList.length
    · rw [if_pos hs, if_pos b5]
      exact b6
    · rw [if_neg hs]
      exact b6
  · intro k1 k2 e1 e2 a1 a2 b1 b2 he1 he2
    rw [hF'] at a2 b2
    rw [hE k1] at he1
    rw [hE k2] at he2
    exact q5 k1 k2 e1 e2 a1 a2 b1 b2 he1 he2

/-- The samples of the fixture `keys_cache` have distinct indices. -/
theorem keys_cache_distinct :
    ∀ s t i, sampleIndexAt keys_cache s = some i → sampleIndexAt keys_cache t = some i → s = t := by
  intro s t i hs ht
  rcases s with _ | _ | s <;> rcases t with _ | _ | t
  · rfl
  · rw [show sampleIndexAt keys_cache 0 = some 3 from rfl] at hs
    rw [show sampleIndexAt keys_cache 1 = some 5 from rfl] at ht
    cases hs
    exact absurd ht (by decide)
  · exact Option.noConfusion ht
  · rw [show sampleIndexAt keys_cache 0 = some 3 from rfl] at ht
    rw [show sampleIndexAt keys_cache 1 = some 5 from rfl] at hs
    cases ht
    exact absurd hs (by decide)
  · rfl
  · exact Option.noConfusion ht
  · exact Option.noConfusion hs
  · exact Option.noConfusion hs
  · exact Option.noConfusion hs

/-- Witness of `load_cache_keys`: the entry with `x = 0.5` is stored in the first sample (index
3), the entry with `x = 1.5` in both samples (indices 3 and 5); the first container already held
one event, so its stored events lie at the positions 1 and 2 and that of the second at 0; the
three claimed cache entries carry these three pairs, all distinct. -/
theorem load_cache_keys_witness :
    (keys_cache.samplesToFillList ≠ [] ∧ keys_cache.eventDialCacheRef ≠ none ∧
      (∀ s t i, sampleIndexAt keys_cache s = some i → sampleIndexAt keys_cache t = some i →
        s = t) ∧
      load gap keys_cache = .ok keys_loaded) ∧
    cacheContent keys_loaded
      = [(3, 1, []), (3, 2, []), (5, 0, [])] ∧
    storedEvents gap keys_loaded
      = [[(7, -1, 1), (0, 0, 1), (2, 1, 1)], [(2, 0, 1)]] ∧
    fillIndexOf keys_cache = 0 ∧ fillIndexOf keys_loaded = 3 ∧
    (∀ k1 k2 e1 e2, fillIndexOf keys_cache ≤ k1 → k1 < fillIndexOf keys_loaded →
      fillIndexOf keys_cache ≤ k2 → k2 < fillIndexOf keys_loaded →
      cacheEntryAt keys_loaded k1 = some e1 → cacheEntryAt keys_loaded k2 = some e2 →
      e1.sampleIndex = e2.sampleIndex → e1.eventIndex = e2.eventIndex → k1 = k2) :=
  ⟨⟨List.cons_ne_nil _ _, Option.some_ne_none _, keys_cache_distinct, rfl⟩,
    by decide, by decide, by decide, by decide,
    (load_cache_keys gap keys_cache keys_loaded (List.cons_ne_nil _ _) (Option.some_ne_none _)
      keys_cache_distinct rfl).2.2.2⟩

/-! ## Storage order in the single-threaded fill pass -/

theorem entryOrder_mono (d : Dispenser) (O bound bound' : Nat → Nat) (c : Cache)
    (hb : ∀ s, bound s ≤ bound' s) (h : EntryOrder d O bound c) : EntryOrder d O bound' c := by
  refine ⟨fun s i h1 h2 => ?_, h.2⟩
  obtain ⟨ev, iEntry, q1, q3, q4⟩ := h.1 s i h1 h2
  exact ⟨ev, iEntry, q1, q3, Nat.lt_of_lt_of_le q4 (hb s)⟩

/-- A stored event keeps the order invariant when the sample had no event of this entry or of a
later one. -/
theorem entryOrder_store (d : Dispenser) (O bound bound' : Nat → Nat) (iEntry iSample : Nat)
    (tl tl' : ThreadLocals) (c c' : Cache) (hinv : EntryOrder d O bound c)
    (h : fillSample d iEntry iSample tl c = .ok (true, tl', c'))
    (hb : ∀ s, bound s ≤ bound' s) (hlo : bound iSample ≤ iEntry)
    (hhi : iEntry < bound' iSample) : EntryOrder d O bound' c' := by
  obtain ⟨sample, iBin, _, _, _, htl, _⟩ := fillSample_ok_true d iEntry iSample tl tl' c c' h
  obtain ⟨sample1, idx, slot, _, _, _, hoffD, _, _, hev, hother, hoffs, _, _, _, _⟩ :=
    fillSample_store d iEntry iSample tl tl' c c' h
  subst hoffD
  have hold : ∀ s i, i < offsetOf c' s → ¬ (s = iSample ∧ i = offsetOf c iSample) →
      i < offsetOf c s := by
    intro s i hi hne
    rw [hoffs s] at hi
    by_cases hs : s = iSample
    · subst hs
      rw [if_pos rfl] at hi
      have : i ≠ offsetOf c s := fun hh => hne ⟨rfl, hh⟩
      omega
    · rw [if_neg hs] at hi
      exact hi
  refine ⟨fun s i h1 h2 => ?_, fun s i j ei ej h1 h2 h3 hi hj => ?_⟩
  · by_cases hnew : s = iSample ∧ i = offsetOf c iSample
    · obtain ⟨hs, hi⟩ := hnew
      subst hs
      subst hi
      exact ⟨_, iEntry, hev, rfl, hhi⟩
    · obtain ⟨ev, e, q1, q3, q4⟩ := hinv.1 s i h1 (hold s i h2 hnew)
      exact ⟨ev, e, (hother s i hnew).trans q1, q3, Nat.lt_of_lt_of_le q4 (hb s)⟩
  · have hilt : i < offsetOf c' s := Nat.lt_trans h2 h3
    by_cases hnew : s = iSample ∧ j = offsetOf c iSample
    · obtain ⟨hs, hjn⟩ := hnew
      subst hs
      subst hjn
      have hine : ¬ (s = s ∧ i = offsetOf c s) := fun hh => by omega
      rw [hother s i hine] at hi
      obtain ⟨ev, e, q1, q3, q4⟩ := hinv.1 s i h1 h2
      rw [hi] at q1
      cases q1
      rw [hev] at hj
      cases hj
      rw [q3]
      show (e : Int) < (iEntry : Int)
      exact Int.ofNat_lt.mpr (Nat.lt_of_lt_of_le q4 hlo)
    · have hjold : j < offsetOf c s := hold s j h3 hnew
      have hine : ¬ (s = iSample ∧ i = offsetOf c iSample) := by
        rintro ⟨hs, hi'⟩
        subst hs
        omega
      rw [hother s i hine] at hi
      rw [hother s j hnew] at hj
      exact hinv.2 s i j ei ej h1 h2 hjold hi hj

/-- One turn of the entry loop keeps the order invariant and moves the bound past the entry. -/
theorem fillEntry_entryOrder (d : Dispenser) (O : Nat → Nat) (nSample iEntry : Nat)
    (st st' : ThreadLocals × Cache) (hinv : EntryOrder d O (fun _ => iEntry) st.2)
    (h : fillEntry d nSample st iEntry = .ok st') :
    EntryOrder d O (fun _ => iEntry + 1) st'.2 := by
  have hweak : ∀ (b : Nat → Nat) (x : Cache), (∀ s, b s ≤ iEntry + 1) → EntryOrder d O b x →
      EntryOrder d O (fun _ => iEntry + 1) x :=
    fun b x hb hx => entryOrder_mono d O b _ x hb hx
  have hsamples : ∀ (row : List Bool) (s s' : ThreadLocals × Cache),
      EntryOrder d O (fun _ => iEntry) s.2 →
      fillSamples d iEntry row (List.range nSample) s = .ok s' →
      EntryOrder d O (fun _ => iEntry + 1) s'.2 := by
    intro row s s' hs hf
    refine fillSamples_invariant d iEntry row
      (fun rest x => rest.Nodup ∧
        EntryOrder d O (fun s => if s ∈ rest then iEntry else iEntry + 1) x.2)
      (fun x => EntryOrder d O (fun _ => iEntry + 1) x.2) ?_ ?_ ?_ ?_
      (List.range nSample) s s' ⟨List.nodup_range nSample, ?_⟩ hf
    · intro x hx
      exact hweak _ _ (fun s => by split <;> omega) hx.2
    · intro j rest x _ hx
      refine ⟨(List.nodup_cons.mp hx.1).2, entryOrder_mono d O _ _ _ (fun s => ?_) hx.2⟩
      by_cases h1 : s ∈ rest
      · rw [if_pos (List.mem_cons_of_mem _ h1), if_pos h1]
      · rw [if_neg h1]
        split <;> omega
    · intro j rest tl c tl' _ hx _
      exact hweak _ _ (fun s => by split <;> omega) hx.2
    · intro j rest tl c tl' c' _ hx hfs
      have hnd := List.nodup_cons.mp hx.1
      refine ⟨hnd.2, entryOrder_store d O _ _ iEntry j tl tl' c c' hx.2 hfs (fun s => ?_) ?_ ?_⟩
      · by_cases h1 : s ∈ rest
        · rw [if_pos (List.mem_cons_of_mem _ h1), if_pos h1]
        · rw [if_neg h1]
          split <;> omega
      · rw [if_pos (List.mem_cons_self _ _)]
      · rw [if_neg hnd.1]
        exact Nat.lt_succ_self _
    · exact entryOrder_mono d O _ _ _ (fun s => by split <;> omega) hs
  unfold fillEntry at h
  cases hrow : st.2.eventIsInSamplesList[iEntry]? with
  | none => rw [hrow] at h; simp at h
  | some row =>
    rw [hrow] at h
    simp only at h
    by_cases hskip : (!row.contains true) = true
    · rw [if_pos hskip] at h
      simp only [Except.ok.injEq] at h
      subst h
      exact hweak _ _ (fun _ => Nat.le_succ _) hinv
    · rw [if_neg hskip] at h
      cases hw : d.nominalWeightFormula with
      | none =>
        rw [hw] at h
        exact hsamples row st st' hinv h
      | some weight =>
        rw [hw] at h
        simp only at h
        by_cases hn : weight iEntry < 0
        · rw [if_pos hn] at h
          simp at h
        · rw [if_neg hn] at h
          by_cases hz : weight iEntry = 0
          · rw [if_pos hz] at h
            simp only [Except.ok.injEq] at h
            subst h
            exact hweak _ _ (fun _ => Nat.le_succ _) hinv
          · rw [if_neg hz] at h
            refine hsamples row _ st' ?_ h
            exact hinv

/-- The single-threaded fill pass keeps the order invariant: the entries are visited in
increasing order. -/
theorem fillFunction_entryOrder (d : Dispenser) (iThread : Int) (c2 c3 : Cache)
    (h : fillFunction d iThread c2 = .ok c3) :
    ∃ bound, EntryOrder d (offsetOf c2) (fun _ => bound) c3 := by
  have hloop : ∀ (nSample : Nat) (entries : List Nat) (st st' : ThreadLocals × Cache),
      (∃ e k, entries = List.range' e k ∧ EntryOrder d (offsetOf c2) (fun _ => e) st.2) →
      foldlExcept (fillEntry d nSample) st entries = .ok st' →
      ∃ e k, ([] : List Nat) = List.range' e k ∧
        EntryOrder d (offsetOf c2) (fun _ => e) st'.2 := by
    intro nSample entries st st' hst hf
    refine foldlExcept_invariant (fillEntry d nSample)
      (fun rest x => ∃ e k, rest = List.range' e k ∧
        EntryOrder d (offsetOf c2) (fun _ => e) x.2) ?_ entries st st' hst hf
    intro a rest s s' ⟨e, k, hr, hq⟩ hstep
    cases k with
    | zero => simp [List.range'] at hr
    | succ k =>
      rw [List.range'_succ] at hr
      injection hr with ha hrest
      subst ha
      exact ⟨a + 1, k, hrest, fillEntry_entryOrder d _ nSample a s s' hq hstep⟩
  unfold fillFunction at h
  simp only at h
  split at h
  · simp at h
  · rename_i st hst
    simp only [Except.ok.injEq] at h
    subst h
    obtain ⟨e, _, _, hq⟩ := hloop _ _ _ st
      ⟨_, _, rfl, ⟨fun s i h1 h2 => absurd h2 (Nat.not_lt.mpr h1),
        fun s i j _ _ h1 h2 h3 _ _ => absurd (Nat.lt_trans h2 h3) (Nat.not_lt.mpr h1)⟩⟩ hst
    exact ⟨e, hq⟩

theorem runFillThreads_single (d : Dispenser) (c : Cache) (hsingle : fillThreads d = 1) :
    runFillThreads d c = fillFunction d (-1) c := by
  unfold runFillThreads
  unfold fillThreads at hsingle
  by_cases hcond : (!d.devSingleThreadEventLoaderAndIndexer && decide (d.nThreads > 1)) = true
  · rw [if_pos hcond] at hsingle
    simp only [Bool.and_eq_true, decide_eq_true_eq] at hcond
    omega
  · rw [if_neg hcond]

/-! ## Counts and membership table of the selection pass -/

/-- Claim C24. On the cache cleared by `load`, whatever the number of workers (as long as their
ranges cut the entries into contiguous ranges), `doEventSelection` returns and leaves one count
per sample to fill, and the count of sample `s` is the number of source entries `e` whose cell
`eventIsInSamplesList[e][s]` is true. -/
theorem doEventSelection_counts_match_table (d : Dispenser) (c : Cache)
    (hn : 0 < d.nEntries) (hT : 0 < selectionThreads d)
    (hpart : ContiguousRanges
      (fun i => d.getThreadBoundIndices i (selectionThreads d) d.nEntries)
      (selectionThreads d) d.nEntries) :
    ∃ c', doEventSelection d c.clear = .ok c' ∧
      c'.sampleNbOfEvents.length = c.samplesToFillList.length ∧
      c'.eventIsInSamplesList.length = d.nEntries ∧
      ∀ s, s < c.samplesToFillList.length →
        c'.sampleNbOfEvents[s]? = some
          ((List.range d.nEntries).countP (fun e => cellOf c'.eventIsInSamplesList e s)) := by
  refine ⟨_, doEventSelection_eq d c.clear hn hT hpart rfl rfl, ?_, ?_, ?_⟩
  · show (selectedCounts d c.samplesToFillList).length = _
    simp [selectedCounts]
  · exact length_tabulate2 _ _ _
  · intro s hs
    show (selectedCounts d c.samplesToFillList)[s]? = some
      ((List.range d.nEntries).countP (fun e => cellOf (selectedTable d c.samplesToFillList) e s))
    rw [countP_cellOf_selectedTable]
    have hlen : s < (selectedCounts d c.samplesToFillList).length := by
      simp [selectedCounts, hs]
    rw [List.getD_eq_getElem?_getD, List.getElem?_eq_getElem hlen]
    rfl

/-- Witness of `doEventSelection_counts_match_table`: Scenario A read by three workers; the
count of the sample is 3 and its column of the table is false, true, true, true. -/
theorem doEventSelection_counts_match_table_witness :
    (0 < (scenarioA_threads 3).nEntries ∧ 0 < selectionThreads (scenarioA_threads 3) ∧
      ContiguousRanges
        (fun i => (scenarioA_threads 3).getThreadBoundIndices i
          (selectionThreads (scenarioA_threads 3)) (scenarioA_threads 3).nEntries)
        (selectionThreads (scenarioA_threads 3)) (scenarioA_threads 3).nEntries) ∧
    (doEventSelection (scenarioA_threads 3) scenarioA_cache.clear).map
        (fun c => (c.sampleNbOfEvents, c.eventIsInSamplesList))
      = .ok ([3], [[false], [true], [true], [true]]) ∧
    ∃ c', doEventSelection (scenarioA_threads 3) scenarioA_cache.clear = .ok c' ∧
      c'.sampleNbOfEvents[0]? = some
        ((List.range 4).countP (fun e => cellOf c'.eventIsInSamplesList e 0)) :=
  ⟨⟨by decide, by decide, by decide⟩, rfl,
    (doEventSelection_counts_match_table (scenarioA_threads 3) scenarioA_cache
      (by decide) (by decide) (by decide)).imp
      (fun _ h => ⟨h.1, h.2.2.2 0 (by decide)⟩)⟩

/-! ## Capacity of the cache entries -/

theorem mapExcept_length {α β : Type} (f : α → Except Fatal β) :
    ∀ (l : List α) (bs : List β), mapExcept f l = .ok bs → bs.length = l.length := by
  intro l
  induction l with
  | nil =>
    intro bs h
    simp only [mapExcept, Except.ok.injEq] at h
    subst h
    rfl
  | cons x rest ih =>
    intro bs h
    unfold mapExcept at h
    cases hx : f x with
    | error e => rw [hx] at h; simp at h
    | ok y =>
      rw [hx] at h
      cases hr : mapExcept f rest with
      | error e => rw [hr] at h; simp at h
      | ok ys =>
        rw [hr] at h
        simp only [Except.ok.injEq] at h
        subst h
        simp only [List.length_cons, ih ys hr]

/-- What `preAllocateMemory` does with an attached event-dial cache: every collection of the
list goes through `preAllocateDialCollection`, and one cache entry per source entry is appended,
each with one dial slot per collection of the list. -/
theorem preAllocateMemory_cache (d : Dispenser) (c c2 : Cache) (cache : EventDialCache)
    (hcache : c.eventDialCacheRef = some cache) (h : preAllocateMemory d c = .ok c2) :
    mapExcept (preAllocateDialCollection d) c.dialCollectionsRefList
      = .ok c2.dialCollectionsRefList ∧
    c2.dialCollectionsRefList.length = c.dialCollectionsRefList.length ∧
    c2.eventDialCacheRef
      = some (cache.allocateCacheEntries d.nEntries c.dialCollectionsRefList.length) := by
  unfold preAllocateMemory at h
  simp only at h
  have hframe := foldl_reserveSample_frame d
    { c with sampleIndexOffsetList :=
        resize c.sampleIndexOffsetList c.samplesToFillList.length 0 }
    c.sampleNbOfEvents.length
  generalize List.foldl (reserveSample d) _ (List.range c.sampleNbOfEvents.length) = c1
    at h hframe
  have hcols : c1.dialCollectionsRefList = c.dialCollectionsRefList := hframe.1
  have hcr : c1.eventDialCacheRef = some cache := hframe.2.trans hcache
  rw [hcr] at h
  simp only at h
  by_cases hempty : c1.dialCollectionsRefList.isEmpty = true
  · rw [if_pos hempty] at h
    simp only [Except.ok.injEq] at h
    subst h
    have hnil : c.dialCollectionsRefList = [] := by
      rw [← hcols]
      exact List.isEmpty_iff.mp hempty
    have hnil1 : c1.dialCollectionsRefList = [] := List.isEmpty_iff.mp hempty
    refine ⟨?_, ?_, ?_⟩
    · show mapExcept (preAllocateDialCollection d) c.dialCollectionsRefList
        = .ok c1.dialCollectionsRefList
      rw [hnil, hnil1]
      rfl
    · show c1.dialCollectionsRefList.length = c.dialCollectionsRefList.length
      rw [hcols]
    · show some (cache.allocateCacheEntries d.nEntries 0) = _
      rw [hnil]
      rfl
  · rw [if_neg hempty] at h
    cases hm : mapExcept (preAllocateDialCollection d) c1.dialCollectionsRefList with
    | error e => rw [hm] at h; simp at h
    | ok collections =>
      rw [hm] at h
      simp only [Except.ok.injEq] at h
      subst h
      have hl := mapExcept_length _ _ _ hm
      rw [hcols] at hm hl
      exact ⟨hm, hl, by simp only [hl]⟩

theorem selectDialCollections_eq (isDatasetValid : DialCollection → Bool)
    (l : List DialCollection) : selectDialCollections isDatasetValid l = l.filter isDatasetValid := by
  have hgen : ∀ (l acc : List DialCollection),
      l.foldl (fun refList dc => if isDatasetValid dc then refList ++ [dc] else refList) acc
        = acc ++ l.filter isDatasetValid := by
    intro l
    induction l with
    | nil => intro acc; simp
    | cons x rest ih =>
      intro acc
      simp only [List.foldl_cons, ih]
      by_cases hx : isDatasetValid x = true
      · simp [hx, List.filter_cons]
      · simp [hx, List.filter_cons]
  unfold selectDialCollections
  rw [hgen]
  rfl

theorem appendedCacheEntries_allocate (c c2 : Cache) (cache : EventDialCache) (n m : Nat)
    (hcache : c.eventDialCacheRef = some cache)
    (h2 : c2.eventDialCacheRef = some (cache.allocateCacheEntries n m)) :
    appendedCacheEntries c c2 = List.replicate n { dials := List.replicate m {} } := by
  unfold appendedCacheEntries cacheEntries
  rw [h2, hcache]
  simp [EventDialCache.allocateCacheEntries]

/-- Claim C21, evaluated on the code. With the four collections of the dial fixture in the list,
the fourth of which is disabled, every cache entry `preAllocateMemory` appends has four dial
slots, while three collections of the list are enabled. -/
theorem preAllocateMemory_counts_disabled_collections :
    reservedCapacities oneEntry dials_cache = .ok [4] ∧
    dials_cache.dialCollectionsRefList.countP (fun dc => dc.enabled) = 3 :=
  ⟨rfl, by decide⟩

/-- Claim C21, amended. With an event-dial cache attached, `preAllocateMemory` appends one cache
entry per source entry, each with a dial list whose length is the number of collections of
`dialCollectionsRefList`, enabled or not. When the list is the selection `fetchRequestedLeaves`
makes, this is the number of collections valid for the dataset. It is at least the number of
enabled collections of the list, and equal to it when every collection of the list is enabled. -/
theorem preAllocateMemory_dial_capacity (d : Dispenser) (c c2 : Cache) (cache : EventDialCache)
    (hcache : c.eventDialCacheRef = some cache) (h : preAllocateMemory d c = .ok c2) :
    appendedCacheEntries c c2
      = List.replicate d.nEntries
          { dials := List.replicate c.dialCollectionsRefList.length {} } ∧
    (∀ (isDatasetValid : DialCollection → Bool) (dialCollectionList : List DialCollection),
      c.dialCollectionsRefList = selectDialCollections isDatasetValid dialCollectionList →
      c.dialCollectionsRefList.length = dialCollectionList.countP isDatasetValid) ∧
    c.dialCollectionsRefList.countP (fun dc => dc.enabled) ≤ c.dialCollectionsRefList.length ∧
    ((∀ dc ∈ c.dialCollectionsRefList, dc.enabled = true) →
      c.dialCollectionsRefList.length
        = c.dialCollectionsRefList.countP (fun dc => dc.enabled)) := by
  obtain ⟨_, _, h2⟩ := preAllocateMemory_cache d c c2 cache hcache h
  refine ⟨appendedCacheEntries_allocate c c2 cache _ _ hcache h2, ?_, List.countP_le_length _, ?_⟩
  · intro valid all hsel
    rw [hsel, selectDialCollections_eq, List.countP_eq_length_filter]
  · intro hall
    exact (List.countP_eq_length.mpr (fun dc hdc => hall dc hdc)).symm

/-- Witness of `preAllocateMemory_dial_capacity`: the dial fixture after the selection pass. -/
theorem preAllocateMemory_dial_capacity_witness :
    (dials_cache.eventDialCacheRef = some {} ∧
      preAllocateMemory oneEntry
        { dials_cache with sampleNbOfEvents := [1], eventIsInSamplesList := [[true]] }
        = .ok dials_ready) ∧
    appendedCacheEntries
        { dials_cache with sampleNbOfEvents := [1], eventIsInSamplesList := [[true]] }
        dials_ready
      = List.replicate 1 { dials := List.replicate 4 {} } :=
  ⟨⟨rfl, rfl⟩,
    (preAllocateMemory_dial_capacity oneEntry
      { dials_cache with sampleNbOfEvents := [1], eventIsInSamplesList := [[true]] }
      dials_ready {} rfl rfl).1⟩

/-! ## Variable positions cached in the dial bins -/

theorem findElementIndex_mem (name : String) :
    ∀ l : List String, name ∈ l →
      ∃ i : Nat, findElementIndex name l = (i : Int) ∧ i < l.length ∧ l[i]? = some name := by
  intro l
  induction l with
  | nil => intro h; simp at h
  | cons a rest ih =>
    intro h
    unfold findElementIndex
    by_cases ha : a = name
    · rw [if_pos ha]
      exact ⟨0, rfl, by simp, by simp [ha]⟩
    · rw [if_neg ha]
      have hrest : name ∈ rest := by
        rcases List.mem_cons.mp h with h1 | h1
        · exact absurd h1.symm ha
        · exact h1
      obtain ⟨i, hi, hlt, hget⟩ := ih hrest
      refine ⟨i + 1, ?_, by simp only [List.length_cons]; omega, by simpa using hget⟩
      simp only [hi]
      have hnn : ¬ ((i : Int) < 0) := by omega
      rw [if_neg hnn]
      push_cast
      rfl

/-- The index-based match on the positions `findElementIndex` gives in the name list of the
buffer is the name-based match, errors included. -/
theorem isDial2ValidFrom_eq_isBinValidFrom (buf : PhysicsEvent) :
    ∀ edges : List (String × (Rat × Rat)),
      isDial2ValidFrom buf (edges.map (fun e => e.2))
          (edges.map (fun e => findElementIndex e.1 buf.commonVarNameList))
        = isBinValidFrom buf edges := by
  intro edges
  induction edges with
  | nil => rfl
  | cons e rest ih =>
    obtain ⟨name, lowHigh⟩ := e
    simp only [List.map_cons, isDial2ValidFrom, isBinValidFrom, PhysicsEvent.getVarAsDouble]
    cases hv : buf.getVarAsDoubleAt (findElementIndex name buf.commonVarNameList) with
    | error err => rfl
    | ok v =>
      simp only
      split
      · rfl
      · exact ih

theorem preAllocateDialCollection_binned (d : Dispenser) (dc dc2 : DialCollection)
    (h : preAllocateDialCollection d dc = .ok dc2) (hb : dc2.binned = true) :
    dc.binned = true ∧
    dc2.dialBinSet = dc.dialBinSet.map (fun bin =>
      DataBin.mk bin.edges (bin.getVariableNameList.map
        (fun var => findElementIndex var d.varsRequestedForIndexing))) := by
  unfold preAllocateDialCollection at h
  by_cases hbin : dc.binned = true
  · rw [if_pos hbin] at h
    simp only [Except.ok.injEq] at h
    subst h
    exact ⟨hbin, rfl⟩
  · rw [if_neg hbin] at h
    by_cases hl : dc.globalDialLeafName ≠ ""
    · rw [if_pos hl] at h
      simp only [Except.ok.injEq] at h
      subst h
      exact absurd hb hbin
    · rw [if_neg hl] at h
      cases h

/-- Claim C22. Let the list of variables requested for indexing be the one `fetchRequestedLeaves`
builds from the dial collections of the cache (among others). After a `preAllocateMemory` that
returns with a cache attached, every bin of every binned collection of the list holds one cached
index per bin variable; the `k`-th index is a position `i` of the list of variables requested for
indexing, `0 <= i < size`, at which the `k`-th variable name of the bin stands (never `-1`); and
on every event buffer laid out on that list the index-based match `isDial2Valid` gives the
result of the name-based match `isBinValid` of the same bin. -/
theorem preAllocateMemory_dial_bin_indices (d : Dispenser) (p : LeafPolling) (c c2 : Cache)
    (cache : EventDialCache)
    (hreq : d.varsRequestedForIndexing = (fetchRequestedLeaves p).varsRequestedForIndexing)
    (hcols : c.dialCollectionsRefList = p.dialCollectionsRefList)
    (hcache : c.eventDialCacheRef = some cache) (h : preAllocateMemory d c = .ok c2) :
    ∀ dc2 ∈ c2.dialCollectionsRefList, dc2.binned = true → ∀ bin ∈ dc2.dialBinSet,
      bin.eventVarIndexCache.length = bin.getVariableNameList.length ∧
      (∀ (k : Nat) (name : String), bin.getVariableNameList[k]? = some name →
        ∃ i : Nat, bin.eventVarIndexCache[k]? = some (i : Int) ∧
          i < d.varsRequestedForIndexing.length ∧
          d.varsRequestedForIndexing[i]? = some name) ∧
      (∀ buf : PhysicsEvent, buf.commonVarNameList = d.varsRequestedForIndexing →
        isDial2Valid buf bin = isBinValid buf bin) := by
  obtain ⟨hm, _, _⟩ := preAllocateMemory_cache d c c2 cache hcache h
  intro dc2 hdc2 hb bin2 hbin2
  obtain ⟨dc, hdc, hpre⟩ := mapExcept_ok_image _ _ _ hm dc2 hdc2
  obtain ⟨_, hset⟩ := preAllocateDialCollection_binned d dc dc2 hpre hb
  rw [hset] at hbin2
  obtain ⟨bin, hbin, hbin2eq⟩ := List.mem_map.mp hbin2
  subst hbin2eq
  have hnamed : ∀ name, name ∈ bin.getVariableNameList → name ∈ d.varsRequestedForIndexing := by
    intro name hname
    rw [hreq, mem_fetchRequestedLeaves, mem_requestsBeforeTransforms]
    refine Or.inl (Or.inl ⟨dc, ?_, Or.inr (Or.inr ⟨bin, hbin, hname⟩)⟩)
    rw [← hcols]
    exact hdc
  refine ⟨?_, ?_, ?_⟩
  · simp [DataBin.getVariableNameList]
  · intro k name hk
    have hk' : bin.getVariableNameList[k]? = some name := hk
    have hmem : name ∈ bin.getVariableNameList := List.mem_iff_getElem?.mpr ⟨k, hk'⟩
    obtain ⟨i, hi, hlt, hget⟩ := findElementIndex_mem name _ (hnamed name hmem)
    refine ⟨i, ?_, hlt, hget⟩
    show (bin.getVariableNameList.map
      (fun var => findElementIndex var d.varsRequestedForIndexing))[k]? = some (i : Int)
    rw [List.getElem?_map, hk']
    simp only [Option.map_some', hi]
  · intro buf hbuf
    unfold isDial2Valid isBinValid
    have := isDial2ValidFrom_eq_isBinValidFrom buf bin.edges
    rw [hbuf] at this
    simpa [DataBin.getEdgesList, DataBin.getVariableNameList, List.map_map] using this

/-- Witness of `preAllocateMemory_dial_bin_indices`: with the requests `w`, `y`, `x` (in that
order) the bin over `w` caches the position 0 and the bin over `y` and `x` the positions 1
and 2. -/
theorem preAllocateMemory_dial_bin_indices_witness :
    (indices_source.varsRequestedForIndexing
        = (fetchRequestedLeaves indices_polling).varsRequestedForIndexing ∧
      indices_cache.dialCollectionsRefList = indices_polling.dialCollectionsRefList ∧
      indices_cache.eventDialCacheRef = some {} ∧
      preAllocateMemory indices_source indices_cache = .ok indices_ready) ∧
    indices_source.varsRequestedForIndexing = ["w", "y", "x"] ∧
    cachedIndices indices_ready = [[[0]], [[1, 2]]] ∧
    (∀ dc2 ∈ indices_ready.dialCollectionsRefList, dc2.binned = true → ∀ bin ∈ dc2.dialBinSet,
      ∀ buf : PhysicsEvent, buf.commonVarNameList = indices_source.varsRequestedForIndexing →
        isDial2Valid buf bin = isBinValid buf bin) :=
  ⟨⟨rfl, rfl, rfl, rfl⟩, by decide, by decide,
    fun dc2 hdc2 hb bin hbin =>
      ((preAllocateMemory_dial_bin_indices indices_source indices_polling indices_cache
        indices_ready {} rfl rfl rfl rfl) dc2 hdc2 hb bin hbin).2.2⟩

/-! ## The dial offset stays within the capacity of the cache entry -/

/-- Where the errors of the sample loop body come from: an index past the end of a list, a
variable the buffer does not hold, or the dial loop run on the claimed cache entry. -/
theorem fillSample_error_cases (d : Dispenser) (iEntry iSample : Nat) (tl : ThreadLocals)
    (c : Cache) (e : Fatal) (h : fillSample d iEntry iSample tl c = .error e) :
    e = .outOfRange ∨ e = .eventSlotOutOfRange ∨ e = .cacheEntryOutOfRange ∨ e = .varNotFound ∨
    ∃ (sample : FitSample) (cache : EventDialCache) (entry : IndexedEntry) (idx : Nat)
      (buf : PhysicsEvent),
      c.eventDialCacheRef = some cache ∧ cache.indexedCache[cache.fillIndex]? = some entry ∧
      indexDials buf (dialArrayIndex d iEntry) c.dialCollectionsRefList
        (DialIndexing.mk (IndexedEntry.mk sample.index (idx : Int) entry.dials) 0)
        = .error e := by
  unfold fillSample at h
  cases hs : c.samplesToFillList[iSample]? with
  | none =>
    simp only [hs, Except.error.injEq] at h
    exact Or.inl h.symm
  | some sample =>
    simp only [hs] at h
    split at h
    · simp at h
    · split at h
      · rename_i e' hf
        simp only [Except.error.injEq] at h
        subst h
        obtain ⟨b, _, hb⟩ := findIf_error _ _ _ hf
        exact Or.inr (Or.inr (Or.inr (Or.inl (isBinValidFrom_error _ _ _ hb))))
      · simp at h
      · split at h
        · rename_i iBin hbin e' hst
          simp only [Except.error.injEq] at h
          subst h
          unfold storeEvent at hst
          cases hidx : c.sampleIndexOffsetList[iSample]? with
          | none =>
            simp only [hidx, Except.error.injEq] at hst
            exact Or.inl hst.symm
          | some idx =>
            simp only [hidx] at hst
            cases hslot : (sample.container d.useMcContainer).eventList[idx]? with
            | none =>
              simp only [hslot, Except.error.injEq] at hst
              exact Or.inr (Or.inl hst.symm)
            | some slot =>
              simp only [hslot] at hst
              cases hcache : c.eventDialCacheRef with
              | none => simp [hcache] at hst
              | some cache =>
                simp only [hcache, Option.map_some', EventDialCache.fetchNextCacheEntry] at hst
                cases hentry : cache.indexedCache[cache.fillIndex]? with
                | none =>
                  simp only [hentry, Except.error.injEq] at hst
                  exact Or.inr (Or.inr (Or.inl hst.symm))
                | some entry =>
                  simp only [hentry] at hst
                  split at hst
                  · rename_i e2 hdial
                    simp only [Except.error.injEq] at hst
                    subst hst
                    exact Or.inr (Or.inr (Or.inr (Or.inr
                      ⟨sample, cache, entry, idx, _, rfl, hentry, hdial⟩)))
                  · simp at hst
        · simp at h

/-- The sample loop body never raises the "Negative nominal weight" error. -/
theorem fillSample_not_negative (d : Dispenser) (iEntry iSample : Nat) (tl : ThreadLocals)
    (c : Cache) : fillSample d iEntry iSample tl c ≠ .error .negativeNominalWeight := by
  intro h
  rcases fillSample_error_cases d iEntry iSample tl c _ h with h1 | h1 | h1 | h1 | h1
  · exact Fatal.noConfusion h1
  · exact Fatal.noConfusion h1
  · exact Fatal.noConfusion h1
  · exact Fatal.noConfusion h1
  · obtain ⟨_, _, _, _, _, _, _, hdial⟩ := h1
    rcases indexDials_error _ _ _ _ _ hdial with h2 | h2 | h2 | h2 <;> exact Fatal.noConfusion h2

/-- A turn of the entry loop raises the "Negative nominal weight" error exactly on an entry that
belongs to a sample and has a negative weight. -/
theorem fillEntry_negative_iff (d : Dispenser) (nSample : Nat) (st : ThreadLocals × Cache)
    (iEntry : Nat) (w : TreeFormula) (hw : d.nominalWeightFormula = some w) :
    fillEntry d nSample st iEntry = .error .negativeNominalWeight ↔
      ∃ row, st.2.eventIsInSamplesList[iEntry]? = some row ∧ row.contains true = true ∧
        w iEntry < 0 := by
  constructor
  · intro h
    unfold fillEntry at h
    cases hrow : st.2.eventIsInSamplesList[iEntry]? with
    | none => rw [hrow] at h; simp at h
    | some row =>
      rw [hrow] at h
      simp only at h
      by_cases hskip : (!row.contains true) = true
      · rw [if_pos hskip] at h
        simp at h
      · rw [if_neg hskip] at h
        have hin : row.contains true = true := by
          cases hc : row.contains true with
          | true => rfl
          | false => rw [hc] at hskip; exact absurd rfl hskip
        rw [hw] at h
        simp only at h
        by_cases hn : w iEntry < 0
        · exact ⟨row, rfl, hin, hn⟩
        · rw [if_neg hn] at h
          by_cases hz : w iEntry = 0
          · rw [if_pos hz] at h
            simp at h
          · rw [if_neg hz] at h
            exfalso
            exact fillSamples_error d iEntry row (fun _ _ => True)
              (fun e => e = .negativeNominalWeight) (by simp)
              (fun _ _ _ _ _ => trivial) (fun _ _ _ _ _ _ _ _ _ => trivial)
              (fun j _ tl c e _ _ hf he => by
                subst he
                exact fillSample_not_negative d iEntry j tl c hf)
              _ _ _ trivial h rfl
  · rintro ⟨row, hrow, hin, hn⟩
    exact (fillEntry_nominal_weight d nSample st iEntry row w hrow hin hw).1 hn

/-- A loop over consecutive entries whose body may throw stops with an error exactly when the
body throws it on some entry after having run on all the entries before. -/
theorem foldlExcept_range_error_iff {σ : Type} (f : σ → Nat → Except Fatal σ) (err : Fatal) :
    ∀ (k a : Nat) (s : σ),
      foldlExcept f s (List.range' a k) = .error err ↔
        ∃ (e : Nat) (s' : σ), a ≤ e ∧ e < a + k ∧
          foldlExcept f s (List.range' a (e - a)) = .ok s' ∧ f s' e = .error err := by
  intro k
  induction k with
  | zero =>
    intro a s
    constructor
    · intro h; simp [foldlExcept] at h
    · rintro ⟨e, _, h1, h2, _⟩; omega
  | succ k ih =>
    intro a s
    rw [List.range'_succ]
    constructor
    · intro h
      unfold foldlExcept at h
      cases h1 : f s a with
      | error e1 =>
        rw [h1] at h
        simp only [Except.error.injEq] at h
        subst h
        refine ⟨a, s, Nat.le_refl _, by omega, ?_, h1⟩
        rw [Nat.sub_self]
        rfl
      | ok s1 =>
        rw [h1] at h
        simp only at h
        obtain ⟨e, s', ha, hlt, hpre, hf⟩ := (ih (a + 1) s1).1 h
        refine ⟨e, s', by omega, by omega, ?_, hf⟩
        have : e - a = (e - (a + 1)) + 1 := by omega
        rw [this, List.range'_succ]
        unfold foldlExcept
        rw [h1]
        exact hpre
    · rintro ⟨e, s', ha, hlt, hpre, hf⟩
      unfold foldlExcept
      by_cases hea : e = a
      · subst hea
        rw [Nat.sub_self] at hpre
        simp only [List.range', foldlExcept, Except.ok.injEq] at hpre
        subst hpre
        rw [hf]
      · have : e - a = (e - (a + 1)) + 1 := by omega
        rw [this, List.range'_succ] at hpre
        unfold foldlExcept at hpre
        cases h1 : f s a with
        | error e1 => rw [h1] at hpre; simp at hpre
        | ok s1 =>
          rw [h1] at hpre
          simp only at hpre ⊢
          exact (ih (a + 1) s1).2 ⟨e, s', by omega, by omega, hpre, hf⟩

/-- The entry loop keeps the membership table. -/
theorem entryLoop_table (d : Dispenser) (nSample : Nat) :
    ∀ (entries : List Nat) (st st' : ThreadLocals × Cache),
      foldlExcept (fillEntry d nSample) st entries = .ok st' →
      st'.2.eventIsInSamplesList = st.2.eventIsInSamplesList := by
  intro entries st st' h
  exact foldlExcept_invariant (fillEntry d nSample)
    (fun _ x => x.2.eventIsInSamplesList = st.2.eventIsInSamplesList)
    (fun a _ s s' hs hf =>
      (fillEntry_rule d nSample
        (fun x => x.eventIsInSamplesList = st.2.eventIsInSamplesList) (fun _ => False)
        (fun hf => hf) (fun hf => hf)
        (fun iEntry iSample tl tl' x x' hx hfs => by
          obtain ⟨_, _, _, _, _, _, _, _, _, _, _, _, _, _, ht, _⟩ :=
            fillSample_store d iEntry iSample tl tl' x x' hfs
          exact ht.trans hx)
        (fun _ _ _ _ _ _ _ hb => hb) s a hs).1 s' hf)
    entries st st' rfl h

theorem fillFunction_single_eq (d : Dispenser) (c : Cache)
    (hbounds : d.getThreadBoundIndices 0 1 d.nEntries = (0, d.nEntries)) :
    fillFunction d (-1) c =
      match foldlExcept (fillEntry d c.samplesToFillList.length) (threadLocals d, c)
          (List.range' 0 d.nEntries) with
      | .error e => .error e
      | .ok st => .ok st.2 := by
  unfold fillFunction
  simp only [if_true, hbounds, Nat.sub_zero]
  rfl

/-- Claim C27. With a nominal-weight formula and one fill worker whose range is the whole source,
the fill raises the fatal "Negative nominal weight" error exactly when some source entry that
the selection pass accepted into at least one sample has a negative weight and the entries
before it went through the fill without another fatal error. In particular the error implies
such an entry. An entry that belongs to no sample ends its turn at once, with the state
untouched, whatever its weight: the weight is not looked at and nothing is raised. -/
theorem runFillThreads_negative_weight (d : Dispenser) (c : Cache) (w : TreeFormula)
    (hw : d.nominalWeightFormula = some w) (hsingle : fillThreads d = 1)
    (hbounds : d.getThreadBoundIndices 0 1 d.nEntries = (0, d.nEntries)) :
    (runFillThreads d c = .error .negativeNominalWeight ↔
      ∃ (e : Nat) (st : ThreadLocals × Cache) (row : List Bool), e < d.nEntries ∧
        foldlExcept (fillEntry d c.samplesToFillList.length) (threadLocals d, c)
          (List.range' 0 e) = .ok st ∧
        c.eventIsInSamplesList[e]? = some row ∧ row.contains true = true ∧ w e < 0) ∧
    (runFillThreads d c = .error .negativeNominalWeight →
      ∃ (e : Nat) (row : List Bool), e < d.nEntries ∧
        c.eventIsInSamplesList[e]? = some row ∧ row.contains true = true ∧ w e < 0) ∧
    (∀ (nSample : Nat) (st : ThreadLocals × Cache) (e : Nat) (row : List Bool),
      st.2.eventIsInSamplesList[e]? = some row → row.contains true = false →
      fillEntry d nSample st e = .ok st) := by
  have hiff : runFillThreads d c = .error .negativeNominalWeight ↔
      ∃ (e : Nat) (st : ThreadLocals × Cache) (row : List Bool), e < d.nEntries ∧
        foldlExcept (fillEntry d c.samplesToFillList.length) (threadLocals d, c)
          (List.range' 0 e) = .ok st ∧
        c.eventIsInSamplesList[e]? = some row ∧ row.contains true = true ∧ w e < 0 := by
    rw [runFillThreads_single d c hsingle, fillFunction_single_eq d c hbounds]
    have hloop := foldlExcept_range_error_iff (fillEntry d c.samplesToFillList.length)
      .negativeNominalWeight d.nEntries 0 (threadLocals d, c)
    constructor
    · intro h
      have h' : foldlExcept (fillEntry d c.samplesToFillList.length) (threadLocals d, c)
          (List.range' 0 d.nEntries) = .error .negativeNominalWeight := by
        cases hr : foldlExcept (fillEntry d c.samplesToFillList.length) (threadLocals d, c)
            (List.range' 0 d.nEntries) with
        | error e =>
          rw [hr] at h
          simp only [Except.error.injEq] at h
          rw [h]
        | ok s => rw [hr] at h; simp at h
      obtain ⟨e, st, _, hlt, hpre, hf⟩ := hloop.1 h'
      rw [Nat.sub_zero] at hpre
      obtain ⟨row, hrow, hin, hn⟩ := (fillEntry_negative_iff d _ st e w hw).1 hf
      have ht := entryLoop_table d _ _ _ _ hpre
      rw [ht] at hrow
      exact ⟨e, st, row, by omega, hpre, hrow, hin, hn⟩
    · rintro ⟨e, st, row, hlt, hpre, hrow, hin, hn⟩
      have ht := entryLoop_table d _ _ _ _ hpre
      have hf : fillEntry d c.samplesToFillList.length st e = .error .negativeNominalWeight :=
        (fillEntry_negative_iff d _ st e w hw).2 ⟨row, by rw [ht]; exact hrow, hin, hn⟩
      rw [hloop.2 ⟨e, st, Nat.zero_le _, by omega, by rw [Nat.sub_zero]; exact hpre, hf⟩]
  refine ⟨hiff, ?_, ?_⟩
  · intro h
    obtain ⟨e, _, row, h1, _, h3, h4, h5⟩ := hiff.1 h
    exact ⟨e, row, h1, h3, h4, h5⟩
  · intro nSample st e row hrow hin
    unfold fillEntry
    rw [hrow]
    simp only [hin, Bool.not_false, if_true]

/-- Witness of `runFillThreads_negative_weight`, on Scenario B (weights `w = [1, 0, -1]`, one
sample that accepts every entry): the entries 0 and 1 go through the fill, the entry 2 is
accepted and has a negative weight, and the fill raises the error. On Scenario A with the
weights `[-1, 1, 1, 1]` the only negative weight sits on the entry the selection rejects, and
the load returns with the three other entries stored. -/
theorem runFillThreads_negative_weight_witness :
    (scenarioB.nominalWeightFormula = some scenarioB_w ∧ fillThreads scenarioB = 1 ∧
      scenarioB.getThreadBoundIndices 0 1 scenarioB.nEntries = (0, scenarioB.nEntries)) ∧
    runFillThreads scenarioB scenarioB_ready = .error .negativeNominalWeight ∧
    (load scenarioA_weighted scenarioA_cache).map
        (fun c => (c.eventIsInSamplesList, storedEvents scenarioA_weighted c))
      = .ok ([[false], [true], [true], [true]], [[(1, 0, 1), (2, 1, 1), (3, 1, 1)]]) :=
  ⟨⟨rfl, rfl, rfl⟩,
    (runFillThreads_negative_weight scenarioB scenarioB_ready scenarioB_w rfl rfl rfl).1.2
      ⟨2, scenarioB_afterTwo, [true], by decide, rfl, rfl, rfl, by decide⟩,
    rfl⟩

/-! ## What the fill stores -/

/-- Entry-aware invariant rule for one turn of the entry loop: the step may use that the entry
belongs to the sample in the membership table and that, with a nominal-weight formula, the
weight of the entry is strictly positive and sits in the indexing buffer. -/
theorem fillEntry_rule_entry (d : Dispenser) (nSample : Nat) (P : Cache → Prop)
    (hstep : ∀ (iEntry iSample : Nat) (tl tl' : ThreadLocals) (x x' : Cache) (row : List Bool),
      P x → x.eventIsInSamplesList[iEntry]? = some row → row[iSample]? = some true →
      (∀ w, d.nominalWeightFormula = some w →
        0 < w iEntry ∧ tl.eventIndexingBuffer.baseWeight = w iEntry) →
      fillSample d iEntry iSample tl x = .ok (true, tl', x') → P x')
    (st st' : ThreadLocals × Cache) (iEntry : Nat) (hP : P st.2)
    (h : fillEntry d nSample st iEntry = .ok st') : P st'.2 := by
  have hsamples : ∀ (row : List Bool) (s : ThreadLocals × Cache),
      st.2.eventIsInSamplesList[iEntry]? = some row → s.2 = st.2 →
      (∀ w, d.nominalWeightFormula = some w →
        0 < w iEntry ∧ s.1.eventIndexingBuffer.baseWeight = w iEntry) →
      fillSamples d iEntry row (List.range nSample) s = .ok st' → P st'.2 := by
    intro row s hrow hs hw hf
    refine fillSamples_invariant d iEntry row
      (fun _ x => P x.2 ∧ x.2.eventIsInSamplesList = st.2.eventIsInSamplesList ∧
        ∀ w, d.nominalWeightFormula = some w →
          0 < w iEntry ∧ x.1.eventIndexingBuffer.baseWeight = w iEntry)
      (fun x => P x.2) (fun _ hx => hx.1) (fun _ _ _ _ hx => hx)
      (fun _ _ _ _ _ _ hx _ => hx.1) ?_ (List.range nSample) s st'
      ⟨by rw [hs]; exact hP, by rw [hs], hw⟩ hf
    intro j rest tl x tl' x' hj ⟨hx, ht, hwx⟩ hfs
    obtain ⟨_, _, _, _, _, htl, _⟩ := fillSample_ok_true d iEntry j tl tl' x x' hfs
    obtain ⟨_, _, _, _, _, _, _, _, _, _, _, _, _, _, htable, _⟩ :=
      fillSample_store d iEntry j tl tl' x x' hfs
    refine ⟨hstep iEntry j tl tl' x x' row hx (by rw [ht]; exact hrow) hj hwx hfs,
      htable.trans ht, fun w hw' => ?_⟩
    obtain ⟨h1, h2⟩ := hwx w hw'
    refine ⟨h1, ?_⟩
    rw [htl]
    show (loadIndexingBuffer d iEntry tl).eventIndexingBuffer.baseWeight = w iEntry
    rw [loadIndexingBuffer_baseWeight]
    exact h2
  unfold fillEntry at h
  cases hrow : st.2.eventIsInSamplesList[iEntry]? with
  | none => rw [hrow] at h; simp at h
  | some row =>
    rw [hrow] at h
    simp only at h
    by_cases hskip : (!row.contains true) = true
    · rw [if_pos hskip] at h
      simp only [Except.ok.injEq] at h
      subst h
      exact hP
    · rw [if_neg hskip] at h
      cases hw : d.nominalWeightFormula with
      | none =>
        rw [hw] at h
        exact hsamples row st hrow rfl (fun w hw' => by rw [hw] at hw'; cases hw') h
      | some weight =>
        rw [hw] at h
        simp only at h
        by_cases hn : weight iEntry < 0
        · rw [if_pos hn] at h
          simp at h
        · rw [if_neg hn] at h
          by_cases hz : weight iEntry = 0
          · rw [if_pos hz] at h
            simp only [Except.ok.injEq] at h
            subst h
            exact hP
          · rw [if_neg hz] at h
            refine hsamples row _ hrow ?_ ?_ h
            · rfl
            · intro w hw'
              rw [hw] at hw'
              cases hw'
              exact ⟨lt_of_le_of_ne (not_lt.mp hn) (Ne.symm hz), rfl⟩

/-- Entry-aware invariant rule for the fill threads. -/
theorem runFillThreads_rule_entry (d : Dispenser) (P : Cache → Prop)
    (hstep : ∀ (iEntry iSample : Nat) (tl tl' : ThreadLocals) (x x' : Cache) (row : List Bool),
      P x → x.eventIsInSamplesList[iEntry]? = some row → row[iSample]? = some true →
      (∀ w, d.nominalWeightFormula = some w →
        0 < w iEntry ∧ tl.eventIndexingBuffer.baseWeight = w iEntry) →
      fillSample d iEntry iSample tl x = .ok (true, tl', x') → P x')
    (c c' : Cache) (hP : P c) (h : runFillThreads d c = .ok c') : P c' := by
  have hfun : ∀ (iThread : Int) (x x' : Cache), P x → fillFunction d iThread x = .ok x' →
      P x' := by
    intro iThread x x' hx hf
    unfold fillFunction at hf
    simp only at hf
    split at hf
    · simp at hf
    · rename_i st hst
      simp only [Except.ok.injEq] at hf
      subst hf
      exact foldlExcept_invariant (fillEntry d x.samplesToFillList.length) (fun _ s => P s.2)
        (fun a _ s s' hs hfe => fillEntry_rule_entry d _ P hstep s s' a hs hfe)
        _ _ st hx hst
  unfold runFillThreads at h
  split at h
  · exact foldlExcept_invariant (fun c iThread => fillFunction d (Int.ofNat iThread) c)
      (fun _ x => P x) (fun a _ s s' hs hf => hfun _ s s' hs hf) _ c c' hP h
  · exact hfun _ c c' hP h

theorem binning_store (c c' : Cache) (iSample : Nat) (sample : FitSample) (useMc : Bool)
    (x : SampleElement) (hs : c.samplesToFillList[iSample]? = some sample)
    (hc : c'.samplesToFillList = c.samplesToFillList.set iSample (sample.setContainer useMc x)) :
    ∀ s : Nat, binningAt c' s = binningAt c s := by
  intro s
  unfold binningAt
  rw [hc, List.getElem?_set]
  by_cases hsj : iSample = s
  · subst hsj
    have hlt : iSample < c.samplesToFillList.length := (List.getElem?_eq_some.mp hs).1
    simp only [hlt, if_true, hs]
    cases useMc <;> rfl
  · simp only [hsj, if_false]

/-- Claim C28, evaluated on the code. A sample with two bins, the histogram content 10 for the
first bin and 20 for the second. With an empty data container the two appended events carry the
bin indices 0 and 1 and the base weights 10 and 20. With one event already in the container (of
entry index 7, bin index `-1`, base weight 1) two events are appended as well, but they carry
the bin indices 1 and 2 (their positions in the event list, not the bins 0 and 1); the content
10 of the first bin is written on the former event, the first appended event gets the content
20 of the second bin and the second appended event keeps the base weight of the placeholder. -/
theorem loadFromHistContent_indexes_from_container_start :
    (loadFromHistContent hist_source hist_content (hist_cache 0)).map
        (fun c => (c.sampleNbOfEvents, c.sampleIndexOffsetList, storedEvents hist_source c))
      = .ok ([2], [0], [[(-1, 0, 10), (-1, 1, 20)]]) ∧
    (loadFromHistContent hist_source hist_content (hist_cache 1)).map
        (fun c => (c.sampleNbOfEvents, c.sampleIndexOffsetList, storedEvents hist_source c))
      = .ok ([2], [1], [[(7, -1, 10), (-1, 1, 20), (-1, 2, 1)]]) := by
  refine ⟨?_, ?_⟩ <;> rfl

namespace Propagator

theorem length_applyWhere {α : Type} (f : α → α) (test : Nat → Bool) :
    ∀ (v : List α) (start : Nat), (applyWhere f test start v).length = v.length := by
  intro v
  induction v with
  | nil => intro _; rfl
  | cons a rest ih => intro start; simp [applyWhere, ih]

theorem getElem?_applyWhere {α : Type} (f : α → α) (test : Nat → Bool) :
    ∀ (v : List α) (start i : Nat),
      (applyWhere f test start v)[i]?
        = (v[i]?).map (fun a => if test (start + i) then f a else a) := by
  intro v
  induction v with
  | nil => intro _ _; simp [applyWhere]
  | cons a rest ih =>
    intro start i
    cases i with
    | zero => simp [applyWhere]
    | succ i =>
      simp only [applyWhere, List.getElem?_cons_succ, ih]
      have : start + 1 + i = start + (i + 1) := by omega
      rw [this]

theorem applyWhere_true {α : Type} (f : α → α) (test : Nat → Bool) :
    ∀ (v : List α) (start : Nat), (∀ i, test i = true) → applyWhere f test start v = v.map f := by
  intro v
  induction v with
  | nil => intro _ _; rfl
  | cons a rest ih =>
    intro start h
    simp [applyWhere, h, ih (start + 1) h]

theorem applyWhere_false {α : Type} (f : α → α) (test : Nat → Bool) :
    ∀ (v : List α) (start : Nat), (∀ i, test i = false) → applyWhere f test start v = v := by
  intro v
  induction v with
  | nil => intro _ _; rfl
  | cons a rest ih =>
    intro start h
    simp [applyWhere, h, ih (start + 1) h]

theorem applyWhere_applyWhere {α : Type} (f : α → α) (p q : Nat → Bool)
    (hdisj : ∀ i, ¬ (p i = true ∧ q i = true)) :
    ∀ (v : List α) (start : Nat),
      applyWhere f q start (applyWhere f p start v)
        = applyWhere f (fun i => p i || q i) start v := by
  intro v
  induction v with
  | nil => intro _; rfl
  | cons a rest ih =>
    intro start
    simp only [applyWhere, ih]
    congr 1
    by_cases hp : p start = true
    · have hq : ¬ q start = true := fun hq => hdisj start ⟨hp, hq⟩
      rw [if_neg hq, if_pos hp, if_pos (by rw [hp]; rfl)]
    · by_cases hq : q start = true
      · rw [if_pos hq, if_neg hp, if_pos (by rw [hq]; simp)]
      · rw [if_neg hq, if_neg hp, if_neg (by simp [hp, hq])]

theorem toInt_of_le (n : Nat) (h : (n : Int) ≤ intMax) : toInt n = (n : Int) := by
  unfold toInt
  unfold intMax at h
  omega

/-- The strided loop from position `k`, with enough fuel and no `int` overflow: it returns, and
the function has been applied once at the positions `k, k + n, k + 2 n, ...` and nowhere else. -/
theorem stridedLoop_ok {α : Type} (f : α → α) (n N : Nat) (hn : 1 ≤ n)
    (hmax : (N : Int) + (n : Int) ≤ intMax) :
    ∀ (fuel k : Nat) (v : List α), v.length = N → N ≤ k + fuel →
      ∃ r, stridedLoop f (n : Int) (N : Int) fuel (k : Int) v = .ok r ∧ r.length = N ∧
        ∀ i, r[i]? = (v[i]?).map (fun a => if k ≤ i ∧ i % n = k % n then f a else a) := by
  have hdone : ∀ (k : Nat) (v : List α), v.length = N → N ≤ k →
      ∀ i, v[i]? = (v[i]?).map (fun a => if k ≤ i ∧ i % n = k % n then f a else a) := by
    intro k v hv hk i
    by_cases hi : i < v.length
    · rw [List.getElem?_eq_getElem hi]
      have : ¬ (k ≤ i ∧ i % n = k % n) := fun hh => by omega
      simp [this]
    · rw [List.getElem?_eq_none (Nat.le_of_not_lt hi)]
      rfl
  intro fuel
  induction fuel with
  | zero =>
    intro k v hv hk
    have hnot : ¬ ((k : Int) < (N : Int)) := by omega
    refine ⟨v, ?_, hv, hdone k v hv (by omega)⟩
    unfold stridedLoop
    rw [if_neg hnot]
  | succ fuel ih =>
    intro k v hv hk
    by_cases hlt : k < N
    · have hlt' : (k : Int) < (N : Int) := by omega
      have hnn : ¬ ((k : Int) < 0) := by omega
      have hget : v[k]? = some (v.get ⟨k, by omega⟩) := List.getElem?_eq_getElem (by omega)
      have hover : ¬ ((k : Int) + (n : Int) > intMax ∨ (k : Int) + (n : Int) < -intMax - 1) := by
        unfold intMax at hmax ⊢
        omega
      obtain ⟨r, hr, hlen, hspec⟩ := ih (k + n) (v.set k (f (v.get ⟨k, by omega⟩)))
        (by rw [List.length_set]; exact hv) (by omega)
      refine ⟨r, ?_, hlen, ?_⟩
      · unfold stridedLoop
        rw [if_pos hlt', if_neg hnn]
        simp only [Int.toNat_ofNat, hget]
        rw [if_neg hover]
        have hcast : (k : Int) + (n : Int) = ((k + n : Nat) : Int) := by push_cast; rfl
        rw [hcast]
        exact hr
      · intro i
        rw [hspec i]
        by_cases hik : i = k
        · subst hik
          rw [List.getElem?_set_self (by omega), hget]
          have h1 : ¬ (i + n ≤ i ∧ i % n = (i + n) % n) := fun hh => by omega
          simp only [Option.map_some']
          rw [if_neg h1, if_pos (by simp)]
        · rw [List.getElem?_set_ne (fun hh => hik hh.symm)]
          congr 1
          funext a
          have hmod : (k + n) % n = k % n := Nat.add_mod_right k n
          by_cases hc : k ≤ i ∧ i % n = k % n
          · have hki : k < i := lt_of_le_of_ne hc.1 (fun hh => hik hh.symm)
            have hdvd : n ∣ i - k := (Nat.modEq_iff_dvd' hc.1).mp hc.2.symm
            have hle : n ≤ i - k := Nat.le_of_dvd (by omega) hdvd
            have hc' : k + n ≤ i ∧ i % n = (k + n) % n := ⟨by omega, by rw [hmod]; exact hc.2⟩
            rw [if_pos hc, if_pos hc']
          · have hc' : ¬ (k + n ≤ i ∧ i % n = (k + n) % n) := by
              rintro ⟨h1, h2⟩
              exact hc ⟨by omega, by rw [← hmod]; exact h2⟩
            rw [if_neg hc, if_neg hc']
    · have hnot : ¬ ((k : Int) < (N : Int)) := by omega
      refine ⟨v, ?_, hv, hdone k v hv (by omega)⟩
      unfold stridedLoop
      rw [if_neg hnot]

/-- The strided loop of thread `t`, in closed form. -/
theorem stridedLoop_eq {α : Type} (f : α → α) (n t fuel : Nat) (v : List α) (hn : 1 ≤ n)
    (ht : t < n) (hmax : (v.length : Int) + (n : Int) ≤ intMax) (hfuel : v.length ≤ fuel) :
    stridedLoop f (n : Int) (toInt v.length) fuel (t : Int) v
      = .ok (applyWhere f (fun i => decide (i % n = t)) 0 v) := by
  have hN : toInt v.length = (v.length : Int) := by
    apply toInt_of_le
    have h0 : (0 : Int) ≤ (n : Int) := Int.ofNat_nonneg n
    exact le_trans (le_add_of_nonneg_right h0) hmax
  rw [hN]
  obtain ⟨r, hr, hlen, hspec⟩ := stridedLoop_ok f n v.length hn hmax fuel t v rfl (by omega)
  rw [hr]
  apply congrArg Except.ok
  apply List.ext_getElem?
  intro i
  rw [hspec i, getElem?_applyWhere]
  have hfun : (fun a => if t ≤ i ∧ i % n = t % n then f a else a)
      = (fun a => if decide ((0 + i) % n = t) = true then f a else a) := by
    funext a
    rw [Nat.zero_add, Nat.mod_eq_of_lt ht]
    by_cases hc : i % n = t
    · have hti : t ≤ i := by
        rw [← hc]
        exact Nat.mod_le i n
      rw [if_pos ⟨hti, hc⟩, if_pos (decide_eq_true hc)]
    · rw [if_neg (fun hh => hc hh.2), if_neg (by simp [hc])]
  rw [hfun]

theorem mapE_ok {α β : Type} (f : α → Except Fault β) (g : α → β) :
    ∀ l : List α, (∀ a ∈ l, f a = .ok (g a)) → mapE f l = .ok (l.map g) := by
  intro l
  induction l with
  | nil => intro _; rfl
  | cons a rest ih =>
    intro h
    unfold mapE
    rw [h a (List.mem_cons_self _ _), ih (fun x hx => h x (List.mem_cons_of_mem _ hx))]
    rfl

/-- The thread `t` of `n` reweights the events at the positions `i` with `i mod n = t`, once,
and no other event; the call returns with a fuel of the size of the largest event list. -/
theorem reweightSampleEvents_thread {Ev : Type} (reweight : Ev → Ev) (n t fuel : Nat)
    (samples : List (List Ev)) (hn : 1 ≤ n) (ht : t < n)
    (hmax : ∀ evList ∈ samples, (evList.length : Int) + (n : Int) ≤ intMax)
    (hfuel : ∀ evList ∈ samples, evList.length ≤ fuel) :
    reweightSampleEvents reweight fuel (n : Int) (t : Int) samples
      = .ok (samples.map (applyWhere reweight (fun i => decide (i % n = t)) 0)) := by
  unfold reweightSampleEvents
  have hne : ¬ ((t : Int) = -1) := by omega
  simp only [hne, if_false]
  exact mapE_ok _ _ _ (fun evList hev =>
    stridedLoop_eq reweight n t fuel evList hn ht (hmax evList hev) (hfuel evList hev))

/-- After the calls of the threads `0, ..., n - 1` every event of every sample has been
reweighted exactly once. -/
theorem reweightSampleEvents_all_threads {Ev : Type} (reweight : Ev → Ev) (n fuel : Nat)
    (samples : List (List Ev)) (hn : 1 ≤ n)
    (hmax : ∀ evList ∈ samples, (evList.length : Int) + (n : Int) ≤ intMax)
    (hfuel : ∀ evList ∈ samples, evList.length ≤ fuel) :
    runJob (reweightSampleEvents reweight fuel (n : Int)) n samples
      = .ok (samples.map (List.map reweight)) := by
  have hstep : ∀ m, m ≤ n →
      foldlE (fun s iThread => reweightSampleEvents reweight fuel (n : Int) (Int.ofNat iThread) s)
        samples (List.range m)
        = .ok (samples.map (applyWhere reweight (fun i => decide (i % n < m)) 0)) := by
    intro m
    induction m with
    | zero =>
      intro _
      simp only [List.range_zero, foldlE]
      congr 1
      rw [List.map_congr_left (fun v _ => applyWhere_false reweight _ v 0 (fun i => by simp)),
        List.map_id']
    | succ m ih =>
      intro hm
      have hfold : ∀ (l : List Nat) (s : List (List Ev)) (a : Nat) (s1 : List (List Ev)),
          foldlE (fun s iThread =>
            reweightSampleEvents reweight fuel (n : Int) (Int.ofNat iThread) s) s l = .ok s1 →
          foldlE (fun s iThread =>
            reweightSampleEvents reweight fuel (n : Int) (Int.ofNat iThread) s) s (l ++ [a])
            = reweightSampleEvents reweight fuel (n : Int) (Int.ofNat a) s1 := by
        intro l
        induction l with
        | nil =>
          intro s a s1 h
          simp only [foldlE, Except.ok.injEq] at h
          subst h
          simp only [List.nil_append, foldlE]
          cases reweightSampleEvents reweight fuel (n : Int) (Int.ofNat a) s <;> rfl
        | cons x rest ihl =>
          intro s a s1 h
          simp only [List.cons_append, foldlE] at h ⊢
          cases hx : reweightSampleEvents reweight fuel (n : Int) (Int.ofNat x) s with
          | error e => rw [hx] at h; simp at h
          | ok s2 =>
            rw [hx] at h
            simp only at h ⊢
            exact ihl s2 a s1 h
      rw [List.range_succ, hfold _ _ _ _ (ih (by omega))]
      have hmax' : ∀ evList ∈ samples.map (applyWhere reweight (fun i => decide (i % n < m)) 0),
          (evList.length : Int) + (n : Int) ≤ intMax := by
        intro evList hev
        obtain ⟨v, hv, hveq⟩ := List.mem_map.mp hev
        rw [← hveq, length_applyWhere]
        exact hmax v hv
      have hfuel' : ∀ evList ∈ samples.map (applyWhere reweight (fun i => decide (i % n < m)) 0),
          evList.length ≤ fuel := by
        intro evList hev
        obtain ⟨v, hv, hveq⟩ := List.mem_map.mp hev
        rw [← hveq, length_applyWhere]
        exact hfuel v hv
      have := reweightSampleEvents_thread reweight n m fuel _ hn (by omega) hmax' hfuel'
      rw [show (Int.ofNat m) = ((m : Nat) : Int) from rfl, this, List.map_map]
      congr 1
      apply List.map_congr_left
      intro v _
      simp only [Function.comp]
      rw [applyWhere_applyWhere reweight _ _ (fun i hh => by
        simp only [decide_eq_true_eq] at hh
        omega)]
      congr 1
      funext i
      rw [Bool.eq_iff_iff]
      simp only [Bool.or_eq_true, decide_eq_true_eq]
      omega
  unfold runJob
  rw [hstep n (Nat.le_refl n)]
  congr 1
  apply List.map_congr_left
  intro v _
  exact applyWhere_true reweight _ v 0 (fun i => by
    simp only [decide_eq_true_eq]
    exact Nat.mod_lt i (by omega))

end Propagator

namespace Propagator

end Propagator

namespace Propagator

/-- Whatever its thread index `t >= 0`, a call of `updateDialResponses` evaluates the dials at
the positions `0, n, 2 n, ...` and no other: the loop starts from `iDial{0}`. -/
theorem updateDialResponses_thread {D : Type} (evalResponse : D → D) (n t fuel : Nat)
    (dialsStack : List D) (hn : 1 ≤ n)
    (hmax : (dialsStack.length : Int) + (n : Int) ≤ intMax) (hfuel : dialsStack.length ≤ fuel) :
    updateDialResponses evalResponse fuel (n : Int) (t : Int) dialsStack
      = .ok (applyWhere evalResponse (fun i => decide (i % n = 0)) 0 dialsStack) := by
  unfold updateDialResponses
  have hne : ¬ ((t : Int) = -1) := by omega
  simp only [hne, if_false]
  exact stridedLoop_eq evalResponse n 0 fuel dialsStack hn (by omega) hmax hfuel

end Propagator

namespace Propagator

/-! ## Response functions -/

theorem length_updateWhere {α : Type} (g : Nat → α → α) (test : Nat → Bool) :
    ∀ (v : List α) (start : Nat), (updateWhere g test start v).length = v.length := by
  intro v
  induction v with
  | nil => intro _; rfl
  | cons a rest ih => intro start; simp [updateWhere, ih]

theorem getElem?_updateWhere {α : Type} (g : Nat → α → α) (test : Nat → Bool) :
    ∀ (v : List α) (start i : Nat),
      (updateWhere g test start v)[i]?
        = (v[i]?).map (fun a => if test (start + i) then g (start + i) a else a) := by
  intro v
  induction v with
  | nil => intro _ _; simp [updateWhere]
  | cons a rest ih =>
    intro start i
    cases i with
    | zero => simp [updateWhere]
    | succ i =>
      simp only [updateWhere, List.getElem?_cons_succ, ih]
      have : start + 1 + i = start + (i + 1) := by omega
      rw [this]

theorem updateWhere_false {α : Type} (g : Nat → α → α) (test : Nat → Bool) :
    ∀ (v : List α) (start : Nat), (∀ i, test i = false) → updateWhere g test start v = v := by
  intro v
  induction v with
  | nil => intro _ _; rfl
  | cons a rest ih =>
    intro start h
    simp [updateWhere, h, ih (start + 1) h]

theorem updateWhere_congr {α : Type} (g g' : Nat → α → α) (p q : Nat → Bool)
    (hpq : ∀ i, p i = q i) (hg : ∀ i a, p i = true → g i a = g' i a) :
    ∀ (v : List α) (start : Nat), updateWhere g p start v = updateWhere g' q start v := by
  intro v
  induction v with
  | nil => intro _; rfl
  | cons a rest ih =>
    intro start
    simp only [updateWhere, ih, ← hpq]
    by_cases hp : p start = true
    · rw [if_pos hp, if_pos hp, hg start a hp]
    · rw [if_neg hp, if_neg hp]

/-- Two updates on the same positions compose into the update by the composed function. -/
theorem updateWhere_comp {α : Type} (g1 g2 : Nat → α → α) (p : Nat → Bool) :
    ∀ (v : List α) (start : Nat),
      updateWhere g2 p start (updateWhere g1 p start v)
        = updateWhere (fun i a => g2 i (g1 i a)) p start v := by
  intro v
  induction v with
  | nil => intro _; rfl
  | cons a rest ih =>
    intro start
    simp only [updateWhere, ih]
    by_cases hp : p start = true
    · rw [if_pos hp, if_pos hp, if_pos hp]
    · rw [if_neg hp, if_neg hp, if_neg hp]

/-- Two updates on disjoint positions compose into the update on the union. -/
theorem updateWhere_union {α : Type} (g : Nat → α → α) (p q : Nat → Bool)
    (hdisj : ∀ i, ¬ (p i = true ∧ q i = true)) :
    ∀ (v : List α) (start : Nat),
      updateWhere g q start (updateWhere g p start v)
        = updateWhere g (fun i => p i || q i) start v := by
  intro v
  induction v with
  | nil => intro _; rfl
  | cons a rest ih =>
    intro start
    simp only [updateWhere, ih]
    congr 1
    by_cases hp : p start = true
    · have hq : ¬ q start = true := fun hq => hdisj start ⟨hp, hq⟩
      rw [if_neg hq, if_pos hp, if_pos (by rw [hp]; rfl)]
    · by_cases hq : q start = true
      · rw [if_pos hq, if_neg hp, if_pos (by rw [hq]; simp)]
      · rw [if_neg hq, if_neg hp, if_neg (by simp [hp, hq])]

/-- Writing one cell is the update at that position. -/
theorem set_eq_updateWhere {α : Type} (g : Nat → α → α) (v : List α) (b : Nat) (d : α) :
    v.set b (g b (v.getD b d)) = updateWhere g (fun i => decide (i = b)) 0 v := by
  apply List.ext_getElem?
  intro i
  rw [getElem?_updateWhere, Nat.zero_add]
  by_cases hib : i = b
  · subst hib
    by_cases hlt : i < v.length
    · rw [List.getElem?_set_self hlt, List.getElem?_eq_getElem hlt, List.getD_eq_getElem?_getD,
        List.getElem?_eq_getElem hlt]
      simp
    · rw [List.getElem?_eq_none (by rw [List.length_set]; omega),
        List.getElem?_eq_none (Nat.le_of_not_lt hlt)]
      rfl
  · rw [List.getElem?_set_ne (fun hh => hib hh.symm)]
    cases v[i]? with
    | none => rfl
    | some a => simp [hib]

theorem foldlE_ok {σ α : Type} (f : σ → α → Except Fault σ) (g : σ → α → σ) :
    ∀ (l : List α) (s : σ), (∀ s a, a ∈ l → f s a = .ok (g s a)) →
      foldlE f s l = .ok (l.foldl g s) := by
  intro l
  induction l with
  | nil => intro s _; rfl
  | cons a rest ih =>
    intro s h
    unfold foldlE
    rw [h s a (List.mem_cons_self _ _)]
    exact ih (g s a) (fun s' x hx => h s' x (List.mem_cons_of_mem _ hx))

end Propagator
namespace Propagator

theorem isThreadBin_eq (n t b : Nat) (hn : 1 ≤ n) :
    isThreadBin (n : Int) (t : Int) b = .ok (decide (b % n = t)) := by
  unfold isThreadBin
  have hne : ¬ ((n : Int) = 0) := by omega
  rw [if_neg hne]
  have hmod : Int.tmod (b : Int) (n : Int) = ((b % n : Nat) : Int) := rfl
  rw [hmod]
  congr 1
  apply decide_eq_decide.mpr
  exact Int.ofNat_inj

/-- With at least one thread the bin loop never faults: it is the plain loop over the bins of
the thread. -/
theorem forThreadBins_eq {α : Type} (n t : Nat) (hn : 1 ≤ n) (body : Nat → TH1D α → TH1D α)
    (h : TH1D α) :
    forThreadBins (n : Int) (t : Int) body h
      = .ok ((List.range' 1 h.GetNbinsX).foldl
          (fun h b => if b % n = t then body b h else h) h) := by
  unfold forThreadBins
  apply foldlE_ok
  intro s b _
  rw [isThreadBin_eq n t b hn]
  by_cases hb : b % n = t
  · simp [hb]
  · simp [hb]

/-- The loop over the bins `a, ..., a + k - 1` that sets the content of the bins of the thread
from their own content, in closed form. -/
theorem foldl_setBinContent {α : Type} (ops : DoubleOps α) (n t : Nat) (g : Nat → α → α) :
    ∀ (k a : Nat) (h : TH1D α), (k = 0 ∨ a + k ≤ h.binContent.length) →
      (List.range' a k).foldl
          (fun h b => if b % n = t then h.SetBinContent b (g b (h.GetBinContent ops b)) else h) h
        = { binContent := updateWhere g
              (fun b => decide (a ≤ b ∧ b < a + k) && decide (b % n = t)) 0 h.binContent,
            binError := h.binError } := by
  intro k
  induction k with
  | zero =>
    intro a h _
    simp only [List.range', List.foldl_nil]
    rw [updateWhere_false g _ _ 0 (fun i => by
      have : ¬ (a ≤ i ∧ i < a + 0) := fun hh => by omega
      simp [this])]
  | succ k ih =>
    intro a h hk
    have hlen : a + (k + 1) ≤ h.binContent.length := by
      rcases hk with h0 | h0
      · omega
      · exact h0
    rw [List.range'_succ, List.foldl_cons]
    by_cases hb : a % n = t
    · rw [if_pos hb]
      have hget : h.GetBinContent ops a = h.binContent.getD a ops.zero := by
        unfold TH1D.GetBinContent
        rw [Nat.min_eq_left (by omega)]
      have hstep : h.SetBinContent a (g a (h.GetBinContent ops a))
          = { binContent := updateWhere g (fun i => decide (i = a)) 0 h.binContent,
              binError := h.binError } := by
        unfold TH1D.SetBinContent
        rw [hget, set_eq_updateWhere]
      rw [hstep, ih (a + 1) _ (Or.inr (by simp only [length_updateWhere]; omega))]
      simp only
      rw [updateWhere_union g _ _ (fun i hh => by
        simp only [Bool.and_eq_true, decide_eq_true_eq] at hh
        omega)]
      congr 1
      apply updateWhere_congr
      · intro i
        rw [Bool.eq_iff_iff]
        simp only [Bool.or_eq_true, Bool.and_eq_true, decide_eq_true_eq]
        constructor
        · rintro (h1 | ⟨h1, h2⟩)
          · subst h1
            exact ⟨⟨Nat.le_refl _, by omega⟩, hb⟩
          · exact ⟨⟨by omega, by omega⟩, h2⟩
        · rintro ⟨⟨h1, h2⟩, h3⟩
          by_cases hia : i = a
          · exact Or.inl hia
          · exact Or.inr ⟨⟨by omega, by omega⟩, h3⟩
      · intro _ _ _; rfl
    · rw [if_neg hb, ih (a + 1) h (Or.inr (by omega))]
      congr 1
      apply updateWhere_congr
      · intro i
        rw [Bool.eq_iff_iff]
        simp only [Bool.and_eq_true, decide_eq_true_eq]
        constructor
        · rintro ⟨⟨h1, h2⟩, h3⟩
          exact ⟨⟨by omega, by omega⟩, h3⟩
        · rintro ⟨⟨h1, h2⟩, h3⟩
          have hia : i ≠ a := fun hh => hb (hh ▸ h3)
          exact ⟨⟨by omega, by omega⟩, h3⟩
      · intro _ _ _; rfl

/-- The loop over the bins `a, ..., a + k - 1` that sets the error of the bins of the thread
from their content, in closed form: the contents are left alone. -/
theorem foldl_setBinError {α : Type} (ops : DoubleOps α) (n t : Nat) :
    ∀ (k a : Nat) (h : TH1D α),
      (List.range' a k).foldl
          (fun h b => if b % n = t then h.SetBinError b (ops.sqrt (h.GetBinContent ops b)) else h)
          h
        = { binContent := h.binContent,
            binError := updateWhere (fun b _ => ops.sqrt (h.GetBinContent ops b))
              (fun b => decide (a ≤ b ∧ b < a + k) && decide (b % n = t)) 0 h.binError } := by
  intro k
  induction k with
  | zero =>
    intro a h
    simp only [List.range', List.foldl_nil]
    rw [updateWhere_false _ _ _ 0 (fun i => by
      have : ¬ (a ≤ i ∧ i < a + 0) := fun hh => by omega
      simp [this])]
  | succ k ih =>
    intro a h
    rw [List.range'_succ, List.foldl_cons]
    by_cases hb : a % n = t
    · rw [if_pos hb]
      have hstep : h.SetBinError a (ops.sqrt (h.GetBinContent ops a))
          = { binContent := h.binContent,
              binError := updateWhere (fun b _ => ops.sqrt (h.GetBinContent ops b))
                (fun i => decide (i = a)) 0 h.binError } := by
        unfold TH1D.SetBinError
        rw [← set_eq_updateWhere (fun b _ => ops.sqrt (h.GetBinContent ops b)) h.binError a
          ops.zero]
      rw [hstep, ih (a + 1) _]
      simp only
      have hsame : ∀ b, TH1D.GetBinContent ops
          { binContent := h.binContent,
            binError := updateWhere (fun b _ => ops.sqrt (h.GetBinContent ops b))
              (fun i => decide (i = a)) 0 h.binError } b = h.GetBinContent ops b := fun _ => rfl
      simp only [hsame]
      rw [updateWhere_union _ _ _ (fun i hh => by
        simp only [Bool.and_eq_true, decide_eq_true_eq] at hh
        omega)]
      congr 1
      apply updateWhere_congr
      · intro i
        rw [Bool.eq_iff_iff]
        simp only [Bool.or_eq_true, Bool.and_eq_true, decide_eq_true_eq]
        constructor
        · rintro (h1 | ⟨h1, h2⟩)
          · subst h1
            exact ⟨⟨Nat.le_refl _, by omega⟩, hb⟩
          · exact ⟨⟨by omega, by omega⟩, h2⟩
        · rintro ⟨⟨h1, h2⟩, h3⟩
          by_cases hia : i = a
          · exact Or.inl hia
          · exact Or.inr ⟨⟨by omega, by omega⟩, h3⟩
      · intro _ _ _; rfl
    · rw [if_neg hb, ih (a + 1) h]
      congr 1
      apply updateWhere_congr
      · intro i
        rw [Bool.eq_iff_iff]
        simp only [Bool.and_eq_true, decide_eq_true_eq]
        constructor
        · rintro ⟨⟨h1, h2⟩, h3⟩
          exact ⟨⟨by omega, by omega⟩, h3⟩
        · rintro ⟨⟨h1, h2⟩, h3⟩
          have hia : i ≠ a := fun hh => hb (hh ▸ h3)
          exact ⟨⟨by omega, by omega⟩, h3⟩
      · intro _ _ _; rfl

theorem mapE_map_ok {α β γ : Type} (f : β → Except Fault γ) (h : α → β) (g : α → γ) :
    ∀ l : List α, (∀ a ∈ l, f (h a) = .ok (g a)) → mapE f (l.map h) = .ok (l.map g) := by
  intro l
  induction l with
  | nil => intro _; rfl
  | cons a rest ih =>
    intro hall
    simp only [List.map_cons]
    unfold mapE
    rw [hall a (List.mem_cons_self _ _), ih (fun x hx => hall x (List.mem_cons_of_mem _ hx))]

theorem foldlE_flatten {σ α : Type} (f : σ → α → Except Fault σ) :
    ∀ (ll : List (List α)) (s : σ),
      foldlE (fun st l => foldlE f st l) s ll = foldlE f s ll.flatten := by
  have happ : ∀ (l1 l2 : List α) (s : σ),
      foldlE f s (l1 ++ l2) =
        match foldlE f s l1 with
        | .error e => .error e
        | .ok s1 => foldlE f s1 l2 := by
    intro l1
    induction l1 with
    | nil => intro l2 s; rfl
    | cons a rest ih =>
      intro l2 s
      simp only [List.cons_append, foldlE]
      cases f s a with
      | error e => rfl
      | ok s1 => exact ih l2 s1
  intro ll
  induction ll with
  | nil => intro s; rfl
  | cons l rest ih =>
    intro s
    simp only [List.flatten_cons, foldlE]
    rw [happ]
    cases foldlE f s l with
    | error e => rfl
    | ok s1 => exact ih s1

theorem threadBins_range {α : Type} (h : TH1D α) :
    h.GetNbinsX = 0 ∨ 1 + h.GetNbinsX ≤ h.binContent.length := by
  unfold TH1D.GetNbinsX
  omega

/-- The first loop on a sample, in closed form. -/
theorem resetToNominal_eq {α : Type} (ops : DoubleOps α) (n t : Nat) (hn : 1 ≤ n)
    (s : RfSample α) :
    resetToNominal ops (n : Int) (t : Int) s
      = .ok (withContent s (threadBins n t s.histogram)
          (fun b => s.nominalHistogram.GetBinContent ops b)) := by
  unfold resetToNominal
  rw [forThreadBins_eq n t hn]
  simp only
  rw [foldl_setBinContent ops n t (fun b _ => s.nominalHistogram.GetBinContent ops b) _ 1
    s.histogram (threadBins_range s.histogram)]
  rfl

theorem getNbinsX_withContent {α : Type} (s : RfSample α) (test : Nat → Bool) (A : Nat → α) :
    (withContent s test A).histogram.GetNbinsX = s.histogram.GetNbinsX := by
  unfold withContent TH1D.GetNbinsX
  simp only [length_updateWhere]

/-- The loop of one parameter on a sample whose bins of the thread hold the contents `A`, in
closed form: these contents are multiplied by `1 + x * rf[b]`. -/
theorem applyParameter_eq {α : Type} (ops : DoubleOps α) (n t k : Nat) (hn : 1 ≤ n) (x : α)
    (s : RfSample α) (A : Nat → α) (hk : k < s.responseFunctions.length) :
    applyParameter ops (n : Int) (t : Int) (k : Int) x
        (withContent s (threadBins n t s.histogram) A)
      = .ok (withContent s (threadBins n t s.histogram)
          (fun b => ops.mul (A b) (ops.add ops.one (ops.mul x (storedResponse ops s k b))))) := by
  unfold applyParameter
  have hnn : ¬ ((k : Int) < 0) := by omega
  rw [if_neg hnn]
  have hget : (withContent s (threadBins n t s.histogram) A).responseFunctions[(k : Int).toNat]?
      = some (s.responseFunctions.get ⟨k, hk⟩) := by
    simp only [Int.toNat_ofNat]
    exact List.getElem?_eq_getElem hk
  rw [hget]
  simp only
  rw [forThreadBins_eq n t hn]
  simp only
  have hrange := threadBins_range (withContent s (threadBins n t s.histogram) A).histogram
  rw [foldl_setBinContent ops n t
    (fun b c => ops.mul c (ops.add ops.one
      (ops.mul x ((s.responseFunctions.get ⟨k, hk⟩).GetBinContent ops b)))) _ 1 _ hrange]
  rw [getNbinsX_withContent]
  unfold withContent
  simp only
  have htest : (fun b => decide (1 ≤ b ∧ b < 1 + s.histogram.GetNbinsX) && decide (b % n = t))
      = threadBins n t s.histogram := rfl
  rw [htest, updateWhere_comp]
  have hsr : ∀ b, storedResponse ops s k b
      = (s.responseFunctions.get ⟨k, hk⟩).GetBinContent ops b := by
    intro b
    unfold storedResponse
    rw [List.getElem?_eq_getElem hk]
    rfl
  simp only [hsr]

/-- The loop over the parameters from the flat index `k`, on samples whose bins of the thread
hold the contents `A`: these contents are multiplied in turn by the factors of the
parameters. -/
theorem parameterLoop_eq {α : Type} (ops : DoubleOps α) (n t : Nat) (hn : 1 ≤ n)
    (samples : List (RfSample α)) :
    ∀ (rest : List (FitParameter α)) (k : Nat) (A : RfSample α → Nat → α),
      (∀ s ∈ samples, k + rest.length ≤ s.responseFunctions.length) →
      foldlE (applyParameterStep ops (n : Int) (t : Int))
          ((k : Int) - 1, samples.map (fun s => withContent s (threadBins n t s.histogram) (A s)))
          rest
        = .ok (((k + rest.length : Nat) : Int) - 1,
            samples.map (fun s => withContent s (threadBins n t s.histogram)
              (fun b => responseProduct ops s b k (A s b) rest))) := by
  intro rest
  induction rest with
  | nil =>
    intro k A _
    simp only [foldlE, List.length_nil, Nat.add_zero, responseProduct]
  | cons par rest ih =>
    intro k A hlen
    simp only [List.length_cons] at hlen
    have hstep : applyParameterStep ops (n : Int) (t : Int)
        ((k : Int) - 1, samples.map (fun s => withContent s (threadBins n t s.histogram) (A s)))
        par
        = .ok (((k + 1 : Nat) : Int) - 1,
            samples.map (fun s => withContent s (threadBins n t s.histogram)
              (fun b => if ops.isZero par.distanceFromNominal then A s b
                else ops.mul (A s b) (ops.add ops.one
                  (ops.mul par.distanceFromNominal (storedResponse ops s k b)))))) := by
      unfold applyParameterStep
      simp only
      have hipar : (k : Int) - 1 + 1 = (k : Int) := by omega
      have hnext : (k : Int) = ((k + 1 : Nat) : Int) - 1 := by push_cast; omega
      rw [hipar]
      by_cases hx : ops.isZero par.distanceFromNominal = true
      · rw [if_pos hx, ← hnext]
        simp only [hx, if_true]
      · rw [if_neg hx]
        rw [mapE_map_ok (applyParameter ops (n : Int) (t : Int) (k : Int) par.distanceFromNominal)
          (fun s => withContent s (threadBins n t s.histogram) (A s))
          (fun s => withContent s (threadBins n t s.histogram)
            (fun b => ops.mul (A s b) (ops.add ops.one
              (ops.mul par.distanceFromNominal (storedResponse ops s k b)))))
          samples (fun s hs => applyParameter_eq ops n t k hn _ s (A s)
            (by have := hlen s hs; omega))]
        simp only [hx, Bool.false_eq_true, if_false]
        rw [← hnext]
    unfold foldlE
    rw [hstep]
    simp only
    rw [ih (k + 1)
      (fun s b => if ops.isZero par.distanceFromNominal then A s b
        else ops.mul (A s b) (ops.add ops.one
          (ops.mul par.distanceFromNominal (storedResponse ops s k b))))
      (fun s hs => by have := hlen s hs; omega)]
    have hfinal : ((k + 1 + rest.length : Nat) : Int) = ((k + (rest.length + 1) : Nat) : Int) := by
      congr 1
      omega
    rw [hfinal]
    rfl

/-- The last loop on a sample, in closed form. -/
theorem setBinErrors_eq {α : Type} (ops : DoubleOps α) (n t : Nat) (hn : 1 ≤ n)
    (s : RfSample α) :
    setBinErrors ops (n : Int) (t : Int) s
      = .ok { s with histogram :=
          { binContent := s.histogram.binContent,
            binError := updateWhere (fun b _ => ops.sqrt (s.histogram.GetBinContent ops b))
              (threadBins n t s.histogram) 0 s.histogram.binError } } := by
  unfold setBinErrors
  rw [forThreadBins_eq n t hn]
  simp only
  rw [foldl_setBinError ops n t _ 1 s.histogram]
  rfl

theorem foldlE_append {σ α : Type} (f : σ → α → Except Fault σ) :
    ∀ (l1 l2 : List α) (s s1 : σ), foldlE f s l1 = .ok s1 →
      foldlE f s (l1 ++ l2) = foldlE f s1 l2 := by
  intro l1
  induction l1 with
  | nil =>
    intro l2 s s1 h
    simp only [foldlE, Except.ok.injEq] at h
    subst h
    rfl
  | cons a rest ih =>
    intro l2 s s1 h
    simp only [List.cons_append, foldlE] at h ⊢
    cases hx : f s a with
    | error e => rw [hx] at h; simp at h
    | ok s2 =>
      rw [hx] at h
      simp only at h ⊢
      exact ih l2 s2 s1 h

theorem responseProduct_congr {α : Type} (ops : DoubleOps α) (s s' : RfSample α) (b : Nat)
    (h : s'.responseFunctions = s.responseFunctions) :
    ∀ (l : List (FitParameter α)) (k : Nat) (content : α),
      responseProduct ops s' b k content l = responseProduct ops s b k content l := by
  intro l
  induction l with
  | nil => intro _ _; rfl
  | cons par rest ih =>
    intro k content
    simp only [responseProduct, ih (k + 1), storedResponse, h]

/-- A bin of the thread holds the content it was given. -/
theorem getBinContent_updateWhere {α : Type} (ops : DoubleOps α) (L : List α) (E : List α)
    (g : Nat → α → α) (test : Nat → Bool) (b : Nat) (hb : b + 1 < L.length) :
    TH1D.GetBinContent ops { binContent := updateWhere g test 0 L, binError := E } b
      = if test b then g b (L.getD b ops.zero) else L.getD b ops.zero := by
  unfold TH1D.GetBinContent
  simp only [length_updateWhere]
  rw [Nat.min_eq_left (by omega), List.getD_eq_getElem?_getD, getElem?_updateWhere,
    List.getD_eq_getElem?_getD, List.getElem?_eq_getElem (by omega : b < L.length)]
  simp only [Nat.zero_add, Option.map_some', Option.getD_some]

theorem threadBins_lt {α : Type} (n t : Nat) (h : TH1D α) (b : Nat)
    (hb : threadBins n t h b = true) : b + 1 < h.binContent.length := by
  unfold threadBins TH1D.GetNbinsX at hb
  simp only [Bool.and_eq_true, decide_eq_true_eq] at hb
  omega

/-- One call of `applyResponseFunctions` with at least one thread, in closed form: the bins of
the thread hold the content the claims give, the other cells are left alone. -/
theorem applyResponseFunctions_thread {α : Type} (ops : DoubleOps α) (n t : Nat) (hn : 1 ≤ n)
    (p : RfState α)
    (hrf : ∀ s ∈ p.fitSampleList,
      p.parameterSetsList.flatten.length ≤ s.responseFunctions.length) :
    applyResponseFunctions ops (n : Int) (t : Int) p
      = .ok (afterThreads ops p (fun s => threadBins n t s.histogram)) := by
  unfold applyResponseFunctions
  rw [mapE_ok (resetToNominal ops (n : Int) (t : Int))
    (fun s => withContent s (threadBins n t s.histogram)
      (fun b => s.nominalHistogram.GetBinContent ops b)) _
    (fun s _ => resetToNominal_eq ops n t hn s)]
  simp only
  rw [foldlE_flatten]
  have hinit : ((-1 : Int)) = ((0 : Nat) : Int) - 1 := rfl
  rw [hinit, parameterLoop_eq ops n t hn p.fitSampleList p.parameterSetsList.flatten 0
    (fun s b => s.nominalHistogram.GetBinContent ops b)
    (fun s hs => by rw [Nat.zero_add]; exact hrf s hs)]
  simp only
  rw [mapE_map_ok (setBinErrors ops (n : Int) (t : Int)) _ _ p.fitSampleList
    (fun s _ => setBinErrors_eq ops n t hn _)]
  simp only
  unfold afterThreads
  apply congrArg Except.ok
  congr 1
  apply List.map_congr_left
  intro s _
  have hT : threadBins n t (withContent s (threadBins n t s.histogram)
      (fun b => responseProduct ops s b 0 (s.nominalHistogram.GetBinContent ops b)
        p.parameterSetsList.flatten)).histogram
      = threadBins n t s.histogram := by
    funext b
    unfold threadBins
    rw [getNbinsX_withContent]
  rw [hT]
  unfold withContent
  simp only
  congr 2
  apply updateWhere_congr
  · intro _; rfl
  · intro b a hb
    have hlt := threadBins_lt n t s.histogram b hb
    rw [getBinContent_updateWhere ops _ _ _ _ b hlt, if_pos hb]
    rfl

/-- A call of thread `t` on a state in which other bins already hold their final content. -/
theorem applyResponseFunctions_next {α : Type} (ops : DoubleOps α) (n t : Nat) (hn : 1 ≤ n)
    (p : RfState α)
    (hrf : ∀ s ∈ p.fitSampleList,
      p.parameterSetsList.flatten.length ≤ s.responseFunctions.length)
    (test : RfSample α → Nat → Bool)
    (hdisj : ∀ s b, ¬ (test s b = true ∧ threadBins n t s.histogram b = true)) :
    applyResponseFunctions ops (n : Int) (t : Int) (afterThreads ops p test)
      = .ok (afterThreads ops p (fun s b => test s b || threadBins n t s.histogram b)) := by
  rw [applyResponseFunctions_thread ops n t hn (afterThreads ops p test) (by
    intro s' hs'
    unfold afterThreads at hs'
    simp only at hs'
    obtain ⟨s, hs, hseq⟩ := List.mem_map.mp hs'
    rw [← hseq]
    exact hrf s hs)]
  apply congrArg Except.ok
  unfold afterThreads
  simp only [List.map_map]
  congr 1
  apply List.map_congr_left
  intro s _
  simp only [Function.comp]
  have hexp : ∀ b, expectedContent ops
      { fitSampleList := p.fitSampleList.map (fun s =>
          { s with histogram :=
              { binContent := updateWhere (fun b _ => expectedContent ops p s b) (test s) 0
                  s.histogram.binContent,
                binError := updateWhere (fun b _ => ops.sqrt (expectedContent ops p s b))
                  (test s) 0 s.histogram.binError } }),
        parameterSetsList := p.parameterSetsList }
      { s with histogram :=
          { binContent := updateWhere (fun b _ => expectedContent ops p s b) (test s) 0
              s.histogram.binContent,
            binError := updateWhere (fun b _ => ops.sqrt (expectedContent ops p s b)) (test s) 0
              s.histogram.binError } } b = expectedContent ops p s b := by
    intro b
    unfold expectedContent
    simp only
    apply responseProduct_congr
    rfl
  have hT : threadBins n t
      (TH1D.mk (updateWhere (fun b _ => expectedContent ops p s b) (test s) 0
          s.histogram.binContent)
        (updateWhere (fun b _ => ops.sqrt (expectedContent ops p s b)) (test s) 0
          s.histogram.binError)) = threadBins n t s.histogram := by
    funext b
    unfold threadBins TH1D.GetNbinsX
    simp only [length_updateWhere]
  simp only [hexp, hT]
  rw [updateWhere_union _ _ _ (hdisj s), updateWhere_union _ _ _ (hdisj s)]

theorem afterThreads_none {α : Type} (ops : DoubleOps α) (p : RfState α)
    (test : RfSample α → Nat → Bool) (h : ∀ s b, test s b = false) :
    afterThreads ops p test = p := by
  unfold afterThreads
  have hmap : p.fitSampleList.map (fun s =>
      ({ s with histogram :=
          { binContent :=
              updateWhere (fun b _ => expectedContent ops p s b) (test s) 0
                s.histogram.binContent,
            binError :=
              updateWhere (fun b _ => ops.sqrt (expectedContent ops p s b)) (test s) 0
                s.histogram.binError } } : RfSample α)) = p.fitSampleList := by
    rw [List.map_congr_left (fun s _ => by
      rw [updateWhere_false _ _ _ 0 (h s), updateWhere_false _ _ _ 0 (h s)]), List.map_id']
  rw [hmap]

/-- After the calls of the threads `0, ..., m - 1` the bins `b` with `b mod n < m` hold their
final content. -/
theorem runJob_applyResponseFunctions {α : Type} (ops : DoubleOps α) (n : Nat) (hn : 1 ≤ n)
    (p : RfState α)
    (hrf : ∀ s ∈ p.fitSampleList,
      p.parameterSetsList.flatten.length ≤ s.responseFunctions.length) :
    ∀ m, m ≤ n →
      foldlE (fun s iThread => applyResponseFunctions ops (n : Int) (Int.ofNat iThread) s) p
          (List.range m)
        = .ok (afterThreads ops p (fun s b =>
            decide (1 ≤ b ∧ b < 1 + s.histogram.GetNbinsX) && decide (b % n < m))) := by
  intro m
  induction m with
  | zero =>
    intro _
    simp only [List.range_zero, foldlE]
    rw [afterThreads_none ops p _ (fun s b => by simp)]
  | succ m ih =>
    intro hm
    rw [List.range_succ, foldlE_append _ _ _ _ _ (ih (by omega))]
    simp only [foldlE]
    rw [show (Int.ofNat m) = ((m : Nat) : Int) from rfl,
      applyResponseFunctions_next ops n m hn p hrf _ (fun s b hh => by
        unfold threadBins at hh
        simp only [Bool.and_eq_true, decide_eq_true_eq] at hh
        omega)]
    simp only
    apply congrArg Except.ok
    apply congrArg (afterThreads ops p)
    funext s b
    unfold threadBins
    rw [Bool.eq_iff_iff]
    simp only [Bool.or_eq_true, Bool.and_eq_true, decide_eq_true_eq]
    omega

/-- In exact arithmetic the content the claims give is the nominal content times the product of
the factors `1 + x_p * rf_p[b]`: a parameter with `x_p = 0` has the factor 1. -/
theorem responseProduct_exact (sqrt : Rat → Rat) (s : RfSample Rat) (b : Nat) :
    ∀ (l : List (FitParameter Rat)) (k : Nat) (content : Rat),
      responseProduct (exactOps sqrt) s b k content l
        = content * exactProduct sqrt s b k l := by
  intro l
  induction l with
  | nil => intro _ content; simp only [responseProduct, exactProduct, mul_one]
  | cons par rest ih =>
    intro k content
    simp only [responseProduct, exactProduct, ih]
    by_cases hx : par.distanceFromNominal = 0
    · have hz : (exactOps sqrt).isZero par.distanceFromNominal = true := by
        simp [exactOps, hx]
      rw [if_pos hz, hx]
      ring
    · have hz : ¬ ((exactOps sqrt).isZero par.distanceFromNominal = true) := by
        simp [exactOps, hx]
      rw [if_neg hz]
      show content * (1 + par.distanceFromNominal * storedResponse (exactOps sqrt) s k b)
        * exactProduct sqrt s b (k + 1) rest = _
      ring

end Propagator

namespace Propagator

/-- Claim C30. For every arithmetic of the doubles, every number of threads `n >= 1` and every
state whose samples store a response function for every parameter of every parameter set,
running `applyResponseFunctions` once for every thread index `0, ..., n - 1` returns, keeps the
samples and their numbers of bins, and leaves in every bin `b` in `1..NbinsX` of the MC
histogram of every sample the nominal content `nominal[b]` multiplied in turn, in the order of
the parameters of the parameter sets and in the arithmetic of the machine, by `1 + x_p * rf_p[b]`
(`expectedContent`; a parameter with `x_p == 0` is skipped, its factor is 1). Each bin is written
by one thread only, the one of index `b mod n`: a single call of thread `t < n`, from any such
state, returns, gives the bins `b` in `1..NbinsX` with `b mod n = t` that content, and leaves
every cell `b` with `b mod n` different from `t` as it was. In exact arithmetic that content is
`nominal[b]` times the product of the factors `1 + x_p * rf_p[b]`. -/
theorem applyResponseFunctions_bin_contents {α : Type} (ops : DoubleOps α) (n : Nat)
    (hn : 1 ≤ n) (p : RfState α)
    (hrf : ∀ s ∈ p.fitSampleList,
      p.parameterSetsList.flatten.length ≤ s.responseFunctions.length) :
    (∃ p1 : RfState α, runJob (applyResponseFunctions ops (n : Int)) n p = .ok p1 ∧
      p1.fitSampleList.length = p.fitSampleList.length ∧
      ∀ (i : Nat) (s : RfSample α), p.fitSampleList[i]? = some s →
        ∃ s1 : RfSample α, p1.fitSampleList[i]? = some s1 ∧
          s1.histogram.GetNbinsX = s.histogram.GetNbinsX ∧
          ∀ b : Nat, 1 ≤ b → b ≤ s.histogram.GetNbinsX →
            s1.histogram.GetBinContent ops b = expectedContent ops p s b) ∧
    (∀ t : Nat, t < n →
      ∃ p1 : RfState α, applyResponseFunctions ops (n : Int) (t : Int) p = .ok p1 ∧
        p1.fitSampleList.length = p.fitSampleList.length ∧
        ∀ (i : Nat) (s : RfSample α), p.fitSampleList[i]? = some s →
          ∃ s1 : RfSample α, p1.fitSampleList[i]? = some s1 ∧
            (∀ b : Nat, 1 ≤ b → b ≤ s.histogram.GetNbinsX → b % n = t →
              s1.histogram.GetBinContent ops b = expectedContent ops p s b) ∧
            (∀ b : Nat, b % n ≠ t →
              s1.histogram.binContent[b]? = s.histogram.binContent[b]?)) ∧
    (∀ (sqrt : Rat → Rat) (q : RfState Rat) (s : RfSample Rat) (b : Nat),
      expectedContent (exactOps sqrt) q s b
        = s.nominalHistogram.GetBinContent (exactOps sqrt) b
          * exactProduct sqrt s b 0 q.parameterSetsList.flatten) := by
  refine ⟨⟨_, runJob_applyResponseFunctions ops n hn p hrf n (Nat.le_refl n), ?_, ?_⟩, ?_,
    fun sqrt q s b => responseProduct_exact sqrt s b _ 0 _⟩
  · unfold afterThreads
    simp only [List.length_map]
  · intro i s hs
    unfold afterThreads
    simp only [List.getElem?_map, hs, Option.map_some']
    refine ⟨_, rfl, ?_, ?_⟩
    · unfold TH1D.GetNbinsX
      simp only [length_updateWhere]
    · intro b hb1 hb2
      have hlt : b + 1 < s.histogram.binContent.length := by
        unfold TH1D.GetNbinsX at hb2
        omega
      rw [getBinContent_updateWhere ops _ _ _ _ b hlt, if_pos]
      simp only [Bool.and_eq_true, decide_eq_true_eq]
      exact ⟨⟨hb1, by omega⟩, Nat.mod_lt _ (by omega)⟩
  · intro t _
    refine ⟨_, applyResponseFunctions_thread ops n t hn p hrf, ?_, ?_⟩
    · unfold afterThreads
      simp only [List.length_map]
    · intro i s hs
      unfold afterThreads
      simp only [List.getElem?_map, hs, Option.map_some']
      refine ⟨_, rfl, ?_, ?_⟩
      · intro b hb1 hb2 hbt
        have hlt : b + 1 < s.histogram.binContent.length := by
          unfold TH1D.GetNbinsX at hb2
          omega
        rw [getBinContent_updateWhere ops _ _ _ _ b hlt, if_pos]
        unfold threadBins
        simp only [Bool.and_eq_true, decide_eq_true_eq]
        exact ⟨⟨hb1, by omega⟩, hbt⟩
      · intro b hbt
        simp only
        rw [getElem?_updateWhere]
        have hno : threadBins n t s.histogram (0 + b) = false := by
          unfold threadBins
          rw [Nat.zero_add, Bool.and_eq_false_iff]
          exact Or.inr (decide_eq_false hbt)
        simp only [hno, Bool.false_eq_true, if_false]
        cases s.histogram.binContent[b]? <;> rfl

/-- Witness of `applyResponseFunctions_bin_contents`. In exact arithmetic, the response-function fixture with two threads:
the three bins end with the contents 30, 20 and -30. In the fixed-point arithmetic, which
rounds at every operation, the bin of nominal content 1.5 ends with 1.7, the factors 1.1 being
applied one after the other (the product of the factors taken first would give 1.8). -/
theorem applyResponseFunctions_bin_contents_witness :
    ((1 ≤ 2 ∧ ∀ s ∈ rf_state.fitSampleList,
        rf_state.parameterSetsList.flatten.length ≤ s.responseFunctions.length) ∧
      (1 ≤ 1 ∧ ∀ s ∈ rf_fixed.fitSampleList,
        rf_fixed.parameterSetsList.flatten.length ≤ s.responseFunctions.length)) ∧
    ((runJob (applyResponseFunctions (exactOps (fun x => x)) ((2 : Nat) : Int)) 2 rf_state).map
        contents = .ok [[0, 30, 20, -30, 0]] ∧
      (runJob (applyResponseFunctions fixedPointOps ((1 : Nat) : Int)) 1 rf_fixed).map contents
        = .ok [[0, 17, 0]] ∧
      fixedPointOps.mul 15 (fixedPointOps.mul 11 11) = 18) ∧
    (∃ p1 : RfState Rat,
      runJob (applyResponseFunctions (exactOps (fun x => x)) ((2 : Nat) : Int)) 2 rf_state
        = .ok p1 ∧
      p1.fitSampleList.length = rf_state.fitSampleList.length ∧
      ∀ (i : Nat) (s : RfSample Rat), rf_state.fitSampleList[i]? = some s →
        ∃ s1 : RfSample Rat, p1.fitSampleList[i]? = some s1 ∧
          s1.histogram.GetNbinsX = s.histogram.GetNbinsX ∧
          ∀ b : Nat, 1 ≤ b → b ≤ s.histogram.GetNbinsX →
            s1.histogram.GetBinContent (exactOps (fun x => x)) b
              = expectedContent (exactOps (fun x => x)) rf_state s b) ∧
    (∃ p1 : RfState Int,
      runJob (applyResponseFunctions fixedPointOps ((1 : Nat) : Int)) 1 rf_fixed = .ok p1 ∧
      p1.fitSampleList.length = rf_fixed.fitSampleList.length ∧
      ∀ (i : Nat) (s : RfSample Int), rf_fixed.fitSampleList[i]? = some s →
        ∃ s1 : RfSample Int, p1.fitSampleList[i]? = some s1 ∧
          s1.histogram.GetNbinsX = s.histogram.GetNbinsX ∧
          ∀ b : Nat, 1 ≤ b → b ≤ s.histogram.GetNbinsX →
            s1.histogram.GetBinContent fixedPointOps b
              = expectedContent fixedPointOps rf_fixed s b) :=
  have hrf : ∀ s ∈ rf_state.fitSampleList,
      rf_state.parameterSetsList.flatten.length ≤ s.responseFunctions.length := by
    intro s hs
    simp only [rf_state, List.mem_singleton] at hs
    subst hs
    decide
  have hfx : ∀ s ∈ rf_fixed.fitSampleList,
      rf_fixed.parameterSetsList.flatten.length ≤ s.responseFunctions.length := by
    intro s hs
    simp only [rf_fixed, List.mem_singleton] at hs
    subst hs
    decide
  ⟨⟨⟨by decide, hrf⟩, ⟨by decide, hfx⟩⟩,
    ⟨by with_unfolding_all rfl, by rfl, by decide⟩,
    (applyResponseFunctions_bin_contents (exactOps (fun x => x)) 2 (by decide) rf_state hrf).1,
    (applyResponseFunctions_bin_contents fixedPointOps 1 (by decide) rf_fixed hfx).1⟩

end Propagator

namespace Claiming

theorem workers_set_cases (l : List Worker) (i j : Nat) (w1 wj : Worker)
    (h : (l.set i w1)[j]? = some wj) :
    (j = i ∧ wj = w1) ∨ (j ≠ i ∧ l[j]? = some wj) := by
  rw [List.getElem?_set] at h
  by_cases hij : i = j
  · rw [if_pos hij] at h
    by_cases hlt : i < l.length
    · rw [if_pos hlt] at h
      exact Or.inl ⟨hij.symm, (Option.some.inj h).symm⟩
    · rw [if_neg hlt] at h
      cases h
  · rw [if_neg hij] at h
    exact Or.inr ⟨fun e => hij e.symm, h⟩

/-- The frame of one action of thread `i`: the other threads are outside the section, so it is
enough to look at the acting thread and at the completed claims. -/
theorem threadsOk_update (st st1 : Shared) (i : Nat) (w w1 : Worker)
    (hworkers : st1.workers = st.workers.set i w1)
    (hw : st.workers[i]? = some w)
    (hothers : ∀ (j : Nat) (wj : Worker), j ≠ i → st.workers[j]? = some wj → wj.pc = Pc.outside)
    (hlen : st1.sampleIndexOffsetList.length = st.sampleIndexOffsetList.length)
    (hpend : ∀ s ∈ w1.pending, s ∈ w.pending)
    (hin : w1.pc ≠ Pc.outside → st1.mutexOwner = some i ∧ InsideOk st1 w1)
    (hinv : ThreadsOk st) : ThreadsOk st1 := by
  intro j wj hj
  rw [hworkers] at hj
  rcases workers_set_cases _ _ _ _ _ hj with ⟨hji, hwj⟩ | ⟨hji, hwj⟩
  · subst hji
    subst hwj
    refine ⟨fun s hs => ?_, hin⟩
    rw [hlen]
    exact (hinv j w hw).1 s (hpend s hs)
  · refine ⟨fun s hs => ?_, fun hpc => absurd (hothers j wj hji hwj) hpc⟩
    rw [hlen]
    exact (hinv j wj hwj).1 s hs

theorem others_outside_of_free (st : Shared) (hinv : ThreadsOk st) (hfree : st.mutexOwner = none) :
    ∀ (j : Nat) (wj : Worker), st.workers[j]? = some wj → wj.pc = Pc.outside := by
  intro j wj hj
  by_contra hpc
  have h := ((hinv j wj hj).2 hpc).1
  rw [hfree] at h
  cases h

theorem others_outside_of_inside (st : Shared) (hinv : ThreadsOk st) (i : Nat) (w : Worker)
    (hw : st.workers[i]? = some w) (hpc : w.pc ≠ Pc.outside) :
    ∀ (j : Nat) (wj : Worker), j ≠ i → st.workers[j]? = some wj → wj.pc = Pc.outside := by
  intro j wj hji hj
  by_contra hpcj
  have h1 := ((hinv j wj hj).2 hpcj).1
  have h2 := ((hinv i w hw).2 hpc).1
  rw [h1] at h2
  exact hji (Option.some.inj h2)

/-- One action of any thread keeps the invariant, and never reads out of range. -/
theorem step_invariant (i : Nat) (st : Shared) (hT : ThreadsOk st) (hC : ClaimsOk st) :
    ∃ st1, step i st = some st1 ∧ ThreadsOk st1 ∧ ClaimsOk st1 := by
  unfold step
  cases hw : st.workers[i]? with
  | none => exact ⟨st, rfl, hT, hC⟩
  | some w =>
    simp only
    have hwi := hT i w hw
    cases hpc : w.pc with
    | outside =>
      simp only
      cases hpend : w.pending with
      | nil => exact ⟨st, rfl, hT, hC⟩
      | cons iSample rest =>
        simp only
        cases hown : st.mutexOwner with
        | some o => exact ⟨st, rfl, hT, hC⟩
        | none =>
          refine ⟨_, rfl, ?_, hC⟩
          refine threadsOk_update st _ i w _ rfl hw
            (fun j wj _ hj => others_outside_of_free st hT hown j wj hj) rfl
            (fun s hs => by rw [hpend]; exact hs) (fun _ => ⟨rfl, ?_⟩) hT
          refine ⟨hwi.1 iSample (by rw [hpend]; exact List.mem_cons_self _ _), ?_, ?_, ?_, ?_⟩
          · intro h; cases h
          · intro h; rcases h with h | h | h <;> cases h
          · intro h; cases h
          · intro h; cases h
    | locked =>
      have hne : w.pc ≠ Pc.outside := by rw [hpc]; decide
      obtain ⟨hown, hin⟩ := hwi.2 hne
      simp only
      cases hoff : st.sampleIndexOffsetList[w.iSample]? with
      | none =>
        rw [List.getElem?_eq_none_iff] at hoff
        exact absurd hin.1 (by omega)
      | some offset =>
        refine ⟨_, rfl, ?_, hC⟩
        refine threadsOk_update st _ i w _ rfl hw
          (others_outside_of_inside st hT i w hw hne) rfl
          (fun s hs => hs) (fun _ => ⟨hown, ?_⟩) hT
        refine ⟨hin.1, ?_, ?_, ?_, ?_⟩
        · intro _
          show offset = st.sampleIndexOffsetList.getD w.iSample 0
          rw [List.getD_eq_getElem?_getD, hoff]
          rfl
        · intro h; rcases h with h | h | h <;> cases h
        · intro h; cases h
        · intro h; cases h
    | offsetRead =>
      have hne : w.pc ≠ Pc.outside := by rw [hpc]; decide
      obtain ⟨hown, hin⟩ := hwi.2 hne
      have hpos := hin.2.1 hpc
      have hget : ∀ s, (st.sampleIndexOffsetList.set w.iSample (w.sampleEventIndex + 1)).getD s 0
          = if s = w.iSample then w.sampleEventIndex + 1
            else st.sampleIndexOffsetList.getD s 0 := by
        intro s
        rw [List.getD_eq_getElem?_getD, List.getElem?_set, List.getD_eq_getElem?_getD]
        by_cases hs : w.iSample = s
        · rw [if_pos hs, if_pos hin.1, if_pos hs.symm]
          rfl
        · rw [if_neg hs, if_neg (fun e => hs e.symm)]
      refine ⟨_, rfl, ?_, ?_⟩
      · refine threadsOk_update st _ i w _ rfl hw
          (others_outside_of_inside st hT i w hw hne) (List.length_set _ _ _)
          (fun s hs => hs) (fun _ => ⟨hown, ?_⟩) hT
        refine ⟨?_, ?_, ?_, ?_, ?_⟩
        · show w.iSample < (st.sampleIndexOffsetList.set _ _).length
          rw [List.length_set]
          exact hin.1
        · intro h; cases h
        · intro _
          refine ⟨?_, ?_⟩
          · show w.sampleEventIndex
              < (st.sampleIndexOffsetList.set w.iSample (w.sampleEventIndex + 1)).getD w.iSample 0
            rw [hget, if_pos rfl]
            omega
          · intro c hc hcs
            show c.sampleEventIndex < w.sampleEventIndex
            have := hC.1 c hc
            rw [hcs, ← hpos] at this
            exact this
        · intro h; cases h
        · intro h; cases h
      · refine ⟨?_, hC.2.1, hC.2.2.1, hC.2.2.2⟩
        intro c hc
        show c.sampleEventIndex
          < (st.sampleIndexOffsetList.set w.iSample (w.sampleEventIndex + 1)).getD c.iSample 0
        rw [hget]
        have hlt := hC.1 c hc
        by_cases hcs : c.iSample = w.iSample
        · rw [if_pos hcs]
          rw [hcs, ← hpos] at hlt
          omega
        · rw [if_neg hcs]
          exact hlt
    | offsetWritten =>
      have hne : w.pc ≠ Pc.outside := by rw [hpc]; decide
      obtain ⟨hown, hin⟩ := hwi.2 hne
      have hpos := hin.2.2.1 (Or.inl hpc)
      simp only
      by_cases hcache : st.hasCache = true
      · rw [if_pos hcache]
        refine ⟨_, rfl, ?_, hC⟩
        refine threadsOk_update st _ i w _ rfl hw
          (others_outside_of_inside st hT i w hw hne) rfl
          (fun s hs => hs) (fun _ => ⟨hown, ?_⟩) hT
        refine ⟨hin.1, ?_, fun _ => hpos, fun _ => rfl, ?_⟩
        · intro h; cases h
        · intro h; cases h
      · rw [if_neg hcache]
        refine ⟨_, rfl, ?_, hC⟩
        refine threadsOk_update st _ i w _ rfl hw
          (others_outside_of_inside st hT i w hw hne) rfl
          (fun s hs => hs) (fun _ => ⟨hown, ?_⟩) hT
        refine ⟨hin.1, ?_, fun _ => hpos, ?_, fun _ h => absurd h hcache⟩
        · intro h; cases h
        · intro h; cases h
    | entryRead =>
      have hne : w.pc ≠ Pc.outside := by rw [hpc]; decide
      obtain ⟨hown, hin⟩ := hwi.2 hne
      have hpos := hin.2.2.1 (Or.inr (Or.inl hpc))
      have hent := hin.2.2.2.1 hpc
      have hfill : w.eventDialCacheEntry.getD 0 + 1 = st.fillIndex + 1 := by
        rw [hent]
        rfl
      refine ⟨_, rfl, ?_, ?_⟩
      · refine threadsOk_update st _ i w _ rfl hw
          (others_outside_of_inside st hT i w hw hne) rfl
          (fun s hs => hs) (fun _ => ⟨hown, ?_⟩) hT
        refine ⟨hin.1, ?_, fun _ => hpos, ?_, ?_⟩
        · intro h; cases h
        · intro h; cases h
        · intro _ hcache
          refine ⟨st.fillIndex, hent, ?_, ?_⟩
          · show st.fillIndex < w.eventDialCacheEntry.getD 0 + 1
            rw [hfill]
            omega
          · intro c hc k1 hk1
            obtain ⟨k, hk, hlt⟩ := hC.2.1 hcache c hc
            rw [hk] at hk1
            cases hk1
            exact hlt
      · refine ⟨hC.1, ?_, hC.2.2.1, hC.2.2.2⟩
        intro hcache c hc
        obtain ⟨k, hk, hlt⟩ := hC.2.1 hcache c hc
        refine ⟨k, hk, ?_⟩
        show k < w.eventDialCacheEntry.getD 0 + 1
        rw [hfill]
        omega
    | claimed =>
      have hne : w.pc ≠ Pc.outside := by rw [hpc]; decide
      obtain ⟨hown, hin⟩ := hwi.2 hne
      have hpos := hin.2.2.1 (Or.inr (Or.inr hpc))
      have hent := hin.2.2.2.2 hpc
      refine ⟨_, rfl, ?_, ?_⟩
      · refine threadsOk_update st _ i w _ rfl hw
          (others_outside_of_inside st hT i w hw hne) rfl
          (fun s hs => List.mem_of_mem_tail hs) (fun h => absurd rfl h) hT
      · refine ⟨?_, ?_, ?_, ?_⟩
        · intro c hc
          rcases List.mem_append.mp hc with hc | hc
          · exact hC.1 c hc
          · rw [List.mem_singleton] at hc
            subst hc
            exact hpos.1
        · intro hcache c hc
          rcases List.mem_append.mp hc with hc | hc
          · exact hC.2.1 hcache c hc
          · rw [List.mem_singleton] at hc
            subst hc
            obtain ⟨k, hk, hlt, _⟩ := hent hcache
            exact ⟨k, hk, hlt⟩
        · show (List.map (fun c : Claim => (c.iSample, c.sampleEventIndex))
            (st.claims ++ [_])).Nodup
          rw [List.map_append, List.nodup_append]
          refine ⟨hC.2.2.1, List.nodup_singleton _, ?_⟩
          intro x hx hx1
          simp only [List.map_cons, List.map_nil, List.mem_singleton] at hx1
          obtain ⟨c, hc, hcx⟩ := List.mem_map.mp hx
          rw [hx1] at hcx
          have h1 : c.iSample = w.iSample := congrArg Prod.fst hcx
          have h2 : c.sampleEventIndex = w.sampleEventIndex := congrArg Prod.snd hcx
          have := hpos.2 c hc h1
          omega
        · intro hcache
          show (List.map (fun c : Claim => c.eventDialCacheEntry) (st.claims ++ [_])).Nodup
          rw [List.map_append, List.nodup_append]
          refine ⟨hC.2.2.2 hcache, List.nodup_singleton _, ?_⟩
          intro x hx hx1
          simp only [List.map_cons, List.map_nil, List.mem_singleton] at hx1
          obtain ⟨c, hc, hcx⟩ := List.mem_map.mp hx
          rw [hx1] at hcx
          obtain ⟨k, hk, _, hall⟩ := hent hcache
          have := hall c hc k (hcx.trans hk)
          omega

theorem run_invariant (schedule : List Nat) :
    ∀ st, ThreadsOk st → ClaimsOk st →
      ∃ st1, run schedule st = some st1 ∧ ThreadsOk st1 ∧ ClaimsOk st1 := by
  induction schedule with
  | nil => intro st hT hC; exact ⟨st, rfl, hT, hC⟩
  | cons i rest ih =>
    intro st hT hC
    obtain ⟨st1, h1, hT1, hC1⟩ := step_invariant i st hT hC
    obtain ⟨st2, h2, hT2, hC2⟩ := ih st1 hT1 hC1
    refine ⟨st2, ?_, hT2, hC2⟩
    unfold run
    rw [h1]
    exact h2

theorem start_invariant (offsets : List Nat) (hasCache : Bool) (fillIndex : Nat)
    (pending : List (List Nat)) (hpending : ∀ p ∈ pending, ∀ s ∈ p, s < offsets.length) :
    ThreadsOk (start offsets hasCache fillIndex pending)
      ∧ ClaimsOk (start offsets hasCache fillIndex pending) := by
  refine ⟨?_, ?_, ?_, ?_, ?_⟩
  · intro j w hj
    unfold start at hj
    simp only [List.getElem?_map] at hj
    cases hp : pending[j]? with
    | none => rw [hp] at hj; cases hj
    | some pj =>
      rw [hp] at hj
      simp only [Option.map_some', Option.some.injEq] at hj
      subst hj
      exact ⟨hpending pj (List.mem_iff_getElem?.mpr ⟨j, hp⟩), fun h => absurd rfl h⟩
  · intro c hc; cases hc
  · intro _ c hc; cases hc
  · exact List.nodup_nil
  · intro _; exact List.nodup_nil

end Claiming

namespace Claiming

/-- Claim C23. Whatever the initial offsets, the fill index, the samples every worker thread will
claim in (all in range of `sampleIndexOffsetList`) and the schedule that interleaves the
elementary actions of the threads, the run never reads out of range, at most one thread is inside
the section between `lock()` and `unlock()` (the read and the write of the offset and the fetch of
the cache entry are not interleaved with those of another thread), no two completed claims hold
the same storage position in the same sample, and with a cache attached every claim holds a cache
entry and no two claims hold the same one. -/
theorem claims_distinct_under_every_interleaving (offsets : List Nat) (hasCache : Bool)
    (fillIndex : Nat) (pending : List (List Nat))
    (hpending : ∀ p ∈ pending, ∀ s ∈ p, s < offsets.length) (schedule : List Nat) :
    ∃ st, run schedule (start offsets hasCache fillIndex pending) = some st ∧
      OneInside st ∧
      (positions st).Nodup ∧
      (hasCache = true →
        (cacheEntries st).Nodup ∧ ∀ e ∈ cacheEntries st, e.isSome = true) := by
  obtain ⟨hT0, hC0⟩ := start_invariant offsets hasCache fillIndex pending hpending
  have hkeep : ∀ (sch : List Nat) (st st1 : Shared), run sch st = some st1 →
      st1.hasCache = st.hasCache := by
    intro sch
    induction sch with
    | nil =>
      intro st st1 h
      simp only [run, Option.some.injEq] at h
      rw [h]
    | cons i rest ih =>
      intro st st1 h
      unfold run at h
      cases hs : step i st with
      | none => rw [hs] at h; cases h
      | some st2 =>
        rw [hs] at h
        rw [ih st2 st1 h]
        unfold step at hs
        revert hs
        cases st.workers[i]? with
        | none => intro hs; cases hs; rfl
        | some w =>
          simp only
          cases w.pc <;> simp only
          · cases w.pending with
            | nil => intro hs; cases hs; rfl
            | cons a l =>
              simp only
              cases st.mutexOwner <;> (intro hs; cases hs; rfl)
          · cases st.sampleIndexOffsetList[w.iSample]? <;> (intro hs; cases hs <;> rfl)
          · intro hs; cases hs; rfl
          · by_cases hc : st.hasCache = true
            · rw [if_pos hc]; intro hs; cases hs; rfl
            · rw [if_neg hc]; intro hs; cases hs; rfl
          · intro hs; cases hs; rfl
          · intro hs; cases hs; rfl
  obtain ⟨st, hrun, hT, hC⟩ := run_invariant schedule _ hT0 hC0
  refine ⟨st, hrun, ?_, hC.2.2.1, ?_⟩
  · intro j k wj wk hj hk hpj hpk
    have h1 := ((hT j wj hj).2 hpj).1
    have h2 := ((hT k wk hk).2 hpk).1
    rw [h1] at h2
    exact Option.some.inj h2
  · intro hc
    have hst : st.hasCache = true := by
      rw [hkeep schedule _ st hrun]
      exact hc
    refine ⟨hC.2.2.2 hst, ?_⟩
    intro e he
    obtain ⟨c, hcm, hce⟩ := List.mem_map.mp he
    obtain ⟨k, hk, _⟩ := hC.2.1 hst c hcm
    rw [← hce, hk]
    rfl

/-- Witness of Claim C23: two threads, the first claiming in the samples 0 and 1, the second in
the sample 0, with a schedule in which each waits for the other; the three claims take the
positions 4 and 5 of the sample 0 and 0 of the sample 1, and the cache entries 2, 3 and 4. -/
theorem claims_distinct_under_every_interleaving_witness :
    (∀ p ∈ [[0, 1], [0]], ∀ s ∈ p, s < [4, 0].length) ∧
    (∃ st, run claim_schedule (start [4, 0] true 2 [[0, 1], [0]]) = some st ∧
      OneInside st ∧
      (positions st).Nodup ∧
      (true = true →
        (cacheEntries st).Nodup ∧ ∀ e ∈ cacheEntries st, e.isSome = true)) ∧
    (run claim_schedule (start [4, 0] true 2 [[0, 1], [0]])).map
        (fun st => (st.claims, st.sampleIndexOffsetList, st.fillIndex))
      = some ([{ iThread := 0, iSample := 0, sampleEventIndex := 4, eventDialCacheEntry := some 2 },
               { iThread := 1, iSample := 0, sampleEventIndex := 5, eventDialCacheEntry := some 3 },
               { iThread := 0, iSample := 1, sampleEventIndex := 0, eventDialCacheEntry := some 4 }],
              [6, 1], 5) :=
  have hpending : ∀ p ∈ [[0, 1], [0]], ∀ s ∈ p, s < [4, 0].length := by decide
  ⟨hpending,
    claims_distinct_under_every_interleaving [4, 0] true 2 [[0, 1], [0]] hpending claim_schedule,
    by decide⟩

end Claiming

/-- Claim C27, evaluated on the code. One fill worker over a source of three entries with the
weights `1, 1, -1`; every entry belongs to both samples and three cache entries are reserved.
The entries 0 and 1 claim two cache entries each, so the fill stops on the entry 1 with the
error of the cache, before the negative weight of the accepted entry 2 is looked at: the fatal
error raised is not "Negative nominal weight". -/
theorem runFillThreads_other_error_before_negative_weight :
    (sharedWeighted.nominalWeightFormula = some shared_w ∧ fillThreads sharedWeighted = 1 ∧
      sharedWeighted.getThreadBoundIndices 0 1 sharedWeighted.nEntries
        = (0, sharedWeighted.nEntries)) ∧
    (sharedWeighted_ready.eventIsInSamplesList = [[true, true], [true, true], [true, true]] ∧
      shared_w 2 < 0) ∧
    runFillThreads sharedWeighted sharedWeighted_ready = .error .cacheEntryOutOfRange ∧
    (load sharedWeighted sharedEntry_cache).map (storedEvents sharedWeighted)
      = .error .cacheEntryOutOfRange :=
  ⟨⟨rfl, rfl, rfl⟩, ⟨rfl, by decide⟩, rfl, rfl⟩

/-! ## The event built from an entry does not depend on the history of the thread -/

theorem transformsAgree_mono (P Q : Nat → Prop) (a b : List EventVarTransform)
    (hPQ : ∀ i, i < a.length → Q i → P i) (h : TransformsAgree P a b) : TransformsAgree Q a b := by
  refine ⟨h.1, fun i t t1 ht ht1 => ?_⟩
  obtain ⟨q1, q2, q3⟩ := h.2 i t t1 ht ht1
  exact ⟨q1, q2, fun hq => q3 (hPQ i (List.getElem?_eq_some_iff.mp ht).1 hq)⟩

theorem transformsAgree_refl (P : Nat → Prop) (a : List EventVarTransform) :
    TransformsAgree P a a := by
  refine ⟨rfl, fun i t t1 ht ht1 => ?_⟩
  rw [ht] at ht1
  cases ht1
  exact ⟨rfl, rfl, fun _ => rfl⟩

/-- Transform lists that agree yield the same list of transforms for indexing and the same list
of transforms for storage. -/
theorem transformsAgree_lists (d : Dispenser) (P : Nat → Prop) (a b : List EventVarTransform)
    (h : TransformsAgree P a b) :
    varTransformForIndexingList d a = varTransformForIndexingList d b ∧
    varTransformForStorageList d a = varTransformForStorageList d b := by
  have hname : ∀ i, i ∈ List.range b.length →
      ∃ t t1, a[i]? = some t ∧ b[i]? = some t1 ∧
        t.outputVariableName = t1.outputVariableName := by
    intro i hi
    have hlt : i < b.length := List.mem_range.mp hi
    have hlta : i < a.length := by rw [h.1]; exact hlt
    refine ⟨a.get ⟨i, hlta⟩, b.get ⟨i, hlt⟩, List.getElem?_eq_getElem hlta,
      List.getElem?_eq_getElem hlt, ?_⟩
    exact (h.2 i _ _ (List.getElem?_eq_getElem hlta) (List.getElem?_eq_getElem hlt)).1
  unfold varTransformForIndexingList varTransformForStorageList
  rw [h.1]
  refine ⟨?_, ?_⟩
  · apply List.filter_congr
    intro i hi
    obtain ⟨t, t1, q1, q2, q3⟩ := hname i hi
    rw [q1, q2]
    simp only [q3]
  · apply List.filter_congr
    intro i hi
    obtain ⟨t, t1, q1, q2, q3⟩ := hname i hi
    rw [q1, q2]
    simp only [q3]

theorem propagateIndexingTransforms_cons_none (k : Nat) (rest : List Nat) (tl : ThreadLocals)
    (h : tl.eventVarTransformList[k]? = none) :
    propagateIndexingTransforms (k :: rest) tl = propagateIndexingTransforms rest tl := by
  unfold propagateIndexingTransforms
  simp only [List.foldl_cons, h]

theorem propagateIndexingTransforms_cons_some (k : Nat) (rest : List Nat) (tl : ThreadLocals)
    (t : EventVarTransform) (h : tl.eventVarTransformList[k]? = some t) :
    propagateIndexingTransforms (k :: rest) tl
      = propagateIndexingTransforms rest
          (ThreadLocals.mk (t.evalAndStore tl.eventIndexingBuffer).2
            (tl.eventVarTransformList.set k (t.evalAndStore tl.eventIndexingBuffer).1)) := by
  unfold propagateIndexingTransforms
  simp only [List.foldl_cons, h]

theorem propagateIndexingTransforms_length (indices : List Nat) :
    ∀ tl : ThreadLocals,
      (propagateIndexingTransforms indices tl).eventVarTransformList.length
        = tl.eventVarTransformList.length := by
  induction indices with
  | nil => intro tl; rfl
  | cons k rest ih =>
    intro tl
    cases hk : tl.eventVarTransformList[k]? with
    | none => rw [propagateIndexingTransforms_cons_none k rest tl hk, ih]
    | some t =>
      rw [propagateIndexingTransforms_cons_some k rest tl t hk, ih]
      simp

/-- Run from the same buffer on transform lists that agree, the indexing transforms leave the
same buffer, and transform lists that agree on the cached outputs of the evaluated transforms
too. -/
theorem propagateIndexingTransforms_agree (indices : List Nat) :
    ∀ (P : Nat → Prop) (a b : ThreadLocals),
      a.eventIndexingBuffer = b.eventIndexingBuffer →
      TransformsAgree P a.eventVarTransformList b.eventVarTransformList →
      (propagateIndexingTransforms indices a).eventIndexingBuffer
        = (propagateIndexingTransforms indices b).eventIndexingBuffer ∧
      TransformsAgree (fun i => P i ∨ i ∈ indices)
        (propagateIndexingTransforms indices a).eventVarTransformList
        (propagateIndexingTransforms indices b).eventVarTransformList := by
  induction indices with
  | nil =>
    intro P a b hbuf htr
    exact ⟨hbuf, transformsAgree_mono P _ _ _
      (fun i _ hq => hq.elim id (fun hm => absurd hm (List.not_mem_nil i))) htr⟩
  | cons k rest ih =>
    intro P a b hbuf htr
    cases hka : a.eventVarTransformList[k]? with
    | none =>
      have hkb : b.eventVarTransformList[k]? = none := by
        rw [List.getElem?_eq_none_iff] at hka ⊢
        rw [← htr.1]
        exact hka
      rw [propagateIndexingTransforms_cons_none k rest a hka,
        propagateIndexingTransforms_cons_none k rest b hkb]
      obtain ⟨q1, q2⟩ := ih P a b hbuf htr
      refine ⟨q1, transformsAgree_mono _ _ _ _ (fun i hi hq => ?_) q2⟩
      rw [propagateIndexingTransforms_length] at hi
      rcases hq with hq | hq
      · exact Or.inl hq
      · rcases List.mem_cons.mp hq with hq | hq
        · have := List.getElem?_eq_none_iff.mp hka
          omega
        · exact Or.inr hq
    | some t =>
      have hlta : k < a.eventVarTransformList.length := (List.getElem?_eq_some_iff.mp hka).1
      have hltb : k < b.eventVarTransformList.length := by rw [← htr.1]; exact hlta
      have hkb : b.eventVarTransformList[k]? = some (b.eventVarTransformList.get ⟨k, hltb⟩) :=
        List.getElem?_eq_getElem hltb
      rw [propagateIndexingTransforms_cons_some k rest a t hka,
        propagateIndexingTransforms_cons_some k rest b _ hkb]
      obtain ⟨n1, n2, _⟩ := htr.2 k t _ hka hkb
      have hout : t.eval a.eventIndexingBuffer
          = (b.eventVarTransformList.get ⟨k, hltb⟩).eval b.eventIndexingBuffer := by
        rw [n2, hbuf]
      have hstep := ih (fun i => P i ∨ i = k)
        (ThreadLocals.mk (t.evalAndStore a.eventIndexingBuffer).2
          (a.eventVarTransformList.set k (t.evalAndStore a.eventIndexingBuffer).1))
        (ThreadLocals.mk
          ((b.eventVarTransformList.get ⟨k, hltb⟩).evalAndStore b.eventIndexingBuffer).2
          (b.eventVarTransformList.set k
            ((b.eventVarTransformList.get ⟨k, hltb⟩).evalAndStore b.eventIndexingBuffer).1))
        (by
          show a.eventIndexingBuffer.setVariable (t.eval a.eventIndexingBuffer)
              t.outputVariableName
            = b.eventIndexingBuffer.setVariable _ _
          rw [hout, n1, hbuf])
        (by
          refine ⟨by simp only [List.length_set]; exact htr.1, fun i u u1 hu hu1 => ?_⟩
          simp only at hu hu1
          by_cases hik : k = i
          · subst hik
            rw [List.getElem?_set_self hlta] at hu
            rw [List.getElem?_set_self hltb] at hu1
            cases hu
            cases hu1
            exact ⟨n1, n2, fun _ => hout⟩
          · rw [List.getElem?_set_ne hik] at hu
            rw [List.getElem?_set_ne hik] at hu1
            obtain ⟨m1, m2, m3⟩ := htr.2 i u u1 hu hu1
            refine ⟨m1, m2, fun hq => ?_⟩
            rcases hq with hq | hq
            · exact m3 hq
            · exact absurd hq.symm hik)
      refine ⟨hstep.1, transformsAgree_mono _ _ _ _ (fun i _ hq => ?_) hstep.2⟩
      rcases hq with hq | hq
      · exact Or.inl (Or.inl hq)
      · rcases List.mem_cons.mp hq with hq | hq
        · exact Or.inl (Or.inr hq)
        · exact Or.inr hq

theorem setVariable_form (buf : PhysicsEvent) (value : Rat) (name : String) :
    ∃ vars : List AnyType, buf.setVariable value name = { buf with varHolderList := vars } := by
  unfold PhysicsEvent.setVariable
  simp only
  split
  · exact ⟨buf.varHolderList, rfl⟩
  · exact ⟨_, rfl⟩

/-- The indexing transforms keep what holds of the thread-local variables, when the evaluated
transforms are among those requested for indexing. -/
theorem propagateIndexingTransforms_localsOf (d : Dispenser) (indices : List Nat) :
    (∀ i ∈ indices, i ∈ varTransformForIndexingList d d.eventVarTransformList) →
    ∀ tl : ThreadLocals, LocalsOf d tl → LocalsOf d (propagateIndexingTransforms indices tl) := by
  induction indices with
  | nil => intro _ tl h; exact h
  | cons k rest ih =>
    intro hsub tl hL
    have hrest : ∀ i ∈ rest, i ∈ varTransformForIndexingList d d.eventVarTransformList :=
      fun i hi => hsub i (List.mem_cons_of_mem _ hi)
    cases hk : tl.eventVarTransformList[k]? with
    | none =>
      rw [propagateIndexingTransforms_cons_none k rest tl hk]
      exact ih hrest tl hL
    | some t =>
      rw [propagateIndexingTransforms_cons_some k rest tl t hk]
      refine ih hrest _ ?_
      obtain ⟨⟨bin, w, vars, hform, hw⟩, hlen, htr⟩ := hL
      have hlt : k < tl.eventVarTransformList.length := (List.getElem?_eq_some_iff.mp hk).1
      refine ⟨?_, by simp only [List.length_set]; exact hlen, fun i u u1 hu hu1 => ?_⟩
      · obtain ⟨vars1, hv⟩ := setVariable_form tl.eventIndexingBuffer
          (t.eval tl.eventIndexingBuffer) t.outputVariableName
        refine ⟨bin, w, vars1, ?_, hw⟩
        show tl.eventIndexingBuffer.setVariable _ _ = _
        rw [hv, hform]
      · simp only at hu
        by_cases hik : k = i
        · subst hik
          rw [List.getElem?_set_self hlt] at hu
          cases hu
          obtain ⟨m1, m2, _⟩ := htr k t u1 hk hu1
          exact ⟨m1, m2, fun hno => absurd (hsub k (List.mem_cons_self _ _)) hno⟩
        · rw [List.getElem?_set_ne hik] at hu
          exact htr i u u1 hu hu1

theorem loadIndexingBuffer_localsOf (d : Dispenser) (iEntry : Nat) (tl : ThreadLocals)
    (hL : LocalsOf d tl) : LocalsOf d (loadIndexingBuffer d iEntry tl) := by
  unfold loadIndexingBuffer
  simp only
  have hlists := (transformsAgree_lists d _ _ _ hL.2).1
  apply propagateIndexingTransforms_localsOf
  · intro i hi
    rw [← hlists]
    exact hi
  · obtain ⟨⟨bin, w, vars, hform, hw⟩, htr⟩ := hL
    refine ⟨⟨-1, w, (leafFormIndexingList d).map (fun lf => lf iEntry), ?_, hw⟩, htr⟩
    show PhysicsEvent.copyData { tl.eventIndexingBuffer with sampleBinIndex := -1 } _ _ = _
    rw [hform]
    rfl

theorem setFoundBin_localsOf (d : Dispenser) (tl : ThreadLocals) (iBin : Nat)
    (hL : LocalsOf d tl) : LocalsOf d (setFoundBin tl iBin) := by
  obtain ⟨⟨bin, w, vars, hform, hw⟩, htr⟩ := hL
  refine ⟨⟨(iBin : Int), w, vars, ?_, hw⟩, htr⟩
  show ({ tl.eventIndexingBuffer with sampleBinIndex := (iBin : Int) } : PhysicsEvent) = _
  rw [hform]

theorem threadLocals_localsOf (d : Dispenser) : LocalsOf d (threadLocals d) :=
  ⟨⟨(eventIndexingBuffer d).sampleBinIndex, (eventIndexingBuffer d).baseWeight,
    (eventIndexingBuffer d).varHolderList, rfl, fun _ => rfl⟩, transformsAgree_refl _ _⟩

/-- Loaded from the same entry, the thread-local variables of a thread at work and those of a
thread that has just started hold the same indexing buffer and transform lists that agree on
every cached output. -/
theorem loadIndexingBuffer_agree (d : Dispenser) (iEntry : Nat) (tl : ThreadLocals)
    (hL : LocalsOf d tl)
    (hw : tl.eventIndexingBuffer.baseWeight
      = (entryLocals d iEntry).eventIndexingBuffer.baseWeight) :
    (loadIndexingBuffer d iEntry tl).eventIndexingBuffer
      = (loadedLocals d iEntry).eventIndexingBuffer ∧
    TransformsAgree (fun _ => True) (loadIndexingBuffer d iEntry tl).eventVarTransformList
      (loadedLocals d iEntry).eventVarTransformList := by
  have hEL : LocalsOf d (entryLocals d iEntry) := by
    unfold entryLocals
    cases hf : d.nominalWeightFormula with
    | none => exact threadLocals_localsOf d
    | some weight =>
      exact ⟨⟨(eventIndexingBuffer d).sampleBinIndex, weight iEntry,
        (eventIndexingBuffer d).varHolderList, rfl, fun h => by rw [hf] at h; cases h⟩,
        transformsAgree_refl _ _⟩
  have htrE : (entryLocals d iEntry).eventVarTransformList = d.eventVarTransformList := by
    unfold entryLocals
    cases d.nominalWeightFormula <;> rfl
  have hagree : TransformsAgree
      (fun i => i ∉ varTransformForIndexingList d d.eventVarTransformList)
      tl.eventVarTransformList (entryLocals d iEntry).eventVarTransformList := by
    rw [htrE]
    exact hL.2
  have hlists := (transformsAgree_lists d _ _ _ hagree).1
  unfold loadedLocals loadIndexingBuffer
  simp only
  rw [hlists]
  obtain ⟨⟨bin, w, vars, hform, _⟩, _⟩ := hL
  obtain ⟨⟨bin1, w1, vars1, hform1, _⟩, _⟩ := hEL
  have hww : w = w1 := by
    rw [hform, hform1] at hw
    exact hw
  have hbuf : PhysicsEvent.copyData { tl.eventIndexingBuffer with sampleBinIndex := -1 }
        (leafFormIndexingList d) iEntry
      = PhysicsEvent.copyData
          { (entryLocals d iEntry).eventIndexingBuffer with sampleBinIndex := -1 }
          (leafFormIndexingList d) iEntry := by
    rw [hform, hform1, hww]
    rfl
  obtain ⟨q1, q2⟩ := propagateIndexingTransforms_agree
    (varTransformForIndexingList d (entryLocals d iEntry).eventVarTransformList)
    (fun i => i ∉ varTransformForIndexingList d d.eventVarTransformList)
    (ThreadLocals.mk (PhysicsEvent.copyData { tl.eventIndexingBuffer with sampleBinIndex := -1 }
      (leafFormIndexingList d) iEntry) tl.eventVarTransformList)
    (ThreadLocals.mk (PhysicsEvent.copyData
      { (entryLocals d iEntry).eventIndexingBuffer with sampleBinIndex := -1 }
      (leafFormIndexingList d) iEntry) (entryLocals d iEntry).eventVarTransformList)
    hbuf hagree
  refine ⟨q1, transformsAgree_mono _ _ _ _ (fun i _ _ => ?_) q2⟩
  rw [htrE]
  by_cases hm : i ∈ varTransformForIndexingList d d.eventVarTransformList
  · exact Or.inr hm
  · exact Or.inl hm

theorem propagateStorageTransforms_agree (indices : List Nat) (a b : List EventVarTransform)
    (h : TransformsAgree (fun _ => True) a b) :
    ∀ ev : PhysicsEvent,
      propagateStorageTransforms indices a ev = propagateStorageTransforms indices b ev := by
  induction indices with
  | nil => intro ev; rfl
  | cons k rest ih =>
    intro ev
    unfold propagateStorageTransforms at ih ⊢
    simp only [List.foldl_cons]
    cases hka : a[k]? with
    | none =>
      have hkb : b[k]? = none := by
        rw [List.getElem?_eq_none_iff] at hka ⊢
        rw [← h.1]
        exact hka
      rw [hkb]
      exact ih ev
    | some t =>
      have hltb : k < b.length := by
        rw [← h.1]
        exact (List.getElem?_eq_some_iff.mp hka).1
      have hkb : b[k]? = some (b.get ⟨k, hltb⟩) := List.getElem?_eq_getElem hltb
      rw [hkb]
      simp only
      obtain ⟨n1, _, n3⟩ := h.2 k t _ hka hkb
      have hstore : t.storeCachedOutput ev = (b.get ⟨k, hltb⟩).storeCachedOutput ev := by
        unfold EventVarTransform.storeCachedOutput
        rw [n1, n3 trivial]
      rw [hstore]
      exact ih _

/-- The filled event depends on the thread-local variables through the indexing buffer and the
cached outputs only. -/
theorem filledEvent_agree (d : Dispenser) (iEntry : Nat) (sample : FitSample)
    (a b : ThreadLocals) (slot : PhysicsEvent)
    (hbuf : a.eventIndexingBuffer = b.eventIndexingBuffer)
    (htr : TransformsAgree (fun _ => True) a.eventVarTransformList b.eventVarTransformList) :
    filledEvent d iEntry sample a slot = filledEvent d iEntry sample b slot := by
  unfold filledEvent
  simp only
  rw [(transformsAgree_lists d _ _ _ htr).2, propagateStorageTransforms_agree _ _ _ htr, hbuf]

theorem builtEvent_sameSample (d : Dispenser) (sample sample1 : FitSample)
    (slot : PhysicsEvent) (iEntry : Nat) (h : SameSample sample sample1) :
    builtEvent d sample slot iEntry = builtEvent d sample1 slot iEntry := by
  obtain ⟨h1, h2, h3⟩ := h
  unfold builtEvent filledEvent
  simp only [h1, h2, h3]

/-- A successful turn of the sample loop stores the event built from the entry, whatever the
thread has done before. -/
theorem fillSample_built (d : Dispenser) (iEntry iSample : Nat) (tl tl' : ThreadLocals)
    (c c' : Cache) (hL : LocalsOf d tl)
    (hw : tl.eventIndexingBuffer.baseWeight
      = (entryLocals d iEntry).eventIndexingBuffer.baseWeight)
    (h : fillSample d iEntry iSample tl c = .ok (true, tl', c')) :
    ∃ (sample : FitSample) (slot ev : PhysicsEvent),
      c.samplesToFillList[iSample]? = some sample ∧
      eventAt d c iSample (offsetOf c iSample) = some slot ∧
      eventAt d c' iSample (offsetOf c iSample) = some ev ∧
      BuiltFrom d sample slot ev iEntry := by
  obtain ⟨sample, iBin, hs, hz, hfind, htl, _⟩ :=
    fillSample_ok_true d iEntry iSample tl tl' c c' h
  obtain ⟨sample1, idx, slot, hs1, _, _, hoffD, _, hslot, hev, _⟩ :=
    fillSample_store d iEntry iSample tl tl' c c' h
  rw [hs] at hs1
  cases hs1
  subst hoffD
  obtain ⟨q1, q2⟩ := loadIndexingBuffer_agree d iEntry tl hL hw
  refine ⟨sample, slot, _, hs, hslot, hev, ?_⟩
  unfold BuiltFrom builtEvent
  simp only
  rw [← q1, hz, hfind]
  simp only [Bool.false_eq_true, if_false]
  apply congrArg some
  rw [htl]
  apply filledEvent_agree
  · show ({ (loadedLocals d iEntry).eventIndexingBuffer with sampleBinIndex := (iBin : Int) }
        : PhysicsEvent)
      = { (loadIndexingBuffer d iEntry tl).eventIndexingBuffer with
          sampleBinIndex := (iBin : Int) }
    rw [q1]
  · refine ⟨q2.1.symm, fun i t t1 ht ht1 => ?_⟩
    obtain ⟨m1, m2, m3⟩ := q2.2 i t1 t ht1 ht
    exact ⟨m1.symm, m2.symm, fun _ => (m3 trivial).symm⟩

theorem entryLocals_baseWeight (d : Dispenser) (iEntry : Nat) :
    (entryLocals d iEntry).eventIndexingBuffer.baseWeight
      = match d.nominalWeightFormula with
        | none => (eventIndexingBuffer d).baseWeight
        | some weight => weight iEntry := by
  unfold entryLocals
  cases d.nominalWeightFormula <;> rfl

/-- Invariant rule for one turn of the entry loop that also follows the thread-local variables:
the step may use that they are those of a thread at work, that the base weight of the indexing
buffer is the one a fresh thread would hold for the entry, that the entry belongs to the sample
in the membership table and that its weight, with a formula, is neither negative nor zero. -/
theorem fillEntry_rule_locals (d : Dispenser) (nSample : Nat) (P : Cache → Prop)
    (hstep : ∀ (iEntry iSample : Nat) (tl tl' : ThreadLocals) (x x' : Cache) (row : List Bool),
      P x → LocalsOf d tl →
      tl.eventIndexingBuffer.baseWeight
        = (entryLocals d iEntry).eventIndexingBuffer.baseWeight →
      x.eventIsInSamplesList[iEntry]? = some row → row[iSample]? = some true →
      (∀ w, d.nominalWeightFormula = some w → ¬ w iEntry < 0 ∧ w iEntry ≠ 0) →
      fillSample d iEntry iSample tl x = .ok (true, tl', x') → P x')
    (st st' : ThreadLocals × Cache) (iEntry : Nat) (hP : P st.2) (hL : LocalsOf d st.1)
    (h : fillEntry d nSample st iEntry = .ok st') : P st'.2 ∧ LocalsOf d st'.1 := by
  have hsamples : ∀ (row : List Bool) (s : ThreadLocals × Cache),
      st.2.eventIsInSamplesList[iEntry]? = some row → s.2 = st.2 → LocalsOf d s.1 →
      s.1.eventIndexingBuffer.baseWeight
        = (entryLocals d iEntry).eventIndexingBuffer.baseWeight →
      (∀ w, d.nominalWeightFormula = some w → ¬ w iEntry < 0 ∧ w iEntry ≠ 0) →
      fillSamples d iEntry row (List.range nSample) s = .ok st' →
      P st'.2 ∧ LocalsOf d st'.1 := by
    intro row s hrow hs hLs hbw hw hf
    refine fillSamples_invariant d iEntry row
      (fun _ x => P x.2 ∧ x.2.eventIsInSamplesList = st.2.eventIsInSamplesList ∧
        LocalsOf d x.1 ∧
        x.1.eventIndexingBuffer.baseWeight
          = (entryLocals d iEntry).eventIndexingBuffer.baseWeight)
      (fun x => P x.2 ∧ LocalsOf d x.1) (fun _ hx => ⟨hx.1, hx.2.2.1⟩)
      (fun _ _ _ _ hx => hx) ?_ ?_ (List.range nSample) s st'
      ⟨by rw [hs]; exact hP, by rw [hs], hLs, hbw⟩ hf
    · intro j rest tl c tl' _ hx hfs
      obtain ⟨_, htl⟩ := fillSample_ok_false d iEntry j tl tl' c c hfs
      refine ⟨hx.1, ?_⟩
      show LocalsOf d tl'
      rw [htl]
      exact loadIndexingBuffer_localsOf d iEntry tl hx.2.2.1
    · intro j rest tl x tl' x' hj ⟨hx, ht, hLx, hbx⟩ hfs
      obtain ⟨_, iBin, _, _, _, htl, _⟩ := fillSample_ok_true d iEntry j tl tl' x x' hfs
      obtain ⟨_, _, _, _, _, _, _, _, _, _, _, _, _, _, htable, _⟩ :=
        fillSample_store d iEntry j tl tl' x x' hfs
      refine ⟨hstep iEntry j tl tl' x x' row hx hLx hbx (by rw [ht]; exact hrow) hj hw hfs,
        htable.trans ht, ?_, ?_⟩
      · show LocalsOf d tl'
        rw [htl]
        exact setFoundBin_localsOf d _ iBin (loadIndexingBuffer_localsOf d iEntry tl hLx)
      · show tl'.eventIndexingBuffer.baseWeight = _
        rw [htl]
        show (loadIndexingBuffer d iEntry tl).eventIndexingBuffer.baseWeight = _
        rw [loadIndexingBuffer_baseWeight]
        exact hbx
  unfold fillEntry at h
  cases hrow : st.2.eventIsInSamplesList[iEntry]? with
  | none => rw [hrow] at h; simp at h
  | some row =>
    rw [hrow] at h
    simp only at h
    by_cases hskip : (!row.contains true) = true
    · rw [if_pos hskip] at h
      simp only [Except.ok.injEq] at h
      subst h
      exact ⟨hP, hL⟩
    · rw [if_neg hskip] at h
      cases hw : d.nominalWeightFormula with
      | none =>
        rw [hw] at h
        refine hsamples row st hrow rfl hL ?_ (fun w hw' => by rw [hw] at hw'; cases hw') h
        rw [entryLocals_baseWeight, hw]
        obtain ⟨⟨bin, w, vars, hform, hwf⟩, _⟩ := hL
        rw [hform]
        exact hwf hw
      | some weight =>
        rw [hw] at h
        simp only at h
        have hLw : LocalsOf d
            (ThreadLocals.mk { st.1.eventIndexingBuffer with baseWeight := weight iEntry }
              st.1.eventVarTransformList) := by
          obtain ⟨⟨bin, w, vars, hform, _⟩, htr⟩ := hL
          refine ⟨⟨bin, weight iEntry, vars, ?_, fun hn => by rw [hw] at hn; cases hn⟩, htr⟩
          show ({ st.1.eventIndexingBuffer with baseWeight := weight iEntry } : PhysicsEvent) = _
          rw [hform]
        by_cases hn : weight iEntry < 0
        · rw [if_pos hn] at h
          simp at h
        · rw [if_neg hn] at h
          by_cases hz : weight iEntry = 0
          · rw [if_pos hz] at h
            simp only [Except.ok.injEq] at h
            subst h
            exact ⟨hP, hLw⟩
          · rw [if_neg hz] at h
            refine hsamples row _ hrow ?_ hLw ?_ ?_ h
            · rfl
            · rw [entryLocals_baseWeight, hw]
            · intro w hw'
              rw [hw] at hw'
              cases hw'
              exact ⟨hn, hz⟩

/-- Invariant rule for the fill threads that also follows the thread-local variables. -/
theorem runFillThreads_rule_locals (d : Dispenser) (P : Cache → Prop)
    (hstep : ∀ (iEntry iSample : Nat) (tl tl' : ThreadLocals) (x x' : Cache) (row : List Bool),
      P x → LocalsOf d tl →
      tl.eventIndexingBuffer.baseWeight
        = (entryLocals d iEntry).eventIndexingBuffer.baseWeight →
      x.eventIsInSamplesList[iEntry]? = some row → row[iSample]? = some true →
      (∀ w, d.nominalWeightFormula = some w → ¬ w iEntry < 0 ∧ w iEntry ≠ 0) →
      fillSample d iEntry iSample tl x = .ok (true, tl', x') → P x')
    (c c' : Cache) (hP : P c) (h : runFillThreads d c = .ok c') : P c' := by
  have hfun : ∀ (iThread : Int) (x x' : Cache), P x → fillFunction d iThread x = .ok x' →
      P x' := by
    intro iThread x x' hx hf
    unfold fillFunction at hf
    simp only at hf
    split at hf
    · simp at hf
    · rename_i st hst
      simp only [Except.ok.injEq] at hf
      subst hf
      exact (foldlExcept_invariant (fillEntry d x.samplesToFillList.length)
        (fun _ s => P s.2 ∧ LocalsOf d s.1)
        (fun a _ s s' hs hfe => fillEntry_rule_locals d _ P hstep s s' a hs.1 hs.2 hfe)
        _ _ st ⟨hx, threadLocals_localsOf d⟩ hst).1
  unfold runFillThreads at h
  split at h
  · exact foldlExcept_invariant (fun c iThread => fillFunction d (Int.ofNat iThread) c)
      (fun _ x => P x) (fun a _ s s' hs hf => hfun _ s s' hs hf) _ c c' hP h
  · exact hfun _ c c' hP h

theorem sameSample_setContainer (sample : FitSample) (useMc : Bool) (x : SampleElement) :
    SameSample (sample.setContainer useMc x) sample := by
  cases useMc <;> exact ⟨rfl, rfl, rfl⟩

/-- Every event the fill threads store (every event between the offset a sample had when the
fill started and its offset at the end) is the event built from a source entry that belongs to
the sample in the membership table and whose weight, with a formula, is neither negative nor
zero; it is built for the sample as the fill found it and over the slot that was at this
position. -/
theorem runFillThreads_built (d : Dispenser) (c2 c3 : Cache)
    (h : runFillThreads d c2 = .ok c3) :
    ∀ (s i : Nat), offsetOf c2 s ≤ i → i < offsetOf c3 s →
      ∃ (e : Nat) (sample : FitSample) (slot ev : PhysicsEvent),
        c2.samplesToFillList[s]? = some sample ∧ eventAt d c2 s i = some slot ∧
        eventAt d c3 s i = some ev ∧ BuiltFrom d sample slot ev e ∧
        cellOf c2.eventIsInSamplesList e s = true ∧
        (∀ w, d.nominalWeightFormula = some w → ¬ w e < 0 ∧ w e ≠ 0) := by
  have hinv := runFillThreads_rule_locals d
    (fun x => x.eventIsInSamplesList = c2.eventIsInSamplesList ∧
      (∀ (s : Nat) (sx : FitSample), x.samplesToFillList[s]? = some sx →
        ∃ s2, c2.samplesToFillList[s]? = some s2 ∧ SameSample sx s2) ∧
      (∀ s i, offsetOf x s ≤ i → eventAt d x s i = eventAt d c2 s i) ∧
      ∀ (s i : Nat), offsetOf c2 s ≤ i → i < offsetOf x s →
        ∃ (e : Nat) (sample : FitSample) (slot ev : PhysicsEvent),
          c2.samplesToFillList[s]? = some sample ∧ eventAt d c2 s i = some slot ∧
          eventAt d x s i = some ev ∧ BuiltFrom d sample slot ev e ∧
          cellOf c2.eventIsInSamplesList e s = true ∧
          (∀ w, d.nominalWeightFormula = some w → ¬ w e < 0 ∧ w e ≠ 0))
    ?_ c2 c3
    ⟨rfl, fun s sx hs => ⟨sx, hs, rfl, rfl, rfl⟩, fun _ _ _ => rfl,
      fun s i h1 h2 => absurd h2 (Nat.not_lt.mpr h1)⟩ h
  · exact hinv.2.2.2
  · intro iEntry iSample tl tl' x x' row ⟨p1, p2, p3, p4⟩ hL hbw hrow hcell hw hf
    obtain ⟨sample, slot, ev, hs, hslot, hev, hbuilt⟩ :=
      fillSample_built d iEntry iSample tl tl' x x' hL hbw hf
    obtain ⟨sample1, iBin, hs1, _, _, htl, hstore⟩ :=
      fillSample_ok_true d iEntry iSample tl tl' x x' hf
    obtain ⟨_, idx, _, _, _, _, hoffD, _, _, _, hother, hoffs, _, _, htable, _⟩ :=
      fillSample_store d iEntry iSample tl tl' x x' hf
    obtain ⟨_, _, _, _, _, hsamples, _, _⟩ :=
      storeEvent_ok d iEntry iSample sample1 tl' x x' hstore
    rw [hs] at hs1
    cases hs1
    subst hoffD
    obtain ⟨s2, hs2, hsame⟩ := p2 iSample sample hs
    refine ⟨htable.trans p1, ?_, ?_, ?_⟩
    · intro s sx hsx
      rw [hsamples, List.getElem?_set] at hsx
      by_cases hsj : iSample = s
      · subst hsj
        rw [if_pos rfl] at hsx
        have hlt : iSample < x.samplesToFillList.length := (List.getElem?_eq_some.mp hs).1
        rw [if_pos hlt] at hsx
        cases hsx
        refine ⟨s2, hs2, ?_⟩
        have hsc := fun X => sameSample_setContainer sample d.useMcContainer X
        obtain ⟨b1, b2, b3⟩ := hsame
        exact ⟨(hsc _).1.trans b1, (hsc _).2.1.trans b2, (hsc _).2.2.trans b3⟩
      · rw [if_neg hsj] at hsx
        exact p2 s sx hsx
    · intro s i hi
      rw [hoffs s] at hi
      have hne : ¬ (s = iSample ∧ i = offsetOf x iSample) := by
        rintro ⟨hs', hi'⟩
        subst hs'
        rw [if_pos rfl] at hi
        omega
      rw [hother s i hne]
      exact p3 s i (by omega)
    · intro s i h1 h2
      by_cases hnew : s = iSample ∧ i = offsetOf x iSample
      · obtain ⟨hs', hi'⟩ := hnew
        subst hs'
        subst hi'
        refine ⟨iEntry, s2, slot, ev, hs2, ?_, hev, ?_, ?_, hw⟩
        · rw [← p3 s _ (Nat.le_refl _)]
          exact hslot
        · unfold BuiltFrom
          rw [← builtEvent_sameSample d sample s2 slot iEntry hsame]
          exact hbuilt
        · unfold cellOf
          rw [← p1, hrow]
          simp only [hcell]
          rfl
      · have hlt : i < offsetOf x s := by
          rw [hoffs s] at h2
          by_cases hsj : s = iSample
          · subst hsj
            rw [if_pos rfl] at h2
            have : i ≠ offsetOf x s := fun hh => hnew ⟨rfl, hh⟩
            omega
          · rw [if_neg hsj] at h2
            exact h2
        obtain ⟨e, sm, sl, ev0, q1, q2, q3, q4, q5, q6⟩ := p4 s i h1 hlt
        exact ⟨e, sm, sl, ev0, q1, q2, (hother s i hnew).trans q3, q4, q5, q6⟩

/-- What the event built from an entry carries: the index of the entry, the index of the
sample, the weight a fresh thread holds for the entry, and as bin index the position of the
first bin of the sample that contains the values of the indexing buffer loaded from the entry. -/
theorem builtFrom_fields (d : Dispenser) (sample : FitSample) (slot ev : PhysicsEvent)
    (iEntry : Nat) (h : BuiltFrom d sample slot ev iEntry) :
    ev.entryIndex = (iEntry : Int) ∧ ev.sampleIndex = sample.index ∧
    ev.baseWeight = (entryLocals d iEntry).eventIndexingBuffer.baseWeight ∧
    formulaIsZero sample.varSelectionFormula (loadedLocals d iEntry).eventIndexingBuffer = false ∧
    ∃ (iBin : Nat) (bin : DataBin), ev.sampleBinIndex = (iBin : Int) ∧
      sample.binning[iBin]? = some bin ∧
      BinContains (loadedLocals d iEntry).eventIndexingBuffer bin ∧
      ∀ (j : Nat) (b : DataBin), j < iBin → sample.binning[j]? = some b →
        ¬ BinContains (loadedLocals d iEntry).eventIndexingBuffer b := by
  unfold BuiltFrom builtEvent at h
  simp only at h
  cases hz : formulaIsZero sample.varSelectionFormula
      (loadedLocals d iEntry).eventIndexingBuffer with
  | true => rw [hz] at h; simp at h
  | false =>
    rw [hz] at h
    simp only [Bool.false_eq_true, if_false] at h
    cases hf : findIf (isBinValid (loadedLocals d iEntry).eventIndexingBuffer) sample.binning with
    | error e => rw [hf] at h; simp at h
    | ok r =>
      cases r with
      | none => rw [hf] at h; simp at h
      | some iBin =>
        rw [hf] at h
        simp only [Option.some.injEq] at h
        obtain ⟨bin, hbin, hvalid, hfirst⟩ := findIf_some _ _ _ hf
        subst h
        refine ⟨rfl, rfl, ?_, rfl, iBin, bin, rfl, hbin, isBinValid_true _ bin hvalid,
          fun j b hj hb => isBinValid_false _ b (hfirst j b hj hb)⟩
        show (loadedLocals d iEntry).eventIndexingBuffer.baseWeight = _
        unfold loadedLocals
        rw [loadIndexingBuffer_baseWeight]

theorem getElem?_resize_ge {α : Type} (l : List α) (n i : Nat) (v : α) (hi : l.length ≤ i)
    (hn : i < n) : (resize l n v)[i]? = some v := by
  unfold resize
  have hlen : (l.take n).length = l.length := by
    rw [List.length_take]
    omega
  rw [List.getElem?_append_right (by omega), hlen, List.getElem?_replicate]
  rw [if_pos (by omega)]

/-- The loop "Reserving event memory" changes the samples by their containers only, and every
slot it appends is the placeholder event. -/
theorem foldl_reserveSample_slots (d : Dispenser) (c0 : Cache) :
    ∀ k, k ≤ c0.samplesToFillList.length →
      (∀ (s : Nat) (sx : FitSample),
        ((List.range k).foldl (reserveSample d) c0).samplesToFillList[s]? = some sx →
        ∃ s0, c0.samplesToFillList[s]? = some s0 ∧ SameSample sx s0) ∧
      (∀ s i, containerSize d c0 s ≤ i →
        i < containerSize d ((List.range k).foldl (reserveSample d) c0) s →
        eventAt d ((List.range k).foldl (reserveSample d) c0) s i
          = some (eventPlaceholder d)) := by
  intro k
  induction k with
  | zero =>
    intro _
    refine ⟨fun s sx hs => ⟨sx, hs, rfl, rfl, rfl⟩, fun s i h1 h2 => ?_⟩
    simp only [List.range_zero, List.foldl_nil] at h2
    omega
  | succ k ih =>
    intro hk
    obtain ⟨h1, h2⟩ := ih (by omega)
    obtain ⟨_, _, _, _, _, _, h7, _, h9⟩ := foldl_reserveSample d c0 k (by omega)
    rw [List.range_succ, List.foldl_append, List.foldl_cons, List.foldl_nil]
    generalize (List.range k).foldl (reserveSample d) c0 = ck at h1 h2 h7 h9
    have hklt : k < c0.samplesToFillList.length := by omega
    obtain ⟨sample, hsample⟩ : ∃ sample, c0.samplesToFillList[k]? = some sample :=
      ⟨c0.samplesToFillList[k], List.getElem?_eq_getElem hklt⟩
    have hck : ck.samplesToFillList[k]? = some sample := (h9 k (Nat.le_refl k)).trans hsample
    have hklt' : k < ck.samplesToFillList.length := (List.getElem?_eq_some.mp hck).1
    have hsize0 : containerSize d c0 k = (sample.container d.useMcContainer).eventList.length := by
      unfold containerSize
      rw [hsample]
    unfold reserveSample
    simp only [hck]
    refine ⟨?_, ?_⟩
    · intro s sx hsx
      simp only [List.getElem?_set] at hsx
      by_cases hsk : k = s
      · subst hsk
        simp only [hklt', if_true, Option.some.injEq] at hsx
        subst hsx
        exact ⟨sample, hsample, sameSample_setContainer sample d.useMcContainer _⟩
      · simp only [hsk, if_false] at hsx
        exact h1 s sx hsx
    · intro s i hlo hhi
      unfold containerSize at hhi
      unfold eventAt
      simp only [List.getElem?_set] at hhi ⊢
      by_cases hsk : k = s
      · subst hsk
        simp only [hklt', if_true] at hhi ⊢
        rw [container_setContainer] at hhi ⊢
        simp only [SampleElement.reserveEventMemory] at hhi ⊢
        rw [length_resize] at hhi
        exact getElem?_resize_ge _ _ _ _ (by omega) hhi
      · simp only [hsk, if_false] at hhi ⊢
        exact h2 s i hlo hhi

/-- What `preAllocateMemory` leaves for the fill, when there is one count per sample: the samples
with their containers grown, every appended slot being the placeholder event. -/
theorem preAllocateMemory_slots (d : Dispenser) (c c2 : Cache)
    (hlen : c.sampleNbOfEvents.length = c.samplesToFillList.length)
    (h : preAllocateMemory d c = .ok c2) :
    (∀ (s : Nat) (sx : FitSample), c2.samplesToFillList[s]? = some sx →
      ∃ s0, c.samplesToFillList[s]? = some s0 ∧ SameSample sx s0) ∧
    (∀ s i, containerSize d c s ≤ i → i < containerSize d c2 s →
      eventAt d c2 s i = some (eventPlaceholder d)) := by
  unfold preAllocateMemory at h
  simp only at h
  have hev := foldl_reserveSample_slots d
    { c with sampleIndexOffsetList :=
        resize c.sampleIndexOffsetList c.samplesToFillList.length 0 }
    c.sampleNbOfEvents.length (Nat.le_of_eq hlen)
  generalize List.foldl (reserveSample d) _ (List.range c.sampleNbOfEvents.length) = c1
    at h hev
  have hsame : ∀ (x : Cache), x.samplesToFillList = c1.samplesToFillList →
      (∀ (s : Nat) (sx : FitSample), x.samplesToFillList[s]? = some sx →
        ∃ s0, c.samplesToFillList[s]? = some s0 ∧ SameSample sx s0) ∧
      (∀ s i, containerSize d c s ≤ i → i < containerSize d x s →
        eventAt d x s i = some (eventPlaceholder d)) := by
    intro x hx
    refine ⟨fun s sx hs => hev.1 s sx (by rw [← hx]; exact hs), fun s i h1 h2 => ?_⟩
    have e1 : eventAt d x s i = eventAt d c1 s i := by unfold eventAt; rw [hx]
    have e2 : containerSize d x s = containerSize d c1 s := by unfold containerSize; rw [hx]
    rw [e1]
    exact hev.2 s i h1 (by rw [← e2]; exact h2)
  split at h
  · simp only [Except.ok.injEq] at h
    subst h
    exact hsame _ rfl
  · split at h
    · simp only [Except.ok.injEq] at h
      subst h
      exact hsame _ rfl
    · split at h
      · simp at h
      · simp only [Except.ok.injEq] at h
        subst h
        exact hsame _ rfl

/-- Claim C18. When the fill pass runs single-threaded (one worker, or the single-thread mode)
and a load returns, then in every sample every event appended by the load
(every event at a position not below the size of the container before the load) is the event
built from a source entry for that sample, over the placeholder event of the reserved slot, and
carries the index of that entry; and the entry indices of the appended events strictly increase
with the position: the storage order is the order of the source entries. -/
theorem load_single_thread_entry_order (d : Dispenser) (c c' : Cache)
    (hsingle : fillThreads d = 1) (h : load d c = .ok c') :
    (∀ (s i : Nat) (ev : PhysicsEvent), containerSize d c s ≤ i → eventAt d c' s i = some ev →
      ∃ (iEntry : Nat) (sample : FitSample), c.samplesToFillList[s]? = some sample ∧
        BuiltFrom d sample (eventPlaceholder d) ev iEntry ∧ ev.entryIndex = (iEntry : Int)) ∧
    (∀ (s i j : Nat) (ei ej : PhysicsEvent), containerSize d c s ≤ i → i < j →
      eventAt d c' s i = some ei → eventAt d c' s j = some ej →
      ei.entryIndex < ej.entryIndex) := by
  by_cases hsamples : c.samplesToFillList = []
  · have hempty : c.clear.samplesToFillList.isEmpty = true := by
      show c.samplesToFillList.isEmpty = true
      rw [hsamples]
      rfl
    unfold load at h
    simp only [hempty, if_true] at h
    have hc' : c' = c.clear := by
      cases h
      rfl
    have hnone : ∀ s i, eventAt d c' s i = none := by
      intro s i
      rw [hc']
      unfold eventAt
      show (match c.samplesToFillList[s]? with
        | some sample => (sample.container d.useMcContainer).eventList[i]?
        | none => none) = none
      rw [hsamples]
      rfl
    refine ⟨fun s i ev _ hev => ?_, fun s i j ei ej _ _ hei _ => ?_⟩
    · rw [hnone] at hev
      cases hev
    · rw [hnone] at hei
      cases hei
  obtain ⟨c1, c2, c3, h1, h2, h3, hc'⟩ := load_stages d c c' hsamples h
  obtain ⟨f1, _, _, _⟩ := doEventSelection_frame d c.clear c1 h1
  have hlen : c1.sampleNbOfEvents.length = c1.samplesToFillList.length := by
    rw [doEventSelection_counts_length d c.clear c1 h1, f1]
  obtain ⟨_, _, _, _, p5⟩ := preAllocateMemory_ok d c1 c2 hlen h2
  obtain ⟨g1, g2⟩ := preAllocateMemory_slots d c1 c2 hlen h2
  have hsize1 : ∀ s, containerSize d c1 s = containerSize d c s := by
    intro s
    unfold containerSize
    rw [f1]
    rfl
  have hO : ∀ s, offsetOf c2 s = containerSize d c s := fun s => by rw [p5 s, hsize1 s]
  have hbuilt := runFillThreads_built d c2 c3 h3
  rw [runFillThreads_single d c2 hsingle] at h3
  obtain ⟨bound, q1, q2⟩ := fillFunction_entryOrder d (-1) c2 c3 h3
  obtain ⟨r1, _, _, _⟩ :=
    foldl_shrinkSample_events d c3 c3.samplesToFillList.length (Nat.le_refl _)
  rw [← hc'] at r1
  have hback : ∀ (s i : Nat) (ev : PhysicsEvent), eventAt d c' s i = some ev →
      i < offsetOf c3 s ∧ eventAt d c3 s i = some ev := by
    intro s i ev hev
    rw [r1 s i] at hev
    by_cases hs : s < c3.samplesToFillList.length
    · rw [if_pos hs] at hev
      by_cases hi : i < offsetOf c3 s
      · rw [if_pos hi] at hev
        exact ⟨hi, hev⟩
      · rw [if_neg hi] at hev
        cases hev
    · rw [if_neg hs] at hev
      unfold eventAt at hev
      rw [List.getElem?_eq_none (Nat.le_of_not_lt hs)] at hev
      cases hev
  refine ⟨fun s i ev hi hev => ?_, fun s i j ei ej hi hij hei hej => ?_⟩
  · obtain ⟨hlt, hev3⟩ := hback s i ev hev
    obtain ⟨e, sample2, slot, ev0, a1, a2, a3, a4, _, _⟩ :=
      hbuilt s i (by rw [hO s]; exact hi) hlt
    rw [hev3] at a3
    cases a3
    obtain ⟨s0, hs0, hsame⟩ := g1 s sample2 a1
    have hs0c : c.samplesToFillList[s]? = some s0 := by
      rw [f1] at hs0
      exact hs0
    have hin : i < containerSize d c2 s := by
      unfold eventAt at a2
      unfold containerSize
      rw [a1] at a2 ⊢
      exact (List.getElem?_eq_some.mp a2).1
    have hph := g2 s i (by rw [hsize1 s]; exact hi) hin
    rw [a2] at hph
    cases hph
    refine ⟨e, s0, hs0c, ?_, (builtFrom_fields d sample2 _ ev e a4).1⟩
    unfold BuiltFrom
    rw [← builtEvent_sameSample d sample2 s0 _ e hsame]
    exact a4
  · obtain ⟨_, hei3⟩ := hback s i ei hei
    obtain ⟨hjlt, hej3⟩ := hback s j ej hej
    exact q2 s i j ei ej (by rw [hO s]; exact hi) hij hjlt hei3 hej3

/-- Witness of `load_single_thread_entry_order`: one worker reads the three entries
`x = [0.5, 5, 1.5]` into a sample that already holds an event of entry index 7; the entries 0
and 2 are appended after it, in that order, each being the event built from its entry (the
entry 1, whose value lies in no bin, yields none). -/
theorem load_single_thread_entry_order_witness :
    (fillThreads gap = 1 ∧ load gap gap_cache = .ok gap_loaded) ∧
    containerSize gap gap_cache 0 = 1 ∧
    storedEvents gap gap_loaded = [[(7, -1, 1), (0, 0, 1), (2, 1, 1)]] ∧
    gap_cache.samplesToFillList.map (fun sample =>
        (List.range 3).map (fun iEntry =>
          (builtEvent gap sample (eventPlaceholder gap) iEntry).map
            (fun ev => (ev.entryIndex, ev.sampleBinIndex, ev.baseWeight))))
      = [[some (0, 0, 1), none, some (2, 1, 1)]] ∧
    ((∀ (s i : Nat) (ev : PhysicsEvent), containerSize gap gap_cache s ≤ i →
      eventAt gap gap_loaded s i = some ev →
      ∃ (iEntry : Nat) (sample : FitSample), gap_cache.samplesToFillList[s]? = some sample ∧
        BuiltFrom gap sample (eventPlaceholder gap) ev iEntry ∧
        ev.entryIndex = (iEntry : Int)) ∧
    (∀ (s i j : Nat) (ei ej : PhysicsEvent), containerSize gap gap_cache s ≤ i → i < j →
      eventAt gap gap_loaded s i = some ei → eventAt gap gap_loaded s j = some ej →
      ei.entryIndex < ej.entryIndex)) :=
  ⟨⟨rfl, rfl⟩, by decide, by decide, by decide,
    load_single_thread_entry_order gap gap_cache gap_loaded rfl rfl⟩

end DataDispenser
